import Mathlib

/-! # Implicit mesh fairing (`smooth.cpp`): a shallow embedding

The C++ program smooths a triangle mesh by solving `(I - h Δ) x' = x`, where `Δ`
is the cotangent Laplace–Beltrami operator assembled from a half-edge mesh.

Conventions of the embedding
* Arithmetic is exact: the scalars are the elements of a linearly ordered field
  `R`; the square root used by `norm()` is a function `sqrt : R → R` passed to
  every definition that needs it.
* A division whose divisor is zero has no value in `R`.  The C++ code does not
  stop there (the float becomes `±inf` or `NaN`), so a matrix coefficient is an
  `Option R`: `some r` is the number `r`, `none` is a non-finite float.  Every
  operation the code applies to a coefficient (`+`, `-`, `*`, `/` by a finite
  divisor) keeps a non-finite float non-finite, which is how `none` behaves.
* Pointers are positions in an arena: a `HE*` is a position in `Object.hes`, a
  `HEV*` a position in `Object.hevs`.  A null or dangling pointer is a position
  with nothing stored; dereferencing it makes the function return `none`.
* A function returns `none` when the C++ would crash (null dereference,
  `vector::at` out of range, an Eigen assertion) or when a `do … while` walk
  never comes back to its starting half-edge.
* Code that can throw returns an `Except`: the parser tells a C++ exception
  (`thrown`) from undefined behaviour (`undefined`), and the callbacks of the
  event loop tell `exit` from a crash.  Library functions (`stof`, `stoi`,
  `sin`, `cos`, the sparse solver, the half-edge builder) are parameters.
* The `vector<string> element` of the parser is modelled by its storage, the
  tokens of earlier lines included, since `clear()` keeps them and `operator[]`
  checks nothing.  The `float` that `stof` returns for the command line is a
  number, `inf`, `-inf` or `nan`.
-/

namespace Smooth

/-! ## Value types (`structs.h`) -/

/-- Modelled from the spec: `structs.h` is not among the sources; `Vec3f` is the
3-vector of floats `{x, y, z}`. -/
structure Vec3f (R : Type) where
  x : R
  y : R
  z : R
deriving DecidableEq

/-- Modelled from the spec: `structs.h` is not among the sources; `Vertex` is a
vertex position, three coordinates `(x, y, z)`. -/
structure Vertex (R : Type) where
  x : R
  y : R
  z : R
deriving DecidableEq

/-- Modelled from the spec: `structs.h` is not among the sources; `Face` is an
ordered triple of 1-based vertex indices (C++ `int`). -/
structure Face where
  idx1 : Int
  idx2 : Int
  idx3 : Int
deriving DecidableEq

/-- Modelled from the spec: `structs.h` is not among the sources; `Mesh_Data`
owns the vertex sequence (`vector<Vertex*>`, slot 0 is the `NULL` sentinel
pushed by `parseObjFile`) and the face sequence. -/
structure Mesh_Data (R : Type) where
  vertices : List (Option (Vertex R))
  faces : List Face
deriving DecidableEq

/-! ## Half-edge types (`halfedge.h`) -/

/-- Modelled from the spec: `halfedge.h` is not among the sources; a half-edge
stores its tail vertex, the next half-edge of its face, its flip and its face,
each a pointer (here an arena position). -/
structure HE where
  vertex : Nat
  next : Nat
  flip : Nat
  face : Nat
deriving DecidableEq

/-- Modelled from the spec: `halfedge.h` is not among the sources; a half-edge
vertex owns its position, a cached normal, an integer `index` and a pointer to
one outgoing half-edge. -/
structure HEV (R : Type) where
  x : R
  y : R
  z : R
  out : Nat
  index : Int
  normal : Vec3f R
deriving DecidableEq

/-- Modelled from the spec: `halfedge.h` is not among the sources; a half-edge
face points to one of its bounding half-edges. -/
structure HEF where
  edge : Nat
deriving DecidableEq

/-- The `Object` struct of `smooth.cpp` (lines 236-246) without the rendering
`instances`; `hes` is the heap on which the half-edges live. -/
structure Object (R : Type) where
  vertex_buffer : List (Vertex R)
  normal_buffer : List (Vec3f R)
  mesh : Mesh_Data R
  hevs : List (Option (HEV R))
  hefs : List (Option HEF)
  hes : List HE
deriving DecidableEq

/-- The expression `obj.hevs->at(k)` followed by a dereference. -/
def Object.hev {R : Type} (obj : Object R) (k : Nat) : Option (HEV R) :=
  (obj.hevs[k]?).join

/-- Dereference of a `HE*`. -/
def Object.he {R : Type} (obj : Object R) (k : Nat) : Option HE :=
  obj.hes[k]?

/-- The call `xs->at(k)` for a C++ `int` index `k`: a negative `k` converts to a
huge `size_t` and is out of range. -/
def atInt {α : Type} (xs : List α) (k : Int) : Option α :=
  if k < 0 then none else xs[k.toNat]?

/-! ## Eigen vectors -/

/-- Eigen's `Vector3f`. -/
structure Vector3f (R : Type) where
  x : R
  y : R
  z : R
deriving DecidableEq

section Development

set_option linter.unusedSectionVars false

variable {R : Type} [LinearOrderedField R]

namespace Vector3f

/-- Componentwise `a + b`. -/
def add (a b : Vector3f R) : Vector3f R := ⟨a.x + b.x, a.y + b.y, a.z + b.z⟩

/-- Componentwise `a - b`. -/
def sub (a b : Vector3f R) : Vector3f R := ⟨a.x - b.x, a.y - b.y, a.z - b.z⟩

/-- The product `s * a` of a scalar and a vector. -/
def smul (s : R) (a : Vector3f R) : Vector3f R := ⟨s * a.x, s * a.y, s * a.z⟩

/-- The call `a.dot(b)`. -/
def dot (a b : Vector3f R) : R := a.x * b.x + a.y * b.y + a.z * b.z

/-- The call `a.cross(b)`. -/
def cross (a b : Vector3f R) : Vector3f R :=
  ⟨a.y * b.z - a.z * b.y, a.z * b.x - a.x * b.z, a.x * b.y - a.y * b.x⟩

/-- The call `a.squaredNorm()`. -/
def squaredNorm (a : Vector3f R) : R := a.x * a.x + a.y * a.y + a.z * a.z

/-- The call `a.norm()`, the square root of the squared norm. -/
def norm (sqrt : R → R) (a : Vector3f R) : R := sqrt a.squaredNorm

/-- The call `a.normalize()`: Eigen divides by the norm when the squared norm is
positive and leaves the vector alone otherwise. -/
def normalize (sqrt : R → R) (a : Vector3f R) : Vector3f R :=
  if 0 < a.squaredNorm then
    ⟨a.x / sqrt a.squaredNorm, a.y / sqrt a.squaredNorm, a.z / sqrt a.squaredNorm⟩
  else a

end Vector3f

/-! ## Matrix coefficients: numbers and non-finite floats -/

/-- Sum of two coefficients. -/
def fadd (a b : Option R) : Option R := a.bind fun x => b.bind fun y => some (x + y)

/-- Difference of two coefficients. -/
def fsub (a b : Option R) : Option R := a.bind fun x => b.bind fun y => some (x - y)

/-- Product of two coefficients (`inf * 0` and `NaN * 0` are `NaN`). -/
def fmul (a b : Option R) : Option R := a.bind fun x => b.bind fun y => some (x * y)

/-- Quotient of two numbers: no number when the divisor is zero. -/
def fdiv (a b : R) : Option R := if b = 0 then none else some (a / b)

/-- Quotient of a coefficient by a number. -/
def fdivBy (a : Option R) (b : R) : Option R := a.bind fun x => fdiv x b

/-- Sum of a list of coefficients, from the left. -/
def fsum (xs : List (Option R)) : Option R := xs.foldl fadd (some 0)

/-! ## Small helpers of `smooth.cpp` -/

/-- The constant `CLOSE_ENOUGH_BOUND = 0.0001` (line 1227). -/
def CLOSE_ENOUGH_BOUND : R := 1 / 10000

/-- The function `close_to_zero` (lines 1228-1230). -/
def close_to_zero (num : R) : Bool := decide (|num| < CLOSE_ENOUGH_BOUND)

/-- The function `cotan` (lines 1576-1580): cotangent of the angle at `vAngle`
between the rays to `vB` and `vC`. -/
def cotan (sqrt : R → R) (vAngle vB vC : Vector3f R) : Option R :=
  let rayAngleB := vB.sub vAngle
  let rayAngleC := vC.sub vAngle
  fdiv (rayAngleB.dot rayAngleC) ((rayAngleB.cross rayAngleC).norm sqrt)

/-- A loop `for (i = …; …; i++) body` over the listed values of `i`, the body
possibly crashing. -/
def forLoop {σ : Type} (body : Nat → σ → Option σ) : List Nat → σ → Option σ
  | [], s => some s
  | i :: is, s => (body i s).bind (forLoop body is)

/-- The values `1, …, size - 1` taken by `i` in
`for (int i = 1; i < obj.hevs->size(); i++)`. -/
def vertexRange (obj : Object R) : List Nat := List.range' 1 (obj.hevs.length - 1)

/-! ## Eigen sparse matrices -/

/-- Eigen's `SparseMatrix<float>`: its dimensions and the stored coefficients
`(row, column, value)`. -/
structure SparseMatrix (R : Type) where
  rows : Nat
  cols : Nat
  data : List (Nat × Nat × Option R)
deriving DecidableEq

namespace SparseMatrix

/-- The constructor `SparseMatrix<float>(rows, cols)`: nothing stored. -/
def empty (rows cols : Nat) : SparseMatrix R := ⟨rows, cols, []⟩

/-- The stored coefficient at `(i, j)`, when there is one. -/
def stored (m : SparseMatrix R) (i j : Nat) : Option (Option R) :=
  (m.data.find? fun e => e.1 == i && e.2.1 == j).map fun e => e.2.2

/-- The call `m.coeff(i, j)`: the stored coefficient, zero where nothing is
stored. -/
def coeff (m : SparseMatrix R) (i j : Nat) : Option R :=
  (m.stored i j).getD (some 0)

/-- The statement `m.insert(row, col) = v`.  Eigen requires the position to lie
inside the matrix and not to be stored yet (both are assertions). -/
def insert (m : SparseMatrix R) (row : Nat) (col : Int) (v : Option R) :
    Option (SparseMatrix R) :=
  if 0 ≤ col ∧ col < m.cols ∧ row < m.rows ∧ m.stored row col.toNat = none then
    some { m with data := m.data ++ [(row, col.toNat, v)] }
  else none

/-- The statements `m.row(i) *= s` and `m.row(i) /= s`: the function `f` is
applied to every stored coefficient of row `i`. -/
def mapRow (m : SparseMatrix R) (i : Nat) (f : Option R → Option R) : SparseMatrix R :=
  { m with data := m.data.map fun e => if e.1 = i then (e.1, e.2.1, f e.2.2) else e }

/-- The expression `Eigen::MatrixXf::Identity(n, n).sparseView()`. -/
def identity (n : Nat) : SparseMatrix R :=
  ⟨n, n, (List.range n).map fun k => (k, k, some 1)⟩

/-- The expression `s * m`: every stored coefficient is multiplied by `s`. -/
def scale (s : R) (m : SparseMatrix R) : SparseMatrix R :=
  { m with data := m.data.map fun e => (e.1, e.2.1, fmul (some s) e.2.2) }

/-- The expression `a - b` of two sparse matrices: a coefficient is stored where
`a` or `b` stores one, and a side that stores nothing counts as zero. -/
def sub (a b : SparseMatrix R) : SparseMatrix R :=
  { rows := a.rows
    cols := a.cols
    data := (a.data.map fun e => (e.1, e.2.1, fsub e.2.2 (b.coeff e.1 e.2.1))) ++
      ((b.data.filter fun e => (a.stored e.1 e.2.1).isNone).map fun e =>
        (e.1, e.2.1, fsub (some 0) e.2.2)) }

/-- Component `i` of the product `m * x` of a matrix and a dense vector. -/
def mulVecAt (m : SparseMatrix R) (x : List R) (i : Nat) : Option R :=
  fsum ((List.range m.cols).map fun j => fmul (m.coeff i j) (some (x.getD j 0)))

/-- The equation `m * x' = x` between dense vectors: every component of the
product is a number, the right one. -/
def IsSolution (m : SparseMatrix R) (x' x : List R) : Prop :=
  x'.length = m.cols ∧ x.length = m.rows ∧
    ∀ i, i < m.rows → m.mulVecAt x' i = x[i]?

instance (m : SparseMatrix R) (x' x : List R) : Decidable (m.IsSolution x' x) := by
  unfold IsSolution
  infer_instance

end SparseMatrix

/-! ## The Laplacian assembler and the operator `F` (lines 1593-1691) -/

/-- What one pass through the body of the `do … while` of `build_F_operator`
(lines 1618-1657) reads from the mesh for the half-edge `he` of the walk around
`v_i`: the half-edge itself, the index `j` of `v_j`, the two cotangents, the area of the face and the
half-edge `he->flip->next` the walk goes to. -/
structure RingEntry (R : Type) where
  he : Nat
  j : Int
  cot_alpha : Option R
  cot_beta : Option R
  face_area : R
  next : Nat
deriving DecidableEq

/-- The weight `total_cot = cot_alpha + cot_beta` (line 1636). -/
def RingEntry.total_cot (e : RingEntry R) : Option R := fadd e.cot_alpha e.cot_beta

/-- The position of a half-edge vertex as an Eigen vector. -/
def HEV.pos (v : HEV R) : Vector3f R := ⟨v.x, v.y, v.z⟩

/-- The reads of lines 1618-1657 for the half-edge `he`, with `v_i_pos` the
position of the vertex whose ring is walked. -/
def ringEntry (sqrt : R → R) (obj : Object R) (v_i_pos : Vector3f R) (he : Nat) :
    Option (RingEntry R) := do
  let h ← obj.he he
  let h_next ← obj.he h.next
  let v_j ← obj.hev h_next.vertex
  let v_j_pos := v_j.pos
  let h_next_next ← obj.he h_next.next
  let v_across_same_face ← obj.hev h_next_next.vertex
  let h_flip ← obj.he h.flip
  let h_flip_next ← obj.he h_flip.next
  let h_flip_next_next ← obj.he h_flip_next.next
  let v_across_flip_face ← obj.hev h_flip_next_next.vertex
  let v_across_same_pos := v_across_same_face.pos
  let v_across_flip_pos := v_across_flip_face.pos
  let face_normal := (v_j_pos.sub v_i_pos).cross (v_across_same_pos.sub v_i_pos)
  some
    { he := he
      j := v_j.index
      cot_alpha := cotan sqrt v_across_same_pos v_i_pos v_j_pos
      cot_beta := cotan sqrt v_across_flip_pos v_i_pos v_j_pos
      face_area := (1 / 2) * face_normal.norm sqrt
      next := h_flip.next }

/-- The variables the `do … while` of `build_F_operator` updates. -/
structure RingState (R : Type) where
  op_matrix : SparseMatrix R
  incident_area : R
  total_cot_total : Option R
deriving DecidableEq

/-- The state after one pass through the loop body for the entry `e` (lines
1639, 1642 and 1653). -/
def ringStep (i : Nat) (st : RingState R) (e : RingEntry R) : Option (RingState R) :=
  (st.op_matrix.insert (i - 1) (e.j - 1) e.total_cot).map fun m =>
    { op_matrix := m
      incident_area := st.incident_area + e.face_area
      total_cot_total := fadd st.total_cot_total e.total_cot }

/-- The loop `do { … he = he->flip->next; } while (he != curr_he);` of lines
1617-1659, started at half-edge `he`, with at most `fuel` passes. -/
def ringLoop (sqrt : R → R) (obj : Object R) (i : Nat) (v_i_pos : Vector3f R)
    (curr_he : Nat) : Nat → Nat → RingState R → Option (RingState R)
  | 0, _, _ => none
  | fuel + 1, he, st => do
    let e ← ringEntry sqrt obj v_i_pos he
    let st' ← ringStep i st e
    if e.next = curr_he then some st' else ringLoop sqrt obj i v_i_pos curr_he fuel e.next st'

/-- The body of the loop over the vertices (lines 1605-1671) for the vertex at
position `i` of `hevs`.  A walk that has not come back to `curr_he` after as
many passes as there are half-edges never comes back, so that is the fuel. -/
def build_row (sqrt : R → R) (obj : Object R) (i : Nat) (op_matrix : SparseMatrix R) :
    Option (SparseMatrix R) := do
  let v_i ← obj.hev i
  let v_i_pos := v_i.pos
  let curr_he := v_i.out
  let st ← ringLoop sqrt obj i v_i_pos curr_he obj.hes.length curr_he ⟨op_matrix, 0, some 0⟩
  if close_to_zero st.incident_area then
    some (st.op_matrix.mapRow (i - 1) fun c => fmul c (some 0))
  else do
    let m ← st.op_matrix.insert (i - 1) ((i : Int) - 1) (fmul (some (-1)) st.total_cot_total)
    some (m.mapRow (i - 1) fun c => fdivBy c (2 * st.incident_area))

/-- The first half of `build_F_operator` (lines 1595-1675): the matrix
`op_matrix` (the operator `Δ`) once every row has been filled.  An empty `hevs`
makes `num_vertices` negative, which Eigen rejects. -/
def build_op_matrix (sqrt : R → R) (obj : Object R) : Option (SparseMatrix R) :=
  if obj.hevs.length = 0 then none
  else
    forLoop (build_row sqrt obj) (vertexRange obj)
      (SparseMatrix.empty (obj.hevs.length - 1) (obj.hevs.length - 1))

/-- The function `build_F_operator` (lines 1593-1691); the global `time_step_h`
is the argument `time_step_h`. -/
def build_F_operator (sqrt : R → R) (time_step_h : R) (obj : Object R) :
    Option (SparseMatrix R) :=
  (build_op_matrix sqrt obj).map fun op_matrix =>
    (SparseMatrix.identity (obj.hevs.length - 1)).sub (SparseMatrix.scale time_step_h op_matrix)

/-! ## The implicit smoother (lines 1697-1737) -/

/-- Eigen's `SparseLU` solver as `computeSmoothing` uses it (library code, a
parameter of the development): `info_ok F` tells whether `factorize(F)` reported
success, which `computeSmoothing` never reads; `solve F b` is what
`solver.solve(b)` hands back after `analyzePattern(F)` and `factorize(F)`, with
`none` for a solver that aborts. -/
structure SparseLU (R : Type) where
  info_ok : SparseMatrix R → Bool
  solve : SparseMatrix R → List R → Option (List R)

/-- The values `f i` for the listed `i`, in order; `none` as soon as one is
missing. -/
def collect {α : Type} (f : Nat → Option α) : List Nat → Option (List α)
  | [] => some []
  | i :: is => (f i).bind fun a => (collect f is).map fun as => a :: as

/-- The body of the write-back loop (lines 1731-1736). -/
def writeBack (x_phi y_phi z_phi : List R) (i : Nat) (obj : Object R) : Option (Object R) := do
  let v_i ← obj.hev i
  let x ← x_phi[i - 1]?
  let y ← y_phi[i - 1]?
  let z ← z_phi[i - 1]?
  some { obj with hevs := obj.hevs.set i (some { v_i with x := x, y := y, z := z }) }

/-- The function `computeSmoothing` (lines 1697-1737). -/
def computeSmoothing (sqrt : R → R) (solver : SparseLU R) (time_step_h : R) (obj : Object R) :
    Option (Object R) := do
  let opF ← build_F_operator sqrt time_step_h obj
  let x_rho ← collect (fun i => (obj.hev i).map fun v_i => v_i.x) (vertexRange obj)
  let y_rho ← collect (fun i => (obj.hev i).map fun v_i => v_i.y) (vertexRange obj)
  let z_rho ← collect (fun i => (obj.hev i).map fun v_i => v_i.z) (vertexRange obj)
  let x_phi ← solver.solve opF x_rho
  let y_phi ← solver.solve opF y_rho
  let z_phi ← solver.solve opF z_rho
  forLoop (writeBack x_phi y_phi z_phi) (vertexRange obj) obj

/-! ## Vertex normals and the draw buffers (lines 1234-1324) -/

/-- The loop `do { … } while (he != vertex->out);` of `calculateVertexNormal`
(lines 1246-1267), with at most `fuel` passes. -/
def normalLoop (sqrt : R → R) (obj : Object R) (v_pos : Vector3f R) (out : Nat) :
    Nat → Nat → Vector3f R → Option (Vector3f R)
  | 0, _, _ => none
  | fuel + 1, he, normal => do
    let h ← obj.he he
    let h_next ← obj.he h.next
    let v2 ← obj.hev h_next.vertex
    let h_next_next ← obj.he h_next.next
    let v3 ← obj.hev h_next_next.vertex
    let face_normal := (v2.pos.sub v_pos).cross (v3.pos.sub v_pos)
    let face_area := (1 / 2) * face_normal.norm sqrt
    let normal' := normal.add (Vector3f.smul face_area face_normal)
    let h_flip ← obj.he h.flip
    if h_flip.next = out then some normal'
    else normalLoop sqrt obj v_pos out fuel h_flip.next normal'

/-- The function `calculateVertexNormal` (lines 1234-1276).  A walk that has not
come back to `vertex->out` after as many passes as there are half-edges never
comes back, so that is the fuel. -/
def calculateVertexNormal (sqrt : R → R) (obj : Object R) (vertex : HEV R) : Option (Vec3f R) :=
  (normalLoop sqrt obj vertex.pos vertex.out obj.hes.length vertex.out ⟨0, 0, 0⟩).map fun normal =>
    let n := normal.normalize sqrt
    ⟨n.x, n.y, n.z⟩

/-- The body of the first loop of `computeNormalsUpdateBuffers` (lines
1286-1290). -/
def storeNormal (sqrt : R → R) (vIdx : Nat) (obj : Object R) : Option (Object R) := do
  let hev ← obj.hev vIdx
  let normal ← calculateVertexNormal sqrt obj hev
  some { obj with hevs := obj.hevs.set vIdx (some { hev with normal := normal }) }

/-- The body of the second loop of `computeNormalsUpdateBuffers` (lines
1297-1323). -/
def pushFace (fIdx : Nat) (obj : Object R) : Option (Object R) := do
  let f ← obj.mesh.faces[fIdx]?
  let v1 ← (atInt obj.mesh.vertices f.idx1).join
  let v2 ← (atInt obj.mesh.vertices f.idx2).join
  let v3 ← (atInt obj.mesh.vertices f.idx3).join
  let n1 ← (atInt obj.hevs f.idx1).join
  let n2 ← (atInt obj.hevs f.idx2).join
  let n3 ← (atInt obj.hevs f.idx3).join
  some { obj with
    vertex_buffer := obj.vertex_buffer ++ [v1, v2, v3]
    normal_buffer := obj.normal_buffer ++ [n1.normal, n2.normal, n3.normal] }

/-- The function `computeNormalsUpdateBuffers` (lines 1284-1324). -/
def computeNormalsUpdateBuffers (sqrt : R → R) (obj : Object R) : Option (Object R) := do
  let obj1 ← forLoop (storeNormal sqrt) (vertexRange obj) obj
  let obj2 := { obj1 with vertex_buffer := [], normal_buffer := [] }
  forLoop pushFace (List.range obj2.mesh.faces.length) obj2

/-! ## The one-ring of a vertex, as the specification describes it -/

/-- The one-ring walk by itself (the specification's traversal): the entries
read for the half-edges visited from `he` on, following `he := he->flip->next`
until `curr_he` comes up again, in at most `fuel` passes. -/
def ringEntries (sqrt : R → R) (obj : Object R) (v_i_pos : Vector3f R) (curr_he : Nat) :
    Nat → Nat → Option (List (RingEntry R))
  | 0, _ => none
  | fuel + 1, he =>
    (ringEntry sqrt obj v_i_pos he).bind fun e =>
      if e.next = curr_he then some [e]
      else (ringEntries sqrt obj v_i_pos curr_he fuel e.next).map fun es => e :: es

/-- The one-ring of the vertex at position `i` of `hevs`: the entries of the
walk that starts at `v_i->out`. -/
def oneRing (sqrt : R → R) (obj : Object R) (i : Nat) : Option (List (RingEntry R)) :=
  (obj.hev i).bind fun v_i => ringEntries sqrt obj v_i.pos v_i.out obj.hes.length v_i.out

/-- The loop body applied to the entries of a ring, one after the other. -/
def ringSteps (i : Nat) : RingState R → List (RingEntry R) → Option (RingState R)
  | st, [] => some st
  | st, e :: es => (ringStep i st e).bind fun st' => ringSteps i st' es

/-- The column `j - 1` of the coefficient an entry contributes. -/
def RingEntry.col (e : RingEntry R) : Nat := (e.j - 1).toNat

/-- The incident area `A_i`: the sum of the face areas over the ring. -/
def incidentArea (es : List (RingEntry R)) : R := (es.map fun e => e.face_area).sum

/-- The sum of the weights `cot α + cot β` over the ring. -/
def totalCot (es : List (RingEntry R)) : Option R := fsum (es.map fun e => e.total_cot)

/-- The opposite `-a` of a coefficient. -/
def fneg (a : Option R) : Option R := a.map fun x => -x

/-- The sum of the coefficients of row `i`, over all columns. -/
def SparseMatrix.rowSum (m : SparseMatrix R) (i : Nat) : Option R :=
  fsum ((List.range m.cols).map fun j => m.coeff i j)

/-- The coefficient at `(i, j)` as a number (zero for a non-finite one). -/
def SparseMatrix.num (m : SparseMatrix R) (i j : Nat) : R := (m.coeff i j).getD 0

/-- What one pass through the body of the loop of `calculateVertexNormal` (lines
1246-1267) reads for the half-edge `he`: the half-edge itself, `face_normal`,
`face_area`, the vector `face_area * face_normal` the pass adds to `normal`, and
the half-edge `he->flip->next` the walk goes to. -/
structure NormalEntry (R : Type) where
  he : Nat
  face_normal : Vector3f R
  face_area : R
  weighted : Vector3f R
  next : Nat
deriving DecidableEq

/-- The reads of lines 1248-1264 for the half-edge `he`, with `v_pos` the
position of the vertex whose normal is computed. -/
def normalEntry (sqrt : R → R) (obj : Object R) (v_pos : Vector3f R) (he : Nat) :
    Option (NormalEntry R) := do
  let h ← obj.he he
  let h_next ← obj.he h.next
  let v2 ← obj.hev h_next.vertex
  let h_next_next ← obj.he h_next.next
  let v3 ← obj.hev h_next_next.vertex
  let face_normal := (v2.pos.sub v_pos).cross (v3.pos.sub v_pos)
  let face_area := (1 / 2) * face_normal.norm sqrt
  let h_flip ← obj.he h.flip
  some
    { he := he
      face_normal := face_normal
      face_area := face_area
      weighted := Vector3f.smul face_area face_normal
      next := h_flip.next }

/-- The walk of `calculateVertexNormal` by itself: the entries read for the
half-edges visited from `he` on, until `out` comes up again, in at most `fuel`
passes. -/
def normalEntries (sqrt : R → R) (obj : Object R) (v_pos : Vector3f R) (out : Nat) :
    Nat → Nat → Option (List (NormalEntry R))
  | 0, _ => none
  | fuel + 1, he =>
    (normalEntry sqrt obj v_pos he).bind fun e =>
      if e.next = out then some [e]
      else (normalEntries sqrt obj v_pos out fuel e.next).map fun es => e :: es

/-! ## The half-edge invariants of the specification -/

/-- The half-edge `he->flip`. -/
def Object.flip (obj : Object R) (he : Nat) : Option Nat := (obj.he he).map fun h => h.flip

/-- The half-edge `he->next`. -/
def Object.next (obj : Object R) (he : Nat) : Option Nat := (obj.he he).map fun h => h.next

/-- The tail vertex `he->vertex` (a position in `hevs`). -/
def Object.tail (obj : Object R) (he : Nat) : Option Nat := (obj.he he).map fun h => h.vertex

/-- The half-edge invariants: for every half-edge, `he.flip.flip == he`,
`he.next.next.next == he` and `he.flip.vertex == he.next.vertex`. -/
def Object.HalfEdgeInvariants (obj : Object R) : Prop :=
  ∀ he, he < obj.hes.length →
    (obj.flip he).bind obj.flip = some he ∧
    (((obj.next he).bind obj.next).bind obj.next) = some he ∧
    (obj.flip he).bind obj.tail = (obj.next he).bind obj.tail

instance (obj : Object R) : Decidable obj.HalfEdgeInvariants := by
  unfold Object.HalfEdgeInvariants
  infer_instance

/-- Indexing as `parseObjFile` leaves it: the vertex stored at position `k` of
`hevs` has `index == k`. -/
def Object.Indexed (obj : Object R) : Prop :=
  ∀ k, k < obj.hevs.length → ∀ v ∈ obj.hev k, v.index = (k : Int)

instance (obj : Object R) : Decidable obj.Indexed := by
  unfold Object.Indexed
  infer_instance

/-- The half-edge vertex `v` with its position replaced by component `k - 1` of
the three vectors. -/
def HEV.moved (x' y' z' : List R) (k : Nat) (v : HEV R) : HEV R :=
  { v with x := x'.getD (k - 1) 0, y := y'.getD (k - 1) 0, z := z'.getD (k - 1) 0 }

/-! ## Closed manifold meshes -/

/-- The entries of the one-ring of vertex `i` (none when the walk fails). -/
def ringOf (sqrt : R → R) (obj : Object R) (i : Nat) : List (RingEntry R) :=
  (oneRing sqrt obj i).getD []

/-- The incident area `A_i` that `build_F_operator` accumulates for vertex `i`. -/
def vertexArea (sqrt : R → R) (obj : Object R) (i : Nat) : R :=
  incidentArea (ringOf sqrt obj i)

/-- One-ring closure: the walk around vertex `i` visits exactly the half-edges
whose tail is `i`. -/
def Object.RingsClosed (sqrt : R → R) (obj : Object R) : Prop :=
  ∀ he, he < obj.hes.length → ∀ i, i < obj.hevs.length → 1 ≤ i →
    (obj.tail he = some i ↔ he ∈ (ringOf sqrt obj i).map fun e => e.he)

instance (sqrt : R → R) (obj : Object R) : Decidable (obj.RingsClosed sqrt) := by
  unfold Object.RingsClosed
  infer_instance

/-- No vertex is degenerate: no incident area is below epsilon. -/
def Object.NonDegenerate (sqrt : R → R) (obj : Object R) : Prop :=
  ∀ i, i < obj.hevs.length → 1 ≤ i → close_to_zero (vertexArea sqrt obj i) = false

instance (sqrt : R → R) (obj : Object R) : Decidable (obj.NonDegenerate sqrt) := by
  unfold Object.NonDegenerate
  infer_instance

/-- Every weight `cot α + cot β` read in a ring is a number (no cotangent has a
zero denominator). -/
def Object.FiniteWeights (sqrt : R → R) (obj : Object R) : Prop :=
  ∀ i, i < obj.hevs.length → 1 ≤ i → ∀ e ∈ ringOf sqrt obj i, e.total_cot.isSome = true

instance (sqrt : R → R) (obj : Object R) : Decidable (obj.FiniteWeights sqrt) := by
  unfold Object.FiniteWeights
  infer_instance

/-- Every vertex has the same incident area (that of vertex `1`). -/
def Object.EqualAreas (sqrt : R → R) (obj : Object R) : Prop :=
  ∀ i, i < obj.hevs.length → 1 ≤ i → vertexArea sqrt obj i = vertexArea sqrt obj 1

instance (sqrt : R → R) (obj : Object R) : Decidable (obj.EqualAreas sqrt) := by
  unfold Object.EqualAreas
  infer_instance

/-- The vector of the coordinates `c` of the vertices `1, …, |V|` (vertex `i` at
component `i - 1`). -/
def Object.coords (obj : Object R) (c : HEV R → R) : List R :=
  (vertexRange obj).map fun i => ((obj.hev i).map c).getD 0

/-! ## What the loops need to run to the end -/

/-- What `build_F_operator` needs of the ring of vertex `i`: the walk comes back,
the neighbours have pairwise distinct indices inside `1..|V|`, and a vertex that
is not degenerate is not its own neighbour. -/
def Object.RingOk (sqrt : R → R) (obj : Object R) (i : Nat) : Prop :=
  ∃ es, oneRing sqrt obj i = some es ∧ (es.map fun e => e.col).Nodup ∧
    (∀ e ∈ es, 0 ≤ e.j - 1 ∧ e.j - 1 < ((obj.hevs.length - 1 : Nat) : Int)) ∧
    (close_to_zero (incidentArea es) = false → ∀ e ∈ es, e.col ≠ i - 1)

/-- What `computeNormalsUpdateBuffers` needs of a face: its three indices name a
mesh vertex and a half-edge vertex. -/
def Object.FaceOk (obj : Object R) (f : Face) : Prop :=
  ∀ k ∈ [f.idx1, f.idx2, f.idx3],
    (∃ v, (atInt obj.mesh.vertices k).join = some v) ∧ ∃ n, (atInt obj.hevs k).join = some n

instance (sqrt : R → R) (obj : Object R) (i : Nat) : Decidable (obj.RingOk sqrt i) :=
  match h : oneRing sqrt obj i with
  | none => isFalse fun ⟨_, hes, _⟩ => Option.noConfusion (h.symm.trans hes)
  | some es =>
    decidable_of_iff
      ((es.map fun e => e.col).Nodup ∧
        (∀ e ∈ es, 0 ≤ e.j - 1 ∧ e.j - 1 < ((obj.hevs.length - 1 : Nat) : Int)) ∧
        (close_to_zero (incidentArea es) = false → ∀ e ∈ es, e.col ≠ i - 1))
      ⟨fun hp => ⟨es, h, hp⟩,
        fun ⟨_, hes, hp⟩ => Option.some.inj (h.symm.trans hes) ▸ hp⟩

/-- What `build_F_operator` needs of the mesh to run to the end: `hevs` is not
empty and the ring of every vertex `1..|V|` is as `RingOk` says. -/
def Object.RingsOk (sqrt : R → R) (obj : Object R) : Prop :=
  obj.hevs.length ≠ 0 ∧ ∀ i, i < obj.hevs.length → 1 ≤ i → obj.RingOk sqrt i

instance (sqrt : R → R) (obj : Object R) : Decidable (obj.RingsOk sqrt) := by
  unfold Object.RingsOk
  infer_instance

/-- What the first loop of `computeNormalsUpdateBuffers` needs: every vertex
`1..|V|` is there and the walk of `calculateVertexNormal` around it comes back. -/
def Object.NormalsOk (sqrt : R → R) (obj : Object R) : Prop :=
  ∀ i, i < obj.hevs.length → 1 ≤ i →
    ((obj.hev i).bind (calculateVertexNormal sqrt obj)).isSome = true

instance (sqrt : R → R) (obj : Object R) : Decidable (obj.NormalsOk sqrt) := by
  unfold Object.NormalsOk
  infer_instance

/-- What the second loop of `computeNormalsUpdateBuffers` needs: the three
indices of every face name a mesh vertex and a half-edge vertex. -/
def Object.FacesOk (obj : Object R) : Prop :=
  ∀ f ∈ obj.mesh.faces, ∀ k ∈ [f.idx1, f.idx2, f.idx3],
    (atInt obj.mesh.vertices k).join.isSome = true ∧ (atInt obj.hevs k).join.isSome = true

instance (obj : Object R) : Decidable obj.FacesOk := by
  unfold Object.FacesOk
  infer_instance

/-! ## Concrete meshes over the rationals -/

/-- The integer square root of a perfect square (zero for other numbers). -/
def natSqrt (n : Nat) : Nat := ((List.range (n + 1)).find? fun k => k * k == n).getD 0

/-- A square root on the rationals, exact on the squares of rationals: the
meshes below only have triangles whose doubled area is rational. -/
def ratSqrt (q : ℚ) : ℚ := (natSqrt q.num.toNat : ℚ) / (natSqrt q.den : ℚ)

/-- The object `parseObjFile` builds for a tetrahedron with vertices `p1 … p4`
and faces `(1,3,2)`, `(1,2,4)`, `(1,4,3)`, `(2,3,4)`: face `k` owns the
half-edges `3k`, `3k+1`, `3k+2`, and the normals are still unset. -/
def tetraObject (p1 p2 p3 p4 : Vertex R) : Object R :=
  { vertex_buffer := []
    normal_buffer := []
    mesh := ⟨[none, some p1, some p2, some p3, some p4],
      [⟨1, 3, 2⟩, ⟨1, 2, 4⟩, ⟨1, 4, 3⟩, ⟨2, 3, 4⟩]⟩
    hevs := [none,
      some ⟨p1.x, p1.y, p1.z, 0, 1, ⟨0, 0, 0⟩⟩,
      some ⟨p2.x, p2.y, p2.z, 2, 2, ⟨0, 0, 0⟩⟩,
      some ⟨p3.x, p3.y, p3.z, 1, 3, ⟨0, 0, 0⟩⟩,
      some ⟨p4.x, p4.y, p4.z, 5, 4, ⟨0, 0, 0⟩⟩]
    hefs := [some ⟨0⟩, some ⟨3⟩, some ⟨6⟩, some ⟨9⟩]
    hes := [⟨1, 1, 8, 0⟩, ⟨3, 2, 9, 0⟩, ⟨2, 0, 3, 0⟩,
      ⟨1, 4, 2, 1⟩, ⟨2, 5, 11, 1⟩, ⟨4, 3, 6, 1⟩,
      ⟨1, 7, 5, 2⟩, ⟨4, 8, 10, 2⟩, ⟨3, 6, 0, 2⟩,
      ⟨2, 10, 1, 3⟩, ⟨3, 11, 7, 3⟩, ⟨4, 9, 4, 3⟩] }

/-- The tetrahedron with vertices `(0,0,0)`, `(1,0,0)`, `(0,1,0)`, `(0,0,2)`. -/
def tetra : Object ℚ := tetraObject ⟨0, 0, 0⟩ ⟨1, 0, 0⟩ ⟨0, 1, 0⟩ ⟨0, 0, 2⟩

/-- A flattened tetrahedron: `(0,0,0)`, `(1,0,0)`, `(2,0,0)` lie on a line, so
the face `(1,3,2)` has zero area; the other three faces do not. -/
def planarTetra : Object ℚ := tetraObject ⟨0, 0, 0⟩ ⟨1, 0, 0⟩ ⟨2, 0, 0⟩ ⟨0, 1, 0⟩

/-- A tetrahedron collapsed onto a line: all four faces have zero area. -/
def lineTetra : Object ℚ := tetraObject ⟨0, 0, 0⟩ ⟨1, 0, 0⟩ ⟨2, 0, 0⟩ ⟨3, 0, 0⟩

/-- The matrix `Δ` of `tetra`. -/
def tetraDelta : SparseMatrix ℚ :=
  ⟨4, 4,
    [(0, 2, some (3 / 5)), (0, 3, some (1 / 5)), (0, 1, some (3 / 5)), (0, 0, some (-7 / 5)),
      (1, 0, some (1 / 2)), (1, 3, some (1 / 18)), (1, 2, some (2 / 9)), (1, 1, some (-7 / 9)),
      (2, 1, some (2 / 9)), (2, 3, some (1 / 18)), (2, 0, some (1 / 2)), (2, 2, some (-7 / 9)),
      (3, 0, some (1 / 7)), (3, 2, some (1 / 21)), (3, 1, some (1 / 21)),
      (3, 3, some (-5 / 21))]⟩

/-- The product of a dense matrix, given by its rows, and a vector. -/
def denseMulVec (m : List (List ℚ)) (b : List ℚ) : List ℚ :=
  m.map fun row => (List.zipWith (fun a x => a * x) row b).sum

/-- The inverse of the operator `F = I - Δ` of `tetra` (time step `1`). -/
def tetraInverse : List (List ℚ) :=
  [[605 / 1198, 237 / 1198, 237 / 1198, 119 / 1198],
    [395 / 2396, 763 / 1198, 82 / 599, 147 / 2396],
    [395 / 2396, 82 / 599, 763 / 1198, 147 / 2396],
    [85 / 1198, 63 / 1198, 63 / 1198, 987 / 1198]]

/-- A solver that is exact for the operator `F = I - Δ` of `tetra`. -/
def tetraSolver : SparseLU ℚ :=
  { info_ok := fun _ => true
    solve := fun _ b => some (denseMulVec tetraInverse b) }

/-- A solver that is exact for the identity matrix: it returns the right-hand
side. -/
def identitySolver : SparseLU ℚ :=
  { info_ok := fun _ => true
    solve := fun _ b => some b }

/-- The operator `F = I - Δ` of `tetra` (time step `1`). -/
def tetraF : SparseMatrix ℚ :=
  ⟨4, 4,
    [(0, 0, some (12 / 5)), (1, 1, some (16 / 9)), (2, 2, some (16 / 9)), (3, 3, some (26 / 21)),
      (0, 2, some (-3 / 5)), (0, 3, some (-1 / 5)), (0, 1, some (-3 / 5)),
      (1, 0, some (-1 / 2)), (1, 3, some (-1 / 18)), (1, 2, some (-2 / 9)),
      (2, 1, some (-2 / 9)), (2, 3, some (-1 / 18)), (2, 0, some (-1 / 2)),
      (3, 0, some (-1 / 7)), (3, 2, some (-1 / 21)), (3, 1, some (-1 / 21))]⟩

/-- The coefficients of `tetraF` as a dense table. -/
def tetraFTable : List (List ℚ) :=
  [[12 / 5, -3 / 5, -3 / 5, -1 / 5],
    [-1 / 2, 16 / 9, -2 / 9, -1 / 18],
    [-1 / 2, -2 / 9, 16 / 9, -1 / 18],
    [-1 / 7, -1 / 21, -1 / 21, 26 / 21]]

/-- A disphenoid: four congruent faces of area `6`, so every vertex has the same
incident area `18`. -/
def disphenoid : Object ℚ := tetraObject ⟨2, 1, 2⟩ ⟨0, 1, -2⟩ ⟨2, -1, -2⟩ ⟨0, -1, 2⟩

/-- The operator `F = I - Δ` of `disphenoid` (time step `1`). -/
def disphenoidF : SparseMatrix ℚ :=
  ⟨4, 4,
    [(0, 0, some (10 / 9)), (1, 1, some (10 / 9)), (2, 2, some (10 / 9)), (3, 3, some (10 / 9)),
      (0, 2, some (-1 / 54)), (0, 3, some (-2 / 27)), (0, 1, some (-1 / 54)),
      (1, 0, some (-1 / 54)), (1, 3, some (-1 / 54)), (1, 2, some (-2 / 27)),
      (2, 1, some (-2 / 27)), (2, 3, some (-1 / 54)), (2, 0, some (-1 / 54)),
      (3, 0, some (-2 / 27)), (3, 2, some (-1 / 54)), (3, 1, some (-1 / 54))]⟩

/-- The entry of the ring of vertex `1` of `tetra` for the half-edge `0`, from
vertex `1` to vertex `3`. -/
def tetraEntry13 : RingEntry ℚ :=
  { he := 0, j := 3, cot_alpha := some 1, cot_beta := some 2, face_area := 1 / 2, next := 6 }

/-- The entry of the ring of vertex `3` of `tetra` for the half-edge `8`, the
flip of half-edge `0`, from vertex `3` to vertex `1`. -/
def tetraEntry31 : RingEntry ℚ :=
  { he := 8, j := 1, cot_alpha := some 2, cot_beta := some 1, face_area := 1, next := 1 }

/-! ## One smoothing generation (lines 1741-1755) -/

/-- The solver hands back a vector of the size of the system for every
right-hand side: what Eigen's `solve` does when it does not abort, whatever the
factorization gave. -/
def SparseLU.Answers (solver : SparseLU R) (opF : SparseMatrix R) : Prop :=
  ∀ b : List R, b.length = opF.rows →
    ∃ x', solver.solve opF b = some x' ∧ x'.length = opF.cols

/-- The body of the loop of `smoothNextFrame` for one object (lines 1745-1747):
`computeSmoothing(obj); computeNormalsUpdateBuffers(obj);`. -/
def smoothObject (sqrt : R → R) (solver : SparseLU R) (time_step_h : R) (obj : Object R) :
    Option (Object R) :=
  (computeSmoothing sqrt solver time_step_h obj).bind (computeNormalsUpdateBuffers sqrt)

/-- The function `smoothNextFrame` (lines 1741-1755) on the objects of the scene,
in the order of the map; the two `glut` calls after the loop do not touch the
objects. -/
def smoothNextFrame (sqrt : R → R) (solver : SparseLU R) (time_step_h : R) :
    List (Object R) → Option (List (Object R))
  | [] => some []
  | obj :: objects =>
    (smoothObject sqrt solver time_step_h obj).bind fun obj' =>
      (smoothNextFrame sqrt solver time_step_h objects).map fun objects' => obj' :: objects'

/-- The invariant `v.out.vertex == v`: the outgoing half-edge chosen for the
vertex at position `k` has its tail at `k`. -/
def Object.OutOriginates (obj : Object R) : Prop :=
  ∀ k, k < obj.hevs.length → ∀ v ∈ obj.hev k, obj.tail v.out = some k

instance (obj : Object R) : Decidable obj.OutOriginates := by
  unfold Object.OutOriginates
  infer_instance

/-! ## The vertex normal, as the specification describes it -/

/-- The sum of `face_area * face_normal` over the entries of a walk. -/
def sumWeighted (es : List (NormalEntry R)) : Vector3f R :=
  es.foldl (fun acc e => acc.add e.weighted) ⟨0, 0, 0⟩

/-- The sum `calculateVertexNormal` has accumulated when its loop ends (the zero
vector when the walk fails). -/
def normalSum (sqrt : R → R) (obj : Object R) (vertex : HEV R) : Vector3f R :=
  sumWeighted ((normalEntries sqrt obj vertex.pos vertex.out obj.hes.length vertex.out).getD [])

/-- The area-weighted average of the unit face normals, in the words of the
specification: the normalization of the sum, over the triangles of the walk, of
the area of the triangle times its unit normal. -/
def areaWeightedNormal (sqrt : R → R) (obj : Object R) (vertex : HEV R) : Option (Vec3f R) :=
  (normalEntries sqrt obj vertex.pos vertex.out obj.hes.length vertex.out).map fun es =>
    let n := (es.foldl (fun (acc : Vector3f R) e =>
      acc.add (Vector3f.smul e.face_area (e.face_normal.normalize sqrt))) ⟨0, 0, 0⟩).normalize sqrt
    ⟨n.x, n.y, n.z⟩

/-- The squared Euclidean length of a `Vec3f`. -/
def Vec3f.squaredNorm (n : Vec3f R) : R := n.x * n.x + n.y * n.y + n.z * n.z

/-- A tetrahedron flattened into the plane `z = 0`, with no triangle of zero
area: at vertex `1` the three doubled areas are `5`, `3`, `4`. -/
def flatTetra : Object ℚ := tetraObject ⟨0, 0, 0⟩ ⟨1, 0, 0⟩ ⟨2, 5, 0⟩ ⟨2, 3, 0⟩

/-- A tetrahedron whose faces at vertex `1` have the areas `5`, `7`, `7`. -/
def skewTetra : Object ℚ := tetraObject ⟨0, 0, 0⟩ ⟨-4, -3, -3⟩ ⟨-4, -3, -1⟩ ⟨-4, 0, -2⟩

/-- The half-edge vertex `1` of a tetrahedron of `tetraObject` whose first
vertex is the origin, as built. -/
def originVertex : HEV ℚ := ⟨0, 0, 0, 0, 1, ⟨0, 0, 0⟩⟩

/-- A solver whose factorization reports a failure for every matrix and whose
`solve` still hands back a vector of the right size, the zero vector. -/
def failedSolver : SparseLU ℚ :=
  { info_ok := fun _ => false
    solve := fun m _ => some (List.replicate m.cols 0) }

/-! ## The one-ring walk as a map on half-edges -/

/-- Every half-edge has a tail vertex that is there: `he->vertex` is not null. -/
def Object.TailsSet (obj : Object R) : Prop :=
  ∀ he, he < obj.hes.length → ((obj.tail he).bind obj.hev).isSome = true

instance (obj : Object R) : Decidable obj.TailsSet := by
  unfold Object.TailsSet
  infer_instance

/-- The step `he := he->flip->next` of the one-ring walks. -/
def Object.step (obj : Object R) (he : Nat) : Option Nat := (obj.flip he).bind obj.next

/-- The outgoing half-edges of the vertex at position `i`: the half-edges whose
tail is `i`.  Their number is the degree of the vertex. -/
def Object.outgoing (obj : Object R) (i : Nat) : List Nat :=
  (List.range obj.hes.length).filter fun he => obj.tail he == some i

/-- Two tetrahedra that touch in one vertex, vertex `1`: the object built for the
vertices `(0,0,0)`, `(1,0,0)`, `(0,1,0)`, `(0,0,2)`, `(-1,0,0)`, `(0,-1,0)`,
`(0,0,-2)` and the faces `(1,3,2)`, `(1,2,4)`, `(1,4,3)`, `(2,3,4)`, `(1,6,5)`,
`(1,5,7)`, `(1,7,6)`, `(5,6,7)`.  Every edge lies on two faces, with opposite
directions; face `k` owns the half-edges `3k`, `3k+1`, `3k+2`. -/
def bowtie : Object ℚ :=
  { vertex_buffer := []
    normal_buffer := []
    mesh := ⟨[none, some ⟨0, 0, 0⟩, some ⟨1, 0, 0⟩, some ⟨0, 1, 0⟩, some ⟨0, 0, 2⟩,
        some ⟨-1, 0, 0⟩, some ⟨0, -1, 0⟩, some ⟨0, 0, -2⟩],
      [⟨1, 3, 2⟩, ⟨1, 2, 4⟩, ⟨1, 4, 3⟩, ⟨2, 3, 4⟩, ⟨1, 6, 5⟩, ⟨1, 5, 7⟩, ⟨1, 7, 6⟩, ⟨5, 6, 7⟩]⟩
    hevs := [none,
      some ⟨0, 0, 0, 0, 1, ⟨0, 0, 0⟩⟩,
      some ⟨1, 0, 0, 2, 2, ⟨0, 0, 0⟩⟩,
      some ⟨0, 1, 0, 1, 3, ⟨0, 0, 0⟩⟩,
      some ⟨0, 0, 2, 5, 4, ⟨0, 0, 0⟩⟩,
      some ⟨-1, 0, 0, 14, 5, ⟨0, 0, 0⟩⟩,
      some ⟨0, -1, 0, 13, 6, ⟨0, 0, 0⟩⟩,
      some ⟨0, 0, -2, 17, 7, ⟨0, 0, 0⟩⟩]
    hefs := [some ⟨0⟩, some ⟨3⟩, some ⟨6⟩, some ⟨9⟩, some ⟨12⟩, some ⟨15⟩, some ⟨18⟩, some ⟨21⟩]
    hes := [⟨1, 1, 8, 0⟩, ⟨3, 2, 9, 0⟩, ⟨2, 0, 3, 0⟩,
      ⟨1, 4, 2, 1⟩, ⟨2, 5, 11, 1⟩, ⟨4, 3, 6, 1⟩,
      ⟨1, 7, 5, 2⟩, ⟨4, 8, 10, 2⟩, ⟨3, 6, 0, 2⟩,
      ⟨2, 10, 1, 3⟩, ⟨3, 11, 7, 3⟩, ⟨4, 9, 4, 3⟩,
      ⟨1, 13, 20, 4⟩, ⟨6, 14, 21, 4⟩, ⟨5, 12, 15, 4⟩,
      ⟨1, 16, 14, 5⟩, ⟨5, 17, 23, 5⟩, ⟨7, 15, 18, 5⟩,
      ⟨1, 19, 17, 6⟩, ⟨7, 20, 22, 6⟩, ⟨6, 18, 12, 6⟩,
      ⟨5, 22, 13, 7⟩, ⟨6, 23, 19, 7⟩, ⟨7, 21, 16, 7⟩] }

/-! ## The mesh parser (lines 1327-1395) -/

/-- How a run of the parser ends when it does not return: `thrown` is a C++
exception (`stof` and `stoi` throw `invalid_argument` on a field that is not a
number), `undefined` is undefined behaviour or a crash (reading `element[k]`
where the vector has never stored anything, a null pointer, `at` out of
range). -/
inductive Failure where
  | thrown
  | undefined
deriving DecidableEq

/-- The tokens `getline(stream, buffer, ' ')` still delivers from the characters
`cs`, with `cur` the characters of the token being read: every space ends a
token, and the end of the line ends one only when it has a character. -/
def splitAux : List Char → List Char → List String
  | [], cur => if cur = [] then [] else [String.mk cur]
  | c :: cs, cur => if c = ' ' then String.mk cur :: splitAux cs [] else splitAux cs (cur ++ [c])

/-- The function `splitBySpace` (lines 1327-1335). -/
def splitBySpace (s : String) : List String := splitAux s.data []

/-- The read `element[k]` of a `vector<string>`, which checks nothing.  The list
is what the storage of the vector holds: the tokens of the line and, behind
them, what earlier lines have left there.  Reading a place where nothing was
ever stored is undefined behaviour. -/
def elementAt (element : List String) (k : Nat) : Except Failure String :=
  match element[k]? with
  | some s => .ok s
  | none => .error .undefined

/-- A call of `stof` or `stoi`: the conversion throws when it yields nothing. -/
def convert {α : Type} (conv : String → Option α) (s : String) : Except Failure α :=
  match conv s with
  | some a => .ok a
  | none => .error .thrown

/-- The statements `element.clear(); splitBySpace(buffer, element);` of lines
1362-1363 on the storage of the vector `element`, which is declared once, before
the loop (line 1360): `clear` sets the size to zero and leaves the storage as it
is, and `push_back` writes the tokens of the line over it from the front, so
that behind them the tokens of earlier lines are still there (a destroyed
`std::string` keeps its characters when they lie inside the object, as the short
tokens of a mesh file do). -/
def refill (element : List String) (buffer : String) : List String :=
  splitBySpace buffer ++ element.drop (splitBySpace buffer).length

/-- The body of the loop of `parseObjFile` over the lines of the file (lines
1361-1378) for one line, from the storage `element` the lines before have left
and the mesh read so far: a line whose first token is `v` adds a vertex, every
other line adds a face.  The reads `element[0]`, …, `element[3]` check nothing,
so where the line has fewer than four tokens they meet what is behind them in
the storage. -/
def parseLine (stof : String → Option R) (stoi : String → Option Int) (buffer : String)
    (element : List String) (mesh : Mesh_Data R) :
    Except Failure (List String × Mesh_Data R) := do
  let element := refill element buffer
  let directive ← elementAt element 0
  if directive = "v" then
    let x ← (elementAt element 1).bind (convert stof)
    let y ← (elementAt element 2).bind (convert stof)
    let z ← (elementAt element 3).bind (convert stof)
    .ok (element, { mesh with vertices := mesh.vertices ++ [some ⟨x, y, z⟩] })
  else
    let idx1 ← (elementAt element 1).bind (convert stoi)
    let idx2 ← (elementAt element 2).bind (convert stoi)
    let idx3 ← (elementAt element 3).bind (convert stoi)
    .ok (element, { mesh with faces := mesh.faces ++ [⟨idx1, idx2, idx3⟩] })

/-- The loop `while (getline(file, buffer))` of `parseObjFile` over the lines
still to read, from the storage of `element` and the mesh read so far. -/
def parseLinesFrom (stof : String → Option R) (stoi : String → Option Int) :
    List String → List String → Mesh_Data R → Except Failure (List String × Mesh_Data R)
  | [], element, mesh => .ok (element, mesh)
  | buffer :: lines, element, mesh =>
    (parseLine stof stoi buffer element mesh).bind fun st =>
      parseLinesFrom stof stoi lines st.1 st.2

/-- The declaration `vector<string> element;` and the loop over the lines of the
file (lines 1360-1378): the vector starts with no storage. -/
def parseLines (stof : String → Option R) (stoi : String → Option Int)
    (lines : List String) (mesh : Mesh_Data R) : Except Failure (Mesh_Data R) :=
  (parseLinesFrom stof stoi lines [] mesh).map fun st => st.2

/-- The body of the loop of lines 1386-1388: `obj.hevs->at(vIdx)->index = vIdx`. -/
def assignIndex (vIdx : Nat) (obj : Object R) : Option (Object R) := do
  let hev ← obj.hev vIdx
  some { obj with hevs := obj.hevs.set vIdx (some { hev with index := (vIdx : Int) }) }

/-- The function `parseObjFile` (lines 1338-1395) from the point where the file is
open: `lines` are the lines `getline` reads from it.  The library functions
`stof` and `stoi` and the half-edge builder `build_HE` of `halfedge.h`, which is
not among the sources, are parameters; `build_HE` hands back the vertices, the
faces and the half-edges it has allocated.  The mesh starts with the `NULL` that
makes its vertices 1-indexed. -/
def parseObjFile (sqrt : R → R) (stof : String → Option R) (stoi : String → Option Int)
    (build_HE : Mesh_Data R → Option (List (Option (HEV R)) × List (Option HEF) × List HE))
    (lines : List String) (obj : Object R) : Except Failure (Object R) := do
  let mesh ← parseLines stof stoi lines ⟨[none], []⟩
  match build_HE mesh with
  | none => .error .undefined
  | some (hevs, hefs, hes) =>
    let obj1 : Object R := { obj with mesh := mesh, hevs := hevs, hefs := hefs, hes := hes }
    match forLoop assignIndex (vertexRange obj1) obj1 with
    | none => .error .undefined
    | some obj2 =>
      match computeNormalsUpdateBuffers sqrt obj2 with
      | none => .error .undefined
      | some obj3 => .ok obj3

/-- The value of a string of one decimal digit. -/
def digitValue (s : String) : Option Nat :=
  (["0", "1", "2", "3", "4", "5", "6", "7", "8", "9"].indexOf? s)

/-- A stand-in for `stof` on the rationals, for fields of one digit. -/
def stofDigit (s : String) : Option ℚ := (digitValue s).map fun n => (n : ℚ)

/-- A stand-in for `stoi`, for fields of one digit. -/
def stoiDigit (s : String) : Option Int := (digitValue s).map fun n => (n : Int)

/-- A stand-in for `build_HE` on a mesh of four vertices with the four faces of
`tetraObject`: the half-edge structure of `tetraObject`, every `index` still
unset. -/
def tetraBuild (mesh : Mesh_Data ℚ) :
    Option (List (Option (HEV ℚ)) × List (Option HEF) × List HE) :=
  match mesh.vertices with
  | [none, some p1, some p2, some p3, some p4] =>
    some ((tetraObject p1 p2 p3 p4).hevs.map (Option.map fun v => { v with index := 0 }),
      (tetraObject p1 p2 p3 p4).hefs, (tetraObject p1 p2 p3 p4).hes)
  | _ => none

/-- The lines of the `.obj` file of the tetrahedron `tetra`. -/
def tetraLines : List String :=
  ["v 0 0 0", "v 1 0 0", "v 0 1 0", "v 0 0 2", "f 1 3 2", "f 1 2 4", "f 1 4 3", "f 2 3 4"]

/-- An object before it is filled. -/
def emptyObject : Object R :=
  { vertex_buffer := [], normal_buffer := [], mesh := ⟨[], []⟩, hevs := [], hefs := [], hes := [] }

/-! ## The tetrahedron of scenario S2 -/

/-- The tetrahedron of scenario S2: the vertices `(1,1,1)`, `(-1,-1,1)`,
`(-1,1,-1)`, `(1,-1,-1)` with the four faces of `tetraObject`, which wind
outward. -/
def s2Tetra : Object R := tetraObject ⟨1, 1, 1⟩ ⟨-1, -1, 1⟩ ⟨-1, 1, -1⟩ ⟨1, -1, -1⟩

/-- The exact solver for the operator `F` of scenario S2, whose inverse is
`(45/46) (I + (1/180) J)` with `J` the matrix of ones. -/
def s2Solver : SparseLU R :=
  { info_ok := fun _ => true
    solve := fun _ b => some (b.map fun v => 45 / 46 * (v + 1 / 180 * b.sum)) }

/-- The position of a mesh vertex as an Eigen vector. -/
def Vertex.pos (v : Vertex R) : Vector3f R := ⟨v.x, v.y, v.z⟩

/-! ## The cube of scenarios S3 and S5 -/

/-- The object `parseObjFile` builds for a cube with corners `p1 … p8`, cut into
twelve triangles by one diagonal per square: the faces `(1,2,4)`, `(1,4,3)`,
`(3,4,6)`, `(3,6,5)`, `(5,6,8)`, `(5,8,7)`, `(7,8,2)`, `(7,2,1)`, `(2,8,6)`,
`(2,6,4)`, `(7,1,3)`, `(7,3,5)`.  Face `k` owns the half-edges `3k`, `3k+1`,
`3k+2`, and the normals are still unset. -/
def cubeObject (p1 p2 p3 p4 p5 p6 p7 p8 : Vertex R) : Object R :=
  { vertex_buffer := []
    normal_buffer := []
    mesh := ⟨[none, some p1, some p2, some p3, some p4, some p5, some p6, some p7, some p8],
      [⟨1, 2, 4⟩, ⟨1, 4, 3⟩, ⟨3, 4, 6⟩, ⟨3, 6, 5⟩, ⟨5, 6, 8⟩, ⟨5, 8, 7⟩,
        ⟨7, 8, 2⟩, ⟨7, 2, 1⟩, ⟨2, 8, 6⟩, ⟨2, 6, 4⟩, ⟨7, 1, 3⟩, ⟨7, 3, 5⟩]⟩
    hevs := [none,
      some ⟨p1.x, p1.y, p1.z, 0, 1, ⟨0, 0, 0⟩⟩,
      some ⟨p2.x, p2.y, p2.z, 1, 2, ⟨0, 0, 0⟩⟩,
      some ⟨p3.x, p3.y, p3.z, 5, 3, ⟨0, 0, 0⟩⟩,
      some ⟨p4.x, p4.y, p4.z, 2, 4, ⟨0, 0, 0⟩⟩,
      some ⟨p5.x, p5.y, p5.z, 11, 5, ⟨0, 0, 0⟩⟩,
      some ⟨p6.x, p6.y, p6.z, 8, 6, ⟨0, 0, 0⟩⟩,
      some ⟨p7.x, p7.y, p7.z, 17, 7, ⟨0, 0, 0⟩⟩,
      some ⟨p8.x, p8.y, p8.z, 14, 8, ⟨0, 0, 0⟩⟩]
    hefs := [some ⟨0⟩, some ⟨3⟩, some ⟨6⟩, some ⟨9⟩, some ⟨12⟩, some ⟨15⟩, some ⟨18⟩,
      some ⟨21⟩, some ⟨24⟩, some ⟨27⟩, some ⟨30⟩, some ⟨33⟩]
    hes := [⟨1, 1, 22, 0⟩, ⟨2, 2, 29, 0⟩, ⟨4, 0, 3, 0⟩,
      ⟨1, 4, 2, 1⟩, ⟨4, 5, 6, 1⟩, ⟨3, 3, 31, 1⟩,
      ⟨3, 7, 4, 2⟩, ⟨4, 8, 28, 2⟩, ⟨6, 6, 9, 2⟩,
      ⟨3, 10, 8, 3⟩, ⟨6, 11, 12, 3⟩, ⟨5, 9, 34, 3⟩,
      ⟨5, 13, 10, 4⟩, ⟨6, 14, 25, 4⟩, ⟨8, 12, 15, 4⟩,
      ⟨5, 16, 14, 5⟩, ⟨8, 17, 18, 5⟩, ⟨7, 15, 35, 5⟩,
      ⟨7, 19, 16, 6⟩, ⟨8, 20, 24, 6⟩, ⟨2, 18, 21, 6⟩,
      ⟨7, 22, 20, 7⟩, ⟨2, 23, 0, 7⟩, ⟨1, 21, 30, 7⟩,
      ⟨2, 25, 19, 8⟩, ⟨8, 26, 13, 8⟩, ⟨6, 24, 27, 8⟩,
      ⟨2, 28, 26, 9⟩, ⟨6, 29, 7, 9⟩, ⟨4, 27, 1, 9⟩,
      ⟨7, 31, 23, 10⟩, ⟨1, 32, 5, 10⟩, ⟨3, 30, 33, 10⟩,
      ⟨7, 34, 32, 11⟩, ⟨3, 35, 11, 11⟩, ⟨5, 33, 17, 11⟩] }

/-- The cube of scenario S3, with corners `(±1, ±1, ±1)`; its triangles wind
outward. -/
def cube : Object ℚ :=
  cubeObject ⟨-1, -1, 1⟩ ⟨1, -1, 1⟩ ⟨-1, 1, 1⟩ ⟨1, 1, 1⟩ ⟨-1, 1, -1⟩ ⟨1, 1, -1⟩ ⟨-1, -1, -1⟩
    ⟨1, -1, -1⟩

/-- The operator `F = I - Δ / 2` of `cube` (time step `1/2`). -/
def cubeF : SparseMatrix ℚ :=
  ⟨8, 8,
    [(0, 0, some (19 / 16)), (1, 1, some (23 / 20)), (2, 2, some (23 / 20)),
      (3, 3, some (19 / 16)), (4, 4, some (19 / 16)), (5, 5, some (23 / 20)),
      (6, 6, some (23 / 20)), (7, 7, some (19 / 16)), (0, 1, some (-1 / 16)),
      (0, 6, some (-1 / 16)), (0, 2, some (-1 / 16)), (0, 3, some 0), (1, 3, some (-1 / 20)),
      (1, 5, some 0), (1, 7, some (-1 / 20)), (1, 6, some 0), (1, 0, some (-1 / 20)),
      (2, 0, some (-1 / 20)), (2, 6, some 0), (2, 4, some (-1 / 20)), (2, 5, some 0),
      (2, 3, some (-1 / 20)), (3, 0, some 0), (3, 2, some (-1 / 16)), (3, 5, some (-1 / 16)),
      (3, 1, some (-1 / 16)), (4, 2, some (-1 / 16)), (4, 6, some (-1 / 16)), (4, 7, some 0),
      (4, 5, some (-1 / 16)), (5, 2, some 0), (5, 4, some (-1 / 20)), (5, 7, some (-1 / 20)),
      (5, 1, some 0), (5, 3, some (-1 / 20)), (6, 4, some (-1 / 20)), (6, 2, some 0),
      (6, 0, some (-1 / 20)), (6, 1, some 0), (6, 7, some (-1 / 20)), (7, 4, some 0),
      (7, 6, some (-1 / 16)), (7, 1, some (-1 / 16)), (7, 5, some (-1 / 16))]⟩

/-- The coefficients of `cubeF` as a dense table. -/
def cubeFTable : List (List ℚ) :=
  [[19 / 16, -1 / 16, -1 / 16, 0, 0, 0, -1 / 16, 0],
    [-1 / 20, 23 / 20, 0, -1 / 20, 0, 0, 0, -1 / 20],
    [-1 / 20, 0, 23 / 20, -1 / 20, -1 / 20, 0, 0, 0],
    [0, -1 / 16, -1 / 16, 19 / 16, 0, -1 / 16, 0, 0],
    [0, 0, -1 / 16, 0, 19 / 16, -1 / 16, -1 / 16, 0],
    [0, 0, 0, -1 / 20, -1 / 20, 23 / 20, 0, -1 / 20],
    [-1 / 20, 0, 0, 0, -1 / 20, 0, 23 / 20, -1 / 20],
    [0, -1 / 16, 0, 0, 0, -1 / 16, -1 / 16, 19 / 16]]

/-- The inverse of the operator `cubeF`. -/
def cubeInverse : List (List ℚ) :=
  [[9890 / 11663, 1085 / 23326, 1085 / 23326, 46 / 11663, 46 / 11663, 15 / 23326,
      1085 / 23326, 46 / 11663],
    [434 / 11663, 20425 / 23326, 95 / 23326, 434 / 11663, 6 / 11663, 95 / 23326, 95 / 23326,
      434 / 11663],
    [434 / 11663, 95 / 23326, 20425 / 23326, 434 / 11663, 434 / 11663, 95 / 23326, 95 / 23326,
      6 / 11663],
    [46 / 11663, 1085 / 23326, 1085 / 23326, 9890 / 11663, 46 / 11663, 1085 / 23326,
      15 / 23326, 46 / 11663],
    [46 / 11663, 15 / 23326, 1085 / 23326, 46 / 11663, 9890 / 11663, 1085 / 23326,
      1085 / 23326, 46 / 11663],
    [6 / 11663, 95 / 23326, 95 / 23326, 434 / 11663, 434 / 11663, 20425 / 23326, 95 / 23326,
      434 / 11663],
    [434 / 11663, 95 / 23326, 95 / 23326, 6 / 11663, 434 / 11663, 95 / 23326, 20425 / 23326,
      434 / 11663],
    [46 / 11663, 1085 / 23326, 15 / 23326, 46 / 11663, 46 / 11663, 1085 / 23326, 1085 / 23326,
      9890 / 11663]]

/-- A solver that is exact for the operator `cubeF`. -/
def cubeSolver : SparseLU ℚ :=
  { info_ok := fun _ => true
    solve := fun _ b => some (denseMulVec cubeInverse b) }

/-- The cube of scenario S5: the cube with corners `(±1, ±1, ±1)` with vertex `4`
moved onto vertex `1`, the other end of the diagonal of the square `1, 2, 4, 3`:
the two triangles `(1,2,4)` and `(1,4,3)` of that square have zero area, the
square has become a line. -/
def pinchedCube : Object R :=
  cubeObject ⟨-1, -1, 1⟩ ⟨1, -1, 1⟩ ⟨-1, 1, 1⟩ ⟨-1, -1, 1⟩ ⟨-1, 1, -1⟩ ⟨1, 1, -1⟩ ⟨-1, -1, -1⟩
    ⟨1, -1, -1⟩

/-! ## The grammar of a mesh line, as the specification describes it -/

/-- The first token of the line is the directive `v`: the test
`element[0] == "v"` of line 1366. -/
def isVertexLine (buffer : String) : Bool := (splitBySpace buffer).head? == some "v"

/-- The line begins with the character `directive` followed by a space. -/
def beginsWith (directive : Char) (buffer : String) : Bool :=
  buffer.data.take 2 == [directive, ' ']

/-- The fields of a line: the tokens after the directive, the first three. -/
def lineFields (buffer : String) : List String := ((splitBySpace buffer).drop 1).take 3

/-- The vertex a line gives: its three fields as floats. -/
def lineVertex (stof : String → Option R) (buffer : String) : Option (Vertex R) :=
  match (lineFields buffer).map stof with
  | [some x, some y, some z] => some ⟨x, y, z⟩
  | _ => none

/-- The face a line gives: its three fields as integers, in the order of the
line. -/
def lineFace (stoi : String → Option Int) (buffer : String) : Option Face :=
  match (lineFields buffer).map stoi with
  | [some idx1, some idx2, some idx3] => some ⟨idx1, idx2, idx3⟩
  | _ => none

/-- A field of the line is a number of the kind the line asks for: a float on a
line with the directive `v`, an integer on any other line. -/
def fieldOk (stof : String → Option R) (stoi : String → Option Int) (buffer s : String) : Bool :=
  if isVertexLine buffer then (stof s).isSome else (stoi s).isSome

/-- The line matches the grammar as the parser applies it: it has a directive
and three fields after it, floats after `v` and integers after anything else. -/
def WellFormedLine (stof : String → Option R) (stoi : String → Option Int)
    (buffer : String) : Prop :=
  splitBySpace buffer ≠ [] ∧ (lineFields buffer).length = 3 ∧
    ∀ s ∈ lineFields buffer, fieldOk stof stoi buffer s = true

instance (stof : String → Option R) (stoi : String → Option Int) (buffer : String) :
    Decidable (WellFormedLine stof stoi buffer) := by
  unfold WellFormedLine
  infer_instance

instance {ε α : Type} [DecidableEq ε] [DecidableEq α] : DecidableEq (Except ε α) :=
  fun a b =>
    match a, b with
    | .ok x, .ok y => decidable_of_iff (x = y) (by simp)
    | .error x, .error y => decidable_of_iff (x = y) (by simp)
    | .ok _, .error _ => isFalse (by simp)
    | .error _, .ok _ => isFalse (by simp)

/-! ## The command line (lines 1876-1901) -/

/-- A `float` as `stof` hands it back for a command-line argument: a number, or
one of the non-finite values `inf`, `-inf` and `nan`, which the C library reads
from the words `inf`, `-inf` and `nan`. -/
inductive FloatValue (R : Type) where
  | finite (x : R)
  | inf
  | negInf
  | nan
deriving DecidableEq

/-- The comparison `f <= 0` of a `float` with zero (line 1899): false for
`nan`, like every comparison with `nan`. -/
def FloatValue.leZero : FloatValue R → Bool
  | .finite x => decide (x ≤ 0)
  | .inf => false
  | .negInf => true
  | .nan => false

/-- How `main` leaves its argument checks: the process has ended with `exit(code)`,
an exception thrown by `stoi` or `stof` has left `main` (nothing in the program
catches it), or `main` goes on to `glutInit` with the three values it has
read. -/
inductive Startup (R : Type) where
  | exited (code : Int)
  | thrown
  | proceeds (xres yres : Int) (time_step_h : FloatValue R)
deriving DecidableEq

/-- The function `usage` (lines 1876-1881): it prints the usage text and calls
`exit(1)`. -/
def usage : Startup R := .exited 1

/-- The argument checks of `main` (lines 1888-1901) on the command line `argv`,
program name included, so that `argc` is its length.  The library functions
`stoi` and `stof` are parameters; they yield nothing when they throw, and `stof`
may hand back a non-finite float. -/
def main (stoi : String → Option Int) (stof : String → Option (FloatValue R))
    (argv : List String) : Startup R :=
  if argv.length ≠ 5 then usage
  else
    match (argv[2]?).bind stoi with
    | none => .thrown
    | some xres =>
      match (argv[3]?).bind stoi with
      | none => .thrown
      | some yres =>
        match (argv[4]?).bind stof with
        | none => .thrown
        | some time_step_h =>
          if xres ≤ 0 ∨ yres ≤ 0 ∨ time_step_h.leZero = true then usage
          else .proceeds xres yres time_step_h

/-- A stand-in for `stof` on a command-line argument: a field of one digit, and
the word `nan`, which `stof` converts to the float `nan`. -/
def stofArg (s : String) : Option (FloatValue ℚ) :=
  if s = "nan" then some .nan else (digitValue s).map fun n => .finite (n : ℚ)

/-! ## The keyboard and the timer (lines 1741-1850) -/

/-- The globals of `smooth.cpp` that `key_pressed` and `smoothNextFrame` read
and write, and `timers`, the number of callbacks that
`glutTimerFunc(rate, smoothNextFrame, rate)` has registered and GLUT has not run
yet. -/
structure Globals (R : Type) where
  objects : List (Object R)
  started_smoothing : Bool
  wireframe_mode : Bool
  cam_position : Vector3f R
  x_view_angle : R
  timers : Nat
deriving DecidableEq

/-- How a callback ends when it does not return: `exit(code)` or a crash. -/
inductive Stop where
  | exited (code : Int)
  | crashed
deriving DecidableEq

/-- The constant `start_smoothing_key` (line 253). -/
def start_smoothing_key : Char := ' '

/-- The constant `step_size = 0.2` (line 316). -/
def step_size : R := 1 / 5

/-- The function `deg2rad` (lines 1207-1210), with `pi` for `M_PI`. -/
def deg2rad (pi : R) (angle : R) : R := angle * pi / 180

/-- The call `smoothNextFrame(rate)` on the globals (lines 1741-1755): every
object is smoothed, and `glutTimerFunc` registers one more callback. -/
def Globals.smoothNextFrame (sqrt : R → R) (solver : SparseLU R) (time_step_h : R)
    (g : Globals R) : Option (Globals R) :=
  (Smooth.smoothNextFrame sqrt solver time_step_h g.objects).map fun objects =>
    { g with objects := objects, timers := g.timers + 1 }

/-- The function `key_pressed` (lines 1771-1850); `sin`, `cos` and `pi` stand for
the library's.  The calls of `glutPostRedisplay` only ask for a redraw. -/
def key_pressed (sqrt : R → R) (solver : SparseLU R) (time_step_h : R) (sin cos : R → R)
    (pi : R) (key : Char) (g : Globals R) : Except Stop (Globals R) :=
  if key = 'q' then .error (.exited 0)
  else if key = 't' then .ok { g with wireframe_mode := !g.wireframe_mode }
  else
    let x_view_rad := deg2rad pi g.x_view_angle
    if key = start_smoothing_key then
      if !g.started_smoothing then
        match g.smoothNextFrame sqrt solver time_step_h with
        | none => .error .crashed
        | some g' => .ok { g' with started_smoothing := true }
      else .ok g
    else if key = 'w' then
      .ok { g with cam_position :=
        ⟨g.cam_position.x + step_size * sin x_view_rad, g.cam_position.y,
          g.cam_position.z - step_size * cos x_view_rad⟩ }
    else if key = 'a' then
      .ok { g with cam_position :=
        ⟨g.cam_position.x - step_size * cos x_view_rad, g.cam_position.y,
          g.cam_position.z - step_size * sin x_view_rad⟩ }
    else if key = 's' then
      .ok { g with cam_position :=
        ⟨g.cam_position.x - step_size * sin x_view_rad, g.cam_position.y,
          g.cam_position.z + step_size * cos x_view_rad⟩ }
    else if key = 'd' then
      .ok { g with cam_position :=
        ⟨g.cam_position.x + step_size * cos x_view_rad, g.cam_position.y,
          g.cam_position.z + step_size * sin x_view_rad⟩ }
    else .ok g

/-- What the GLUT event loop hands to the program: a key press, or the expiry of
a timer. -/
inductive Event where
  | key (c : Char)
  | timer
deriving DecidableEq

/-- One event of the GLUT loop: a key press runs `key_pressed`; the expiry of a
timer runs a registered callback `smoothNextFrame`, when there is one. -/
def handle (sqrt : R → R) (solver : SparseLU R) (time_step_h : R) (sin cos : R → R)
    (pi : R) (e : Event) (g : Globals R) : Except Stop (Globals R) :=
  match e with
  | .key c => key_pressed sqrt solver time_step_h sin cos pi c g
  | .timer =>
    if g.timers = 0 then .ok g
    else
      match ({ g with timers := g.timers - 1 } : Globals R).smoothNextFrame sqrt solver
          time_step_h with
      | none => .error .crashed
      | some g' => .ok g'

/-- The events of the GLUT loop, one after the other. -/
def run (sqrt : R → R) (solver : SparseLU R) (time_step_h : R) (sin cos : R → R) (pi : R) :
    List Event → Globals R → Except Stop (Globals R)
  | [], g => .ok g
  | e :: es, g =>
    match handle sqrt solver time_step_h sin cos pi e g with
    | .error s => .error s
    | .ok g' => run sqrt solver time_step_h sin cos pi es g'

/-- The number of events of the run at which `key_pressed` calls
`smoothNextFrame(FRAME_RATE)` (line 1811): the presses of the smoothing key
handled while `started_smoothing` is false. -/
def initiations (sqrt : R → R) (solver : SparseLU R) (time_step_h : R) (sin cos : R → R)
    (pi : R) : List Event → Globals R → Nat
  | [], _ => 0
  | e :: es, g =>
    (if e = .key start_smoothing_key ∧ g.started_smoothing = false then 1 else 0) +
      match handle sqrt solver time_step_h sin cos pi e g with
      | .error _ => 0
      | .ok g' => initiations sqrt solver time_step_h sin cos pi es g'

/-- The globals when the event loop starts, for a scene with the given objects
and camera. -/
def initialGlobals (objects : List (Object R)) (cam_position : Vector3f R) : Globals R :=
  { objects := objects, started_smoothing := false, wireframe_mode := false,
    cam_position := cam_position, x_view_angle := 0, timers := 0 }

/-! ## Triangles -/

/-- The area of the triangle `P`, `Q`, `S` as `build_F_operator` (lines
1646-1650) and `calculateVertexNormal` compute it from the corner `P`: half the
norm of the cross product `(Q - P) × (S - P)`. -/
def triangleArea (sqrt : R → R) (P Q S : Vector3f R) : R :=
  (1 / 2) * ((Q.sub P).cross (S.sub P)).norm sqrt

/-- The points `P`, `Q`, `S` lie on one line: the rays from `P` to `Q` and from
`P` to `S` are proportional, `a (Q - P) = b (S - P)` with `a`, `b` not both
zero. -/
def Collinear (P Q S : Vector3f R) : Prop :=
  ∃ a b : R, (a ≠ 0 ∨ b ≠ 0) ∧ Vector3f.smul a (Q.sub P) = Vector3f.smul b (S.sub P)

/-! ## The maximum principle -/

/-- Every weight `cot α + cot β` read in a ring is a number, and not a negative
one. -/
def Object.NonNegWeights (sqrt : R → R) (obj : Object R) : Prop :=
  ∀ i, i < obj.hevs.length → 1 ≤ i → ∀ e ∈ ringOf sqrt obj i,
    e.total_cot.isSome = true ∧ ∀ w ∈ e.total_cot, 0 ≤ w

instance (sqrt : R → R) (obj : Object R) : Decidable (obj.NonNegWeights sqrt) := by
  unfold Object.NonNegWeights
  infer_instance

/-- Every vertex `1..|V|` of the object lies in the box with the corners `lo`
and `hi`. -/
def Object.InBox (obj : Object R) (lo hi : Vector3f R) : Prop :=
  ∀ i, i < obj.hevs.length → 1 ≤ i → ∀ v ∈ obj.hev i,
    (lo.x ≤ v.x ∧ v.x ≤ hi.x) ∧ (lo.y ≤ v.y ∧ v.y ≤ hi.y) ∧ (lo.z ≤ v.z ∧ v.z ≤ hi.z)

instance (obj : Object R) (lo hi : Vector3f R) : Decidable (obj.InBox lo hi) := by
  unfold Object.InBox
  infer_instance

/-! ## The row of `Δ`, as the specification describes it -/

/-- A half-edge `he` from `v_i` to a neighbour, with the three vertices the
specification names for it: the neighbour `v_j`, the same-face apex `v_α` and
the flip-face apex `v_β`. -/
structure Spoke (R : Type) where
  he : Nat
  v_j : HEV R
  v_alpha : HEV R
  v_beta : HEV R

/-- The vertex `he.next.vertex`. -/
def Object.nextVertex (obj : Object R) (he : Nat) : Option (HEV R) :=
  ((obj.next he).bind obj.tail).bind obj.hev

/-- The vertex `he.next.next.vertex`. -/
def Object.nextNextVertex (obj : Object R) (he : Nat) : Option (HEV R) :=
  (((obj.next he).bind obj.next).bind obj.tail).bind obj.hev

/-- The vertex `he.flip.next.next.vertex`. -/
def Object.flipNextNextVertex (obj : Object R) (he : Nat) : Option (HEV R) :=
  ((((obj.flip he).bind obj.next).bind obj.next).bind obj.tail).bind obj.hev

/-- The three vertices of the spoke are those of its half-edge in the mesh:
`v_j = he.next.vertex`, `v_α = he.next.next.vertex` and
`v_β = he.flip.next.next.vertex`. -/
def Object.IsSpoke (obj : Object R) (s : Spoke R) : Prop :=
  obj.nextVertex s.he = some s.v_j ∧ obj.nextNextVertex s.he = some s.v_alpha ∧
    obj.flipNextNextVertex s.he = some s.v_beta

/-! # Theorems -/

/-! ## Lemmas: sparse matrices -/

namespace SparseMatrix

theorem insert_data {m m' : SparseMatrix R} {row : Nat} {col : Int} {v : Option R}
    (h : m.insert row col v = some m') :
    m' = { m with data := m.data ++ [(row, col.toNat, v)] } ∧
      0 ≤ col ∧ col < m.cols ∧ row < m.rows ∧ m.stored row col.toNat = none := by
  unfold insert at h
  split at h
  · rename_i hc
    simp only [Option.some.injEq] at h
    exact ⟨h.symm, hc⟩
  · simp at h

theorem stored_insert {m m' : SparseMatrix R} {row : Nat} {col : Int} {v : Option R}
    (h : m.insert row col v = some m') (r c : Nat) :
    m'.stored r c = if r = row ∧ c = col.toNat then some v else m.stored r c := by
  obtain ⟨rfl, -, -, -, hs⟩ := insert_data h
  by_cases hrc : r = row ∧ c = col.toNat
  · obtain ⟨rfl, rfl⟩ := hrc
    simp only [stored, Option.map_eq_none'] at hs
    simp [stored, List.find?_append, hs]
  · have : ((row == r) && (col.toNat == c)) = false := by
      rcases not_and_or.mp hrc with h1 | h1
      · simp [Ne.symm h1]
      · simp [Ne.symm h1]
    simp [stored, List.find?_append, hrc, this]

theorem stored_mapRow (m : SparseMatrix R) (i : Nat) (f : Option R → Option R) (r c : Nat) :
    (m.mapRow i f).stored r c = if r = i then (m.stored r c).map f else m.stored r c := by
  unfold stored mapRow
  simp only [List.find?_map]
  have hp : ((fun e : Nat × Nat × Option R => e.1 == r && e.2.1 == c) ∘
      fun e : Nat × Nat × Option R => if e.1 = i then (e.1, e.2.1, f e.2.2) else e) =
      fun e : Nat × Nat × Option R => e.1 == r && e.2.1 == c := by
    funext e
    by_cases h : e.1 = i <;> simp [h]
  rw [hp]
  cases h : m.data.find? (fun e => e.1 == r && e.2.1 == c) with
  | none => simp
  | some e =>
    have := List.find?_some h
    simp only [Bool.and_eq_true, beq_iff_eq] at this
    by_cases hr : r = i
    · simp [hr, ← this.1]
      simp [this.1, hr]
    · have : ¬ e.1 = i := by rw [this.1]; exact hr
      simp [hr, this]

theorem coeff_mapRow (m : SparseMatrix R) (i : Nat) (f : Option R → Option R)
    (hf : f (some 0) = some 0) (r c : Nat) :
    (m.mapRow i f).coeff r c = if r = i then f (m.coeff r c) else m.coeff r c := by
  unfold coeff
  rw [stored_mapRow]
  by_cases hr : r = i
  · cases h : m.stored r c <;> simp [hr, h, hf]
  · simp [hr]

theorem stored_scale (s : R) (m : SparseMatrix R) (r c : Nat) :
    (scale s m).stored r c = (m.stored r c).map (fmul (some s)) := by
  unfold stored scale
  simp only [List.find?_map]
  have hp : ((fun e : Nat × Nat × Option R => e.1 == r && e.2.1 == c) ∘
      fun e : Nat × Nat × Option R => (e.1, e.2.1, fmul (some s) e.2.2)) =
      fun e : Nat × Nat × Option R => e.1 == r && e.2.1 == c := by
    funext e
    rfl
  rw [hp]
  cases h : m.data.find? (fun e => e.1 == r && e.2.1 == c) <;> simp

theorem coeff_scale (s : R) (m : SparseMatrix R) (r c : Nat) :
    (scale s m).coeff r c = fmul (some s) (m.coeff r c) := by
  unfold coeff
  rw [stored_scale]
  cases h : m.stored r c <;> simp [fmul]

theorem find_range_diag (n i j : Nat) :
    (List.range n).find? (fun k => k == i && k == j) =
      if i = j ∧ i < n then some i else none := by
  induction n with
  | zero => simp
  | succ n ih =>
    rw [List.range_succ, List.find?_append, ih]
    by_cases hij : i = j
    · subst hij
      by_cases hlt : i < n
      · simp [hlt, Nat.lt_succ_of_lt hlt]
      · by_cases hn : n = i
        · subst hn
          simp
        · have : ¬ i < n + 1 := by omega
          simp [hlt, this, hn]
    · have : ∀ k : Nat, (k == i && k == j) = false := by
        intro k
        by_cases hk : k = i
        · subst hk
          simp [hij]
        · simp [hk]
      simp [hij, this]

theorem coeff_identity (n i j : Nat) :
    (identity n : SparseMatrix R).coeff i j = if i = j ∧ i < n then some 1 else some 0 := by
  unfold coeff stored identity
  simp only [List.find?_map]
  have hp : ((fun e : Nat × Nat × Option R => e.1 == i && e.2.1 == j) ∘
      fun k : Nat => (k, k, (some 1 : Option R))) = fun k => k == i && k == j := by
    funext k
    rfl
  rw [hp, find_range_diag]
  by_cases h : i = j ∧ i < n
  · rw [if_pos h, if_pos h]
    rfl
  · rw [if_neg h, if_neg h]
    rfl

theorem find_filter_of_imp {α : Type} (p q : α → Bool) (l : List α)
    (h : ∀ a, p a = true → q a = true) :
    (l.filter q).find? p = l.find? p := by
  induction l with
  | nil => rfl
  | cons a l ih =>
    by_cases hq : q a = true
    · rw [List.filter_cons_of_pos hq]
      simp only [List.find?_cons, ih]
    · have hpa : p a = false := by
        cases hp : p a
        · rfl
        · exact absurd (h a hp) hq
      rw [List.filter_cons_of_neg hq, List.find?_cons, hpa, ih]

theorem coeff_sub (a b : SparseMatrix R) (r c : Nat) :
    (a.sub b).coeff r c = fsub (a.coeff r c) (b.coeff r c) := by
  unfold coeff
  have hst : (a.sub b).stored r c =
      match a.stored r c with
      | some v => some (fsub v (b.coeff r c))
      | none => (b.stored r c).map fun w => fsub (some 0) w := by
    unfold sub
    simp only [stored, List.find?_append, List.find?_map]
    have hp1 : ((fun e : Nat × Nat × Option R => e.1 == r && e.2.1 == c) ∘
        fun e : Nat × Nat × Option R => (e.1, e.2.1, fsub e.2.2 (b.coeff e.1 e.2.1))) =
        fun e : Nat × Nat × Option R => e.1 == r && e.2.1 == c := by
      funext e
      rfl
    have hp2 : ((fun e : Nat × Nat × Option R => e.1 == r && e.2.1 == c) ∘
        fun e : Nat × Nat × Option R => (e.1, e.2.1, fsub (some 0) e.2.2)) =
        fun e : Nat × Nat × Option R => e.1 == r && e.2.1 == c := by
      funext e
      rfl
    rw [hp1, hp2]
    cases ha : a.data.find? (fun e => e.1 == r && e.2.1 == c) with
    | some e =>
      have := List.find?_some ha
      simp only [Bool.and_eq_true, beq_iff_eq] at this
      simp [this.1, this.2]
    | none =>
      have hq : ∀ e : Nat × Nat × Option R, (e.1 == r && e.2.1 == c) = true →
          (Option.map (fun e : Nat × Nat × Option R => e.2.2)
            (a.data.find? fun e' => e'.1 == e.1 && e'.2.1 == e.2.1)).isNone = true := by
        intro e he
        simp only [Bool.and_eq_true, beq_iff_eq] at he
        rw [he.1, he.2, ha]
        rfl
      rw [find_filter_of_imp _ _ _ hq]
      simp only [Option.none_or, Option.map_none', Option.map_map]
      rfl
  rw [hst]
  cases ha : a.stored r c with
  | some v => rfl
  | none =>
    cases hb : b.stored r c with
    | some w => rfl
    | none => simp [fsub]

end SparseMatrix

/-! ## Lemmas: the one-ring loop -/

theorem ringLoop_eq (sqrt : R → R) (obj : Object R) (i : Nat) (v_i_pos : Vector3f R)
    (curr_he : Nat) (fuel he : Nat) (st : RingState R) :
    ringLoop sqrt obj i v_i_pos curr_he fuel he st =
      (ringEntries sqrt obj v_i_pos curr_he fuel he).bind (ringSteps i st) := by
  induction fuel generalizing he st with
  | zero => rfl
  | succ fuel ih =>
    simp only [ringLoop, ringEntries, Option.bind_eq_bind]
    cases he1 : ringEntry sqrt obj v_i_pos he with
    | none => rfl
    | some e =>
      simp only [Option.some_bind]
      cases hs : ringStep i st e with
      | none =>
        by_cases hn : e.next = curr_he
        · simp [hn, ringSteps, hs]
        · simp only [hn, if_false, Option.none_bind]
          cases ringEntries sqrt obj v_i_pos curr_he fuel e.next <;> simp [ringSteps, hs]
      | some st' =>
        by_cases hn : e.next = curr_he
        · simp [hn, ringSteps, hs]
        · simp only [hn, if_false, Option.some_bind, ih]
          cases ringEntries sqrt obj v_i_pos curr_he fuel e.next <;> simp [ringSteps, hs]

theorem ringSteps_spec (i : Nat) (es : List (RingEntry R)) :
    ∀ (st st' : RingState R), ringSteps i st es = some st' →
      st'.incident_area = st.incident_area + incidentArea es ∧
      st'.total_cot_total = (es.map fun e => e.total_cot).foldl fadd st.total_cot_total ∧
      st'.op_matrix.rows = st.op_matrix.rows ∧ st'.op_matrix.cols = st.op_matrix.cols ∧
      (∀ e ∈ es, st'.op_matrix.stored (i - 1) e.col = some e.total_cot) ∧
      (∀ r c, (r = i - 1 → ∀ e ∈ es, e.col ≠ c) →
        st'.op_matrix.stored r c = st.op_matrix.stored r c) ∧
      (∀ e ∈ es, st.op_matrix.stored (i - 1) e.col = none ∧ 0 ≤ e.j - 1 ∧
        e.j - 1 < st.op_matrix.cols ∧ i - 1 < st.op_matrix.rows) ∧
      (es.map fun e => e.col).Nodup := by
  induction es with
  | nil =>
    intro st st' h
    simp only [ringSteps, Option.some.injEq] at h
    subst h
    simp [incidentArea]
  | cons e es ih =>
    intro st st' h
    simp only [ringSteps] at h
    cases hs : ringStep i st e with
    | none => simp [hs] at h
    | some st1 =>
      rw [hs, Option.some_bind] at h
      obtain ⟨ha, ht, hr, hc, hA, hB, hC, hD⟩ := ih st1 st' h
      unfold ringStep at hs
      cases hins : st.op_matrix.insert (i - 1) (e.j - 1) e.total_cot with
      | none => simp [hins] at hs
      | some m1 =>
        rw [hins, Option.map_some', Option.some.injEq] at hs
        subst hs
        obtain ⟨hm1, h0, hlt, hrow, hnone⟩ := SparseMatrix.insert_data hins
        have hst1 := SparseMatrix.stored_insert hins
        simp only at ha ht hr hc hA hB hC
        have hrows : m1.rows = st.op_matrix.rows := by rw [hm1]
        have hcols : m1.cols = st.op_matrix.cols := by rw [hm1]
        have hne : ∀ e' ∈ es, e'.col ≠ e.col := by
          intro e' he' heq
          have h1 := (hC e' he').1
          rw [hst1, heq] at h1
          simp [RingEntry.col] at h1
        refine ⟨?_, ?_, ?_, ?_, ?_, ?_, ?_, ?_⟩
        · rw [ha]
          simp [incidentArea, add_assoc]
        · rw [ht]
          simp
        · rw [hr, hrows]
        · rw [hc, hcols]
        · intro e' he'
          rcases List.mem_cons.mp he' with rfl | he'
          · rw [hB (i - 1) e'.col (fun _ e'' he'' => hne e'' he''), hst1]
            simp [RingEntry.col]
          · exact hA e' he'
        · intro r c hrc
          rw [hB r c (fun hr' e' he' => hrc hr' e' (List.mem_cons_of_mem _ he')), hst1]
          have : ¬ (r = i - 1 ∧ c = (e.j - 1).toNat) := by
            rintro ⟨h1, h2⟩
            exact hrc h1 e (List.mem_cons_self _ _) h2.symm
          rw [if_neg this]
        · intro e' he'
          rcases List.mem_cons.mp he' with rfl | he'
          · exact ⟨hnone, h0, hlt, hrow⟩
          · obtain ⟨h1, h2, h3, h4⟩ := hC e' he'
            rw [hst1] at h1
            have hcol : ¬ (e'.col = (e.j - 1).toNat) := hne e' he'
            simp only [hcol, and_false, if_false] at h1
            exact ⟨h1, h2, hcols ▸ h3, hrows ▸ h4⟩
        · rw [List.map_cons, List.nodup_cons]
          refine ⟨?_, hD⟩
          intro hmem
          obtain ⟨e', he', heq⟩ := List.mem_map.mp hmem
          exact hne e' he' heq

/-! ## Lemmas: one row of the assembly -/

theorem build_row_eq (sqrt : R → R) (obj : Object R) (i : Nat) (m : SparseMatrix R) :
    build_row sqrt obj i m = (oneRing sqrt obj i).bind fun es =>
      (ringSteps i ⟨m, 0, some 0⟩ es).bind fun st =>
        if close_to_zero st.incident_area then
          some (st.op_matrix.mapRow (i - 1) fun c => fmul c (some 0))
        else
          (st.op_matrix.insert (i - 1) ((i : Int) - 1)
            (fmul (some (-1)) st.total_cot_total)).map fun m2 =>
              m2.mapRow (i - 1) fun c => fdivBy c (2 * st.incident_area) := by
  unfold build_row oneRing
  cases hv : obj.hev i with
  | none => rfl
  | some v_i =>
    simp only [Option.bind_eq_bind, Option.some_bind, ringLoop_eq]
    cases ringEntries sqrt obj v_i.pos v_i.out obj.hes.length v_i.out with
    | none => rfl
    | some es =>
      simp only [Option.some_bind]
      cases ringSteps i ⟨m, 0, some 0⟩ es with
      | none => rfl
      | some st =>
        simp only [Option.some_bind]
        split
        · rfl
        · cases st.op_matrix.insert (i - 1) ((i : Int) - 1)
            (fmul (some (-1)) st.total_cot_total) <;> rfl

theorem toNat_pred (i : Nat) : ((i : Int) - 1).toNat = i - 1 := by omega

/-- What `build_row` leaves behind: the dimensions and the other rows are
untouched; row `i - 1`, empty before, holds the ring's coefficients. -/
theorem build_row_spec {sqrt : R → R} {obj : Object R} {i : Nat} {m m' : SparseMatrix R}
    (h : build_row sqrt obj i m = some m') :
    ∃ es, oneRing sqrt obj i = some es ∧ m'.rows = m.rows ∧ m'.cols = m.cols ∧
      (∀ r c, r ≠ i - 1 → m'.stored r c = m.stored r c) ∧
      (es.map fun e => e.col).Nodup ∧
      (∀ e ∈ es, 0 ≤ e.j - 1 ∧ e.j - 1 < m.cols) ∧
      ((∀ c, m.stored (i - 1) c = none) →
        (close_to_zero (incidentArea es) = true →
          (∀ e ∈ es, m'.stored (i - 1) e.col = some (fmul e.total_cot (some 0))) ∧
          (∀ c, (∀ e ∈ es, e.col ≠ c) → m'.stored (i - 1) c = none)) ∧
        (close_to_zero (incidentArea es) = false →
          1 ≤ i ∧ i - 1 < m.cols ∧ (∀ e ∈ es, e.col ≠ i - 1) ∧
          (∀ e ∈ es, m'.stored (i - 1) e.col =
            some (fdivBy e.total_cot (2 * incidentArea es))) ∧
          m'.stored (i - 1) (i - 1) =
            some (fdivBy (fmul (some (-1)) (totalCot es)) (2 * incidentArea es)) ∧
          (∀ c, c ≠ i - 1 → (∀ e ∈ es, e.col ≠ c) → m'.stored (i - 1) c = none))) := by
  rw [build_row_eq] at h
  cases hes : oneRing sqrt obj i with
  | none => simp [hes] at h
  | some es =>
    rw [hes, Option.some_bind] at h
    cases hst : ringSteps i ⟨m, 0, some 0⟩ es with
    | none => simp [hst] at h
    | some st =>
      rw [hst, Option.some_bind] at h
      obtain ⟨ha, ht, hr, hc, hA, hB, hC, hD⟩ := ringSteps_spec i es _ _ hst
      simp only [zero_add] at ha ht hr hc hB hC
      have htot : st.total_cot_total = totalCot es := by rw [ht]; rfl
      refine ⟨es, rfl, ?_⟩
      by_cases hz : close_to_zero st.incident_area = true
      · rw [if_pos hz, Option.some.injEq] at h
        subst h
        refine ⟨hr, hc, ?_, hD, fun e he => ⟨(hC e he).2.1, (hC e he).2.2.1⟩, ?_⟩
        · intro r c hrc
          rw [SparseMatrix.stored_mapRow, if_neg hrc]
          exact hB r c (fun h' => absurd h' hrc)
        · intro hempty
          refine ⟨fun _ => ⟨?_, ?_⟩, fun hz' => ?_⟩
          · intro e he
            rw [SparseMatrix.stored_mapRow, if_pos rfl, hA e he]
            rfl
          · intro c hc'
            rw [SparseMatrix.stored_mapRow, if_pos rfl, hB (i - 1) c (fun _ => hc'), hempty]
            rfl
          · rw [ha] at hz
            rw [hz] at hz'
            exact absurd hz' (by simp)
      · rw [if_neg hz] at h
        cases hins : st.op_matrix.insert (i - 1) ((i : Int) - 1)
            (fmul (some (-1)) st.total_cot_total) with
        | none => simp [hins] at h
        | some m2 =>
          rw [hins, Option.map_some', Option.some.injEq] at h
          subst h
          obtain ⟨hm2, h0, hlt, hrow, hnone⟩ := SparseMatrix.insert_data hins
          have hst2 := SparseMatrix.stored_insert hins
          rw [toNat_pred] at hnone
          simp only [toNat_pred] at hst2
          have hrows2 : m2.rows = st.op_matrix.rows := by rw [hm2]
          have hcols2 : m2.cols = st.op_matrix.cols := by rw [hm2]
          have hi1 : 1 ≤ i := by omega
          have hdiag : ∀ e ∈ es, e.col ≠ i - 1 := by
            intro e he heq
            have := hA e he
            rw [heq, hnone] at this
            exact absurd this (by simp)
          refine ⟨hrows2.trans hr, hcols2.trans hc, ?_, hD,
            fun e he => ⟨(hC e he).2.1, (hC e he).2.2.1⟩, ?_⟩
          · intro r c hrc
            rw [SparseMatrix.stored_mapRow, if_neg hrc, hst2,
              if_neg (fun h' => hrc h'.1)]
            exact hB r c (fun h' => absurd h' hrc)
          · intro hempty
            refine ⟨fun hz' => absurd (ha ▸ hz') hz, fun _ => ⟨hi1, ?_, hdiag, ?_, ?_, ?_⟩⟩
            · rw [← hc]
              omega
            · intro e he
              rw [SparseMatrix.stored_mapRow, if_pos rfl, hst2,
                if_neg (fun h' => hdiag e he h'.2), hA e he, ha]
              rfl
            · rw [SparseMatrix.stored_mapRow, if_pos rfl, hst2, if_pos ⟨rfl, rfl⟩, ha, htot]
              rfl
            · intro c hci hc'
              rw [SparseMatrix.stored_mapRow, if_pos rfl, hst2, if_neg (fun h' => hci h'.2),
                hB (i - 1) c (fun _ => hc'), hempty]
              rfl

/-! ## Lemmas: the loop over the vertices -/

theorem forLoop_build_row_frame (sqrt : R → R) (obj : Object R) (is : List Nat) :
    ∀ (m mf : SparseMatrix R), forLoop (build_row sqrt obj) is m = some mf →
      mf.rows = m.rows ∧ mf.cols = m.cols ∧
      ∀ r c, (∀ i ∈ is, i - 1 ≠ r) → mf.stored r c = m.stored r c := by
  induction is with
  | nil =>
    intro m mf h
    simp only [forLoop, Option.some.injEq] at h
    subst h
    simp
  | cons a is ih =>
    intro m mf h
    simp only [forLoop] at h
    cases ha : build_row sqrt obj a m with
    | none => simp [ha] at h
    | some ma =>
      rw [ha, Option.some_bind] at h
      obtain ⟨es, -, hr, hc, hoth, -⟩ := build_row_spec ha
      obtain ⟨hr', hc', hoth'⟩ := ih ma mf h
      refine ⟨hr'.trans hr, hc'.trans hc, ?_⟩
      intro r c hrc
      rw [hoth' r c (fun i hi => hrc i (List.mem_cons_of_mem _ hi)),
        hoth r c (fun h' => hrc a (List.mem_cons_self _ _) h'.symm)]

theorem forLoop_build_row_at (sqrt : R → R) (obj : Object R) (is : List Nat) :
    ∀ (m mf : SparseMatrix R), forLoop (build_row sqrt obj) is m = some mf →
      is.Nodup → (∀ i ∈ is, 1 ≤ i) → (∀ i ∈ is, ∀ c, m.stored (i - 1) c = none) →
      ∀ i ∈ is, ∃ m0 m1, build_row sqrt obj i m0 = some m1 ∧
        m0.rows = m.rows ∧ m0.cols = m.cols ∧ (∀ c, m0.stored (i - 1) c = none) ∧
        ∀ c, mf.stored (i - 1) c = m1.stored (i - 1) c := by
  induction is with
  | nil =>
    intro m mf _ _ _ _ i hi
    simp at hi
  | cons a is ih =>
    intro m mf h hnd hpos hempty i hi
    simp only [forLoop] at h
    cases ha : build_row sqrt obj a m with
    | none => simp [ha] at h
    | some ma =>
      rw [ha, Option.some_bind] at h
      obtain ⟨es, -, hr, hc, hoth, -⟩ := build_row_spec ha
      rw [List.nodup_cons] at hnd
      rcases List.mem_cons.mp hi with rfl | hi'
      · refine ⟨m, ma, ha, rfl, rfl, hempty i (List.mem_cons_self _ _), ?_⟩
        intro c
        refine (forLoop_build_row_frame sqrt obj is ma mf h).2.2 (i - 1) c ?_
        intro k hk hki
        have h1 := hpos k (List.mem_cons_of_mem _ hk)
        have h2 := hpos i (List.mem_cons_self _ _)
        have : k = i := by omega
        exact hnd.1 (this ▸ hk)
      · have hempty' : ∀ k ∈ is, ∀ c, ma.stored (k - 1) c = none := by
          intro k hk c
          have h1 := hpos k (List.mem_cons_of_mem _ hk)
          have h2 := hpos a (List.mem_cons_self _ _)
          have hne : k - 1 ≠ a - 1 := by
            intro heq
            have : k = a := by omega
            exact hnd.1 (this ▸ hk)
          rw [hoth (k - 1) c hne]
          exact hempty k (List.mem_cons_of_mem _ hk) c
        obtain ⟨m0, m1, hb, h0r, h0c, h0e, hfin⟩ :=
          ih ma mf h hnd.2 (fun k hk => hpos k (List.mem_cons_of_mem _ hk)) hempty' i hi'
        exact ⟨m0, m1, hb, h0r.trans hr, h0c.trans hc, h0e, hfin⟩

theorem mem_vertexRange (obj : Object R) (i : Nat) :
    i ∈ vertexRange obj ↔ 1 ≤ i ∧ i < obj.hevs.length := by
  unfold vertexRange
  rw [List.mem_range'_1]
  omega

theorem nodup_vertexRange (obj : Object R) : (vertexRange obj).Nodup :=
  List.nodup_range' 1 _

theorem stored_empty (rows cols r c : Nat) :
    (SparseMatrix.empty rows cols : SparseMatrix R).stored r c = none := rfl

/-- Row `i - 1` of the assembled `op_matrix`, for every vertex `i`. -/
theorem op_matrix_row {sqrt : R → R} {obj : Object R} {op : SparseMatrix R}
    (h : build_op_matrix sqrt obj = some op) {i : Nat} (h1 : 1 ≤ i)
    (h2 : i < obj.hevs.length) :
    op.rows = obj.hevs.length - 1 ∧ op.cols = obj.hevs.length - 1 ∧
    ∃ es, oneRing sqrt obj i = some es ∧
      (es.map fun e => e.col).Nodup ∧
      (∀ e ∈ es, 0 ≤ e.j - 1 ∧ e.j - 1 < ((obj.hevs.length - 1 : Nat) : Int)) ∧
      (close_to_zero (incidentArea es) = true →
        (∀ e ∈ es, op.stored (i - 1) e.col = some (fmul e.total_cot (some 0))) ∧
        (∀ c, (∀ e ∈ es, e.col ≠ c) → op.stored (i - 1) c = none)) ∧
      (close_to_zero (incidentArea es) = false →
        (∀ e ∈ es, e.col ≠ i - 1) ∧
        (∀ e ∈ es, op.stored (i - 1) e.col =
          some (fdivBy e.total_cot (2 * incidentArea es))) ∧
        op.stored (i - 1) (i - 1) =
          some (fdivBy (fmul (some (-1)) (totalCot es)) (2 * incidentArea es)) ∧
        (∀ c, c ≠ i - 1 → (∀ e ∈ es, e.col ≠ c) → op.stored (i - 1) c = none)) := by
  unfold build_op_matrix at h
  split at h
  · simp at h
  · obtain ⟨hr, hc, -⟩ := forLoop_build_row_frame sqrt obj _ _ _ h
    refine ⟨hr, hc, ?_⟩
    obtain ⟨m0, m1, hb, h0r, h0c, h0e, hfin⟩ :=
      forLoop_build_row_at sqrt obj _ _ _ h (nodup_vertexRange obj)
        (fun k hk => ((mem_vertexRange obj k).mp hk).1)
        (fun k _ c => stored_empty _ _ _ c) i ((mem_vertexRange obj i).mpr ⟨h1, h2⟩)
    obtain ⟨es, hes, -, -, -, hnd, hrange, hrow⟩ := build_row_spec hb
    obtain ⟨hdeg, hnon⟩ := hrow h0e
    refine ⟨es, hes, hnd, ?_, ?_, ?_⟩
    · intro e he
      have := hrange e he
      rw [h0c] at this
      exact this
    · intro hz
      obtain ⟨ha, hb'⟩ := hdeg hz
      exact ⟨fun e he => (hfin _).trans (ha e he), fun c hc' => (hfin _).trans (hb' c hc')⟩
    · intro hz
      obtain ⟨-, -, hd, ha, hdiag, hb'⟩ := hnon hz
      exact ⟨hd, fun e he => (hfin _).trans (ha e he), (hfin _).trans hdiag,
        fun c hci hc' => (hfin _).trans (hb' c hci hc')⟩

/-! ## Lemmas: arithmetic of coefficients -/

theorem foldl_fadd_some {α : Type} (f : α → R) (l : List α) (a : R) :
    (l.map fun x => some (f x)).foldl fadd (some a) = some (a + (l.map f).sum) := by
  induction l generalizing a with
  | nil => simp
  | cons x l ih =>
    simp only [List.map_cons, List.foldl_cons, List.sum_cons]
    have : fadd (some a) (some (f x)) = some (a + f x) := rfl
    rw [this, ih, add_assoc]

theorem fsum_some {α : Type} (f : α → R) (l : List α) :
    fsum (l.map fun x => some (f x)) = some (l.map f).sum := by
  unfold fsum
  rw [foldl_fadd_some, zero_add]

theorem fsum_of_forall_some {α : Type} (g : α → Option R) (l : List α) (h : ∀ x ∈ l, g x ≠ none) :
    fsum (l.map g) = some (l.map fun x => (g x).getD 0).sum := by
  rw [← fsum_some]
  congr 1
  apply List.map_congr_left
  intro x hx
  cases hg : g x with
  | none => exact absurd hg (h x hx)
  | some v => rfl

theorem foldl_fadd_none (l : List (Option R)) : l.foldl fadd none = none := by
  induction l with
  | nil => rfl
  | cons x l ih => simpa [fadd] using ih

theorem fsum_eq_none_of_mem (l : List (Option R)) (h : none ∈ l) : fsum l = none := by
  unfold fsum
  generalize (some 0 : Option R) = a
  induction l generalizing a with
  | nil => simp at h
  | cons x l ih =>
    rw [List.foldl_cons]
    rcases List.mem_cons.mp h with hx | hx
    · rw [← hx]
      have : fadd a none = none := by cases a <;> rfl
      rw [this, foldl_fadd_none]
    · exact ih hx _

theorem sum_range_eq (n : Nat) (g : Nat → R) :
    ((List.range n).map g).sum = ∑ c in Finset.range n, g c := by
  induction n with
  | zero => simp
  | succ n ih => simp [List.range_succ, Finset.sum_range_succ, ih]

theorem fdivBy_fadd (a b : Option R) {d : R} (hd : d ≠ 0) :
    fdivBy (fadd a b) d = fadd (fdivBy a d) (fdivBy b d) := by
  cases a <;> cases b <;> simp [fdivBy, fadd, fdiv, hd, add_div]

theorem foldl_fdivBy (l : List (Option R)) (a : Option R) {d : R} (hd : d ≠ 0) :
    fdivBy (l.foldl fadd a) d = (l.map fun x => fdivBy x d).foldl fadd (fdivBy a d) := by
  induction l generalizing a with
  | nil => rfl
  | cons x l ih =>
    simp only [List.foldl_cons, List.map_cons]
    rw [ih, fdivBy_fadd _ _ hd]

theorem fdivBy_fsum (l : List (Option R)) {d : R} (hd : d ≠ 0) :
    fdivBy (fsum l) d = fsum (l.map fun x => fdivBy x d) := by
  unfold fsum
  rw [foldl_fdivBy _ _ hd]
  simp [fdivBy, fdiv, hd]

theorem fdivBy_neg (a : Option R) {d : R} (hd : d ≠ 0) :
    fdivBy (fmul (some (-1)) a) d = fneg (fdivBy a d) := by
  cases a <;> simp [fdivBy, fmul, fneg, fdiv, hd, neg_div]

theorem ne_zero_of_not_close {A : R} (h : close_to_zero A = false) : 2 * A ≠ 0 := by
  unfold close_to_zero CLOSE_ENOUGH_BOUND at h
  simp only [decide_eq_false_iff_not, not_lt] at h
  intro h0
  have hA : A = 0 := by
    rcases mul_eq_zero.mp h0 with h2 | h2
    · exact absurd h2 two_ne_zero
    · exact h2
  rw [hA, abs_zero] at h
  have : (0 : R) < 1 / 10000 := by positivity
  exact absurd h (not_le.mpr this)

theorem coeff_of_stored {m : SparseMatrix R} {i j : Nat} {v : Option R}
    (h : m.stored i j = some v) : m.coeff i j = v := by
  simp [SparseMatrix.coeff, h]

theorem coeff_of_not_stored {m : SparseMatrix R} {i j : Nat}
    (h : m.stored i j = none) : m.coeff i j = some 0 := by
  simp [SparseMatrix.coeff, h]

/-! ## Lemmas: sums over a sparse row -/

/-- A sum over the columns of a sparse row: the diagonal term plus one term for
every listed entry. -/
theorem sum_sparse_row {α : Type} (key : α → Nat) (val : α → R) (n k : Nat) (D : R)
    (y : Nat → R) (es : List α) :
    ∀ (g : Nat → R), (es.map key).Nodup → (∀ e ∈ es, key e < n ∧ key e ≠ k) → k < n →
      g k = D → (∀ e ∈ es, g (key e) = val e) →
      (∀ c, c ≠ k → (∀ e ∈ es, key e ≠ c) → g c = 0) →
      ∑ c in Finset.range n, g c * y c = D * y k + (es.map fun e => val e * y (key e)).sum := by
  induction es with
  | nil =>
    intro g _ _ hk hD _ hz
    have : ∀ c ∈ Finset.range n, g c * y c = if c = k then D * y k else 0 := by
      intro c _
      by_cases hc : c = k
      · rw [if_pos hc, hc, hD]
      · rw [if_neg hc, hz c hc (fun e he => absurd he (List.not_mem_nil e)), zero_mul]
    rw [Finset.sum_congr rfl this, Finset.sum_ite_eq' (Finset.range n) k]
    simp [hk]
  | cons e0 es ih =>
    intro g hnd hkey hk hD hval hz
    rw [List.map_cons, List.nodup_cons] at hnd
    have hk0 := hkey e0 (List.mem_cons_self _ _)
    have hne : ∀ e ∈ es, key e ≠ key e0 := by
      intro e he heq
      exact hnd.1 (heq ▸ List.mem_map_of_mem key he)
    have hstep := ih (fun c => if c = key e0 then 0 else g c) hnd.2
      (fun e he => hkey e (List.mem_cons_of_mem _ he)) hk
      (by simp only [if_neg (Ne.symm hk0.2)]; exact hD)
      (fun e he => by
        simp only [if_neg (hne e he)]
        exact hval e (List.mem_cons_of_mem _ he))
      (fun c hc hces => by
        by_cases hc0 : c = key e0
        · simp only [if_pos hc0]
        · simp only [if_neg hc0]
          apply hz c hc
          intro e he
          rcases List.mem_cons.mp he with rfl | he'
          · exact Ne.symm hc0
          · exact hces e he')
    have hsplit : ∀ c ∈ Finset.range n, g c * y c =
        (if c = key e0 then 0 else g c) * y c + (if c = key e0 then val e0 * y (key e0) else 0) := by
      intro c _
      by_cases hc0 : c = key e0
      · rw [if_pos hc0, if_pos hc0, zero_mul, zero_add, hc0, hval e0 (List.mem_cons_self _ _)]
      · rw [if_neg hc0, if_neg hc0, add_zero]
    rw [Finset.sum_congr rfl hsplit, Finset.sum_add_distrib, hstep,
      Finset.sum_ite_eq' (Finset.range n) (key e0)]
    simp only [Finset.mem_range, hk0.1, if_true, List.map_cons, List.sum_cons]
    ring

theorem fsum_coeff_mul (m : SparseMatrix R) (i : Nat) (y : Nat → R)
    (h : ∀ c, c < m.cols → m.coeff i c ≠ none) :
    fsum ((List.range m.cols).map fun j => fmul (m.coeff i j) (some (y j))) =
      some (∑ c in Finset.range m.cols, m.num i c * y c) := by
  rw [← sum_range_eq, ← fsum_some]
  congr 1
  apply List.map_congr_left
  intro c hc
  have := h c (List.mem_range.mp hc)
  unfold SparseMatrix.num
  cases hcoef : m.coeff i c with
  | none => exact absurd hcoef this
  | some v => rfl

/-! ## Lemmas: a row applied to a vector -/

theorem laplace_sum_aux (w : α → R) (key : α → Nat) (d yk : R) (y : Nat → R) (es : List α) :
    (-1 * (es.map w).sum) / d * yk + (es.map fun e => w e / d * y (key e)).sum =
      (es.map fun e => w e / d * (y (key e) - yk)).sum := by
  induction es with
  | nil => simp
  | cons e es ih =>
    simp only [List.map_cons, List.sum_cons]
    linear_combination ih

/-- Row `i - 1` of `Δ` for a vertex that is not degenerate and whose weights are
numbers: every coefficient is a number, and the row applied to a vector `y` is
`(1 / (2 A_i)) Σ w_ij (y_j - y_i)`. -/
theorem row_apply {sqrt : R → R} {obj : Object R} {op : SparseMatrix R}
    {i : Nat} {es : List (RingEntry R)}
    (hop : build_op_matrix sqrt obj = some op) (h1 : 1 ≤ i) (h2 : i < obj.hevs.length)
    (hring : oneRing sqrt obj i = some es)
    (hA : close_to_zero (incidentArea es) = false)
    (hfin : ∀ e ∈ es, e.total_cot ≠ none) :
    (∀ c, op.coeff (i - 1) c ≠ none) ∧
    ∀ y : Nat → R, ∑ c in Finset.range op.cols, op.num (i - 1) c * y c =
      (es.map fun e => e.total_cot.getD 0 / (2 * incidentArea es) *
        (y e.col - y (i - 1))).sum := by
  obtain ⟨-, hcols, es', hes', hnd, hrange, -, hnon⟩ := op_matrix_row hop h1 h2
  rw [hring, Option.some.injEq] at hes'
  subst hes'
  obtain ⟨hd, hoff, hdiag, hzero⟩ := hnon hA
  have h2A := ne_zero_of_not_close hA
  have htot : totalCot es = some (es.map fun e => e.total_cot.getD 0).sum :=
    fsum_of_forall_some _ es hfin
  have hoff' : ∀ e ∈ es, op.coeff (i - 1) e.col =
      some (e.total_cot.getD 0 / (2 * incidentArea es)) := by
    intro e he
    rw [coeff_of_stored (hoff e he)]
    cases ht : e.total_cot with
    | none => exact absurd ht (hfin e he)
    | some v => simp [fdivBy, fdiv, h2A]
  have hdiag' : op.coeff (i - 1) (i - 1) =
      some ((-1 * (es.map fun e => e.total_cot.getD 0).sum) / (2 * incidentArea es)) := by
    rw [coeff_of_stored hdiag, htot]
    simp [fdivBy, fmul, fdiv, h2A]
  have hall : ∀ c, op.coeff (i - 1) c ≠ none := by
    intro c
    by_cases hc : c = i - 1
    · rw [hc, hdiag']
      simp
    · by_cases hex : ∃ e ∈ es, e.col = c
      · obtain ⟨e, he, rfl⟩ := hex
        rw [hoff' e he]
        simp
      · rw [coeff_of_not_stored (hzero c hc (fun e he heq => hex ⟨e, he, heq⟩))]
        simp
  refine ⟨hall, fun y => ?_⟩
  rw [sum_sparse_row (fun e : RingEntry R => e.col)
    (fun e => e.total_cot.getD 0 / (2 * incidentArea es)) op.cols (i - 1)
    ((-1 * (es.map fun e => e.total_cot.getD 0).sum) / (2 * incidentArea es)) y es
    (op.num (i - 1)) hnd ?_ ?_ ?_ ?_ ?_]
  · exact laplace_sum_aux _ _ _ _ _ es
  · intro e he
    refine ⟨?_, hd e he⟩
    have := hrange e he
    rw [hcols]
    show (e.j - 1).toNat < obj.hevs.length - 1
    omega
  · rw [hcols]
    omega
  · simp [SparseMatrix.num, hdiag']
  · intro e he
    simp [SparseMatrix.num, hoff' e he]
  · intro c hc hne
    simp [SparseMatrix.num, coeff_of_not_stored (hzero c hc hne)]

/-! ## Lemmas: symmetry of the cotangent weights -/

theorem cotan_comm (sqrt : R → R) (vAngle vB vC : Vector3f R) :
    cotan sqrt vAngle vB vC = cotan sqrt vAngle vC vB := by
  unfold cotan
  have hdot : (vB.sub vAngle).dot (vC.sub vAngle) = (vC.sub vAngle).dot (vB.sub vAngle) := by
    simp only [Vector3f.dot, Vector3f.sub]
    ring
  have hnorm : ((vB.sub vAngle).cross (vC.sub vAngle)).norm sqrt =
      ((vC.sub vAngle).cross (vB.sub vAngle)).norm sqrt := by
    simp only [Vector3f.norm, Vector3f.squaredNorm, Vector3f.cross, Vector3f.sub]
    congr 1
    ring
  simp only [hdot, hnorm]

theorem fadd_comm (a b : Option R) : fadd a b = fadd b a := by
  cases a <;> cases b <;> simp [fadd, add_comm]

theorem ringEntries_mem (sqrt : R → R) (obj : Object R) (v_i_pos : Vector3f R) (curr_he : Nat)
    (fuel : Nat) : ∀ (he : Nat) (es : List (RingEntry R)),
      ringEntries sqrt obj v_i_pos curr_he fuel he = some es →
      ∀ e ∈ es, ringEntry sqrt obj v_i_pos e.he = some e := by
  induction fuel with
  | zero =>
    intro he es h
    simp [ringEntries] at h
  | succ fuel ih =>
    intro he es h
    simp only [ringEntries] at h
    cases h1 : ringEntry sqrt obj v_i_pos he with
    | none => simp [h1] at h
    | some e0 =>
      rw [h1, Option.some_bind] at h
      have hhe : e0.he = he := by
        unfold ringEntry at h1
        simp only [Option.bind_eq_bind, Option.bind_eq_some] at h1
        obtain ⟨_, _, _, _, _, _, _, _, _, _, _, _, _, _, _, _, _, _, h1⟩ := h1
        simp only [Option.some.injEq] at h1
        rw [← h1]
      by_cases hn : e0.next = curr_he
      · rw [if_pos hn, Option.some.injEq] at h
        subst h
        intro e he'
        rw [List.mem_singleton] at he'
        subst he'
        rw [hhe]
        exact h1
      · rw [if_neg hn] at h
        cases h2 : ringEntries sqrt obj v_i_pos curr_he fuel e0.next with
        | none => simp [h2] at h
        | some es' =>
          rw [h2, Option.map_some', Option.some.injEq] at h
          subst h
          intro e he'
          rcases List.mem_cons.mp he' with rfl | he''
          · rw [hhe]
            exact h1
          · exact ih _ _ h2 e he''

theorem oneRing_mem {sqrt : R → R} {obj : Object R} {i : Nat} {es : List (RingEntry R)}
    (h : oneRing sqrt obj i = some es) :
    ∃ v_i, obj.hev i = some v_i ∧ ∀ e ∈ es, ringEntry sqrt obj v_i.pos e.he = some e := by
  unfold oneRing at h
  cases hv : obj.hev i with
  | none => simp [hv] at h
  | some v_i =>
    rw [hv, Option.some_bind] at h
    exact ⟨v_i, rfl, ringEntries_mem sqrt obj _ _ _ _ _ h⟩

theorem he_lt {obj : Object R} {he : Nat} {h : HE} (hh : obj.he he = some h) :
    he < obj.hes.length := by
  unfold Object.he at hh
  exact (List.getElem?_eq_some.mp hh).1

/-- Under the half-edge invariants, the pass of the walk around the head of a
half-edge through its flip reads the same weight. -/
theorem ringEntry_flip {sqrt : R → R} {obj : Object R} (hinv : obj.HalfEdgeInvariants)
    {he : Nat} {h : HE} (hh : obj.he he = some h) {v_i : HEV R}
    (hvi : obj.hev h.vertex = some v_i) {e : RingEntry R}
    (hent : ringEntry sqrt obj v_i.pos he = some e) :
    ∃ hf v_j e', obj.he h.flip = some hf ∧ hf.flip = he ∧ obj.hev hf.vertex = some v_j ∧
      ringEntry sqrt obj v_j.pos h.flip = some e' ∧ e'.total_cot = e.total_cot ∧
      e'.j = v_i.index ∧ e.j = v_j.index := by
  unfold ringEntry at hent
  simp only [Option.bind_eq_bind, Option.bind_eq_some, Option.some.injEq] at hent
  obtain ⟨h', hh', hn, hhn, vj, hvj, hnn, hhnn, va, hva, hf, hhf, hfn, hhfn, hfnn, hhfnn,
    vb, hvb, he'⟩ := hent
  rw [hh, Option.some.injEq] at hh'
  subst hh'
  obtain ⟨hff, -, htail⟩ := hinv he (he_lt hh)
  obtain ⟨-, -, htail'⟩ := hinv h.flip (he_lt hhf)
  simp only [Object.flip, Object.next, Object.tail, hh, hhf, hhn, Option.map_some',
    Option.some_bind, Option.some.injEq] at hff htail
  simp only [Object.flip, Object.next, Object.tail, hhf, Option.map_some',
    Option.some_bind, hff, hh, hhfn, Option.some.injEq] at htail'
  refine ⟨hf, vj,
    { he := h.flip
      j := v_i.index
      cot_alpha := cotan sqrt vb.pos vj.pos v_i.pos
      cot_beta := cotan sqrt va.pos vj.pos v_i.pos
      face_area := 1 / 2 * Vector3f.norm sqrt ((v_i.pos.sub vj.pos).cross (vb.pos.sub vj.pos))
      next := h.next }, hhf, hff, htail ▸ hvj, ?_, ?_, rfl, ?_⟩
  · unfold ringEntry
    simp only [Option.bind_eq_bind, hhf, Option.some_bind, hhfn, ← htail', hvi, hhfnn, hvb, hff,
      hh, hhn, hhnn, hva]
  · subst he'
    simp only [RingEntry.total_cot]
    rw [cotan_comm sqrt vb.pos vj.pos v_i.pos, cotan_comm sqrt va.pos vj.pos v_i.pos, fadd_comm]
  · subst he'
    rfl

/-! ## Lemmas: the fuel of the one-ring walk -/

theorem ringEntry_he {sqrt : R → R} {obj : Object R} {p : Vector3f R} {he : Nat}
    {e : RingEntry R} (h : ringEntry sqrt obj p he = some e) :
    e.he = he ∧ he < obj.hes.length := by
  unfold ringEntry at h
  simp only [Option.bind_eq_bind, Option.bind_eq_some, Option.some.injEq] at h
  obtain ⟨h', hh', _, _, _, _, _, _, _, _, _, _, _, _, _, _, _, _, rfl⟩ := h
  exact ⟨rfl, he_lt hh'⟩

/-- More fuel than the walk is long changes nothing. -/
theorem ringEntries_mono (sqrt : R → R) (obj : Object R) (p : Vector3f R) (s : Nat)
    (fuel : Nat) : ∀ (he : Nat) (es : List (RingEntry R)),
      ringEntries sqrt obj p s fuel he = some es →
      ∀ fuel', es.length ≤ fuel' → ringEntries sqrt obj p s fuel' he = some es := by
  induction fuel with
  | zero =>
    intro he es h
    simp [ringEntries] at h
  | succ fuel ih =>
    intro he es h fuel' hlen
    simp only [ringEntries] at h
    cases h1 : ringEntry sqrt obj p he with
    | none => simp [h1] at h
    | some e =>
      rw [h1, Option.some_bind] at h
      by_cases hn : e.next = s
      · rw [if_pos hn, Option.some.injEq] at h
        subst h
        cases fuel' with
        | zero => simp at hlen
        | succ f => simp [ringEntries, h1, hn]
      · rw [if_neg hn] at h
        cases h2 : ringEntries sqrt obj p s fuel e.next with
        | none => simp [h2] at h
        | some es' =>
          rw [h2, Option.map_some', Option.some.injEq] at h
          subst h
          cases fuel' with
          | zero => simp at hlen
          | succ f =>
            simp only [List.length_cons, Nat.add_le_add_iff_right] at hlen
            simp [ringEntries, h1, hn, ih e.next es' h2 f hlen]

theorem ringEntries_det {sqrt : R → R} {obj : Object R} {p : Vector3f R} {s he f1 f2 : Nat}
    {es1 es2 : List (RingEntry R)} (h1 : ringEntries sqrt obj p s f1 he = some es1)
    (h2 : ringEntries sqrt obj p s f2 he = some es2) : es1 = es2 := by
  have a := ringEntries_mono sqrt obj p s f1 he es1 h1 (max es1.length es2.length)
    (le_max_left _ _)
  have b := ringEntries_mono sqrt obj p s f2 he es2 h2 (max es1.length es2.length)
    (le_max_right _ _)
  rw [a, Option.some.injEq] at b
  exact b

/-- Every suffix of a walk is the walk from its first half-edge. -/
theorem ringEntries_suffix (sqrt : R → R) (obj : Object R) (p : Vector3f R) (s : Nat)
    (fuel : Nat) : ∀ (he : Nat) (es pre post : List (RingEntry R)) (e : RingEntry R),
      ringEntries sqrt obj p s fuel he = some es → es = pre ++ e :: post →
      ∃ f, ringEntries sqrt obj p s f e.he = some (e :: post) := by
  induction fuel with
  | zero =>
    intro he es pre post e h
    simp [ringEntries] at h
  | succ fuel ih =>
    intro he es pre post e h hes
    cases pre with
    | nil =>
      rw [List.nil_append] at hes
      have h' := h
      simp only [ringEntries] at h'
      cases h1 : ringEntry sqrt obj p he with
      | none => simp [h1] at h'
      | some e0 =>
        have hhe := (ringEntry_he h1).1
        rw [h1, Option.some_bind] at h'
        have : e0 = e := by
          by_cases hn : e0.next = s
          · rw [if_pos hn, Option.some.injEq] at h'
            rw [← h'] at hes
            exact (List.cons.inj hes).1
          · rw [if_neg hn] at h'
            cases h2 : ringEntries sqrt obj p s fuel e0.next with
            | none => simp [h2] at h'
            | some es' =>
              rw [h2, Option.map_some', Option.some.injEq] at h'
              rw [← h'] at hes
              exact (List.cons.inj hes).1
        subst this
        exact ⟨fuel + 1, by rw [hhe, h, hes]⟩
    | cons a pre =>
      simp only [ringEntries] at h
      cases h1 : ringEntry sqrt obj p he with
      | none => simp [h1] at h
      | some e0 =>
        rw [h1, Option.some_bind] at h
        by_cases hn : e0.next = s
        · rw [if_pos hn, Option.some.injEq] at h
          rw [← h] at hes
          have := congrArg List.length hes
          simp at this
        · rw [if_neg hn] at h
          cases h2 : ringEntries sqrt obj p s fuel e0.next with
          | none => simp [h2] at h
          | some es' =>
            rw [h2, Option.map_some', Option.some.injEq] at h
            rw [← h, List.cons_append] at hes
            exact ih e0.next es' pre post e h2 (List.cons.inj hes).2

theorem nodup_of_head_not_mem {α : Type} (l : List α)
    (h : ∀ pre a post, l = pre ++ a :: post → a ∉ post) : l.Nodup := by
  induction l with
  | nil => exact List.nodup_nil
  | cons a l ih =>
    rw [List.nodup_cons]
    refine ⟨h [] a l rfl, ih ?_⟩
    intro pre b post hl
    exact h (a :: pre) b post (by rw [hl, List.cons_append])

/-- A walk that comes back visits pairwise distinct half-edges. -/
theorem ringEntries_nodup {sqrt : R → R} {obj : Object R} {p : Vector3f R} {s fuel he : Nat}
    {es : List (RingEntry R)} (h : ringEntries sqrt obj p s fuel he = some es) :
    (es.map fun e => e.he).Nodup := by
  apply nodup_of_head_not_mem
  intro pre x post hl hmem
  obtain ⟨pre', e, post', hes, hpre, hx, hpost⟩ :
      ∃ pre' e post', es = pre' ++ e :: post' ∧ pre'.map (fun e => e.he) = pre ∧ e.he = x ∧
        post'.map (fun e => e.he) = post := by
    obtain ⟨l1, l2, hl12, h1, h2⟩ := List.map_eq_append_iff.mp hl
    obtain ⟨e, l3, hl3, he, h3⟩ := List.map_eq_cons_iff.mp h2
    exact ⟨l1, e, l3, by rw [hl12, hl3], h1, he, h3⟩
  rw [← hpost] at hmem
  obtain ⟨e2, he2, hx2⟩ := List.mem_map.mp hmem
  obtain ⟨pre2, post2, hsplit⟩ := List.append_of_mem he2
  obtain ⟨f1, hf1⟩ := ringEntries_suffix sqrt obj p s fuel he es pre' post' e h hes
  obtain ⟨f2, hf2⟩ := ringEntries_suffix sqrt obj p s fuel he es (pre' ++ e :: pre2) post2 e2 h
    (by rw [hes, hsplit, List.append_assoc, List.cons_append])
  rw [hx2, ← hx] at hf2
  have heq := ringEntries_det hf1 hf2
  have hlen := congrArg List.length heq
  rw [hsplit] at hlen
  simp only [List.length_cons, List.length_append] at hlen
  omega

theorem length_le_of_nodup_lt (l : List Nat) (n : Nat) (hnd : l.Nodup) (h : ∀ x ∈ l, x < n) :
    l.length ≤ n := by
  have hsub : l ⊆ List.range n := fun x hx => List.mem_range.mpr (h x hx)
  have := (List.subperm_of_subset hnd hsub).length_le
  rwa [List.length_range] at this

theorem ringEntries_length_le {sqrt : R → R} {obj : Object R} {p : Vector3f R}
    {s fuel he : Nat} {es : List (RingEntry R)}
    (h : ringEntries sqrt obj p s fuel he = some es) : es.length ≤ obj.hes.length := by
  have := length_le_of_nodup_lt (es.map fun e => e.he) obj.hes.length (ringEntries_nodup h)
    (fun x hx => by
      obtain ⟨e, he', rfl⟩ := List.mem_map.mp hx
      exact (ringEntry_he (ringEntries_mem sqrt obj p s fuel he es h e he')).2)
  rwa [List.length_map] at this

/-- The fuel of the model is enough: a walk that has not come back to its start
after as many passes as there are half-edges never comes back, so any larger
fuel gives the same result. -/
theorem ringEntries_fuel (sqrt : R → R) (obj : Object R) (p : Vector3f R) (s he fuel : Nat)
    (hfuel : obj.hes.length ≤ fuel) :
    ringEntries sqrt obj p s fuel he = ringEntries sqrt obj p s obj.hes.length he := by
  cases h : ringEntries sqrt obj p s fuel he with
  | some es =>
    exact (ringEntries_mono sqrt obj p s fuel he es h _ (ringEntries_length_le h)).symm
  | none =>
    cases h' : ringEntries sqrt obj p s obj.hes.length he with
    | none => rfl
    | some es =>
      have := ringEntries_mono sqrt obj p s _ he es h' fuel
        (le_trans (ringEntries_length_le h') hfuel)
      rw [h] at this
      exact absurd this (by simp)

/-- The same for the loop of `build_F_operator` itself. -/
theorem ringLoop_fuel (sqrt : R → R) (obj : Object R) (i : Nat) (p : Vector3f R)
    (s he fuel : Nat) (st : RingState R) (hfuel : obj.hes.length ≤ fuel) :
    ringLoop sqrt obj i p s fuel he st = ringLoop sqrt obj i p s obj.hes.length he st := by
  rw [ringLoop_eq, ringLoop_eq, ringEntries_fuel sqrt obj p s he fuel hfuel]

/-! ## Lemmas: the fuel of the walk of `calculateVertexNormal` -/

/-- The loop of `calculateVertexNormal` adds up the weighted face normals of the
entries of its walk. -/
theorem normalLoop_eq (sqrt : R → R) (obj : Object R) (p : Vector3f R) (out : Nat)
    (fuel : Nat) : ∀ (he : Nat) (n : Vector3f R),
      normalLoop sqrt obj p out fuel he n =
        (normalEntries sqrt obj p out fuel he).map fun es =>
          es.foldl (fun acc e => acc.add e.weighted) n := by
  induction fuel with
  | zero =>
    intro he n
    rfl
  | succ fuel ih =>
    intro he n
    simp only [normalLoop, normalEntries, normalEntry, Option.bind_eq_bind]
    cases obj.he he with
    | none => rfl
    | some h =>
      simp only [Option.some_bind]
      cases obj.he h.next with
      | none => rfl
      | some hn =>
        simp only [Option.some_bind]
        cases obj.hev hn.vertex with
        | none => rfl
        | some v2 =>
          simp only [Option.some_bind]
          cases obj.he hn.next with
          | none => rfl
          | some hnn =>
            simp only [Option.some_bind]
            cases obj.hev hnn.vertex with
            | none => rfl
            | some v3 =>
              simp only [Option.some_bind]
              cases obj.he h.flip with
              | none => rfl
              | some hf =>
                simp only [Option.some_bind]
                by_cases hs : hf.next = out
                · simp [hs]
                · simp only [hs, if_false, ih]
                  cases normalEntries sqrt obj p out fuel hf.next with
                  | none => rfl
                  | some es => rfl

theorem normalEntry_he {sqrt : R → R} {obj : Object R} {p : Vector3f R} {he : Nat}
    {e : NormalEntry R} (h : normalEntry sqrt obj p he = some e) :
    e.he = he ∧ he < obj.hes.length := by
  unfold normalEntry at h
  simp only [Option.bind_eq_bind, Option.bind_eq_some, Option.some.injEq] at h
  obtain ⟨h', hh', _, _, _, _, _, _, _, _, _, _, rfl⟩ := h
  exact ⟨rfl, he_lt hh'⟩

theorem normalEntries_mem (sqrt : R → R) (obj : Object R) (p : Vector3f R) (s : Nat)
    (fuel : Nat) : ∀ (he : Nat) (es : List (NormalEntry R)),
      normalEntries sqrt obj p s fuel he = some es →
      ∀ e ∈ es, normalEntry sqrt obj p e.he = some e := by
  induction fuel with
  | zero =>
    intro he es h
    simp [normalEntries] at h
  | succ fuel ih =>
    intro he es h
    simp only [normalEntries] at h
    cases h1 : normalEntry sqrt obj p he with
    | none => simp [h1] at h
    | some e0 =>
      rw [h1, Option.some_bind] at h
      have hhe : e0.he = he := (normalEntry_he h1).1
      by_cases hn : e0.next = s
      · rw [if_pos hn, Option.some.injEq] at h
        subst h
        intro e he'
        rw [List.mem_singleton] at he'
        subst he'
        rw [hhe]
        exact h1
      · rw [if_neg hn] at h
        cases h2 : normalEntries sqrt obj p s fuel e0.next with
        | none => simp [h2] at h
        | some es' =>
          rw [h2, Option.map_some', Option.some.injEq] at h
          subst h
          intro e he'
          rcases List.mem_cons.mp he' with rfl | he''
          · rw [hhe]
            exact h1
          · exact ih _ _ h2 e he''

theorem normalEntries_mono (sqrt : R → R) (obj : Object R) (p : Vector3f R) (s : Nat)
    (fuel : Nat) : ∀ (he : Nat) (es : List (NormalEntry R)),
      normalEntries sqrt obj p s fuel he = some es →
      ∀ fuel', es.length ≤ fuel' → normalEntries sqrt obj p s fuel' he = some es := by
  induction fuel with
  | zero =>
    intro he es h
    simp [normalEntries] at h
  | succ fuel ih =>
    intro he es h fuel' hlen
    simp only [normalEntries] at h
    cases h1 : normalEntry sqrt obj p he with
    | none => simp [h1] at h
    | some e =>
      rw [h1, Option.some_bind] at h
      by_cases hn : e.next = s
      · rw [if_pos hn, Option.some.injEq] at h
        subst h
        cases fuel' with
        | zero => simp at hlen
        | succ f => simp [normalEntries, h1, hn]
      · rw [if_neg hn] at h
        cases h2 : normalEntries sqrt obj p s fuel e.next with
        | none => simp [h2] at h
        | some es' =>
          rw [h2, Option.map_some', Option.some.injEq] at h
          subst h
          cases fuel' with
          | zero => simp at hlen
          | succ f =>
            simp only [List.length_cons, Nat.add_le_add_iff_right] at hlen
            simp [normalEntries, h1, hn, ih e.next es' h2 f hlen]

theorem normalEntries_det {sqrt : R → R} {obj : Object R} {p : Vector3f R} {s he f1 f2 : Nat}
    {es1 es2 : List (NormalEntry R)} (h1 : normalEntries sqrt obj p s f1 he = some es1)
    (h2 : normalEntries sqrt obj p s f2 he = some es2) : es1 = es2 := by
  have a := normalEntries_mono sqrt obj p s f1 he es1 h1 (max es1.length es2.length)
    (le_max_left _ _)
  have b := normalEntries_mono sqrt obj p s f2 he es2 h2 (max es1.length es2.length)
    (le_max_right _ _)
  rw [a, Option.some.injEq] at b
  exact b

theorem normalEntries_suffix (sqrt : R → R) (obj : Object R) (p : Vector3f R) (s : Nat)
    (fuel : Nat) : ∀ (he : Nat) (es pre post : List (NormalEntry R)) (e : NormalEntry R),
      normalEntries sqrt obj p s fuel he = some es → es = pre ++ e :: post →
      ∃ f, normalEntries sqrt obj p s f e.he = some (e :: post) := by
  induction fuel with
  | zero =>
    intro he es pre post e h
    simp [normalEntries] at h
  | succ fuel ih =>
    intro he es pre post e h hes
    cases pre with
    | nil =>
      rw [List.nil_append] at hes
      have h' := h
      simp only [normalEntries] at h'
      cases h1 : normalEntry sqrt obj p he with
      | none => simp [h1] at h'
      | some e0 =>
        have hhe := (normalEntry_he h1).1
        rw [h1, Option.some_bind] at h'
        have : e0 = e := by
          by_cases hn : e0.next = s
          · rw [if_pos hn, Option.some.injEq] at h'
            rw [← h'] at hes
            exact (List.cons.inj hes).1
          · rw [if_neg hn] at h'
            cases h2 : normalEntries sqrt obj p s fuel e0.next with
            | none => simp [h2] at h'
            | some es' =>
              rw [h2, Option.map_some', Option.some.injEq] at h'
              rw [← h'] at hes
              exact (List.cons.inj hes).1
        subst this
        exact ⟨fuel + 1, by rw [hhe, h, hes]⟩
    | cons a pre =>
      simp only [normalEntries] at h
      cases h1 : normalEntry sqrt obj p he with
      | none => simp [h1] at h
      | some e0 =>
        rw [h1, Option.some_bind] at h
        by_cases hn : e0.next = s
        · rw [if_pos hn, Option.some.injEq] at h
          rw [← h] at hes
          have := congrArg List.length hes
          simp at this
        · rw [if_neg hn] at h
          cases h2 : normalEntries sqrt obj p s fuel e0.next with
          | none => simp [h2] at h
          | some es' =>
            rw [h2, Option.map_some', Option.some.injEq] at h
            rw [← h, List.cons_append] at hes
            exact ih e0.next es' pre post e h2 (List.cons.inj hes).2

theorem normalEntries_nodup {sqrt : R → R} {obj : Object R} {p : Vector3f R} {s fuel he : Nat}
    {es : List (NormalEntry R)} (h : normalEntries sqrt obj p s fuel he = some es) :
    (es.map fun e => e.he).Nodup := by
  apply nodup_of_head_not_mem
  intro pre x post hl hmem
  obtain ⟨pre', e, post', hes, hpre, hx, hpost⟩ :
      ∃ pre' e post', es = pre' ++ e :: post' ∧ pre'.map (fun e => e.he) = pre ∧ e.he = x ∧
        post'.map (fun e => e.he) = post := by
    obtain ⟨l1, l2, hl12, h1, h2⟩ := List.map_eq_append_iff.mp hl
    obtain ⟨e, l3, hl3, he, h3⟩ := List.map_eq_cons_iff.mp h2
    exact ⟨l1, e, l3, by rw [hl12, hl3], h1, he, h3⟩
  rw [← hpost] at hmem
  obtain ⟨e2, he2, hx2⟩ := List.mem_map.mp hmem
  obtain ⟨pre2, post2, hsplit⟩ := List.append_of_mem he2
  obtain ⟨f1, hf1⟩ := normalEntries_suffix sqrt obj p s fuel he es pre' post' e h hes
  obtain ⟨f2, hf2⟩ := normalEntries_suffix sqrt obj p s fuel he es (pre' ++ e :: pre2) post2 e2 h
    (by rw [hes, hsplit, List.append_assoc, List.cons_append])
  rw [hx2, ← hx] at hf2
  have heq := normalEntries_det hf1 hf2
  have hlen := congrArg List.length heq
  rw [hsplit] at hlen
  simp only [List.length_cons, List.length_append] at hlen
  omega

theorem normalEntries_length_le {sqrt : R → R} {obj : Object R} {p : Vector3f R}
    {s fuel he : Nat} {es : List (NormalEntry R)}
    (h : normalEntries sqrt obj p s fuel he = some es) : es.length ≤ obj.hes.length := by
  have := length_le_of_nodup_lt (es.map fun e => e.he) obj.hes.length (normalEntries_nodup h)
    (fun x hx => by
      obtain ⟨e, he', rfl⟩ := List.mem_map.mp hx
      exact (normalEntry_he (normalEntries_mem sqrt obj p s fuel he es h e he')).2)
  rwa [List.length_map] at this

theorem normalEntries_fuel (sqrt : R → R) (obj : Object R) (p : Vector3f R) (s he fuel : Nat)
    (hfuel : obj.hes.length ≤ fuel) :
    normalEntries sqrt obj p s fuel he = normalEntries sqrt obj p s obj.hes.length he := by
  cases h : normalEntries sqrt obj p s fuel he with
  | some es =>
    exact (normalEntries_mono sqrt obj p s fuel he es h _ (normalEntries_length_le h)).symm
  | none =>
    cases h' : normalEntries sqrt obj p s obj.hes.length he with
    | none => rfl
    | some es =>
      have := normalEntries_mono sqrt obj p s _ he es h' fuel
        (le_trans (normalEntries_length_le h') hfuel)
      rw [h] at this
      exact absurd this (by simp)

/-- The fuel of `calculateVertexNormal` is enough: a walk that has not come back
to `vertex->out` after as many passes as there are half-edges never comes back,
so any larger fuel gives the same result. -/
theorem normalLoop_fuel (sqrt : R → R) (obj : Object R) (p : Vector3f R)
    (s he fuel : Nat) (n : Vector3f R) (hfuel : obj.hes.length ≤ fuel) :
    normalLoop sqrt obj p s fuel he n = normalLoop sqrt obj p s obj.hes.length he n := by
  rw [normalLoop_eq, normalLoop_eq, normalEntries_fuel sqrt obj p s he fuel hfuel]

/-! ## Lemmas: the draw buffers -/

theorem storeNormal_frame {sqrt : R → R} {vIdx : Nat} {obj obj' : Object R}
    (h : storeNormal sqrt vIdx obj = some obj') :
    obj'.mesh = obj.mesh ∧ obj'.hes = obj.hes ∧ obj'.hefs = obj.hefs ∧
      obj'.hevs.length = obj.hevs.length := by
  unfold storeNormal at h
  simp only [Option.bind_eq_bind, Option.bind_eq_some, Option.some.injEq] at h
  obtain ⟨hev, -, normal, -, rfl⟩ := h
  simp

theorem forLoop_storeNormal_frame (sqrt : R → R) (is : List Nat) :
    ∀ (obj obj' : Object R), forLoop (storeNormal sqrt) is obj = some obj' →
      obj'.mesh = obj.mesh ∧ obj'.hes = obj.hes ∧ obj'.hefs = obj.hefs ∧
        obj'.hevs.length = obj.hevs.length := by
  induction is with
  | nil =>
    intro obj obj' h
    simp only [forLoop, Option.some.injEq] at h
    subst h
    simp
  | cons a is ih =>
    intro obj obj' h
    simp only [forLoop] at h
    cases ha : storeNormal sqrt a obj with
    | none => simp [ha] at h
    | some o1 =>
      rw [ha, Option.some_bind] at h
      obtain ⟨h1, h2, h3, h4⟩ := storeNormal_frame ha
      obtain ⟨h1', h2', h3', h4'⟩ := ih o1 obj' h
      exact ⟨h1'.trans h1, h2'.trans h2, h3'.trans h3, h4'.trans h4⟩

theorem getElem?_append_three {α : Type} (l : List α) (a b c : α) :
    (l ++ [a, b, c])[l.length]? = some a ∧ (l ++ [a, b, c])[l.length + 1]? = some b ∧
      (l ++ [a, b, c])[l.length + 2]? = some c := by
  refine ⟨?_, ?_, ?_⟩
  · rw [List.getElem?_append_right (Nat.le_refl _)]
    simp
  · rw [List.getElem?_append_right (Nat.le_add_right _ _)]
    simp
  · rw [List.getElem?_append_right (Nat.le_add_right _ _)]
    simp

/-- What the second loop of `computeNormalsUpdateBuffers` appends for the faces
listed in `fs`. -/
theorem forLoop_pushFace (fs : List Nat) :
    ∀ (obj obj' : Object R), forLoop pushFace fs obj = some obj' →
      obj'.mesh = obj.mesh ∧ obj'.hevs = obj.hevs ∧ obj'.hes = obj.hes ∧
      obj'.hefs = obj.hefs ∧
      obj'.vertex_buffer.length = obj.vertex_buffer.length + 3 * fs.length ∧
      obj'.normal_buffer.length = obj.normal_buffer.length + 3 * fs.length ∧
      (∀ p, p < obj.vertex_buffer.length → obj'.vertex_buffer[p]? = obj.vertex_buffer[p]?) ∧
      (∀ p, p < obj.normal_buffer.length → obj'.normal_buffer[p]? = obj.normal_buffer[p]?) ∧
      ∀ k fIdx, fs[k]? = some fIdx → ∃ f v1 v2 v3 n1 n2 n3,
        obj.mesh.faces[fIdx]? = some f ∧
        (atInt obj.mesh.vertices f.idx1).join = some v1 ∧
        (atInt obj.mesh.vertices f.idx2).join = some v2 ∧
        (atInt obj.mesh.vertices f.idx3).join = some v3 ∧
        (atInt obj.hevs f.idx1).join = some n1 ∧
        (atInt obj.hevs f.idx2).join = some n2 ∧
        (atInt obj.hevs f.idx3).join = some n3 ∧
        obj'.vertex_buffer[obj.vertex_buffer.length + 3 * k]? = some v1 ∧
        obj'.vertex_buffer[obj.vertex_buffer.length + 3 * k + 1]? = some v2 ∧
        obj'.vertex_buffer[obj.vertex_buffer.length + 3 * k + 2]? = some v3 ∧
        obj'.normal_buffer[obj.normal_buffer.length + 3 * k]? = some n1.normal ∧
        obj'.normal_buffer[obj.normal_buffer.length + 3 * k + 1]? = some n2.normal ∧
        obj'.normal_buffer[obj.normal_buffer.length + 3 * k + 2]? = some n3.normal := by
  induction fs with
  | nil =>
    intro obj obj' h
    simp only [forLoop, Option.some.injEq] at h
    subst h
    simp
  | cons a fs ih =>
    intro obj obj' h
    simp only [forLoop] at h
    cases ha : pushFace a obj with
    | none => simp [ha] at h
    | some o1 =>
      rw [ha, Option.some_bind] at h
      obtain ⟨hm, hv, hhe, hhf, hlv, hln, hpv, hpn, hk⟩ := ih o1 obj' h
      unfold pushFace at ha
      simp only [Option.bind_eq_bind, Option.bind_eq_some, Option.some.injEq] at ha
      obtain ⟨f, hf, v1, hv1, v2, hv2, v3, hv3, n1, hn1, n2, hn2, n3, hn3, rfl⟩ := ha
      simp only [List.length_append, List.length_cons, List.length_nil] at *
      refine ⟨hm, hv, hhe, hhf, by omega, by omega, ?_, ?_, ?_⟩
      · intro p hp
        rw [hpv p (by omega), List.getElem?_append_left hp]
      · intro p hp
        rw [hpn p (by omega), List.getElem?_append_left hp]
      · intro k fIdx hkf
        cases k with
        | zero =>
          simp only [List.getElem?_cons_zero, Option.some.injEq] at hkf
          subst hkf
          refine ⟨f, v1, v2, v3, n1, n2, n3, hf, hv1, hv2, hv3, hn1, hn2, hn3, ?_⟩
          simp only [Nat.mul_zero, Nat.add_zero]
          rw [hpv _ (by omega), hpv _ (by omega), hpv _ (by omega),
            hpn _ (by omega), hpn _ (by omega), hpn _ (by omega)]
          obtain ⟨a1, a2, a3⟩ := getElem?_append_three obj.vertex_buffer v1 v2 v3
          obtain ⟨b1, b2, b3⟩ :=
            getElem?_append_three obj.normal_buffer n1.normal n2.normal n3.normal
          exact ⟨a1, a2, a3, b1, b2, b3⟩
        | succ k =>
          simp only [List.getElem?_cons_succ] at hkf
          obtain ⟨f', w1, w2, w3, m1, m2, m3, h1, h2, h3, h4, h5, h6, h7, h8, h9, h10, h11,
            h12, h13⟩ := hk k fIdx hkf
          refine ⟨f', w1, w2, w3, m1, m2, m3, h1, h2, h3, h4, h5, h6, h7, ?_⟩
          have e1 : obj.vertex_buffer.length + 3 * (k + 1) =
              obj.vertex_buffer.length + (0 + 1 + 1 + 1) + 3 * k := by omega
          have e2 : obj.normal_buffer.length + 3 * (k + 1) =
              obj.normal_buffer.length + (0 + 1 + 1 + 1) + 3 * k := by omega
          rw [e1, e2]
          exact ⟨h8, h9, h10, h11, h12, h13⟩

/-! ## Lemmas: the write-back loop -/

theorem collect_spec {α : Type} (f : Nat → Option α) (is : List Nat) :
    ∀ l : List α, collect f is = some l →
      l.length = is.length ∧ ∀ (k i : Nat), is[k]? = some i → f i = l[k]? := by
  induction is with
  | nil =>
    intro l h
    simp only [collect, Option.some.injEq] at h
    subst h
    simp
  | cons a is ih =>
    intro l h
    simp only [collect, Option.bind_eq_some, Option.map_eq_some'] at h
    obtain ⟨x, hx, l', hl', rfl⟩ := h
    obtain ⟨hlen, hk⟩ := ih l' hl'
    refine ⟨by simp [hlen], ?_⟩
    intro k i hki
    cases k with
    | zero =>
      simp only [List.getElem?_cons_zero, Option.some.injEq] at hki
      subst hki
      simpa using hx
    | succ k =>
      simp only [List.getElem?_cons_succ] at hki ⊢
      exact hk k i hki

theorem collect_some {α : Type} (f : Nat → Option α) (is : List Nat)
    (h : ∀ i ∈ is, ∃ a, f i = some a) : ∃ l, collect f is = some l := by
  induction is with
  | nil => exact ⟨[], rfl⟩
  | cons a is ih =>
    obtain ⟨x, hx⟩ := h a (List.mem_cons_self _ _)
    obtain ⟨l, hl⟩ := ih (fun i hi => h i (List.mem_cons_of_mem _ hi))
    exact ⟨x :: l, by simp [collect, hx, hl]⟩

theorem hev_set (obj : Object R) (a : Nat) (w : HEV R) (ha : a < obj.hevs.length) (k : Nat) :
    ({ obj with hevs := obj.hevs.set a (some w) } : Object R).hev k =
      if k = a then some w else obj.hev k := by
  unfold Object.hev
  simp only [List.getElem?_set]
  by_cases hk : k = a
  · subst hk
    simp [ha]
  · simp [hk, Ne.symm hk]

theorem hev_lt {obj : Object R} {k : Nat} {v : HEV R} (h : obj.hev k = some v) :
    k < obj.hevs.length := by
  unfold Object.hev at h
  by_contra hlt
  rw [List.getElem?_eq_none (Nat.le_of_not_lt hlt)] at h
  simp at h

/-- The write-back loop of `computeSmoothing` moves the listed vertices and
nothing else. -/
theorem forLoop_writeBack (x' y' z' : List R) (is : List Nat) :
    ∀ (obj : Object R), is.Nodup →
      (∀ i ∈ is, (∃ v, obj.hev i = some v) ∧ i - 1 < x'.length ∧ i - 1 < y'.length ∧
        i - 1 < z'.length) →
      ∃ obj', forLoop (writeBack x' y' z') is obj = some obj' ∧
        obj'.mesh = obj.mesh ∧ obj'.hes = obj.hes ∧ obj'.hefs = obj.hefs ∧
        obj'.vertex_buffer = obj.vertex_buffer ∧ obj'.normal_buffer = obj.normal_buffer ∧
        obj'.hevs.length = obj.hevs.length ∧
        ∀ k, obj'.hev k =
          if k ∈ is then (obj.hev k).map (HEV.moved x' y' z' k) else obj.hev k := by
  induction is with
  | nil =>
    intro obj _ _
    exact ⟨obj, rfl, rfl, rfl, rfl, rfl, rfl, rfl, fun k => by simp⟩
  | cons a is ih =>
    intro obj hnd h
    rw [List.nodup_cons] at hnd
    obtain ⟨⟨v, hv⟩, hx, hy, hz⟩ := h a (List.mem_cons_self _ _)
    have ha := hev_lt hv
    have hstep : writeBack x' y' z' a obj =
        some { obj with hevs := obj.hevs.set a (some (HEV.moved x' y' z' a v)) } := by
      unfold writeBack
      simp only [Option.bind_eq_bind, hv, Option.some_bind, List.getElem?_eq_getElem hx,
        List.getElem?_eq_getElem hy, List.getElem?_eq_getElem hz, HEV.moved,
        List.getD_eq_getElem _ _ hx, List.getD_eq_getElem _ _ hy, List.getD_eq_getElem _ _ hz]
    have hrest : ∀ i ∈ is,
        (∃ w, ({ obj with hevs := obj.hevs.set a (some (HEV.moved x' y' z' a v)) } :
          Object R).hev i = some w) ∧ i - 1 < x'.length ∧ i - 1 < y'.length ∧
          i - 1 < z'.length := by
      intro i hi
      obtain ⟨⟨w, hw⟩, h1, h2, h3⟩ := h i (List.mem_cons_of_mem _ hi)
      refine ⟨⟨w, ?_⟩, h1, h2, h3⟩
      rw [hev_set obj a _ ha, if_neg (fun hia : i = a => hnd.1 (hia ▸ hi))]
      exact hw
    obtain ⟨obj', hloop, h1, h2, h3, h4, h5, h6, h7⟩ := ih _ hnd.2 hrest
    refine ⟨obj', ?_, h1, h2, h3, h4, h5, ?_, ?_⟩
    · simp only [forLoop, hstep, Option.some_bind]
      exact hloop
    · rw [h6]
      simp
    · intro k
      rw [h7 k, hev_set obj a _ ha]
      by_cases hka : k = a
      · subst hka
        simp [hnd.1, hv]
      · by_cases hk : k ∈ is
        · simp [hk, hka]
        · simp [hk, hka]

/-! ## Lemmas: the operator and one smoothing step -/

/-- The matrix returned by `build_F_operator` is `F = I - h Δ`, coefficient
by coefficient, of size `|V| × |V|` with `|V| = hevs.size() - 1`. -/
theorem opF_entries (sqrt : R → R) (time_step_h : R) (obj : Object R)
    (opF : SparseMatrix R) (hF : build_F_operator sqrt time_step_h obj = some opF) :
    ∃ op, build_op_matrix sqrt obj = some op ∧
      opF.rows = obj.hevs.length - 1 ∧ opF.cols = obj.hevs.length - 1 ∧
      ∀ i j, i < obj.hevs.length - 1 → j < obj.hevs.length - 1 →
        opF.coeff i j =
          fsub (some (if i = j then 1 else 0)) (fmul (some time_step_h) (op.coeff i j)) := by
  unfold build_F_operator at hF
  cases hop : build_op_matrix sqrt obj with
  | none => simp [hop] at hF
  | some op =>
    rw [hop, Option.map_some', Option.some.injEq] at hF
    subst hF
    refine ⟨op, rfl, rfl, rfl, ?_⟩
    intro i j hi _
    rw [SparseMatrix.coeff_sub, SparseMatrix.coeff_scale, SparseMatrix.coeff_identity]
    by_cases hij : i = j
    · subst hij
      simp [hi]
    · simp [hij]

/-- When the solver returns exact solutions for the operator `F` built from
the old positions, `computeSmoothing` returns, the vectors `x`, `y`, `z` of the
old coordinates (vertex `i` at component `i - 1`) and the solver's answers
`x'`, `y'`, `z'` satisfy `F x' = x`, `F y' = y`, `F z' = z`, and every vertex
`i` in `1..|V|` ends at `(x'[i-1], y'[i-1], z'[i-1])`. -/
theorem smoothing_spec (sqrt : R → R) (solver : SparseLU R) (time_step_h : R)
    (obj : Object R) (opF : SparseMatrix R)
    (hF : build_F_operator sqrt time_step_h obj = some opF)
    (hexact : ∀ b : List R, b.length = opF.rows →
      ∃ x', solver.solve opF b = some x' ∧ opF.IsSolution x' b) :
    ∃ obj' x y z x' y' z', computeSmoothing sqrt solver time_step_h obj = some obj' ∧
      (∀ i, 1 ≤ i → i < obj.hevs.length → ∃ v, obj.hev i = some v ∧
        x[i - 1]? = some v.x ∧ y[i - 1]? = some v.y ∧ z[i - 1]? = some v.z ∧
        obj'.hev i = some (v.moved x' y' z' i)) ∧
      opF.IsSolution x' x ∧ opF.IsSolution y' y ∧ opF.IsSolution z' z := by
  obtain ⟨op, hop, hrows, hcols, -⟩ := opF_entries sqrt time_step_h obj opF hF
  have hvs : ∀ i ∈ vertexRange obj, ∃ v, obj.hev i = some v := by
    intro i hi
    obtain ⟨h1, h2⟩ := (mem_vertexRange obj i).mp hi
    obtain ⟨-, -, es, hes, -⟩ := op_matrix_row hop h1 h2
    obtain ⟨v, hv, -⟩ := oneRing_mem hes
    exact ⟨v, hv⟩
  have hlen : (vertexRange obj).length = obj.hevs.length - 1 := by simp [vertexRange]
  have hget : ∀ i, 1 ≤ i → i < obj.hevs.length → (vertexRange obj)[i - 1]? = some i := by
    intro i h1 h2
    unfold vertexRange
    rw [List.getElem?_range' _ _ (by omega)]
    congr 1
    omega
  obtain ⟨x, hx⟩ := collect_some (fun i => (obj.hev i).map fun v_i => v_i.x) (vertexRange obj)
    (fun i hi => by obtain ⟨v, hv⟩ := hvs i hi; exact ⟨v.x, by simp [hv]⟩)
  obtain ⟨y, hy⟩ := collect_some (fun i => (obj.hev i).map fun v_i => v_i.y) (vertexRange obj)
    (fun i hi => by obtain ⟨v, hv⟩ := hvs i hi; exact ⟨v.y, by simp [hv]⟩)
  obtain ⟨z, hz⟩ := collect_some (fun i => (obj.hev i).map fun v_i => v_i.z) (vertexRange obj)
    (fun i hi => by obtain ⟨v, hv⟩ := hvs i hi; exact ⟨v.z, by simp [hv]⟩)
  obtain ⟨hxl, hxk⟩ := collect_spec _ _ x hx
  obtain ⟨hyl, hyk⟩ := collect_spec _ _ y hy
  obtain ⟨hzl, hzk⟩ := collect_spec _ _ z hz
  obtain ⟨x', hx', hsx⟩ := hexact x (by rw [hxl, hlen, hrows])
  obtain ⟨y', hy', hsy⟩ := hexact y (by rw [hyl, hlen, hrows])
  obtain ⟨z', hz', hsz⟩ := hexact z (by rw [hzl, hlen, hrows])
  obtain ⟨obj', hloop, -, -, -, -, -, -, hmoved⟩ :=
    forLoop_writeBack x' y' z' (vertexRange obj) obj (nodup_vertexRange obj)
      (fun i hi => by
        obtain ⟨h1, h2⟩ := (mem_vertexRange obj i).mp hi
        have := hsx.1
        have := hsy.1
        have := hsz.1
        exact ⟨hvs i hi, by omega, by omega, by omega⟩)
  refine ⟨obj', x, y, z, x', y', z', ?_, ?_, hsx, hsy, hsz⟩
  · unfold computeSmoothing
    simp only [Option.bind_eq_bind, hF, Option.some_bind, hx, hy, hz, hx', hy', hz']
    exact hloop
  · intro i h1 h2
    have hi := (mem_vertexRange obj i).mpr ⟨h1, h2⟩
    obtain ⟨v, hv⟩ := hvs i hi
    refine ⟨v, hv, ?_, ?_, ?_, ?_⟩
    · rw [← hxk (i - 1) i (hget i h1 h2), hv]
      rfl
    · rw [← hyk (i - 1) i (hget i h1 h2), hv]
      rfl
    · rw [← hzk (i - 1) i (hget i h1 h2), hv]
      rfl
    · rw [hmoved i, if_pos hi, hv]
      rfl

/-! ## Lemmas: the area-weighted sum -/

theorem ring_of_build {sqrt : R → R} {obj : Object R} {op : SparseMatrix R}
    (hop : build_op_matrix sqrt obj = some op) {i : Nat} (h1 : 1 ≤ i)
    (h2 : i < obj.hevs.length) : oneRing sqrt obj i = some (ringOf sqrt obj i) := by
  obtain ⟨-, -, es, hes, -⟩ := op_matrix_row hop h1 h2
  rw [ringOf, hes]
  rfl

theorem num_of_entry {sqrt : R → R} {obj : Object R} {op : SparseMatrix R}
    (hop : build_op_matrix sqrt obj = some op) {i : Nat} (h1 : 1 ≤ i)
    (h2 : i < obj.hevs.length)
    (hA : close_to_zero (vertexArea sqrt obj i) = false)
    {e : RingEntry R} (he : e ∈ ringOf sqrt obj i) (hfin : e.total_cot.isSome = true) :
    op.num (i - 1) e.col = e.total_cot.getD 0 / (2 * vertexArea sqrt obj i) := by
  obtain ⟨-, -, es, hes, -, -, -, hnon⟩ := op_matrix_row hop h1 h2
  have hr : ringOf sqrt obj i = es := by rw [ringOf, hes]; rfl
  rw [vertexArea, hr] at hA ⊢
  rw [hr] at he
  obtain ⟨-, hoff, -, -⟩ := hnon hA
  have h2A := ne_zero_of_not_close hA
  rw [SparseMatrix.num, coeff_of_stored (hoff e he)]
  cases ht : e.total_cot with
  | none => simp [ht] at hfin
  | some w => simp [fdivBy, fdiv, h2A]

theorem num_of_no_entry {sqrt : R → R} {obj : Object R} {op : SparseMatrix R}
    (hop : build_op_matrix sqrt obj = some op) {i : Nat} (h1 : 1 ≤ i)
    (h2 : i < obj.hevs.length)
    (hA : close_to_zero (vertexArea sqrt obj i) = false)
    {c : Nat} (hc : c ≠ i - 1) (hno : ∀ e ∈ ringOf sqrt obj i, e.col ≠ c) :
    op.num (i - 1) c = 0 := by
  obtain ⟨-, -, es, hes, -, -, -, hnon⟩ := op_matrix_row hop h1 h2
  have hr : ringOf sqrt obj i = es := by rw [ringOf, hes]; rfl
  rw [vertexArea, hr] at hA
  rw [hr] at hno
  obtain ⟨-, -, -, hzero⟩ := hnon hA
  rw [SparseMatrix.num, coeff_of_not_stored (hzero c hc hno)]
  rfl

/-- On a closed, indexed mesh with the half-edge invariants, the entry read for
a half-edge from `i` to `j` has a partner with the same weight in the ring of
`j`, pointing back to `i`. -/
theorem ring_pair {sqrt : R → R} {obj : Object R} {op : SparseMatrix R}
    (hop : build_op_matrix sqrt obj = some op)
    (hinv : obj.HalfEdgeInvariants) (hidx : obj.Indexed) (hclosed : obj.RingsClosed sqrt)
    {i : Nat} (h1 : 1 ≤ i) (h2 : i < obj.hevs.length)
    {e : RingEntry R} (he : e ∈ ringOf sqrt obj i) :
    1 ≤ e.col + 1 ∧ e.col + 1 < obj.hevs.length ∧ e.j = ((e.col + 1 : Nat) : Int) ∧
      ∃ e' ∈ ringOf sqrt obj (e.col + 1), e'.col = i - 1 ∧ e'.total_cot = e.total_cot := by
  have hri := ring_of_build hop h1 h2
  obtain ⟨-, -, es, hes, -, hrange, -⟩ := op_matrix_row hop h1 h2
  have hr : ringOf sqrt obj i = es := by rw [ringOf, hes]; rfl
  obtain ⟨hj0, hjn⟩ := hrange e (hr ▸ he)
  obtain ⟨v_i, hvi, hmem⟩ := oneRing_mem hri
  have hent := hmem e he
  have hhe : ∃ h, obj.he e.he = some h := by
    unfold ringEntry at hent
    simp only [Option.bind_eq_bind, Option.bind_eq_some] at hent
    obtain ⟨h, hh, -⟩ := hent
    exact ⟨h, hh⟩
  obtain ⟨h, hh⟩ := hhe
  have htail : obj.tail e.he = some i :=
    (hclosed e.he (he_lt hh) i h2 h1).mpr (List.mem_map_of_mem (fun e => e.he) he)
  simp only [Object.tail, hh, Option.map_some', Option.some.injEq] at htail
  rw [← htail] at hvi
  obtain ⟨hf, v_j, e'', hhf, -, hvj, hent'', htot, hj1, hj2⟩ := ringEntry_flip hinv hh hvi hent
  have hjlt := hev_lt hvj
  have hjidx : v_j.index = (hf.vertex : Int) := hidx _ hjlt v_j (Option.mem_def.mpr hvj)
  have hcol : e.col + 1 = hf.vertex := by
    unfold RingEntry.col
    omega
  rw [hcol]
  have hj1' : 1 ≤ hf.vertex := by omega
  refine ⟨hj1', hjlt, by rw [hj2, hjidx], ?_⟩
  have hrj := ring_of_build hop hj1' hjlt
  obtain ⟨v_j', hvj', hmem'⟩ := oneRing_mem hrj
  rw [hvj, Option.some.injEq] at hvj'
  subst hvj'
  have hin : h.flip ∈ (ringOf sqrt obj hf.vertex).map fun e => e.he :=
    (hclosed h.flip (he_lt hhf) hf.vertex hjlt hj1').mp (by simp [Object.tail, hhf])
  obtain ⟨e', he', hhe'⟩ := List.mem_map.mp hin
  have hent' := hmem' e' he'
  rw [hhe', hent'', Option.some.injEq] at hent'
  subst hent'
  refine ⟨e'', he', ?_, htot⟩
  unfold RingEntry.col
  rw [hj1, hidx _ (hev_lt hvi) v_i (Option.mem_def.mpr hvi), htail]
  omega

/-- The matrix `diag(A) Δ` is symmetric on a closed mesh without degenerate
vertices whose weights are numbers. -/
theorem num_sym {sqrt : R → R} {obj : Object R} {op : SparseMatrix R}
    (hop : build_op_matrix sqrt obj = some op)
    (hinv : obj.HalfEdgeInvariants) (hidx : obj.Indexed) (hclosed : obj.RingsClosed sqrt)
    (hnd : obj.NonDegenerate sqrt) (hfin : obj.FiniteWeights sqrt)
    {r c : Nat} (hr : r < obj.hevs.length - 1) (hc : c < obj.hevs.length - 1) :
    vertexArea sqrt obj (r + 1) * op.num r c = vertexArea sqrt obj (c + 1) * op.num c r := by
  by_cases hrc : r = c
  · subst hrc
    rfl
  have key : ∀ r c, r < obj.hevs.length - 1 → c < obj.hevs.length - 1 → r ≠ c →
      (∃ e ∈ ringOf sqrt obj (r + 1), e.col = c) →
      vertexArea sqrt obj (r + 1) * op.num r c =
        vertexArea sqrt obj (c + 1) * op.num c r := by
    intro r c hr hc _ hex
    obtain ⟨e, he, hcol⟩ := hex
    have hr1 : 1 ≤ r + 1 := by omega
    have hr2 : r + 1 < obj.hevs.length := by omega
    have hc1 : 1 ≤ c + 1 := by omega
    have hc2 : c + 1 < obj.hevs.length := by omega
    obtain ⟨-, -, -, e', he', hcol', htot⟩ := ring_pair hop hinv hidx hclosed hr1 hr2 he
    rw [hcol] at he'
    have hAr := hnd (r + 1) hr2 hr1
    have hAc := hnd (c + 1) hc2 hc1
    have h1 := num_of_entry hop hr1 hr2 hAr he (hfin (r + 1) hr2 hr1 e he)
    have h2 := num_of_entry hop hc1 hc2 hAc he' (hfin (c + 1) hc2 hc1 e' he')
    rw [hcol, Nat.add_sub_cancel] at h1
    rw [hcol', Nat.add_sub_cancel, Nat.add_sub_cancel, htot] at h2
    rw [h1, h2]
    have hr0 := ne_zero_of_not_close hAr
    have hc0 := ne_zero_of_not_close hAc
    have hr0' : vertexArea sqrt obj (r + 1) ≠ 0 := fun h0 => hr0 (by rw [h0, mul_zero])
    have hc0' : vertexArea sqrt obj (c + 1) ≠ 0 := fun h0 => hc0 (by rw [h0, mul_zero])
    field_simp
    ring
  by_cases hex : ∃ e ∈ ringOf sqrt obj (r + 1), e.col = c
  · exact key r c hr hc hrc hex
  · by_cases hex' : ∃ e ∈ ringOf sqrt obj (c + 1), e.col = r
    · exact (key c r hc hr (Ne.symm hrc) hex').symm
    · have h1 := num_of_no_entry hop (i := r + 1) (by omega) (by omega)
        (hnd (r + 1) (by omega) (by omega)) (c := c) (by omega)
        (fun e he heq => hex ⟨e, he, heq⟩)
      have h2 := num_of_no_entry hop (i := c + 1) (by omega) (by omega)
        (hnd (c + 1) (by omega) (by omega)) (c := r) (by omega)
        (fun e he heq => hex' ⟨e, he, heq⟩)
      rw [Nat.add_sub_cancel] at h1 h2
      rw [h1, h2, mul_zero, mul_zero]

theorem num_row_sum {sqrt : R → R} {obj : Object R} {op : SparseMatrix R}
    (hop : build_op_matrix sqrt obj = some op)
    (hnd : obj.NonDegenerate sqrt) (hfin : obj.FiniteWeights sqrt)
    {r : Nat} (hr : r < obj.hevs.length - 1) :
    (∀ c, op.coeff r c ≠ none) ∧ ∑ c in Finset.range (obj.hevs.length - 1), op.num r c = 0 := by
  have hr1 : 1 ≤ r + 1 := by omega
  have hr2 : r + 1 < obj.hevs.length := by omega
  have hring := ring_of_build hop hr1 hr2
  obtain ⟨hall, hsum⟩ := row_apply hop hr1 hr2 hring (hnd (r + 1) hr2 hr1)
    (fun e he ht => by
      have := hfin (r + 1) hr2 hr1 e he
      simp [ht] at this)
  rw [Nat.add_sub_cancel] at hall hsum
  refine ⟨hall, ?_⟩
  have hcols : op.cols = obj.hevs.length - 1 := (op_matrix_row hop hr1 hr2).2.1
  have := hsum (fun _ => 1)
  rw [hcols] at this
  simpa using this

/-- The rows of `Δ` weighted by the incident areas cancel: `Σ_i A_i (Δ y)_i = 0`
for every vector `y`. -/
theorem weighted_apply_zero {sqrt : R → R} {obj : Object R} {op : SparseMatrix R}
    (hop : build_op_matrix sqrt obj = some op)
    (hinv : obj.HalfEdgeInvariants) (hidx : obj.Indexed) (hclosed : obj.RingsClosed sqrt)
    (hnd : obj.NonDegenerate sqrt) (hfin : obj.FiniteWeights sqrt) (y : Nat → R) :
    ∑ r in Finset.range (obj.hevs.length - 1), vertexArea sqrt obj (r + 1) *
      ∑ c in Finset.range (obj.hevs.length - 1), op.num r c * y c = 0 := by
  have h1 : ∀ r ∈ Finset.range (obj.hevs.length - 1), vertexArea sqrt obj (r + 1) *
      ∑ c in Finset.range (obj.hevs.length - 1), op.num r c * y c =
      ∑ c in Finset.range (obj.hevs.length - 1),
        vertexArea sqrt obj (c + 1) * y c * op.num c r := by
    intro r hr
    rw [Finset.mul_sum]
    apply Finset.sum_congr rfl
    intro c hc
    rw [← mul_assoc, num_sym hop hinv hidx hclosed hnd hfin (Finset.mem_range.mp hr)
      (Finset.mem_range.mp hc)]
    ring
  rw [Finset.sum_congr rfl h1, Finset.sum_comm]
  apply Finset.sum_eq_zero
  intro c hc
  rw [← Finset.mul_sum, (num_row_sum hop hnd hfin (Finset.mem_range.mp hc)).2, mul_zero]

theorem list_sum_eq_range (l : List R) :
    l.sum = ∑ r in Finset.range l.length, l.getD r 0 := by
  induction l with
  | nil => simp
  | cons a l ih =>
    rw [List.sum_cons, List.length_cons, Finset.sum_range_succ', ih]
    simp [add_comm]

/-- One implicit step preserves the area-weighted sum of a coordinate:
`Σ A_i x'_i = Σ A_i x_i` whenever `F x' = x`. -/
theorem weighted_sum_preserved {sqrt : R → R} {obj : Object R} {opF : SparseMatrix R}
    {time_step_h : R} (hF : build_F_operator sqrt time_step_h obj = some opF)
    (hinv : obj.HalfEdgeInvariants) (hidx : obj.Indexed) (hclosed : obj.RingsClosed sqrt)
    (hnd : obj.NonDegenerate sqrt) (hfin : obj.FiniteWeights sqrt)
    {x x' : List R} (hsol : opF.IsSolution x' x) :
    ∑ r in Finset.range (obj.hevs.length - 1), vertexArea sqrt obj (r + 1) * x'.getD r 0 =
      ∑ r in Finset.range (obj.hevs.length - 1), vertexArea sqrt obj (r + 1) * x.getD r 0 := by
  obtain ⟨op, hop, hrows, hcols, hentry⟩ := opF_entries sqrt time_step_h obj opF hF
  obtain ⟨-, hxlen, hrow⟩ := hsol
  have hx : ∀ r ∈ Finset.range (obj.hevs.length - 1), vertexArea sqrt obj (r + 1) * x.getD r 0 =
      vertexArea sqrt obj (r + 1) * x'.getD r 0 - time_step_h * (vertexArea sqrt obj (r + 1) *
        ∑ c in Finset.range (obj.hevs.length - 1), op.num r c * x'.getD c 0) := by
    intro r hr
    have hr' := Finset.mem_range.mp hr
    obtain ⟨hall, -⟩ := num_row_sum hop hnd hfin hr'
    have hcoef : ∀ c, c < opF.cols → opF.coeff r c =
        some ((if r = c then 1 else 0) - time_step_h * op.num r c) := by
      intro c hc
      rw [hentry r c hr' (hcols ▸ hc)]
      unfold SparseMatrix.num
      cases hv : op.coeff r c with
      | none => exact absurd hv (hall c)
      | some v => rfl
    have hmul := fsum_coeff_mul opF r (fun j => x'.getD j 0)
      (fun c hc => by rw [hcoef c hc]; simp)
    have hrow' := hrow r (hrows ▸ hr')
    unfold SparseMatrix.mulVecAt at hrow'
    rw [hmul, List.getElem?_eq_getElem (by omega)] at hrow'
    simp only [Option.some.injEq] at hrow'
    rw [List.getD_eq_getElem _ _ (by omega : r < x.length), ← hrow', hcols]
    have hnum : ∀ c ∈ Finset.range (obj.hevs.length - 1), opF.num r c * x'.getD c 0 =
        (if r = c then x'.getD c 0 else 0) - time_step_h * (op.num r c * x'.getD c 0) := by
      intro c hc
      have := hcoef c (hcols ▸ Finset.mem_range.mp hc)
      unfold SparseMatrix.num at this ⊢
      rw [this]
      by_cases hrc : r = c <;> simp [hrc] <;> ring
    rw [Finset.sum_congr rfl hnum, Finset.sum_sub_distrib, Finset.sum_ite_eq,
      if_pos hr, ← Finset.mul_sum]
    ring
  rw [Finset.sum_congr rfl hx, Finset.sum_sub_distrib, ← Finset.mul_sum,
    weighted_apply_zero hop hinv hidx hclosed hnd hfin]
  simp

/-! ## Lemmas: identity rows and the zero time step -/

theorem mulVecAt_identity_row (m : SparseMatrix R) (x : List R) (r : Nat) (hr : r < m.cols)
    (h : ∀ c, c < m.cols → m.coeff r c = some (if r = c then 1 else 0)) :
    m.mulVecAt x r = some (x.getD r 0) := by
  unfold SparseMatrix.mulVecAt
  rw [fsum_coeff_mul m r (fun j => x.getD j 0) (fun c hc => by rw [h c hc]; simp)]
  have : ∀ c ∈ Finset.range m.cols, m.num r c * x.getD c 0 = if r = c then x.getD c 0 else 0 := by
    intro c hc
    unfold SparseMatrix.num
    rw [h c (Finset.mem_range.mp hc)]
    by_cases hrc : r = c <;> simp [hrc]
  rw [Finset.sum_congr rfl this, Finset.sum_ite_eq, if_pos (Finset.mem_range.mpr hr)]

/-- A solution of `F x' = x` keeps the component of every identity row of `F`. -/
theorem solution_identity_row {m : SparseMatrix R} {x' x : List R} (hsol : m.IsSolution x' x)
    {r : Nat} (hr : r < m.rows) (hrc : r < m.cols)
    (h : ∀ c, c < m.cols → m.coeff r c = some (if r = c then 1 else 0)) :
    x'.getD r 0 = x.getD r 0 := by
  obtain ⟨-, hxl, hrow⟩ := hsol
  have := hrow r hr
  rw [mulVecAt_identity_row m x' r hrc h, List.getElem?_eq_getElem (by omega)] at this
  rw [List.getD_eq_getElem _ _ (by omega : r < x.length)]
  exact Option.some.inj this

theorem isSolution_identity (m : SparseMatrix R) (b : List R) (hrows : b.length = m.rows)
    (hcols : m.cols = m.rows)
    (h : ∀ r c, r < m.rows → c < m.cols → m.coeff r c = some (if r = c then 1 else 0)) :
    m.IsSolution b b := by
  refine ⟨hrows.trans hcols.symm, hrows, ?_⟩
  intro r hr
  rw [mulVecAt_identity_row m b r (hcols ▸ hr) (fun c hc => h r c hr hc),
    List.getElem?_eq_getElem (by omega), List.getD_eq_getElem _ _ (by omega : r < b.length)]

/-- With a zero time step and a matrix `Δ` of numbers, `F` is the identity. -/
theorem opF_zero_step {sqrt : R → R} {obj : Object R} {op opF : SparseMatrix R}
    (hop : build_op_matrix sqrt obj = some op)
    (hfinite : ∀ r, r < obj.hevs.length - 1 → ∀ c, c < obj.hevs.length - 1 →
      op.coeff r c ≠ none)
    (hF : build_F_operator sqrt 0 obj = some opF) :
    ∀ r c, r < obj.hevs.length - 1 → c < obj.hevs.length - 1 →
      opF.coeff r c = some (if r = c then 1 else 0) := by
  obtain ⟨op', hop', -, -, hentry⟩ := opF_entries sqrt 0 obj opF hF
  rw [hop, Option.some.injEq] at hop'
  subst hop'
  intro r c hr hc
  rw [hentry r c hr hc]
  cases hv : op.coeff r c with
  | none => exact absurd hv (hfinite r hr c hc)
  | some v => simp [fsub, fmul]

/-- The row of `Δ` of a degenerate vertex whose weights are numbers is zero. -/
theorem degenerate_row_zero {sqrt : R → R} {obj : Object R} {op : SparseMatrix R}
    (hop : build_op_matrix sqrt obj = some op) {i : Nat} (h1 : 1 ≤ i)
    (h2 : i < obj.hevs.length)
    (hA : close_to_zero (vertexArea sqrt obj i) = true)
    (hfin : ∀ e ∈ ringOf sqrt obj i, e.total_cot.isSome = true) (c : Nat) :
    op.coeff (i - 1) c = some 0 := by
  obtain ⟨-, -, es, hes, -, -, hdeg, -⟩ := op_matrix_row hop h1 h2
  have hr : ringOf sqrt obj i = es := by rw [ringOf, hes]; rfl
  rw [vertexArea, hr] at hA
  rw [hr] at hfin
  obtain ⟨hoff, hzero⟩ := hdeg hA
  by_cases hex : ∃ e ∈ es, e.col = c
  · obtain ⟨e, he, rfl⟩ := hex
    rw [coeff_of_stored (hoff e he)]
    have := hfin e he
    cases ht : e.total_cot with
    | none => simp [ht] at this
    | some w => simp [fmul]
  · exact coeff_of_not_stored (hzero c (fun e he heq => hex ⟨e, he, heq⟩))

/-- A degenerate vertex whose weights are numbers is pinned by the implicit
step: its row of `F` is the identity row and `F x' = x` gives `x'_i = x_i`. -/
theorem degenerate_vertex_pinned {sqrt : R → R} {obj : Object R} {opF : SparseMatrix R}
    {time_step_h : R} (hF : build_F_operator sqrt time_step_h obj = some opF)
    {i : Nat} (h1 : 1 ≤ i) (h2 : i < obj.hevs.length)
    (hA : close_to_zero (vertexArea sqrt obj i) = true)
    (hfin : ∀ e ∈ ringOf sqrt obj i, e.total_cot.isSome = true) :
    (∀ c, c < obj.hevs.length - 1 → opF.coeff (i - 1) c = some (if i - 1 = c then 1 else 0)) ∧
    ∀ x' x : List R, opF.IsSolution x' x → x'.getD (i - 1) 0 = x.getD (i - 1) 0 := by
  obtain ⟨op, hop, hrows, hcols, hentry⟩ := opF_entries sqrt time_step_h obj opF hF
  have hrow : ∀ c, c < obj.hevs.length - 1 →
      opF.coeff (i - 1) c = some (if i - 1 = c then 1 else 0) := by
    intro c hc
    rw [hentry (i - 1) c (by omega) hc, degenerate_row_zero hop h1 h2 hA hfin c]
    simp [fsub, fmul]
  refine ⟨hrow, fun x' x hsol => ?_⟩
  exact solution_identity_row hsol (by omega) (by omega) (fun c hc => hrow c (hcols ▸ hc))

/-- With a zero time step, a matrix `Δ` of numbers and an exact solver, one
smoothing generation returns and moves no vertex. -/
theorem smoothing_zero_step {sqrt : R → R} {solver : SparseLU R} {obj : Object R}
    {op opF : SparseMatrix R} (hop : build_op_matrix sqrt obj = some op)
    (hfinite : ∀ r, r < obj.hevs.length - 1 → ∀ c, c < obj.hevs.length - 1 →
      op.coeff r c ≠ none)
    (hF : build_F_operator sqrt 0 obj = some opF)
    (hexact : ∀ b : List R, b.length = opF.rows →
      ∃ x', solver.solve opF b = some x' ∧ opF.IsSolution x' b) :
    ∃ obj', computeSmoothing sqrt solver 0 obj = some obj' ∧
      ∀ i, 1 ≤ i → i < obj.hevs.length → obj'.hev i = obj.hev i := by
  obtain ⟨obj', x, y, z, x', y', z', hrun, hv, hsx, hsy, hsz⟩ :=
    smoothing_spec sqrt solver 0 obj opF hF hexact
  obtain ⟨-, -, hrows, hcols, -⟩ := opF_entries sqrt 0 obj opF hF
  have hid := opF_zero_step hop hfinite hF
  refine ⟨obj', hrun, ?_⟩
  intro i h1 h2
  obtain ⟨v, hvi, hx, hy, hz, hmoved⟩ := hv i h1 h2
  have hrow : ∀ c, c < opF.cols → opF.coeff (i - 1) c = some (if i - 1 = c then 1 else 0) :=
    fun c hc => hid (i - 1) c (by omega) (hcols ▸ hc)
  have hxl := hsx.2.1
  have hyl := hsy.2.1
  have hzl := hsz.2.1
  have ex := solution_identity_row hsx (r := i - 1) (by omega) (by omega) hrow
  have ey := solution_identity_row hsy (r := i - 1) (by omega) (by omega) hrow
  have ez := solution_identity_row hsz (r := i - 1) (by omega) (by omega) hrow
  rw [List.getD_eq_getElem?_getD x, hx] at ex
  rw [List.getD_eq_getElem?_getD y, hy] at ey
  rw [List.getD_eq_getElem?_getD z, hz] at ez
  rw [hmoved, hvi]
  simp only [HEV.moved, ex, ey, ez, Option.getD_some]

/-- When every vertex has the same incident area, one implicit step preserves
the plain sum of a coordinate. -/
theorem sum_preserved_of_equal_areas {sqrt : R → R} {obj : Object R} {opF : SparseMatrix R}
    {time_step_h : R} (hF : build_F_operator sqrt time_step_h obj = some opF)
    (hinv : obj.HalfEdgeInvariants) (hidx : obj.Indexed) (hclosed : obj.RingsClosed sqrt)
    (hnd : obj.NonDegenerate sqrt) (hfin : obj.FiniteWeights sqrt)
    (hequal : obj.EqualAreas sqrt)
    {x x' : List R} (hsol : opF.IsSolution x' x) : x'.sum = x.sum := by
  have hw := weighted_sum_preserved hF hinv hidx hclosed hnd hfin hsol
  obtain ⟨-, -, hrows, hcols, -⟩ := opF_entries sqrt time_step_h obj opF hF
  obtain ⟨hx'l, hxl, -⟩ := hsol
  rw [list_sum_eq_range x', list_sum_eq_range x, hx'l, hxl, hrows, hcols]
  by_cases hn : obj.hevs.length - 1 = 0
  · rw [hn]
    simp
  · have h1 : 1 < obj.hevs.length := by omega
    have hA : ∀ r ∈ Finset.range (obj.hevs.length - 1),
        vertexArea sqrt obj (r + 1) = vertexArea sqrt obj 1 := by
      intro r hr
      have := Finset.mem_range.mp hr
      exact hequal (r + 1) (by omega) (by omega)
    have hA0 : vertexArea sqrt obj 1 ≠ 0 := by
      intro h0
      exact ne_zero_of_not_close (hnd 1 h1 (le_refl 1)) (by rw [h0, mul_zero])
    have e1 : ∀ l : List R, ∑ r in Finset.range (obj.hevs.length - 1),
        vertexArea sqrt obj (r + 1) * l.getD r 0 =
        vertexArea sqrt obj 1 * ∑ r in Finset.range (obj.hevs.length - 1), l.getD r 0 := by
      intro l
      rw [Finset.mul_sum]
      exact Finset.sum_congr rfl (fun r hr => by rw [hA r hr])
    rw [e1, e1] at hw
    exact mul_left_cancel₀ hA0 hw

/-! ## Lemmas: the assembly runs to the end -/

theorem insert_some (m : SparseMatrix R) (row : Nat) (col : Int) (v : Option R)
    (h0 : 0 ≤ col) (hc : col < m.cols) (hr : row < m.rows)
    (hs : m.stored row col.toNat = none) :
    m.insert row col v = some { m with data := m.data ++ [(row, col.toNat, v)] } := by
  unfold SparseMatrix.insert
  rw [if_pos ⟨h0, hc, hr, hs⟩]

theorem ringSteps_some (i : Nat) (es : List (RingEntry R)) :
    ∀ st : RingState R, (es.map fun e => e.col).Nodup →
      (∀ e ∈ es, 0 ≤ e.j - 1 ∧ e.j - 1 < st.op_matrix.cols ∧
        st.op_matrix.stored (i - 1) e.col = none) →
      i - 1 < st.op_matrix.rows → ∃ st', ringSteps i st es = some st' := by
  induction es with
  | nil =>
    intro st _ _ _
    exact ⟨st, rfl⟩
  | cons e es ih =>
    intro st hnd h hrow
    rw [List.map_cons, List.nodup_cons] at hnd
    obtain ⟨h0, hc, hs⟩ := h e (List.mem_cons_self _ _)
    have hins := insert_some st.op_matrix (i - 1) (e.j - 1) e.total_cot h0 hc hrow hs
    have hst := SparseMatrix.stored_insert hins
    obtain ⟨st', hst'⟩ := ih
      { op_matrix := { st.op_matrix with
          data := st.op_matrix.data ++ [(i - 1, (e.j - 1).toNat, e.total_cot)] }
        incident_area := st.incident_area + e.face_area
        total_cot_total := fadd st.total_cot_total e.total_cot } hnd.2
      (fun e' he' => by
        obtain ⟨h0', hc', hs'⟩ := h e' (List.mem_cons_of_mem _ he')
        refine ⟨h0', hc', ?_⟩
        rw [hst]
        have hne : ¬ (e'.col = (e.j - 1).toNat) := fun heq =>
          hnd.1 (List.mem_map.mpr ⟨e', he', heq⟩)
        rw [if_neg (fun hh => hne hh.2)]
        exact hs') hrow
    refine ⟨st', ?_⟩
    simp only [ringSteps, ringStep, hins, Option.map_some', Option.some_bind]
    exact hst'

theorem build_row_some {sqrt : R → R} {obj : Object R} {i : Nat} {m : SparseMatrix R}
    {es : List (RingEntry R)} (hring : oneRing sqrt obj i = some es)
    (hnd : (es.map fun e => e.col).Nodup)
    (hrange : ∀ e ∈ es, 0 ≤ e.j - 1 ∧ e.j - 1 < m.cols)
    (hdiag : close_to_zero (incidentArea es) = false → ∀ e ∈ es, e.col ≠ i - 1)
    (hempty : ∀ c, m.stored (i - 1) c = none) (hi : 1 ≤ i) (hrow : i - 1 < m.rows)
    (hcol : i - 1 < m.cols) : ∃ m', build_row sqrt obj i m = some m' := by
  obtain ⟨st, hst⟩ := ringSteps_some i es ⟨m, 0, some 0⟩ hnd
    (fun e he => ⟨(hrange e he).1, (hrange e he).2, hempty _⟩) hrow
  obtain ⟨ha, -, hr, hc, -, hB, -, -⟩ := ringSteps_spec i es _ _ hst
  simp only [zero_add] at ha hr hc hB
  rw [build_row_eq, hring, Option.some_bind, hst, Option.some_bind]
  by_cases hz : close_to_zero st.incident_area = true
  · rw [if_pos hz]
    exact ⟨_, rfl⟩
  · rw [if_neg hz]
    have hz' : close_to_zero (incidentArea es) = false := by
      rw [← ha]
      simpa using hz
    have hs : st.op_matrix.stored (i - 1) ((i : Int) - 1).toNat = none := by
      rw [toNat_pred, hB (i - 1) (i - 1) (fun _ => hdiag hz')]
      exact hempty _
    rw [insert_some st.op_matrix (i - 1) ((i : Int) - 1) _ (by omega) (by rw [hc]; omega)
      (by rw [hr]; exact hrow) hs]
    exact ⟨_, rfl⟩

theorem forLoop_build_row_some (sqrt : R → R) (obj : Object R) (is : List Nat) :
    ∀ m : SparseMatrix R, is.Nodup → m.cols = obj.hevs.length - 1 →
      (∀ i ∈ is, 1 ≤ i ∧ i - 1 < m.rows ∧ i - 1 < m.cols ∧ obj.RingOk sqrt i ∧
        ∀ c, m.stored (i - 1) c = none) →
      ∃ mf, forLoop (build_row sqrt obj) is m = some mf := by
  induction is with
  | nil =>
    intro m _ _ _
    exact ⟨m, rfl⟩
  | cons a is ih =>
    intro m hnd hcols h
    rw [List.nodup_cons] at hnd
    obtain ⟨ha1, har, hac, ⟨es, hring, hn, hrange, hdiag⟩, hempty⟩ := h a (List.mem_cons_self _ _)
    obtain ⟨ma, hma⟩ := build_row_some hring hn (fun e he => by rw [hcols]; exact hrange e he)
      hdiag hempty ha1 har hac
    obtain ⟨-, -, hr, hc, hoth, -⟩ := build_row_spec hma
    obtain ⟨mf, hmf⟩ := ih ma hnd.2 (hc.trans hcols) (fun k hk => by
      obtain ⟨hk1, hkr, hkc, hok, hke⟩ := h k (List.mem_cons_of_mem _ hk)
      refine ⟨hk1, hr ▸ hkr, hc ▸ hkc, hok, fun c => ?_⟩
      rw [hoth (k - 1) c (fun heq => hnd.1 (by
        have : k = a := by omega
        exact this ▸ hk))]
      exact hke c)
    exact ⟨mf, by simp only [forLoop, hma, Option.some_bind]; exact hmf⟩

/-- The assembly of `Δ` runs to the end exactly when `hevs` is not empty and the
ring of every vertex is walkable with distinct neighbours in range. -/
theorem build_op_matrix_returns_iff (sqrt : R → R) (obj : Object R) :
    (∃ op, build_op_matrix sqrt obj = some op) ↔
      obj.hevs.length ≠ 0 ∧ ∀ i, 1 ≤ i → i < obj.hevs.length → obj.RingOk sqrt i := by
  constructor
  · rintro ⟨op, hop⟩
    refine ⟨?_, ?_⟩
    · intro h0
      simp [build_op_matrix, h0] at hop
    · intro i h1 h2
      obtain ⟨-, -, es, hes, hnd, hrange, -, hnon⟩ := op_matrix_row hop h1 h2
      exact ⟨es, hes, hnd, hrange, fun hz => (hnon hz).1⟩
  · rintro ⟨h0, hok⟩
    unfold build_op_matrix
    rw [if_neg h0]
    exact forLoop_build_row_some sqrt obj _ _ (nodup_vertexRange obj) rfl (fun i hi => by
      obtain ⟨h1, h2⟩ := (mem_vertexRange obj i).mp hi
      exact ⟨h1, by simp only [SparseMatrix.empty]; omega, by simp only [SparseMatrix.empty]; omega,
        hok i h1 h2, fun c => stored_empty _ _ _ c⟩)

/-! ## Lemmas: the normals and buffers run to the end -/

/-- Two objects with the same half-edges and the same vertex positions and
outgoing half-edges (the cached normals may differ). -/
theorem normalLoop_congr (sqrt : R → R) (obj obj1 : Object R) (hhes : obj1.hes = obj.hes)
    (hpos : ∀ k, (obj1.hev k).map HEV.pos = (obj.hev k).map HEV.pos)
    (v_pos : Vector3f R) (out : Nat) :
    ∀ (fuel he : Nat) (n : Vector3f R),
      normalLoop sqrt obj1 v_pos out fuel he n = normalLoop sqrt obj v_pos out fuel he n := by
  have hhe : ∀ k, obj1.he k = obj.he k := by
    intro k
    unfold Object.he
    rw [hhes]
  intro fuel
  induction fuel with
  | zero =>
    intro he n
    rfl
  | succ fuel ih =>
    intro he n
    simp only [normalLoop, Option.bind_eq_bind, hhe]
    cases obj.he he with
    | none => rfl
    | some h =>
      simp only [Option.some_bind]
      cases obj.he h.next with
      | none => rfl
      | some hn =>
        simp only [Option.some_bind]
        have h2 := hpos hn.vertex
        cases hv1 : obj1.hev hn.vertex with
        | none =>
          cases hv : obj.hev hn.vertex with
          | none => rfl
          | some v => simp [hv1, hv] at h2
        | some v1 =>
          cases hv : obj.hev hn.vertex with
          | none => simp [hv1, hv] at h2
          | some v =>
            simp only [hv1, hv, Option.map_some', Option.some.injEq] at h2
            simp only [Option.some_bind]
            cases obj.he hn.next with
            | none => rfl
            | some hnn =>
              simp only [Option.some_bind]
              have h3 := hpos hnn.vertex
              cases hw1 : obj1.hev hnn.vertex with
              | none =>
                cases hw : obj.hev hnn.vertex with
                | none => rfl
                | some w => simp [hw1, hw] at h3
              | some w1 =>
                cases hw : obj.hev hnn.vertex with
                | none => simp [hw1, hw] at h3
                | some w =>
                  simp only [hw1, hw, Option.map_some', Option.some.injEq] at h3
                  simp only [Option.some_bind, h2, h3, ih]

theorem hev_map_set (obj : Object R) (a : Nat) (v w : HEV R) (hv : obj.hev a = some v)
    {β : Type} (g : HEV R → β) (hg : g w = g v) (k : Nat) :
    (({ obj with hevs := obj.hevs.set a (some w) } : Object R).hev k).map g =
      (obj.hev k).map g := by
  rw [hev_set obj a w (hev_lt hv)]
  by_cases hk : k = a
  · rw [if_pos hk, hk, hv, Option.map_some', Option.map_some', hg]
  · rw [if_neg hk]

theorem forLoop_storeNormal_some (sqrt : R → R) (obj : Object R) (is : List Nat) :
    ∀ cur : Object R, cur.hes = obj.hes → cur.mesh = obj.mesh →
      (∀ k, (cur.hev k).map (fun v => (v.pos, v.out)) = (obj.hev k).map fun v => (v.pos, v.out)) →
      (∀ i ∈ is, ∃ v, obj.hev i = some v ∧ ∃ n, calculateVertexNormal sqrt obj v = some n) →
      ∃ obj1, forLoop (storeNormal sqrt) is cur = some obj1 ∧ obj1.mesh = obj.mesh ∧
        ∀ k, (obj1.hev k).map (fun v => (v.pos, v.out)) =
          (obj.hev k).map fun v => (v.pos, v.out) := by
  induction is with
  | nil =>
    intro cur _ hm hg _
    exact ⟨cur, rfl, hm, hg⟩
  | cons a is ih =>
    intro cur hhes hm hg h
    obtain ⟨v, hv, n, hn⟩ := h a (List.mem_cons_self _ _)
    have hga := hg a
    rw [hv, Option.map_some'] at hga
    cases hc : cur.hev a with
    | none => simp [hc] at hga
    | some v' =>
      simp only [hc, Option.map_some', Option.some.injEq, Prod.mk.injEq] at hga
      have hpos : ∀ k, (cur.hev k).map HEV.pos = (obj.hev k).map HEV.pos := by
        intro k
        have := congrArg (Option.map Prod.fst) (hg k)
        simpa [Option.map_map, Function.comp] using this
      have hcalc : calculateVertexNormal sqrt cur v' = some n := by
        unfold calculateVertexNormal at hn ⊢
        rw [hga.1, hga.2, hhes, normalLoop_congr sqrt obj cur hhes hpos]
        exact hn
      have hstep : storeNormal sqrt a cur =
          some { cur with hevs := cur.hevs.set a (some { v' with normal := n }) } := by
        unfold storeNormal
        simp only [Option.bind_eq_bind, hc, Option.some_bind, hcalc]
      obtain ⟨obj1, hloop, hm1, hg1⟩ :=
        ih { cur with hevs := cur.hevs.set a (some { v' with normal := n }) } hhes hm
        (fun k => by
          rw [hev_map_set cur a v' { v' with normal := n } hc
            (fun v : HEV R => (v.pos, v.out)) rfl k]
          exact hg k)
        (fun i hi => h i (List.mem_cons_of_mem _ hi))
      exact ⟨obj1, by simp only [forLoop, hstep, Option.some_bind]; exact hloop, hm1, hg1⟩

theorem forLoop_pushFace_some (fs : List Nat) :
    ∀ cur : Object R,
      (∀ fIdx ∈ fs, ∃ f, cur.mesh.faces[fIdx]? = some f ∧ cur.FaceOk f) →
      ∃ obj', forLoop pushFace fs cur = some obj' := by
  induction fs with
  | nil =>
    intro cur _
    exact ⟨cur, rfl⟩
  | cons a fs ih =>
    intro cur h
    obtain ⟨f, hf, hok⟩ := h a (List.mem_cons_self _ _)
    obtain ⟨⟨v1, hv1⟩, n1, hn1⟩ := hok f.idx1 (by simp)
    obtain ⟨⟨v2, hv2⟩, n2, hn2⟩ := hok f.idx2 (by simp)
    obtain ⟨⟨v3, hv3⟩, n3, hn3⟩ := hok f.idx3 (by simp)
    have hstep : pushFace a cur = some { cur with
        vertex_buffer := cur.vertex_buffer ++ [v1, v2, v3]
        normal_buffer := cur.normal_buffer ++ [n1.normal, n2.normal, n3.normal] } := by
      unfold pushFace
      simp only [Option.bind_eq_bind, hf, Option.some_bind, hv1, hv2, hv3, hn1, hn2, hn3]
    obtain ⟨obj', hloop⟩ := ih { cur with
        vertex_buffer := cur.vertex_buffer ++ [v1, v2, v3]
        normal_buffer := cur.normal_buffer ++ [n1.normal, n2.normal, n3.normal] }
      (fun fIdx hfi => h fIdx (List.mem_cons_of_mem _ hfi))
    exact ⟨obj', by simp only [forLoop, hstep, Option.some_bind]; exact hloop⟩

/-- The function `computeNormalsUpdateBuffers` runs to the end when the normal of
every vertex `1..|V|` can be computed (the walk around it comes back) and every
face index names a mesh vertex and a half-edge vertex. -/
theorem computeNormalsUpdateBuffers_returns (sqrt : R → R) (obj : Object R)
    (hn : ∀ i, 1 ≤ i → i < obj.hevs.length →
      ∃ v, obj.hev i = some v ∧ ∃ n, calculateVertexNormal sqrt obj v = some n)
    (hf : ∀ f ∈ obj.mesh.faces, obj.FaceOk f) :
    ∃ obj', computeNormalsUpdateBuffers sqrt obj = some obj' := by
  obtain ⟨obj1, h1, hm1, hg1⟩ := forLoop_storeNormal_some sqrt obj (vertexRange obj) obj rfl rfl
    (fun _ => rfl) (fun i hi => by
      obtain ⟨a, b⟩ := (mem_vertexRange obj i).mp hi
      exact hn i a b)
  have hsome : ∀ k : Int, (∃ n, (atInt obj.hevs k).join = some n) →
      ∃ n, (atInt obj1.hevs k).join = some n := by
    intro k ⟨n, hk⟩
    unfold atInt at hk ⊢
    by_cases hneg : k < 0
    · simp [hneg] at hk
    · rw [if_neg hneg] at hk ⊢
      have := hg1 k.toNat
      unfold Object.hev at this
      rw [hk] at this
      cases hx : (obj1.hevs[k.toNat]?).join with
      | none =>
        rw [hx] at this
        exact absurd this (by simp)
      | some w => exact ⟨w, rfl⟩
  obtain ⟨obj', h2⟩ := forLoop_pushFace_some (List.range obj1.mesh.faces.length)
    { obj1 with vertex_buffer := [], normal_buffer := [] } (fun fIdx hfi => by
      have hlt : fIdx < obj1.mesh.faces.length := List.mem_range.mp hfi
      refine ⟨obj1.mesh.faces[fIdx], List.getElem?_eq_getElem hlt, ?_⟩
      intro k hk
      have hmem : obj1.mesh.faces[fIdx] ∈ obj.mesh.faces := by
        rw [← hm1]
        exact List.getElem_mem hlt
      obtain ⟨hv, hn'⟩ := hf _ hmem k hk
      refine ⟨?_, hsome k hn'⟩
      show ∃ v, (atInt obj1.mesh.vertices k).join = some v
      rw [hm1]
      exact hv)
  exact ⟨obj', by
    unfold computeNormalsUpdateBuffers
    simp only [Option.bind_eq_bind, h1, Option.some_bind]
    exact h2⟩

/-! ## Lemmas: meshes on which the loops run to the end -/

/-- On a mesh whose rings are in order the assembly of `Δ` runs to the end. -/
theorem ringsOk_build {sqrt : R → R} {obj : Object R} (hok : obj.RingsOk sqrt) :
    ∃ op, build_op_matrix sqrt obj = some op :=
  (build_op_matrix_returns_iff sqrt obj).mpr ⟨hok.1, fun i h1 h2 => hok.2 i h2 h1⟩

theorem ringOf_eq {sqrt : R → R} {obj : Object R} {i : Nat} {es : List (RingEntry R)}
    (h : oneRing sqrt obj i = some es) : ringOf sqrt obj i = es := by
  rw [ringOf, h]
  rfl

theorem ringsOk_ring {sqrt : R → R} {obj : Object R} (hok : obj.RingsOk sqrt) {i : Nat}
    (h1 : 1 ≤ i) (h2 : i < obj.hevs.length) :
    oneRing sqrt obj i = some (ringOf sqrt obj i) := by
  obtain ⟨es, hes, -⟩ := hok.2 i h2 h1
  rw [ringOf_eq hes]
  exact hes

/-- When every weight read in a ring is a number, every coefficient of `Δ` is a
number. -/
theorem coeff_finite {sqrt : R → R} {obj : Object R} {op : SparseMatrix R}
    (hop : build_op_matrix sqrt obj = some op) (hfin : obj.FiniteWeights sqrt) :
    ∀ r, r < obj.hevs.length - 1 → ∀ c, c < obj.hevs.length - 1 → op.coeff r c ≠ none := by
  intro r hr c _
  have h1 : 1 ≤ r + 1 := by omega
  have h2 : r + 1 < obj.hevs.length := by omega
  obtain ⟨-, -, es, hes, -⟩ := op_matrix_row hop h1 h2
  have hre := ringOf_eq hes
  cases hA : close_to_zero (vertexArea sqrt obj (r + 1)) with
  | true =>
    have h0 := degenerate_row_zero hop h1 h2 hA (hfin (r + 1) h2 h1) c
    rw [Nat.add_sub_cancel] at h0
    rw [h0]
    exact Option.noConfusion
  | false =>
    have hA' : close_to_zero (incidentArea es) = false := by
      rw [← hre]
      exact hA
    obtain ⟨hall, -⟩ := row_apply hop h1 h2 hes hA' (fun e he hn => by
      have := hfin (r + 1) h2 h1 e (hre ▸ he)
      rw [hn] at this
      exact Bool.noConfusion this)
    have := hall c
    rw [Nat.add_sub_cancel] at this
    exact this

/-- The function `computeNormalsUpdateBuffers` runs to the end on a mesh whose
normals can be computed and whose faces name vertices that are there. -/
theorem normalsOk_returns (sqrt : R → R) (obj : Object R) (hn : obj.NormalsOk sqrt)
    (hf : obj.FacesOk) : ∃ obj', computeNormalsUpdateBuffers sqrt obj = some obj' := by
  apply computeNormalsUpdateBuffers_returns
  · intro i h1 h2
    have := hn i h2 h1
    cases hv : obj.hev i with
    | none =>
      rw [hv] at this
      exact Bool.noConfusion this
    | some v =>
      rw [hv, Option.some_bind] at this
      exact ⟨v, rfl, Option.isSome_iff_exists.mp this⟩
  · intro f hfm k hk
    obtain ⟨a, b⟩ := hf f hfm k hk
    exact ⟨Option.isSome_iff_exists.mp a, Option.isSome_iff_exists.mp b⟩

/-! ## Lemmas: what one smoothing step touches -/

/-- Whenever the solver answers, `computeSmoothing` returns; it writes the
solver's three answers for the old coordinates into the positions of the
vertices `1..|V|` and touches nothing else. -/
theorem smoothing_run (sqrt : R → R) (solver : SparseLU R) (time_step_h : R)
    (obj : Object R) (opF : SparseMatrix R)
    (hF : build_F_operator sqrt time_step_h obj = some opF)
    (hans : solver.Answers opF) :
    ∃ obj' x' y' z', computeSmoothing sqrt solver time_step_h obj = some obj' ∧
      solver.solve opF (obj.coords fun v => v.x) = some x' ∧
      solver.solve opF (obj.coords fun v => v.y) = some y' ∧
      solver.solve opF (obj.coords fun v => v.z) = some z' ∧
      obj'.mesh = obj.mesh ∧ obj'.hes = obj.hes ∧ obj'.hefs = obj.hefs ∧
      obj'.vertex_buffer = obj.vertex_buffer ∧ obj'.normal_buffer = obj.normal_buffer ∧
      obj'.hevs.length = obj.hevs.length ∧
      ∀ k, obj'.hev k =
        if 1 ≤ k ∧ k < obj.hevs.length then (obj.hev k).map (HEV.moved x' y' z' k)
        else obj.hev k := by
  obtain ⟨op, hop, hrows, hcols, -⟩ := opF_entries sqrt time_step_h obj opF hF
  have hvs : ∀ i ∈ vertexRange obj, ∃ v, obj.hev i = some v := by
    intro i hi
    obtain ⟨h1, h2⟩ := (mem_vertexRange obj i).mp hi
    obtain ⟨-, -, es, hes, -⟩ := op_matrix_row hop h1 h2
    obtain ⟨v, hv, -⟩ := oneRing_mem hes
    exact ⟨v, hv⟩
  have hlen : (vertexRange obj).length = obj.hevs.length - 1 := by simp [vertexRange]
  have hcoords : ∀ c : HEV R → R,
      collect (fun i => (obj.hev i).map c) (vertexRange obj) = some (obj.coords c) := by
    intro c
    unfold Object.coords
    generalize vertexRange obj = is at hvs
    induction is with
    | nil => rfl
    | cons a is ih =>
      obtain ⟨v, hv⟩ := hvs a (List.mem_cons_self _ _)
      simp only [collect, hv, Option.map_some', Option.some_bind,
        ih (fun i hi => hvs i (List.mem_cons_of_mem _ hi)), List.map_cons, Option.getD_some]
  have hcl : ∀ c : HEV R → R, (obj.coords c).length = opF.rows := by
    intro c
    rw [hrows, ← hlen]
    simp [Object.coords]
  obtain ⟨x', hx', hxl⟩ := hans _ (hcl fun v => v.x)
  obtain ⟨y', hy', hyl⟩ := hans _ (hcl fun v => v.y)
  obtain ⟨z', hz', hzl⟩ := hans _ (hcl fun v => v.z)
  obtain ⟨obj', hloop, hm, hhes, hhefs, hvb, hnb, hl, hmoved⟩ :=
    forLoop_writeBack x' y' z' (vertexRange obj) obj (nodup_vertexRange obj)
      (fun i hi => by
        obtain ⟨h1, h2⟩ := (mem_vertexRange obj i).mp hi
        exact ⟨hvs i hi, by omega, by omega, by omega⟩)
  refine ⟨obj', x', y', z', ?_, hx', hy', hz', hm, hhes, hhefs, hvb, hnb, hl, ?_⟩
  · unfold computeSmoothing
    simp only [Option.bind_eq_bind, hF, Option.some_bind, hcoords, hx', hy', hz']
    exact hloop
  · intro k
    rw [hmoved k]
    by_cases hk : k ∈ vertexRange obj
    · rw [if_pos hk, if_pos ((mem_vertexRange obj k).mp hk)]
    · rw [if_neg hk, if_neg (fun h => hk ((mem_vertexRange obj k).mpr h))]

theorem hev_moved_fields (x' y' z' : List R) (k : Nat) (v : HEV R) :
    (v.moved x' y' z' k).index = v.index ∧ (v.moved x' y' z' k).out = v.out ∧
      (v.moved x' y' z' k).normal = v.normal :=
  ⟨rfl, rfl, rfl⟩

/-- The half-edge, the neighbour index and the next half-edge that one pass of
the walk reads depend only on the half-edges and on the indices of the
vertices, not on the positions. -/
theorem ringEntry_topology (sqrt : R → R) (obj obj1 : Object R) (hhes : obj1.hes = obj.hes)
    (hidx : ∀ k, (obj1.hev k).map (fun v => v.index) = (obj.hev k).map fun v => v.index)
    (p p1 : Vector3f R) (he : Nat) :
    (ringEntry sqrt obj1 p1 he).map (fun e => (e.he, e.j, e.next)) =
      (ringEntry sqrt obj p he).map fun e => (e.he, e.j, e.next) := by
  have hhe : ∀ k, obj1.he k = obj.he k := by
    intro k
    unfold Object.he
    rw [hhes]
  have hcase : ∀ k, (obj1.hev k = none ∧ obj.hev k = none) ∨
      ∃ v1 v, obj1.hev k = some v1 ∧ obj.hev k = some v ∧ v1.index = v.index := by
    intro k
    have := hidx k
    cases h1 : obj1.hev k with
    | none =>
      cases h : obj.hev k with
      | none => exact Or.inl ⟨rfl, rfl⟩
      | some v => simp [h1, h] at this
    | some v1 =>
      cases h : obj.hev k with
      | none => simp [h1, h] at this
      | some v =>
        simp only [h1, h, Option.map_some', Option.some.injEq] at this
        exact Or.inr ⟨v1, v, rfl, rfl, this⟩
  simp only [ringEntry, Option.bind_eq_bind, hhe]
  cases obj.he he with
  | none => rfl
  | some h =>
    simp only [Option.some_bind]
    cases obj.he h.next with
    | none => rfl
    | some hn =>
      simp only [Option.some_bind]
      rcases hcase hn.vertex with ⟨a, b⟩ | ⟨vj1, vj, a, b, hj⟩
      · rw [a, b]
        rfl
      · rw [a, b]
        simp only [Option.some_bind]
        cases obj.he hn.next with
        | none => rfl
        | some hnn =>
          simp only [Option.some_bind]
          rcases hcase hnn.vertex with ⟨a, b⟩ | ⟨va1, va, a, b, -⟩
          · rw [a, b]
            rfl
          · rw [a, b]
            simp only [Option.some_bind]
            cases obj.he h.flip with
            | none => rfl
            | some hf =>
              simp only [Option.some_bind]
              cases obj.he hf.next with
              | none => rfl
              | some hfn =>
                simp only [Option.some_bind]
                cases obj.he hfn.next with
                | none => rfl
                | some hfnn =>
                  simp only [Option.some_bind]
                  rcases hcase hfnn.vertex with ⟨a, b⟩ | ⟨vb1, vb, a, b, -⟩
                  · rw [a, b]
                    rfl
                  · rw [a, b]
                    simp only [Option.some_bind, Option.map_some', hj]

/-- The half-edges a walk visits depend only on the half-edges and on the
indices of the vertices, not on the positions. -/
theorem ringEntries_topology (sqrt : R → R) (obj obj1 : Object R) (hhes : obj1.hes = obj.hes)
    (hidx : ∀ k, (obj1.hev k).map (fun v => v.index) = (obj.hev k).map fun v => v.index)
    (p p1 : Vector3f R) (s : Nat) (fuel : Nat) : ∀ he,
    (ringEntries sqrt obj1 p1 s fuel he).map (List.map fun e => (e.he, e.j, e.next)) =
      (ringEntries sqrt obj p s fuel he).map (List.map fun e => (e.he, e.j, e.next)) := by
  induction fuel with
  | zero =>
    intro he
    rfl
  | succ fuel ih =>
    intro he
    have h0 := ringEntry_topology sqrt obj obj1 hhes hidx p p1 he
    simp only [ringEntries]
    cases h1 : ringEntry sqrt obj1 p1 he with
    | none =>
      cases h : ringEntry sqrt obj p he with
      | none => rfl
      | some e => simp [h1, h] at h0
    | some e1 =>
      cases h : ringEntry sqrt obj p he with
      | none => simp [h1, h] at h0
      | some e =>
        simp only [h1, h, Option.map_some', Option.some.injEq, Prod.mk.injEq] at h0
        obtain ⟨a, b, c⟩ := h0
        simp only [Option.some_bind, c]
        by_cases hs : e.next = s
        · simp [hs, a, b, c]
        · simp only [hs, if_false, Option.map_map]
          have := ih e.next
          cases h2 : ringEntries sqrt obj1 p1 s fuel e.next with
          | none =>
            cases h3 : ringEntries sqrt obj p s fuel e.next with
            | none => rfl
            | some es => simp [h2, h3] at this
          | some es1 =>
            cases h3 : ringEntries sqrt obj p s fuel e.next with
            | none => simp [h2, h3] at this
            | some es =>
              simp only [h2, h3, Option.map_some', Option.some.injEq] at this
              simp [a, b, c, this]

/-- The half-edges of the ring of a vertex depend only on the topology. -/
theorem ringOf_topology (sqrt : R → R) (obj obj1 : Object R) (hhes : obj1.hes = obj.hes)
    (hv : ∀ k, (obj1.hev k).map (fun v => (v.index, v.out)) =
      (obj.hev k).map fun v => (v.index, v.out)) (i : Nat) :
    (ringOf sqrt obj1 i).map (fun e => e.he) = (ringOf sqrt obj i).map fun e => e.he := by
  have hidx : ∀ k, (obj1.hev k).map (fun v => v.index) = (obj.hev k).map fun v => v.index := by
    intro k
    have := congrArg (Option.map Prod.fst) (hv k)
    simpa [Option.map_map, Function.comp] using this
  have hproj : ∀ l : List (RingEntry R),
      l.map (fun e => e.he) = (l.map fun e => (e.he, e.j, e.next)).map Prod.fst := by
    intro l
    rw [List.map_map]
    rfl
  unfold ringOf oneRing
  have h0 := hv i
  cases h1 : obj1.hev i with
  | none =>
    cases h : obj.hev i with
    | none => rfl
    | some v => simp [h1, h] at h0
  | some v1 =>
    cases h : obj.hev i with
    | none => simp [h1, h] at h0
    | some v =>
      simp only [h1, h, Option.map_some', Option.some.injEq, Prod.mk.injEq] at h0
      simp only [Option.some_bind, h0.2, hhes]
      have := ringEntries_topology sqrt obj obj1 hhes hidx v.pos v1.pos v.out obj.hes.length v.out
      cases h2 : ringEntries sqrt obj1 v1.pos v.out obj.hes.length v.out with
      | none =>
        cases h3 : ringEntries sqrt obj v.pos v.out obj.hes.length v.out with
        | none => rfl
        | some es => simp [h2, h3] at this
      | some es1 =>
        cases h3 : ringEntries sqrt obj v.pos v.out obj.hes.length v.out with
        | none => simp [h2, h3] at this
        | some es =>
          simp only [h2, h3, Option.map_some', Option.some.injEq] at this
          simp only [Option.getD_some]
          rw [hproj, hproj, this]

theorem writeBack_mesh {x' y' z' : List R} {i : Nat} {obj obj' : Object R}
    (h : writeBack x' y' z' i obj = some obj') : obj'.mesh = obj.mesh := by
  unfold writeBack at h
  simp only [Option.bind_eq_bind, Option.bind_eq_some, Option.some.injEq] at h
  obtain ⟨v, -, x, -, y, -, z, -, rfl⟩ := h
  rfl

theorem forLoop_writeBack_mesh (x' y' z' : List R) (is : List Nat) :
    ∀ (obj obj' : Object R), forLoop (writeBack x' y' z') is obj = some obj' →
      obj'.mesh = obj.mesh := by
  induction is with
  | nil =>
    intro obj obj' h
    simp only [forLoop, Option.some.injEq] at h
    rw [h]
  | cons a is ih =>
    intro obj obj' h
    simp only [forLoop] at h
    cases ha : writeBack x' y' z' a obj with
    | none => simp [ha] at h
    | some o1 =>
      rw [ha, Option.some_bind] at h
      exact (ih o1 obj' h).trans (writeBack_mesh ha)

/-- The function `computeSmoothing` never writes to the mesh of the object. -/
theorem computeSmoothing_mesh {sqrt : R → R} {solver : SparseLU R} {time_step_h : R}
    {obj obj' : Object R} (h : computeSmoothing sqrt solver time_step_h obj = some obj') :
    obj'.mesh = obj.mesh := by
  unfold computeSmoothing at h
  simp only [Option.bind_eq_bind, Option.bind_eq_some] at h
  obtain ⟨opF, -, x, -, y, -, z, -, x', -, y', -, z', -, hloop⟩ := h
  exact forLoop_writeBack_mesh x' y' z' _ _ _ hloop

/-- After one generation the vertex buffer holds the vertices of the mesh as they
were before the generation: the positions `computeSmoothing` wrote into the
half-edge vertices never reach it. -/
theorem smoothObject_vertex_buffer {sqrt : R → R} {solver : SparseLU R} {time_step_h : R}
    {obj obj2 : Object R} (h : smoothObject sqrt solver time_step_h obj = some obj2) :
    obj2.mesh = obj.mesh ∧
    ∀ fIdx f, obj.mesh.faces[fIdx]? = some f →
      obj2.vertex_buffer[3 * fIdx]? = (atInt obj.mesh.vertices f.idx1).join ∧
      obj2.vertex_buffer[3 * fIdx + 1]? = (atInt obj.mesh.vertices f.idx2).join ∧
      obj2.vertex_buffer[3 * fIdx + 2]? = (atInt obj.mesh.vertices f.idx3).join := by
  unfold smoothObject at h
  simp only [Option.bind_eq_some] at h
  obtain ⟨obj1, hs, hn⟩ := h
  have hm := computeSmoothing_mesh hs
  unfold computeNormalsUpdateBuffers at hn
  simp only [Option.bind_eq_bind, Option.bind_eq_some] at hn
  obtain ⟨o, h1, h2⟩ := hn
  obtain ⟨hm1, -, -, -⟩ := forLoop_storeNormal_frame sqrt _ _ _ h1
  obtain ⟨hm2, -, -, -, -, -, -, -, hk⟩ := forLoop_pushFace _ _ _ h2
  simp only [List.length_nil, Nat.zero_add] at hk
  have hmesh : o.mesh = obj.mesh := hm1.trans hm
  refine ⟨hm2.trans hmesh, ?_⟩
  intro fIdx f hf
  have hlt : fIdx < obj.mesh.faces.length := (List.getElem?_eq_some.mp hf).1
  obtain ⟨f', v1, v2, v3, n1, n2, n3, hf', a1, a2, a3, -, -, -, c1, c2, c3, -⟩ :=
    hk fIdx fIdx (by
      show (List.range o.mesh.faces.length)[fIdx]? = some fIdx
      rw [hmesh]
      simp [hlt])
  rw [show ({ o with vertex_buffer := [], normal_buffer := [] } : Object R).mesh = obj.mesh
    from hmesh] at hf' a1 a2 a3
  rw [hf, Option.some.injEq] at hf'
  subst hf'
  exact ⟨c1.trans a1.symm, c2.trans a2.symm, c3.trans a3.symm⟩

/-! ## Lemmas: the vertex normals -/

/-- What an entry of the walk of `calculateVertexNormal` holds. -/
theorem normalEntry_spec {sqrt : R → R} {obj : Object R} {p : Vector3f R} {he : Nat}
    {e : NormalEntry R} (h : normalEntry sqrt obj p he = some e) :
    ∃ h' h_next h_next_next v_j v_alpha,
      obj.he he = some h' ∧ obj.he h'.next = some h_next ∧
      obj.he h_next.next = some h_next_next ∧
      obj.hev h_next.vertex = some v_j ∧ obj.hev h_next_next.vertex = some v_alpha ∧
      e.face_normal = (v_j.pos.sub p).cross (v_alpha.pos.sub p) ∧
      e.face_area = (1 / 2) * e.face_normal.norm sqrt ∧
      e.weighted = Vector3f.smul e.face_area e.face_normal := by
  unfold normalEntry at h
  simp only [Option.bind_eq_bind, Option.bind_eq_some, Option.some.injEq] at h
  obtain ⟨h', hh', hn, hhn, v2, hv2, hnn, hhnn, v3, hv3, hf, -, rfl⟩ := h
  exact ⟨h', hn, hnn, v2, v3, hh', hhn, hhnn, hv2, hv3, rfl, rfl, rfl⟩

/-- When the walk comes back, `calculateVertexNormal` returns the normalization
of the sum of the weighted face normals of the walk. -/
theorem calculateVertexNormal_eq {sqrt : R → R} {obj : Object R} {vertex : HEV R}
    {fuel : Nat} {es : List (NormalEntry R)}
    (hwalk : normalEntries sqrt obj vertex.pos vertex.out fuel vertex.out = some es) :
    calculateVertexNormal sqrt obj vertex =
      some ⟨((sumWeighted es).normalize sqrt).x, ((sumWeighted es).normalize sqrt).y,
        ((sumWeighted es).normalize sqrt).z⟩ := by
  have h := normalEntries_mono sqrt obj vertex.pos vertex.out fuel vertex.out es hwalk
    obj.hes.length (normalEntries_length_le hwalk)
  unfold calculateVertexNormal
  rw [normalLoop_eq, h]
  rfl

theorem normalSum_eq {sqrt : R → R} {obj : Object R} {vertex : HEV R}
    {fuel : Nat} {es : List (NormalEntry R)}
    (hwalk : normalEntries sqrt obj vertex.pos vertex.out fuel vertex.out = some es) :
    normalSum sqrt obj vertex = sumWeighted es := by
  have h := normalEntries_mono sqrt obj vertex.pos vertex.out fuel vertex.out es hwalk
    obj.hes.length (normalEntries_length_le hwalk)
  unfold normalSum
  rw [h]
  rfl

/-- When `calculateVertexNormal` returns, its walk has come back. -/
theorem calculateVertexNormal_walk {sqrt : R → R} {obj : Object R} {vertex : HEV R}
    {n : Vec3f R} (h : calculateVertexNormal sqrt obj vertex = some n) :
    ∃ es, normalEntries sqrt obj vertex.pos vertex.out obj.hes.length vertex.out = some es := by
  unfold calculateVertexNormal at h
  rw [normalLoop_eq] at h
  cases hw : normalEntries sqrt obj vertex.pos vertex.out obj.hes.length vertex.out with
  | none => simp [hw] at h
  | some es => exact ⟨es, rfl⟩

/-- The normalization of a vector that is not zero has squared length one, when
the square root is exact at its squared length. -/
theorem squaredNorm_normalize (sqrt : R → R) (v : Vector3f R) (hne : v.squaredNorm ≠ 0)
    (hsq : sqrt v.squaredNorm * sqrt v.squaredNorm = v.squaredNorm) :
    (v.normalize sqrt).squaredNorm = 1 := by
  have hnn : 0 ≤ v.squaredNorm := by
    unfold Vector3f.squaredNorm
    nlinarith [mul_self_nonneg v.x, mul_self_nonneg v.y, mul_self_nonneg v.z]
  have hpos : 0 < v.squaredNorm := lt_of_le_of_ne hnn (Ne.symm hne)
  have hs : sqrt v.squaredNorm ≠ 0 := by
    intro h0
    rw [h0, mul_zero] at hsq
    exact hne hsq.symm
  unfold Vector3f.normalize
  rw [if_pos hpos]
  generalize sqrt v.squaredNorm = s at hsq hs
  have key : v.x / s * (v.x / s) + v.y / s * (v.y / s) + v.z / s * (v.z / s) =
      v.squaredNorm / (s * s) := by
    unfold Vector3f.squaredNorm
    field_simp
  show v.x / s * (v.x / s) + v.y / s * (v.y / s) + v.z / s * (v.z / s) = 1
  rw [key, hsq]
  exact div_self hne

theorem sum_squares_eq_zero {v : Vector3f R} (h : v.squaredNorm = 0) :
    v.x = 0 ∧ v.y = 0 ∧ v.z = 0 := by
  unfold Vector3f.squaredNorm at h
  have hx := mul_self_nonneg v.x
  have hy := mul_self_nonneg v.y
  have hz := mul_self_nonneg v.z
  exact ⟨mul_self_eq_zero.mp (le_antisymm (by linarith) hx),
    mul_self_eq_zero.mp (le_antisymm (by linarith) hy),
    mul_self_eq_zero.mp (le_antisymm (by linarith) hz)⟩

/-- The first loop of `computeNormalsUpdateBuffers` caches on every listed
vertex the normal `calculateVertexNormal` computes for it, and leaves the other
vertices alone. -/
theorem forLoop_storeNormal_spec (sqrt : R → R) (obj : Object R) (is : List Nat) :
    ∀ cur : Object R, cur.hes = obj.hes → cur.mesh = obj.mesh →
      (∀ k, (cur.hev k).map (fun v => (v.pos, v.out)) = (obj.hev k).map fun v => (v.pos, v.out)) →
      is.Nodup →
      (∀ i ∈ is, ∃ v, obj.hev i = some v ∧ ∃ n, calculateVertexNormal sqrt obj v = some n) →
      ∃ obj1, forLoop (storeNormal sqrt) is cur = some obj1 ∧
        (∀ k, k ∉ is → obj1.hev k = cur.hev k) ∧
        ∀ i ∈ is, ∃ v v1, obj.hev i = some v ∧ obj1.hev i = some v1 ∧
          calculateVertexNormal sqrt obj v = some v1.normal ∧ v1.pos = v.pos := by
  induction is with
  | nil =>
    intro cur _ _ _ _ _
    exact ⟨cur, rfl, fun _ _ => rfl, fun i hi => absurd hi (List.not_mem_nil i)⟩
  | cons a is ih =>
    intro cur hhes hm hg hnd h
    rw [List.nodup_cons] at hnd
    obtain ⟨v, hv, n, hn⟩ := h a (List.mem_cons_self _ _)
    have hga := hg a
    rw [hv, Option.map_some'] at hga
    cases hc : cur.hev a with
    | none => simp [hc] at hga
    | some v' =>
      simp only [hc, Option.map_some', Option.some.injEq, Prod.mk.injEq] at hga
      have hpos : ∀ k, (cur.hev k).map HEV.pos = (obj.hev k).map HEV.pos := by
        intro k
        have := congrArg (Option.map Prod.fst) (hg k)
        simpa [Option.map_map, Function.comp] using this
      have hcalc : calculateVertexNormal sqrt cur v' = some n := by
        unfold calculateVertexNormal at hn ⊢
        rw [hga.1, hga.2, hhes, normalLoop_congr sqrt obj cur hhes hpos]
        exact hn
      have hstep : storeNormal sqrt a cur =
          some { cur with hevs := cur.hevs.set a (some { v' with normal := n }) } := by
        unfold storeNormal
        simp only [Option.bind_eq_bind, hc, Option.some_bind, hcalc]
      obtain ⟨obj1, hloop, hrest, hin⟩ :=
        ih { cur with hevs := cur.hevs.set a (some { v' with normal := n }) } hhes hm
        (fun k => by
          rw [hev_map_set cur a v' { v' with normal := n } hc
            (fun v : HEV R => (v.pos, v.out)) rfl k]
          exact hg k)
        hnd.2 (fun i hi => h i (List.mem_cons_of_mem _ hi))
      have hset : ∀ k, ({ cur with hevs := cur.hevs.set a (some { v' with normal := n }) } :
          Object R).hev k = if k = a then some { v' with normal := n } else cur.hev k :=
        hev_set cur a _ (hev_lt hc)
      refine ⟨obj1, by simp only [forLoop, hstep, Option.some_bind]; exact hloop, ?_, ?_⟩
      · intro k hk
        rw [List.mem_cons, not_or] at hk
        rw [hrest k hk.2, hset k, if_neg hk.1]
      · intro i hi
        rcases List.mem_cons.mp hi with rfl | hi'
        · refine ⟨v, { v' with normal := n }, hv, ?_, hn, hga.1⟩
          rw [hrest i hnd.1, hset i, if_pos rfl]
        · exact hin i hi'

/-- After `computeNormalsUpdateBuffers` every vertex `1..|V|` carries the normal
`calculateVertexNormal` computes for it, at its old position. -/
theorem computeNormals_cached (sqrt : R → R) (obj : Object R) (hn : obj.NormalsOk sqrt)
    (hf : obj.FacesOk) :
    ∃ obj', computeNormalsUpdateBuffers sqrt obj = some obj' ∧
      ∀ i, 1 ≤ i → i < obj.hevs.length → ∃ v v', obj.hev i = some v ∧ obj'.hev i = some v' ∧
        calculateVertexNormal sqrt obj v = some v'.normal ∧ v'.pos = v.pos := by
  obtain ⟨obj', hrun⟩ := normalsOk_returns sqrt obj hn hf
  refine ⟨obj', hrun, ?_⟩
  have hn' : ∀ i ∈ vertexRange obj,
      ∃ v, obj.hev i = some v ∧ ∃ n, calculateVertexNormal sqrt obj v = some n := by
    intro i hi
    obtain ⟨h1, h2⟩ := (mem_vertexRange obj i).mp hi
    have := hn i h2 h1
    cases hv : obj.hev i with
    | none =>
      rw [hv] at this
      exact Bool.noConfusion this
    | some v =>
      rw [hv, Option.some_bind] at this
      exact ⟨v, rfl, Option.isSome_iff_exists.mp this⟩
  obtain ⟨obj1, h1, -, hin⟩ := forLoop_storeNormal_spec sqrt obj (vertexRange obj) obj rfl rfl
    (fun _ => rfl) (nodup_vertexRange obj) hn'
  unfold computeNormalsUpdateBuffers at hrun
  simp only [Option.bind_eq_bind, h1, Option.some_bind] at hrun
  obtain ⟨-, hv, -⟩ := forLoop_pushFace _ _ _ hrun
  intro i hi1 hi2
  obtain ⟨v, v1, a, b, c, d⟩ := hin i ((mem_vertexRange obj i).mpr ⟨hi1, hi2⟩)
  refine ⟨v, v1, a, ?_, c, d⟩
  unfold Object.hev at b ⊢
  rw [hv]
  exact b

/-! ## Lemmas: the walks come back -/

/-- A map of `{0, …, n-1}` into itself that is injective there brings every
point back to itself after some steps. -/
theorem exists_return (g : Nat → Nat) (n : Nat) (hmaps : ∀ a, a < n → g a < n)
    (hinj : ∀ a b, a < n → b < n → g a = g b → a = b) (s : Nat) (hs : s < n) :
    ∃ t, 1 ≤ t ∧ g^[t] s = s := by
  have hiter : ∀ k a, a < n → g^[k] a < n := by
    intro k
    induction k with
    | zero => exact fun a ha => ha
    | succ k ih =>
      intro a ha
      rw [Function.iterate_succ_apply']
      exact hmaps _ (ih a ha)
  have hiterinj : ∀ k a b, a < n → b < n → g^[k] a = g^[k] b → a = b := by
    intro k
    induction k with
    | zero => exact fun a b _ _ h => h
    | succ k ih =>
      intro a b ha hb h
      rw [Function.iterate_succ_apply', Function.iterate_succ_apply'] at h
      exact ih a b ha hb (hinj _ _ (hiter k a ha) (hiter k b hb) h)
  obtain ⟨x, hx, y, hy, hxy, hfxy⟩ :=
    Finset.exists_ne_map_eq_of_card_lt_of_maps_to
      (show (Finset.range n).card < (Finset.range (n + 1)).card by simp)
      (fun k _ => Finset.mem_range.mpr (hiter k s hs))
  have key : ∀ a b, a < b → g^[a] s = g^[b] s → ∃ t, 1 ≤ t ∧ g^[t] s = s := by
    intro a b hab h
    refine ⟨b - a, by omega, ?_⟩
    have hb : b = a + (b - a) := by omega
    rw [hb, Function.iterate_add_apply] at h
    exact (hiterinj a _ _ hs (hiter _ s hs) h).symm
  rcases Nat.lt_or_gt_of_ne hxy with h | h
  · exact key x y h hfxy
  · exact key y x h hfxy.symm

theorem he_get {obj : Object R} {he : Nat} (h : he < obj.hes.length) :
    ∃ x, obj.he he = some x :=
  ⟨obj.hes[he], List.getElem?_eq_getElem h⟩

/-- Under the invariants the flip of a half-edge is a half-edge, whose flip is
the half-edge itself. -/
theorem inv_flip {obj : Object R} (hinv : obj.HalfEdgeInvariants) {he : Nat}
    (h : he < obj.hes.length) :
    ∃ f, obj.flip he = some f ∧ f < obj.hes.length ∧ obj.flip f = some he := by
  have h1 := (hinv he h).1
  cases hf : obj.flip he with
  | none => simp [hf] at h1
  | some f =>
    rw [hf, Option.some_bind] at h1
    refine ⟨f, rfl, ?_, h1⟩
    unfold Object.flip at h1
    cases hx : obj.he f with
    | none => simp [hx] at h1
    | some x => exact he_lt hx

/-- Under the invariants the next of a half-edge is a half-edge, and three steps
of `next` come back. -/
theorem inv_next {obj : Object R} (hinv : obj.HalfEdgeInvariants) {he : Nat}
    (h : he < obj.hes.length) :
    ∃ g g2, obj.next he = some g ∧ g < obj.hes.length ∧ obj.next g = some g2 ∧
      g2 < obj.hes.length ∧ obj.next g2 = some he := by
  have h1 := (hinv he h).2.1
  cases hg : obj.next he with
  | none => simp [hg] at h1
  | some g =>
    rw [hg, Option.some_bind] at h1
    cases hg2 : obj.next g with
    | none => simp [hg2] at h1
    | some g2 =>
      rw [hg2, Option.some_bind] at h1
      have lt_of : ∀ a b, obj.next a = some b → a < obj.hes.length := by
        intro a b hab
        unfold Object.next at hab
        cases hx : obj.he a with
        | none => simp [hx] at hab
        | some x => exact he_lt hx
      exact ⟨g, g2, rfl, lt_of g g2 hg2, hg2, lt_of g2 he h1, h1⟩

theorem step_some {obj : Object R} (hinv : obj.HalfEdgeInvariants) {he : Nat}
    (h : he < obj.hes.length) : ∃ g, obj.step he = some g ∧ g < obj.hes.length := by
  obtain ⟨f, hf, hfl, -⟩ := inv_flip hinv h
  obtain ⟨g, -, hg, hgl, -⟩ := inv_next hinv hfl
  exact ⟨g, by rw [Object.step, hf, Option.some_bind, hg], hgl⟩

theorem step_inj {obj : Object R} (hinv : obj.HalfEdgeInvariants) {a b : Nat}
    (ha : a < obj.hes.length) (hb : b < obj.hes.length) (h : obj.step a = obj.step b) :
    a = b := by
  obtain ⟨fa, hfa, hfal, hffa⟩ := inv_flip hinv ha
  obtain ⟨fb, hfb, hfbl, hffb⟩ := inv_flip hinv hb
  obtain ⟨ga, ga2, hga, -, hga2, -, hga3⟩ := inv_next hinv hfal
  obtain ⟨gb, gb2, hgb, -, hgb2, -, hgb3⟩ := inv_next hinv hfbl
  rw [Object.step, Object.step, hfa, hfb, Option.some_bind, Option.some_bind, hga, hgb,
    Option.some.injEq] at h
  subst h
  rw [hga2, Option.some.injEq] at hgb2
  subst hgb2
  rw [hga3, Option.some.injEq] at hgb3
  subst hgb3
  rw [hffa, Option.some.injEq] at hffb
  exact hffb

/-- The step of the walk keeps the tail: `he->flip->next` leaves the vertex that
`he` leaves. -/
theorem step_tail {obj : Object R} (hinv : obj.HalfEdgeInvariants) {he g i : Nat}
    (h : he < obj.hes.length) (hg : obj.step he = some g) (ht : obj.tail he = some i) :
    obj.tail g = some i := by
  obtain ⟨f, hf, hfl, hff⟩ := inv_flip hinv h
  have h3 := (hinv f hfl).2.2
  rw [Object.step, hf, Option.some_bind] at hg
  rw [hff, Option.some_bind, hg, Option.some_bind, ht] at h3
  exact h3.symm

theorem tail_hev {obj : Object R} (htails : obj.TailsSet) {he : Nat} {x : HE}
    (hx : obj.he he = some x) : ∃ v, obj.hev x.vertex = some v := by
  have := htails he (he_lt hx)
  rw [Object.tail, hx, Option.map_some', Option.some_bind] at this
  exact Option.isSome_iff_exists.mp this

/-- Under the invariants every read of one pass of the walk of
`build_F_operator` succeeds, and the pass goes on to `he->flip->next`. -/
theorem ringEntry_some (sqrt : R → R) {obj : Object R} (hinv : obj.HalfEdgeInvariants)
    (htails : obj.TailsSet) (p : Vector3f R) {he : Nat} (h : he < obj.hes.length) :
    ∃ e, ringEntry sqrt obj p he = some e ∧ e.he = he ∧ obj.step he = some e.next := by
  obtain ⟨x, hx⟩ := he_get h
  obtain ⟨g, g2, hg, hgl, hg2, hg2l, -⟩ := inv_next hinv h
  obtain ⟨f, hf, hfl, -⟩ := inv_flip hinv h
  obtain ⟨fn, fnn, hfn, hfnl, hfnn, hfnnl, -⟩ := inv_next hinv hfl
  obtain ⟨xg, hxg⟩ := he_get hgl
  obtain ⟨xg2, hxg2⟩ := he_get hg2l
  obtain ⟨xf, hxf⟩ := he_get hfl
  obtain ⟨xfn, hxfn⟩ := he_get hfnl
  obtain ⟨xfnn, hxfnn⟩ := he_get hfnnl
  obtain ⟨vj, hvj⟩ := tail_hev htails hxg
  obtain ⟨va, hva⟩ := tail_hev htails hxg2
  obtain ⟨vb, hvb⟩ := tail_hev htails hxfnn
  simp only [Object.next, Object.flip, hx, hxg, hxf, hxfn, Option.map_some',
    Option.some.injEq] at hg hg2 hf hfn hfnn
  subst hg hg2 hf hfn hfnn
  have hent : ringEntry sqrt obj p he = some
      { he := he
        j := vj.index
        cot_alpha := cotan sqrt va.pos p vj.pos
        cot_beta := cotan sqrt vb.pos p vj.pos
        face_area := (1 / 2) * ((vj.pos.sub p).cross (va.pos.sub p)).norm sqrt
        next := xf.next } := by
    unfold ringEntry
    simp only [Option.bind_eq_bind, hx, Option.some_bind, hxg, hvj, hxg2, hva, hxf, hxfn, hxfnn,
      hvb]
  refine ⟨_, hent, rfl, ?_⟩
  simp only [Object.step, Object.flip, Object.next, hx, Option.map_some', Option.some_bind, hxf]

/-- The same for one pass of the walk of `calculateVertexNormal`. -/
theorem normalEntry_some (sqrt : R → R) {obj : Object R} (hinv : obj.HalfEdgeInvariants)
    (htails : obj.TailsSet) (p : Vector3f R) {he : Nat} (h : he < obj.hes.length) :
    ∃ e, normalEntry sqrt obj p he = some e ∧ e.he = he ∧ obj.step he = some e.next := by
  obtain ⟨x, hx⟩ := he_get h
  obtain ⟨g, g2, hg, hgl, hg2, hg2l, -⟩ := inv_next hinv h
  obtain ⟨f, hf, hfl, -⟩ := inv_flip hinv h
  obtain ⟨xg, hxg⟩ := he_get hgl
  obtain ⟨xg2, hxg2⟩ := he_get hg2l
  obtain ⟨xf, hxf⟩ := he_get hfl
  obtain ⟨vj, hvj⟩ := tail_hev htails hxg
  obtain ⟨va, hva⟩ := tail_hev htails hxg2
  simp only [Object.next, Object.flip, hx, hxg, Option.map_some', Option.some.injEq] at hg hg2 hf
  subst hg hg2 hf
  have hent : normalEntry sqrt obj p he = some
      { he := he
        face_normal := (vj.pos.sub p).cross (va.pos.sub p)
        face_area := (1 / 2) * ((vj.pos.sub p).cross (va.pos.sub p)).norm sqrt
        weighted := Vector3f.smul ((1 / 2) * ((vj.pos.sub p).cross (va.pos.sub p)).norm sqrt)
          ((vj.pos.sub p).cross (va.pos.sub p))
        next := xf.next } := by
    unfold normalEntry
    simp only [Option.bind_eq_bind, hx, Option.some_bind, hxg, hvj, hxg2, hva, hxf]
  refine ⟨_, hent, rfl, ?_⟩
  simp only [Object.step, Object.flip, Object.next, hx, Option.map_some', Option.some_bind, hxf]

/-- A walk started at a half-edge that the step brings to `s` after `m + 1`
steps comes back within `m + 1` passes. -/
theorem ringEntries_returns (sqrt : R → R) {obj : Object R} (hinv : obj.HalfEdgeInvariants)
    (htails : obj.TailsSet) (p : Vector3f R) (s : Nat) :
    ∀ (m he : Nat), he < obj.hes.length →
      (fun a => (obj.step a).getD 0)^[m + 1] he = s →
      ∀ fuel, m + 1 ≤ fuel → ∃ es, ringEntries sqrt obj p s fuel he = some es := by
  intro m
  induction m with
  | zero =>
    intro he hhe hs fuel hfuel
    obtain ⟨e, hent, -, hstep⟩ := ringEntry_some sqrt hinv htails p hhe
    obtain ⟨f, rfl⟩ : ∃ f, fuel = f + 1 := ⟨fuel - 1, by omega⟩
    simp only [Function.iterate_succ, Function.iterate_zero, Function.comp_apply, id_eq, hstep,
      Option.getD_some] at hs
    exact ⟨[e], by simp [ringEntries, hent, hs]⟩
  | succ m ih =>
    intro he hhe hs fuel hfuel
    obtain ⟨e, hent, -, hstep⟩ := ringEntry_some sqrt hinv htails p hhe
    obtain ⟨f, rfl⟩ : ∃ f, fuel = f + 1 := ⟨fuel - 1, by omega⟩
    by_cases hn : e.next = s
    · exact ⟨[e], by simp [ringEntries, hent, hn]⟩
    · obtain ⟨g, hg, hgl⟩ := step_some hinv hhe
      rw [hstep, Option.some.injEq] at hg
      rw [Function.iterate_succ_apply] at hs
      simp only [hstep, Option.getD_some] at hs
      obtain ⟨es, hes⟩ := ih e.next (hg ▸ hgl) hs f (by omega)
      exact ⟨e :: es, by simp [ringEntries, hent, hn, hes]⟩

/-- The two walks visit the same half-edges. -/
theorem normalEntries_hes (sqrt : R → R) {obj : Object R} (hinv : obj.HalfEdgeInvariants)
    (htails : obj.TailsSet) (p p' : Vector3f R) (s : Nat) (fuel : Nat) :
    ∀ he, he < obj.hes.length →
      (normalEntries sqrt obj p s fuel he).map (List.map fun e => e.he) =
        (ringEntries sqrt obj p' s fuel he).map (List.map fun e => e.he) := by
  induction fuel with
  | zero =>
    intro he _
    rfl
  | succ fuel ih =>
    intro he hhe
    obtain ⟨e, hent, hehe, hstep⟩ := ringEntry_some sqrt hinv htails p' hhe
    obtain ⟨e', hent', hehe', hstep'⟩ := normalEntry_some sqrt hinv htails p hhe
    have hnext : e'.next = e.next := Option.some.inj (hstep'.symm.trans hstep)
    obtain ⟨g, hg, hgl⟩ := step_some hinv hhe
    rw [hstep, Option.some.injEq] at hg
    simp only [normalEntries, ringEntries, hent, hent', Option.some_bind, hnext]
    by_cases hn : e.next = s
    · simp [hn, hehe, hehe']
    · simp only [hn, if_false, Option.map_map]
      have := ih e.next (hg ▸ hgl)
      cases h1 : normalEntries sqrt obj p s fuel e.next with
      | none =>
        cases h2 : ringEntries sqrt obj p' s fuel e.next with
        | none => rfl
        | some es => simp [h1, h2] at this
      | some ns =>
        cases h2 : ringEntries sqrt obj p' s fuel e.next with
        | none => simp [h1, h2] at this
        | some es =>
          simp only [h1, h2, Option.map_some', Option.some.injEq] at this
          simp [hehe, hehe', this]

/-- The half-edges a walk visits: it starts at `he`, every next one is the
`next` of the entry before, and the `next` of the last one is the half-edge the
walk stops at. -/
theorem ringEntries_chain (sqrt : R → R) (obj : Object R) (p : Vector3f R) (s : Nat)
    (fuel : Nat) : ∀ (he : Nat) (es : List (RingEntry R)),
      ringEntries sqrt obj p s fuel he = some es →
      es.head?.map (fun e => e.he) = some he ∧
      es.getLast?.map (fun e => e.next) = some s ∧
      List.Chain' (fun a b : RingEntry R => b.he = a.next) es := by
  induction fuel with
  | zero =>
    intro he es h
    simp [ringEntries] at h
  | succ fuel ih =>
    intro he es h
    simp only [ringEntries] at h
    cases h1 : ringEntry sqrt obj p he with
    | none => simp [h1] at h
    | some e =>
      have hhe := (ringEntry_he h1).1
      rw [h1, Option.some_bind] at h
      by_cases hn : e.next = s
      · rw [if_pos hn, Option.some.injEq] at h
        subst h
        simp [hhe, hn]
      · rw [if_neg hn] at h
        cases h2 : ringEntries sqrt obj p s fuel e.next with
        | none => simp [h2] at h
        | some es' =>
          rw [h2, Option.map_some', Option.some.injEq] at h
          subst h
          obtain ⟨a, b, c⟩ := ih e.next es' h2
          cases es' with
          | nil => simp at a
          | cons e2 rest =>
            simp only [List.head?_cons, Option.map_some', Option.some.injEq] at a
            refine ⟨by simp [hhe], ?_, ?_⟩
            · rw [List.getLast?_cons_cons]
              exact b
            · exact List.Chain'.cons a c

/-- Every half-edge of a walk started at a half-edge that leaves the vertex `i`
leaves the vertex `i`. -/
theorem ringEntries_tails (sqrt : R → R) {obj : Object R} (hinv : obj.HalfEdgeInvariants)
    (htails : obj.TailsSet) (p : Vector3f R) (s i : Nat) (fuel : Nat) :
    ∀ (he : Nat) (es : List (RingEntry R)), he < obj.hes.length → obj.tail he = some i →
      ringEntries sqrt obj p s fuel he = some es → ∀ e ∈ es, obj.tail e.he = some i := by
  induction fuel with
  | zero =>
    intro he es _ _ h
    simp [ringEntries] at h
  | succ fuel ih =>
    intro he es hhe ht h
    obtain ⟨e, hent, hehe, hstep⟩ := ringEntry_some sqrt hinv htails p hhe
    obtain ⟨g, hg, hgl⟩ := step_some hinv hhe
    have hgt := step_tail hinv hhe hg ht
    rw [hstep, Option.some.injEq] at hg
    subst hg
    simp only [ringEntries, hent, Option.some_bind] at h
    by_cases hn : e.next = s
    · rw [if_pos hn, Option.some.injEq] at h
      subst h
      intro e' he'
      rw [List.mem_singleton] at he'
      rw [he', hehe]
      exact ht
    · rw [if_neg hn] at h
      cases h2 : ringEntries sqrt obj p s fuel e.next with
      | none => simp [h2] at h
      | some es' =>
        rw [h2, Option.map_some', Option.some.injEq] at h
        subst h
        intro e' he'
        rcases List.mem_cons.mp he' with rfl | hm
        · rw [hehe]
          exact ht
        · exact ih e.next es' hgl hgt h2 e' hm

/-! ## Lemmas: the index loop of `parseObjFile` -/

/-- The index loop writes `index = k` on every listed vertex `k` and touches
nothing else. -/
theorem forLoop_assignIndex (is : List Nat) :
    ∀ (obj obj' : Object R), is.Nodup → forLoop assignIndex is obj = some obj' →
      obj'.hevs.length = obj.hevs.length ∧ obj'.mesh = obj.mesh ∧ obj'.hes = obj.hes ∧
      (∀ k ∈ is, ∃ v, obj.hev k = some v) ∧
      ∀ k, obj'.hev k =
        if k ∈ is then (obj.hev k).map (fun v => { v with index := (k : Int) })
        else obj.hev k := by
  induction is with
  | nil =>
    intro obj obj' _ h
    simp only [forLoop, Option.some.injEq] at h
    subst h
    exact ⟨rfl, rfl, rfl, fun k hk => absurd hk (List.not_mem_nil k), fun k => by simp⟩
  | cons a is ih =>
    intro obj obj' hnd h
    rw [List.nodup_cons] at hnd
    simp only [forLoop] at h
    cases ha : assignIndex a obj with
    | none => simp [ha] at h
    | some o1 =>
      rw [ha, Option.some_bind] at h
      unfold assignIndex at ha
      simp only [Option.bind_eq_bind, Option.bind_eq_some, Option.some.injEq] at ha
      obtain ⟨v, hv, rfl⟩ := ha
      obtain ⟨hl, hm, hh, hin, hk⟩ := ih _ obj' hnd.2 h
      refine ⟨by rw [hl]; simp, hm, hh, ?_, ?_⟩
      · intro k hmem
        rcases List.mem_cons.mp hmem with rfl | hmem'
        · exact ⟨v, hv⟩
        · obtain ⟨w, hw⟩ := hin k hmem'
          rw [hev_set obj a _ (hev_lt hv)] at hw
          by_cases hka : k = a
          · exact ⟨v, hka ▸ hv⟩
          · rw [if_neg hka] at hw
            exact ⟨w, hw⟩
      intro k
      rw [hk k, hev_set obj a _ (hev_lt hv)]
      by_cases hka : k = a
      · subst hka
        simp [hnd.1, hv]
      · by_cases hki : k ∈ is
        · simp [hka, hki]
        · simp [hka, hki]

theorem forLoop_storeNormal_index (sqrt : R → R) (is : List Nat) :
    ∀ (obj obj' : Object R), forLoop (storeNormal sqrt) is obj = some obj' →
      ∀ k, (obj'.hev k).map (fun v => v.index) = (obj.hev k).map fun v => v.index := by
  induction is with
  | nil =>
    intro obj obj' h
    simp only [forLoop, Option.some.injEq] at h
    subst h
    exact fun _ => rfl
  | cons a is ih =>
    intro obj obj' h
    simp only [forLoop] at h
    cases ha : storeNormal sqrt a obj with
    | none => simp [ha] at h
    | some o1 =>
      rw [ha, Option.some_bind] at h
      unfold storeNormal at ha
      simp only [Option.bind_eq_bind, Option.bind_eq_some, Option.some.injEq] at ha
      obtain ⟨v, hv, n, -, rfl⟩ := ha
      intro k
      rw [ih _ obj' h k]
      exact hev_map_set obj a v { v with normal := n } hv (fun v : HEV R => v.index) rfl k

/-- The function `computeNormalsUpdateBuffers` keeps the index of every vertex. -/
theorem computeNormalsUpdateBuffers_index {sqrt : R → R} {obj obj' : Object R}
    (h : computeNormalsUpdateBuffers sqrt obj = some obj') :
    obj'.hevs.length = obj.hevs.length ∧
    ∀ k, (obj'.hev k).map (fun v => v.index) = (obj.hev k).map fun v => v.index := by
  unfold computeNormalsUpdateBuffers at h
  simp only [Option.bind_eq_bind, Option.bind_eq_some] at h
  obtain ⟨o, h1, h2⟩ := h
  obtain ⟨-, -, -, hl⟩ := forLoop_storeNormal_frame sqrt _ _ _ h1
  obtain ⟨-, hv, -⟩ := forLoop_pushFace _ _ _ h2
  have hidx := forLoop_storeNormal_index sqrt _ _ _ h1
  refine ⟨by rw [hv]; exact hl, ?_⟩
  intro k
  rw [← hidx k]
  unfold Object.hev
  rw [hv]

/-! ## Lemmas: the rings of a tetrahedron -/

theorem tetraObject_ring1 (sqrt : R → R) (p1 p2 p3 p4 : Vertex R) :
    oneRing sqrt (tetraObject p1 p2 p3 p4) 1 = some
      [⟨0, 3, cotan sqrt p2.pos p1.pos p3.pos, cotan sqrt p4.pos p1.pos p3.pos,
          (1 / 2) * ((p3.pos.sub p1.pos).cross (p2.pos.sub p1.pos)).norm sqrt, 6⟩,
        ⟨6, 4, cotan sqrt p3.pos p1.pos p4.pos, cotan sqrt p2.pos p1.pos p4.pos,
          (1 / 2) * ((p4.pos.sub p1.pos).cross (p3.pos.sub p1.pos)).norm sqrt, 3⟩,
        ⟨3, 2, cotan sqrt p4.pos p1.pos p2.pos, cotan sqrt p3.pos p1.pos p2.pos,
          (1 / 2) * ((p2.pos.sub p1.pos).cross (p4.pos.sub p1.pos)).norm sqrt, 0⟩] := rfl

theorem tetraObject_ring2 (sqrt : R → R) (p1 p2 p3 p4 : Vertex R) :
    oneRing sqrt (tetraObject p1 p2 p3 p4) 2 = some
      [⟨2, 1, cotan sqrt p3.pos p2.pos p1.pos, cotan sqrt p4.pos p2.pos p1.pos,
          (1 / 2) * ((p1.pos.sub p2.pos).cross (p3.pos.sub p2.pos)).norm sqrt, 4⟩,
        ⟨4, 4, cotan sqrt p1.pos p2.pos p4.pos, cotan sqrt p3.pos p2.pos p4.pos,
          (1 / 2) * ((p4.pos.sub p2.pos).cross (p1.pos.sub p2.pos)).norm sqrt, 9⟩,
        ⟨9, 3, cotan sqrt p4.pos p2.pos p3.pos, cotan sqrt p1.pos p2.pos p3.pos,
          (1 / 2) * ((p3.pos.sub p2.pos).cross (p4.pos.sub p2.pos)).norm sqrt, 2⟩] := rfl

theorem tetraObject_ring3 (sqrt : R → R) (p1 p2 p3 p4 : Vertex R) :
    oneRing sqrt (tetraObject p1 p2 p3 p4) 3 = some
      [⟨1, 2, cotan sqrt p1.pos p3.pos p2.pos, cotan sqrt p4.pos p3.pos p2.pos,
          (1 / 2) * ((p2.pos.sub p3.pos).cross (p1.pos.sub p3.pos)).norm sqrt, 10⟩,
        ⟨10, 4, cotan sqrt p2.pos p3.pos p4.pos, cotan sqrt p1.pos p3.pos p4.pos,
          (1 / 2) * ((p4.pos.sub p3.pos).cross (p2.pos.sub p3.pos)).norm sqrt, 8⟩,
        ⟨8, 1, cotan sqrt p4.pos p3.pos p1.pos, cotan sqrt p2.pos p3.pos p1.pos,
          (1 / 2) * ((p1.pos.sub p3.pos).cross (p4.pos.sub p3.pos)).norm sqrt, 1⟩] := rfl

theorem tetraObject_ring4 (sqrt : R → R) (p1 p2 p3 p4 : Vertex R) :
    oneRing sqrt (tetraObject p1 p2 p3 p4) 4 = some
      [⟨5, 1, cotan sqrt p2.pos p4.pos p1.pos, cotan sqrt p3.pos p4.pos p1.pos,
          (1 / 2) * ((p1.pos.sub p4.pos).cross (p2.pos.sub p4.pos)).norm sqrt, 7⟩,
        ⟨7, 3, cotan sqrt p1.pos p4.pos p3.pos, cotan sqrt p2.pos p4.pos p3.pos,
          (1 / 2) * ((p3.pos.sub p4.pos).cross (p1.pos.sub p4.pos)).norm sqrt, 11⟩,
        ⟨11, 2, cotan sqrt p3.pos p4.pos p2.pos, cotan sqrt p1.pos p4.pos p2.pos,
          (1 / 2) * ((p2.pos.sub p4.pos).cross (p3.pos.sub p4.pos)).norm sqrt, 5⟩] := rfl

/-! ## Lemmas: scenario S2 -/

theorem sqrt48_ne_zero {sqrt : R → R} (hs : sqrt 48 * sqrt 48 = 48) : sqrt 48 ≠ 0 := by
  intro h0
  rw [h0, mul_zero] at hs
  norm_num at hs

/-- Every face of the tetrahedron of S2 has the doubled area `sqrt 48`, and every
angle has the cotangent `4 / sqrt 48`: every entry of every ring has the weight
`8 / sqrt 48` and the face area `sqrt 48 / 2`. -/
theorem s2_entries {sqrt : R → R} (hs : sqrt 48 * sqrt 48 = 48) (i : Nat) (h1 : 1 ≤ i)
    (h2 : i < 5) :
    ∀ e ∈ ringOf sqrt (s2Tetra : Object R) i,
      e.total_cot = some (8 / sqrt 48) ∧ e.face_area = sqrt 48 / 2 := by
  have hs0 := sqrt48_ne_zero hs
  have hval : ∀ a b c a' : Vector3f R,
      ((b.sub a).cross (c.sub a)).squaredNorm = 48 → (b.sub a).dot (c.sub a) = 4 →
      ((b.sub a').cross (c.sub a')).squaredNorm = 48 → (b.sub a').dot (c.sub a') = 4 →
      fadd (cotan sqrt a b c) (cotan sqrt a' b c) = some (8 / sqrt 48) := by
    intro a b c a' h1 h2 h3 h4
    simp only [cotan, Vector3f.norm, h1, h2, h3, h4, fdiv, hs0, if_false, fadd,
      Option.some_bind, Option.some.injEq]
    ring
  have harea : ∀ u w : Vector3f R, (u.cross w).squaredNorm = 48 →
      (1 / 2) * (u.cross w).norm sqrt = sqrt 48 / 2 := by
    intro u w h
    rw [Vector3f.norm, h]
    ring
  intro e he
  unfold ringOf s2Tetra at he
  interval_cases i
  · rw [tetraObject_ring1] at he
    simp only [Option.getD_some, List.mem_cons, List.mem_nil_iff, or_false] at he
    rcases he with rfl | rfl | rfl <;>
      exact ⟨hval _ _ _ _ (by norm_num [Vector3f.squaredNorm, Vector3f.cross, Vector3f.sub,
          Vertex.pos]) (by norm_num [Vector3f.dot, Vector3f.sub, Vertex.pos])
        (by norm_num [Vector3f.squaredNorm, Vector3f.cross, Vector3f.sub, Vertex.pos])
        (by norm_num [Vector3f.dot, Vector3f.sub, Vertex.pos]),
        harea _ _ (by norm_num [Vector3f.squaredNorm, Vector3f.cross, Vector3f.sub,
          Vertex.pos])⟩
  · rw [tetraObject_ring2] at he
    simp only [Option.getD_some, List.mem_cons, List.mem_nil_iff, or_false] at he
    rcases he with rfl | rfl | rfl <;>
      exact ⟨hval _ _ _ _ (by norm_num [Vector3f.squaredNorm, Vector3f.cross, Vector3f.sub,
          Vertex.pos]) (by norm_num [Vector3f.dot, Vector3f.sub, Vertex.pos])
        (by norm_num [Vector3f.squaredNorm, Vector3f.cross, Vector3f.sub, Vertex.pos])
        (by norm_num [Vector3f.dot, Vector3f.sub, Vertex.pos]),
        harea _ _ (by norm_num [Vector3f.squaredNorm, Vector3f.cross, Vector3f.sub,
          Vertex.pos])⟩
  · rw [tetraObject_ring3] at he
    simp only [Option.getD_some, List.mem_cons, List.mem_nil_iff, or_false] at he
    rcases he with rfl | rfl | rfl <;>
      exact ⟨hval _ _ _ _ (by norm_num [Vector3f.squaredNorm, Vector3f.cross, Vector3f.sub,
          Vertex.pos]) (by norm_num [Vector3f.dot, Vector3f.sub, Vertex.pos])
        (by norm_num [Vector3f.squaredNorm, Vector3f.cross, Vector3f.sub, Vertex.pos])
        (by norm_num [Vector3f.dot, Vector3f.sub, Vertex.pos]),
        harea _ _ (by norm_num [Vector3f.squaredNorm, Vector3f.cross, Vector3f.sub,
          Vertex.pos])⟩
  · rw [tetraObject_ring4] at he
    simp only [Option.getD_some, List.mem_cons, List.mem_nil_iff, or_false] at he
    rcases he with rfl | rfl | rfl <;>
      exact ⟨hval _ _ _ _ (by norm_num [Vector3f.squaredNorm, Vector3f.cross, Vector3f.sub,
          Vertex.pos]) (by norm_num [Vector3f.dot, Vector3f.sub, Vertex.pos])
        (by norm_num [Vector3f.squaredNorm, Vector3f.cross, Vector3f.sub, Vertex.pos])
        (by norm_num [Vector3f.dot, Vector3f.sub, Vertex.pos]),
        harea _ _ (by norm_num [Vector3f.squaredNorm, Vector3f.cross, Vector3f.sub,
          Vertex.pos])⟩

/-- The rings of the tetrahedron of S2: every vertex has the three other
vertices as neighbours, each once. -/
theorem s2_rings {sqrt : R → R} (hs : sqrt 48 * sqrt 48 = 48) (i : Nat) (h1 : 1 ≤ i)
    (h2 : i < 5) :
    ∃ es, oneRing sqrt (s2Tetra : Object R) i = some es ∧ es.length = 3 ∧
      (es.map fun e => e.col).Nodup ∧
      (∀ e ∈ es, 0 ≤ e.j - 1 ∧ e.j - 1 < 4 ∧ e.col ≠ i - 1) ∧
      (∀ c, c < 4 → c ≠ i - 1 → ∃ e ∈ es, e.col = c) ∧
      ∀ e ∈ es, e.total_cot = some (8 / sqrt 48) ∧ e.face_area = sqrt 48 / 2 := by
  have hent := s2_entries hs i h1 h2
  unfold ringOf at hent
  interval_cases i
  · rw [show oneRing sqrt (s2Tetra : Object R) 1 = _ from tetraObject_ring1 sqrt _ _ _ _] at hent ⊢
    refine ⟨_, rfl, rfl, by simp [RingEntry.col], ?_, ?_, hent⟩
    · intro e he
      simp only [List.mem_cons, List.mem_nil_iff, or_false] at he
      rcases he with rfl | rfl | rfl <;> simp [RingEntry.col]
    · intro c hc hne
      interval_cases c
      · exact absurd rfl hne
      · exact ⟨_, List.mem_cons_of_mem _ (List.mem_cons_of_mem _ (List.mem_cons_self _ _)), rfl⟩
      · exact ⟨_, List.mem_cons_self _ _, rfl⟩
      · exact ⟨_, List.mem_cons_of_mem _ (List.mem_cons_self _ _), rfl⟩
  · rw [show oneRing sqrt (s2Tetra : Object R) 2 = _ from tetraObject_ring2 sqrt _ _ _ _] at hent ⊢
    refine ⟨_, rfl, rfl, by simp [RingEntry.col], ?_, ?_, hent⟩
    · intro e he
      simp only [List.mem_cons, List.mem_nil_iff, or_false] at he
      rcases he with rfl | rfl | rfl <;> simp [RingEntry.col]
    · intro c hc hne
      interval_cases c
      · exact ⟨_, List.mem_cons_self _ _, rfl⟩
      · exact absurd rfl hne
      · exact ⟨_, List.mem_cons_of_mem _ (List.mem_cons_of_mem _ (List.mem_cons_self _ _)), rfl⟩
      · exact ⟨_, List.mem_cons_of_mem _ (List.mem_cons_self _ _), rfl⟩
  · rw [show oneRing sqrt (s2Tetra : Object R) 3 = _ from tetraObject_ring3 sqrt _ _ _ _] at hent ⊢
    refine ⟨_, rfl, rfl, by simp [RingEntry.col], ?_, ?_, hent⟩
    · intro e he
      simp only [List.mem_cons, List.mem_nil_iff, or_false] at he
      rcases he with rfl | rfl | rfl <;> simp [RingEntry.col]
    · intro c hc hne
      interval_cases c
      · exact ⟨_, List.mem_cons_of_mem _ (List.mem_cons_of_mem _ (List.mem_cons_self _ _)), rfl⟩
      · exact ⟨_, List.mem_cons_self _ _, rfl⟩
      · exact absurd rfl hne
      · exact ⟨_, List.mem_cons_of_mem _ (List.mem_cons_self _ _), rfl⟩
  · rw [show oneRing sqrt (s2Tetra : Object R) 4 = _ from tetraObject_ring4 sqrt _ _ _ _] at hent ⊢
    refine ⟨_, rfl, rfl, by simp [RingEntry.col], ?_, ?_, hent⟩
    · intro e he
      simp only [List.mem_cons, List.mem_nil_iff, or_false] at he
      rcases he with rfl | rfl | rfl <;> simp [RingEntry.col]
    · intro c hc hne
      interval_cases c
      · exact ⟨_, List.mem_cons_self _ _, rfl⟩
      · exact ⟨_, List.mem_cons_of_mem _ (List.mem_cons_of_mem _ (List.mem_cons_self _ _)), rfl⟩
      · exact ⟨_, List.mem_cons_of_mem _ (List.mem_cons_self _ _), rfl⟩
      · exact absurd rfl hne

theorem s2_ringsOk {sqrt : R → R} (hs : sqrt 48 * sqrt 48 = 48) :
    (s2Tetra : Object R).RingsOk sqrt := by
  refine ⟨Nat.succ_ne_zero 4, ?_⟩
  intro i h2 h1
  obtain ⟨es, hes, -, hnd, hr, -, -⟩ := s2_rings hs i h1 h2
  exact ⟨es, hes, hnd, fun e he => ⟨(hr e he).1, (hr e he).2.1⟩, fun _ e he => (hr e he).2.2⟩

theorem incidentArea_const (es : List (RingEntry R)) (a : R)
    (h : ∀ e ∈ es, e.face_area = a) : incidentArea es = es.length * a := by
  unfold incidentArea
  induction es with
  | nil => simp
  | cons e es ih =>
    rw [List.map_cons, List.sum_cons, ih (fun x hx => h x (List.mem_cons_of_mem _ hx)),
      h e (List.mem_cons_self _ _), List.length_cons]
    push_cast
    ring

theorem totalCot_const (es : List (RingEntry R)) (w : R)
    (h : ∀ e ∈ es, e.total_cot = some w) : totalCot es = some (es.length * w) := by
  unfold totalCot
  have : (es.map fun e => e.total_cot) = es.map fun _ => some w :=
    List.map_congr_left h
  rw [this, fsum_some (fun _ => w) es]
  simp

theorem s2_not_close {sqrt : R → R} (hs : sqrt 48 * sqrt 48 = 48) :
    close_to_zero (((3 : Nat) : R) * (sqrt 48 / 2)) = false := by
  unfold close_to_zero CLOSE_ENOUGH_BOUND
  simp only [decide_eq_false_iff_not, not_lt]
  by_contra hlt
  rw [not_le, abs_lt] at hlt
  push_cast at hlt
  nlinarith [hlt.1, hlt.2]

/-- The operator `Δ` of scenario S2: `-1/6` on the diagonal and `1/18`
elsewhere. -/
theorem s2_delta {sqrt : R → R} (hs : sqrt 48 * sqrt 48 = 48) :
    ∃ op, build_op_matrix sqrt (s2Tetra : Object R) = some op ∧
      ∀ r, r < 4 → ∀ c, c < 4 → op.coeff r c = some (if r = c then -1 / 6 else 1 / 18) := by
  have hs0 := sqrt48_ne_zero hs
  obtain ⟨op, hop⟩ := ringsOk_build (s2_ringsOk hs)
  refine ⟨op, hop, ?_⟩
  intro r hr c hc
  have h1 : 1 ≤ r + 1 := by omega
  have h2 : r + 1 < (s2Tetra : Object R).hevs.length := by
    show r + 1 < 5
    omega
  obtain ⟨es, hes, hlen, -, -, hcols, hval⟩ := s2_rings hs (r + 1) h1 (by omega)
  obtain ⟨-, -, es', hes', -, -, -, hnon⟩ := op_matrix_row hop h1 h2
  rw [hes, Option.some.injEq] at hes'
  subst hes'
  have hA : incidentArea es = ((3 : Nat) : R) * (sqrt 48 / 2) := by
    rw [incidentArea_const es _ (fun e he => (hval e he).2), hlen]
  have hT : totalCot es = some (((3 : Nat) : R) * (8 / sqrt 48)) := by
    rw [totalCot_const es _ (fun e he => (hval e he).1), hlen]
  have hclose : close_to_zero (incidentArea es) = false := by
    rw [hA]
    exact s2_not_close hs
  obtain ⟨-, hoff, hdiag, -⟩ := hnon hclose
  rw [Nat.add_sub_cancel] at hoff hdiag hcols
  have h3 : (2 : R) * (((3 : Nat) : R) * (sqrt 48 / 2)) ≠ 0 := by
    push_cast
    intro h0
    apply hs0
    linarith
  by_cases hrc : r = c
  · subst hrc
    rw [if_pos rfl, coeff_of_stored hdiag, hT, hA]
    simp only [fmul, fdivBy, fdiv, Option.some_bind, h3, if_false, Option.some.injEq]
    push_cast
    field_simp
    linear_combination (-3 : R) * hs
  · obtain ⟨e, he, hcol⟩ := hcols c hc (Ne.symm hrc)
    rw [if_neg hrc, ← hcol, coeff_of_stored (hoff e he), (hval e he).1, hA]
    simp only [fdivBy, fdiv, Option.some_bind, h3, if_false, Option.some.injEq]
    push_cast
    field_simp
    linear_combination (-3 : R) * hs

/-- The operator `F = I - Δ / 10` of scenario S2: `61/60` on the diagonal and
`-1/180` elsewhere. -/
theorem s2_F {sqrt : R → R} (hs : sqrt 48 * sqrt 48 = 48) :
    ∃ opF, build_F_operator sqrt (1 / 10) (s2Tetra : Object R) = some opF ∧
      opF.rows = 4 ∧ opF.cols = 4 ∧
      ∀ r, r < 4 → ∀ c, c < 4 →
        opF.coeff r c = some (if r = c then 61 / 60 else -1 / 180) := by
  obtain ⟨op, hop, htab⟩ := s2_delta hs
  have hF : build_F_operator sqrt (1 / 10) (s2Tetra : Object R) = some
      ((SparseMatrix.identity ((s2Tetra : Object R).hevs.length - 1)).sub
        (SparseMatrix.scale (1 / 10) op)) := by
    rw [build_F_operator, hop, Option.map_some']
  obtain ⟨op', hop', hrows, hcols, hentry⟩ := opF_entries sqrt (1 / 10) _ _ hF
  rw [hop, Option.some.injEq] at hop'
  subst hop'
  refine ⟨_, hF, hrows, hcols, ?_⟩
  intro r hr c hc
  rw [hentry r c hr hc, htab r hr c hc]
  by_cases hrc : r = c
  · simp only [hrc, if_true, fmul, fsub, Option.some_bind, Option.some.injEq]
    norm_num
  · simp only [hrc, if_false, fmul, fsub, Option.some_bind, Option.some.injEq]
    norm_num

/-- A row of the operator `F` of S2 applied to a vector. -/
theorem s2_mulVecAt {opF : SparseMatrix R} (hcols : opF.cols = 4)
    (htab : ∀ r, r < 4 → ∀ c, c < 4 →
      opF.coeff r c = some (if r = c then 61 / 60 else -1 / 180))
    (y : List R) (i : Nat) (hi : i < 4) :
    opF.mulVecAt y i = some (46 / 45 * y.getD i 0 -
      1 / 180 * (y.getD 0 0 + y.getD 1 0 + y.getD 2 0 + y.getD 3 0)) := by
  unfold SparseMatrix.mulVecAt
  rw [fsum_coeff_mul opF i (fun j => y.getD j 0) (fun c hc => by
    rw [htab i hi c (hcols ▸ hc)]
    exact Option.noConfusion), hcols]
  have h0 := htab i hi 0 (by omega)
  have h1 := htab i hi 1 (by omega)
  have h2 := htab i hi 2 (by omega)
  have h3 := htab i hi 3 (by omega)
  simp only [Finset.sum_range_succ, Finset.sum_range_zero, zero_add, SparseMatrix.num, h0, h1,
    h2, h3, Option.getD_some, Option.some.injEq]
  interval_cases i <;> norm_num <;> ring

/-- The solver `s2Solver` is exact for the operator `F` of S2. -/
theorem s2Solver_exact {opF : SparseMatrix R} (hrows : opF.rows = 4) (hcols : opF.cols = 4)
    (htab : ∀ r, r < 4 → ∀ c, c < 4 →
      opF.coeff r c = some (if r = c then 61 / 60 else -1 / 180))
    (b : List R) (hb : b.length = opF.rows) :
    ∃ x', (s2Solver : SparseLU R).solve opF b = some x' ∧ opF.IsSolution x' b := by
  rw [hrows] at hb
  match b, hb with
  | [b0, b1, b2, b3], _ =>
    refine ⟨_, rfl, by rw [hcols]; rfl, by rw [hrows]; rfl, ?_⟩
    intro i hi
    rw [hrows] at hi
    rw [s2_mulVecAt hcols htab _ i hi]
    interval_cases i <;>
      simp only [List.map_cons, List.map_nil, List.sum_cons, List.sum_nil, List.getD_cons_zero,
        List.getD_cons_succ, List.getElem?_cons_zero, List.getElem?_cons_succ,
        Option.some.injEq] <;>
      ring

/-- A solution of `F x' = x` in scenario S2, for a vector `x` of sum zero, is
`x' = (45/46) x`. -/
theorem s2_solution {opF : SparseMatrix R} (hrows : opF.rows = 4) (hcols : opF.cols = 4)
    (htab : ∀ r, r < 4 → ∀ c, c < 4 →
      opF.coeff r c = some (if r = c then 61 / 60 else -1 / 180))
    (x0 x1 x2 x3 : R) (x' : List R) (hsum : x0 + x1 + x2 + x3 = 0)
    (hsol : opF.IsSolution x' [x0, x1, x2, x3]) :
    x' = [45 / 46 * x0, 45 / 46 * x1, 45 / 46 * x2, 45 / 46 * x3] := by
  obtain ⟨hl, -, hrow⟩ := hsol
  rw [hcols] at hl
  rw [hrows] at hrow
  match x', hl with
  | [a, b, c, d], _ =>
    have e0 := hrow 0 (by omega)
    have e1 := hrow 1 (by omega)
    have e2 := hrow 2 (by omega)
    have e3 := hrow 3 (by omega)
    rw [s2_mulVecAt hcols htab _ _ (by omega)] at e0 e1 e2 e3
    simp only [List.getD_cons_zero, List.getD_cons_succ, List.getElem?_cons_zero,
      List.getElem?_cons_succ, Option.some.injEq] at e0 e1 e2 e3
    have ha : a = 45 / 46 * x0 := by linarith
    have hb : b = 45 / 46 * x1 := by linarith
    have hc : c = 45 / 46 * x2 := by linarith
    have hd : d = 45 / 46 * x3 := by linarith
    rw [ha, hb, hc, hd]

/-! ## Lemmas: the cotangent -/

theorem cross_eq_zero_iff_parallel (u v : Vector3f R) :
    u.cross v = ⟨0, 0, 0⟩ ↔
      ∃ a b : R, (a ≠ 0 ∨ b ≠ 0) ∧ Vector3f.smul a u = Vector3f.smul b v := by
  constructor
  · intro h
    simp only [Vector3f.cross, Vector3f.mk.injEq] at h
    obtain ⟨h1, h2, h3⟩ := h
    by_cases hx : v.x = 0
    · by_cases hy : v.y = 0
      · by_cases hz : v.z = 0
        · refine ⟨0, 1, Or.inr one_ne_zero, ?_⟩
          simp [Vector3f.smul, hx, hy, hz]
        · refine ⟨v.z, u.z, Or.inl hz, ?_⟩
          simp only [Vector3f.smul, Vector3f.mk.injEq]
          exact ⟨by linear_combination -h2, by linear_combination h1, by ring⟩
      · refine ⟨v.y, u.y, Or.inl hy, ?_⟩
        simp only [Vector3f.smul, Vector3f.mk.injEq]
        exact ⟨by linear_combination h3, by ring, by linear_combination -h1⟩
    · refine ⟨v.x, u.x, Or.inl hx, ?_⟩
      simp only [Vector3f.smul, Vector3f.mk.injEq]
      exact ⟨by ring, by linear_combination -h3, by linear_combination h2⟩
  · rintro ⟨a, b, hab, h⟩
    simp only [Vector3f.smul, Vector3f.mk.injEq] at h
    obtain ⟨h1, h2, h3⟩ := h
    simp only [Vector3f.cross, Vector3f.mk.injEq]
    rcases hab with ha | hb
    · refine ⟨?_, ?_, ?_⟩
      · apply mul_left_cancel₀ ha
        linear_combination v.z * h2 - v.y * h3
      · apply mul_left_cancel₀ ha
        linear_combination v.x * h3 - v.z * h1
      · apply mul_left_cancel₀ ha
        linear_combination v.y * h1 - v.x * h2
    · refine ⟨?_, ?_, ?_⟩
      · apply mul_left_cancel₀ hb
        linear_combination u.z * h2 - u.y * h3
      · apply mul_left_cancel₀ hb
        linear_combination u.x * h3 - u.z * h1
      · apply mul_left_cancel₀ hb
        linear_combination u.y * h1 - u.x * h2

theorem squaredNorm_pos_of_ne_zero (c : Vector3f R) (h : c ≠ ⟨0, 0, 0⟩) :
    0 < c.squaredNorm := by
  unfold Vector3f.squaredNorm
  have hx := mul_self_nonneg c.x
  have hy := mul_self_nonneg c.y
  have hz := mul_self_nonneg c.z
  rcases lt_or_eq_of_le (add_nonneg (add_nonneg hx hy) hz) with hlt | heq
  · exact hlt
  · exfalso
    apply h
    have hx0 : c.x * c.x = 0 := by linarith
    have hy0 : c.y * c.y = 0 := by linarith
    have hz0 : c.z * c.z = 0 := by linarith
    cases c
    simp only [Vector3f.mk.injEq]
    exact ⟨mul_self_eq_zero.mp hx0, mul_self_eq_zero.mp hy0, mul_self_eq_zero.mp hz0⟩

/-! ## Lemmas: the tails of the visited half-edges -/

/-- What a pass of the loop of `build_F_operator` reads for the half-edge `he`:
the corners `he.next.vertex` and `he.next.next.vertex` of the face of `he`, the
area of the triangle they span with the vertex of the walk, and the half-edge
`he.flip.next` the walk goes to. -/
theorem ringEntry_reads {sqrt : R → R} {obj : Object R} {p : Vector3f R} {he : Nat}
    {e : RingEntry R} (h : ringEntry sqrt obj p he = some e) :
    ∃ h' h_next h_next_next v_j v_alpha,
      obj.he he = some h' ∧ obj.he h'.next = some h_next ∧
      obj.he h_next.next = some h_next_next ∧
      obj.hev h_next.vertex = some v_j ∧ obj.hev h_next_next.vertex = some v_alpha ∧
      e.he = he ∧ obj.step he = some e.next ∧
      e.face_area = triangleArea sqrt p v_j.pos v_alpha.pos := by
  unfold ringEntry at h
  simp only [Option.bind_eq_bind, Option.bind_eq_some, Option.some.injEq] at h
  obtain ⟨h', hh', hn, hhn, vj, hvj, hnn, hhnn, va, hva, hf, hhf, _, _, _, _, _, _, rfl⟩ := h
  refine ⟨h', hn, hnn, vj, va, hh', hhn, hhnn, hvj, hva, rfl, ?_, rfl⟩
  simp only [Object.step, Object.flip, Object.next, hh', hhf, Option.map_some',
    Option.some_bind]

/-- What a pass of the loop of `calculateVertexNormal` reads for the half-edge
`he`. -/
theorem normalEntry_reads {sqrt : R → R} {obj : Object R} {p : Vector3f R} {he : Nat}
    {e : NormalEntry R} (h : normalEntry sqrt obj p he = some e) :
    ∃ h' h_next h_next_next v_j v_alpha,
      obj.he he = some h' ∧ obj.he h'.next = some h_next ∧
      obj.he h_next.next = some h_next_next ∧
      obj.hev h_next.vertex = some v_j ∧ obj.hev h_next_next.vertex = some v_alpha ∧
      e.he = he ∧ obj.step he = some e.next ∧
      e.face_normal = (v_j.pos.sub p).cross (v_alpha.pos.sub p) ∧
      e.face_area = triangleArea sqrt p v_j.pos v_alpha.pos := by
  unfold normalEntry at h
  simp only [Option.bind_eq_bind, Option.bind_eq_some, Option.some.injEq] at h
  obtain ⟨h', hh', hn, hhn, v2, hv2, hnn, hhnn, v3, hv3, hf, hhf, rfl⟩ := h
  refine ⟨h', hn, hnn, v2, v3, hh', hhn, hhnn, hv2, hv3, rfl, ?_, rfl, rfl⟩
  simp only [Object.step, Object.flip, Object.next, hh', hhf, Option.map_some',
    Option.some_bind]

/-- The step `he := he->flip->next` keeps the tail, from the two invariants
`he.flip.flip == he` and `he.flip.vertex == he.next.vertex` alone. -/
theorem walk_step_tail {obj : Object R}
    (hvertex : ∀ he, he < obj.hes.length →
      (obj.flip he).bind obj.tail = (obj.next he).bind obj.tail)
    (hflip : ∀ he, he < obj.hes.length → (obj.flip he).bind obj.flip = some he)
    {he g i : Nat} (hg : obj.step he = some g) (ht : obj.tail he = some i) :
    obj.tail g = some i := by
  have hlt : he < obj.hes.length := by
    cases hh : obj.he he with
    | none => simp [Object.tail, hh] at ht
    | some x => exact he_lt hh
  cases hf : obj.flip he with
  | none => simp [Object.step, hf] at hg
  | some f =>
    rw [Object.step, hf, Option.some_bind] at hg
    have hff := hflip he hlt
    rw [hf, Option.some_bind] at hff
    have hfl : f < obj.hes.length := by
      cases hh : obj.he f with
      | none => simp [Object.flip, hh] at hff
      | some x => exact he_lt hh
    have h3 := hvertex f hfl
    rw [hff, Option.some_bind, hg, Option.some_bind, ht] at h3
    exact h3.symm

theorem iterate_step_tail {obj : Object R}
    (hvertex : ∀ he, he < obj.hes.length →
      (obj.flip he).bind obj.tail = (obj.next he).bind obj.tail)
    (hflip : ∀ he, he < obj.hes.length → (obj.flip he).bind obj.flip = some he)
    {s i : Nat} (hs : obj.tail s = some i) :
    ∀ (k he : Nat), (fun o : Option Nat => o.bind obj.step)^[k] (some s) = some he →
      obj.tail he = some i := by
  intro k
  induction k with
  | zero =>
    intro he h
    simp only [Function.iterate_zero, id_eq, Option.some.injEq] at h
    rw [← h]
    exact hs
  | succ k ih =>
    intro he h
    rw [Function.iterate_succ_apply'] at h
    cases hp : (fun o : Option Nat => o.bind obj.step)^[k] (some s) with
    | none => simp [hp] at h
    | some g =>
      rw [hp, Option.some_bind] at h
      exact walk_step_tail hvertex hflip h (ih g hp)

theorem ringEntries_leave {sqrt : R → R} {obj : Object R}
    (hvertex : ∀ he, he < obj.hes.length →
      (obj.flip he).bind obj.tail = (obj.next he).bind obj.tail)
    (hflip : ∀ he, he < obj.hes.length → (obj.flip he).bind obj.flip = some he)
    (p : Vector3f R) (s i : Nat) (fuel : Nat) :
    ∀ (he : Nat) (es : List (RingEntry R)), obj.tail he = some i →
      ringEntries sqrt obj p s fuel he = some es → ∀ e ∈ es, obj.tail e.he = some i := by
  induction fuel with
  | zero =>
    intro he es _ h
    simp [ringEntries] at h
  | succ fuel ih =>
    intro he es ht h
    cases hent : ringEntry sqrt obj p he with
    | none => simp [ringEntries, hent] at h
    | some e =>
      obtain ⟨_, _, _, _, _, _, _, _, _, _, hehe, hstep, _⟩ := ringEntry_reads hent
      simp only [ringEntries, hent, Option.some_bind] at h
      by_cases hn : e.next = s
      · rw [if_pos hn, Option.some.injEq] at h
        subst h
        intro e' he'
        rw [List.mem_singleton] at he'
        rw [he', hehe]
        exact ht
      · rw [if_neg hn] at h
        cases h2 : ringEntries sqrt obj p s fuel e.next with
        | none => simp [h2] at h
        | some es' =>
          rw [h2, Option.map_some', Option.some.injEq] at h
          subst h
          intro e' he'
          rcases List.mem_cons.mp he' with rfl | hm
          · rw [hehe]
            exact ht
          · exact ih e.next es' (walk_step_tail hvertex hflip hstep ht) h2 e' hm

theorem normalEntries_leave {sqrt : R → R} {obj : Object R}
    (hvertex : ∀ he, he < obj.hes.length →
      (obj.flip he).bind obj.tail = (obj.next he).bind obj.tail)
    (hflip : ∀ he, he < obj.hes.length → (obj.flip he).bind obj.flip = some he)
    (p : Vector3f R) (s i : Nat) (fuel : Nat) :
    ∀ (he : Nat) (es : List (NormalEntry R)), obj.tail he = some i →
      normalEntries sqrt obj p s fuel he = some es → ∀ e ∈ es, obj.tail e.he = some i := by
  induction fuel with
  | zero =>
    intro he es _ h
    simp [normalEntries] at h
  | succ fuel ih =>
    intro he es ht h
    cases hent : normalEntry sqrt obj p he with
    | none => simp [normalEntries, hent] at h
    | some e =>
      obtain ⟨_, _, _, _, _, _, _, _, _, _, hehe, hstep, _⟩ := normalEntry_reads hent
      simp only [normalEntries, hent, Option.some_bind] at h
      by_cases hn : e.next = s
      · rw [if_pos hn, Option.some.injEq] at h
        subst h
        intro e' he'
        rw [List.mem_singleton] at he'
        rw [he', hehe]
        exact ht
      · rw [if_neg hn] at h
        cases h2 : normalEntries sqrt obj p s fuel e.next with
        | none => simp [h2] at h
        | some es' =>
          rw [h2, Option.map_some', Option.some.injEq] at h
          subst h
          intro e' he'
          rcases List.mem_cons.mp he' with rfl | hm
          · rw [hehe]
            exact ht
          · exact ih e.next es' (walk_step_tail hvertex hflip hstep ht) h2 e' hm

/-! ## Lemmas: the maximum principle -/

theorem list_sum_map_nonpos {α : Type} (f : α → R) (l : List α) (h : ∀ a ∈ l, f a ≤ 0) :
    (l.map f).sum ≤ 0 := by
  induction l with
  | nil => simp
  | cons a l ih =>
    rw [List.map_cons, List.sum_cons]
    have h1 := h a (List.mem_cons_self a l)
    have h2 := ih (fun b hb => h b (List.mem_cons_of_mem a hb))
    linarith

theorem list_sum_map_nonneg {α : Type} (f : α → R) (l : List α) (h : ∀ a ∈ l, 0 ≤ f a) :
    0 ≤ (l.map f).sum := by
  induction l with
  | nil => simp
  | cons a l ih =>
    rw [List.map_cons, List.sum_cons]
    have h1 := h a (List.mem_cons_self a l)
    have h2 := ih (fun b hb => h b (List.mem_cons_of_mem a hb))
    linarith

/-- With a square root that is never negative, no incident area is negative. -/
theorem vertexArea_nonneg {sqrt : R → R} (hsqrt : ∀ s : R, 0 ≤ sqrt s) (obj : Object R)
    (i : Nat) : 0 ≤ vertexArea sqrt obj i := by
  unfold vertexArea incidentArea
  apply list_sum_map_nonneg
  intro e he
  unfold ringOf at he
  cases hr : oneRing sqrt obj i with
  | none => simp [hr] at he
  | some es =>
    rw [hr, Option.getD_some] at he
    obtain ⟨v_i, -, hmem⟩ := oneRing_mem hr
    obtain ⟨_, _, _, vj, va, _, _, _, _, _, _, _, harea⟩ := ringEntry_reads (hmem e he)
    rw [harea, triangleArea]
    exact mul_nonneg (by norm_num) (hsqrt _)

theorem pos_of_not_close {A : R} (h0 : 0 ≤ A) (h : close_to_zero A = false) : 0 < A := by
  unfold close_to_zero CLOSE_ENOUGH_BOUND at h
  rw [decide_eq_false_iff_not, not_lt, abs_of_nonneg h0] at h
  have : (0 : R) < 1 / 10000 := by norm_num
  linarith

/-- A coefficient of `F` that is not a number leaves `F x' = x` without
solution. -/
theorem coeff_finite_of_solution {m : SparseMatrix R} {x' x : List R}
    (hsol : m.IsSolution x' x) {r c : Nat} (hr : r < m.rows) (hc : c < m.cols) :
    m.coeff r c ≠ none := by
  intro hnone
  obtain ⟨-, hxl, hrow⟩ := hsol
  have h := hrow r hr
  unfold SparseMatrix.mulVecAt at h
  rw [fsum_eq_none_of_mem _ (by
    rw [List.mem_map]
    exact ⟨c, List.mem_range.mpr hc, by rw [hnone]; rfl⟩),
    List.getElem?_eq_getElem (by omega)] at h
  exact Option.noConfusion h

/-- When `F x' = x` has a solution, the weights read around a vertex that is not
degenerate are numbers. -/
theorem ring_finite_of_solution {sqrt : R → R} {obj : Object R} {opF : SparseMatrix R}
    {time_step_h : R} (hF : build_F_operator sqrt time_step_h obj = some opF)
    {x' x : List R} (hsol : opF.IsSolution x' x) {i : Nat} (h1 : 1 ≤ i)
    (h2 : i < obj.hevs.length) (hA : close_to_zero (vertexArea sqrt obj i) = false) :
    ∀ e ∈ ringOf sqrt obj i, e.total_cot.isSome = true := by
  obtain ⟨op, hop, hrows, hcols, hentry⟩ := opF_entries sqrt time_step_h obj opF hF
  obtain ⟨-, -, es, hes, -, hrange, -, hnon⟩ := op_matrix_row hop h1 h2
  have hr : ringOf sqrt obj i = es := ringOf_eq hes
  rw [vertexArea, hr] at hA
  rw [hr]
  obtain ⟨-, hoff, -, -⟩ := hnon hA
  intro e he
  cases ht : e.total_cot with
  | some w => rfl
  | none =>
    exfalso
    have hcol : e.col < obj.hevs.length - 1 := by
      have := hrange e he
      show (e.j - 1).toNat < obj.hevs.length - 1
      omega
    apply coeff_finite_of_solution hsol (r := i - 1) (c := e.col) (by omega) (by omega)
    rw [hentry (i - 1) e.col (by omega) hcol, coeff_of_stored (hoff e he), ht]
    rfl

/-- The row of `F x' = x` of a vertex that is not degenerate and whose weights
are numbers: `x_i = x'_i - h Σ_j w_ij / (2 A_i) (x'_j - x'_i)`. -/
theorem opF_row_apply {sqrt : R → R} {obj : Object R} {opF : SparseMatrix R}
    {time_step_h : R} (hF : build_F_operator sqrt time_step_h obj = some opF)
    {i : Nat} (h1 : 1 ≤ i) (h2 : i < obj.hevs.length)
    (hA : close_to_zero (vertexArea sqrt obj i) = false)
    (hfin : ∀ e ∈ ringOf sqrt obj i, e.total_cot.isSome = true) (y : List R) :
    opF.mulVecAt y (i - 1) = some (y.getD (i - 1) 0 - time_step_h *
      ((ringOf sqrt obj i).map fun e => e.total_cot.getD 0 / (2 * vertexArea sqrt obj i) *
        (y.getD e.col 0 - y.getD (i - 1) 0)).sum) := by
  obtain ⟨op, hop, hrows, hcols, hentry⟩ := opF_entries sqrt time_step_h obj opF hF
  have hring := ring_of_build hop h1 h2
  have hfin' : ∀ e ∈ ringOf sqrt obj i, e.total_cot ≠ none := by
    intro e he hn
    have := hfin e he
    simp [hn] at this
  obtain ⟨hall, hsum⟩ := row_apply hop h1 h2 hring hA hfin'
  have hopcols : op.cols = obj.hevs.length - 1 := (op_matrix_row hop h1 h2).2.1
  have hcoef : ∀ c, c < opF.cols → opF.coeff (i - 1) c =
      some ((if i - 1 = c then 1 else 0) - time_step_h * op.num (i - 1) c) := by
    intro c hc
    rw [hentry (i - 1) c (by omega) (hcols ▸ hc)]
    unfold SparseMatrix.num
    cases hv : op.coeff (i - 1) c with
    | none => exact absurd hv (hall c)
    | some v => rfl
  unfold SparseMatrix.mulVecAt
  rw [fsum_coeff_mul opF (i - 1) (fun j => y.getD j 0) (fun c hc => by rw [hcoef c hc]; simp)]
  have hnum : ∀ c ∈ Finset.range opF.cols, opF.num (i - 1) c * y.getD c 0 =
      (if i - 1 = c then y.getD c 0 else 0) - time_step_h * (op.num (i - 1) c * y.getD c 0) := by
    intro c hc
    have := hcoef c (Finset.mem_range.mp hc)
    unfold SparseMatrix.num at this ⊢
    rw [this]
    by_cases hrc : i - 1 = c <;> simp [hrc] <;> ring
  rw [Finset.sum_congr rfl hnum, Finset.sum_sub_distrib, Finset.sum_ite_eq,
    if_pos (Finset.mem_range.mpr (by omega)), ← Finset.mul_sum, hcols, ← hopcols,
    hsum (fun c => y.getD c 0)]
  rfl

/-- One row of `F x' = x` when the weights are non-negative numbers: `x_m` is
`x'_m` minus `h` times a sum of non-negative multiples of differences
`x'_c - x'_m`. -/
theorem solution_row {sqrt : R → R} {obj : Object R} {opF : SparseMatrix R}
    {time_step_h : R} (hF : build_F_operator sqrt time_step_h obj = some opF)
    (hsqrt : ∀ s : R, 0 ≤ sqrt s) (hw : obj.NonNegWeights sqrt)
    {x' x : List R} (hsol : opF.IsSolution x' x) {m : Nat} (hm : m < obj.hevs.length - 1) :
    ∃ ks : List (R × Nat), (∀ p ∈ ks, 0 ≤ p.1 ∧ p.2 < obj.hevs.length - 1) ∧
      x.getD m 0 = x'.getD m 0 -
        time_step_h * (ks.map fun p => p.1 * (x'.getD p.2 0 - x'.getD m 0)).sum := by
  have h1 : 1 ≤ m + 1 := by omega
  have h2 : m + 1 < obj.hevs.length := by omega
  have hfin : ∀ e ∈ ringOf sqrt obj (m + 1), e.total_cot.isSome = true :=
    fun e he => (hw (m + 1) h2 h1 e he).1
  obtain ⟨op, hop, hrows, hcols, -⟩ := opF_entries sqrt time_step_h obj opF hF
  cases hA : close_to_zero (vertexArea sqrt obj (m + 1)) with
  | true =>
    refine ⟨[], by simp, ?_⟩
    have := (degenerate_vertex_pinned hF h1 h2 hA hfin).2 x' x hsol
    rw [Nat.add_sub_cancel] at this
    rw [List.map_nil, List.sum_nil, mul_zero, sub_zero]
    exact this.symm
  | false =>
    have hApos := pos_of_not_close (vertexArea_nonneg hsqrt obj (m + 1)) hA
    refine ⟨(ringOf sqrt obj (m + 1)).map fun e =>
      (e.total_cot.getD 0 / (2 * vertexArea sqrt obj (m + 1)), e.col), ?_, ?_⟩
    · intro p hp
      rw [List.mem_map] at hp
      obtain ⟨e, he, rfl⟩ := hp
      obtain ⟨-, -, es, hes, -, hrange, -, -⟩ := op_matrix_row hop h1 h2
      rw [ringOf_eq hes] at he
      refine ⟨?_, ?_⟩
      · have hnn := (hw (m + 1) h2 h1 e (by rw [ringOf_eq hes]; exact he)).2
        apply div_nonneg _ (by linarith)
        cases ht : e.total_cot with
        | none => simp
        | some w => exact hnn w (Option.mem_def.mpr ht)
      · have := hrange e he
        show (e.j - 1).toNat < obj.hevs.length - 1
        omega
    · have hrow := opF_row_apply hF h1 h2 hA hfin x'
      obtain ⟨-, hxl, hsolrow⟩ := hsol
      have := hsolrow m (by omega)
      rw [Nat.add_sub_cancel] at hrow
      rw [hrow, List.getElem?_eq_getElem (by omega)] at this
      rw [List.getD_eq_getElem _ _ (by omega : m < x.length), ← Option.some.inj this,
        List.map_map]
      rfl

/-- The maximum principle for one coordinate: a solution of `F x' = x` stays
between any two bounds of `x`. -/
theorem solution_bounds {sqrt : R → R} {obj : Object R} {opF : SparseMatrix R}
    {time_step_h : R} (hF : build_F_operator sqrt time_step_h obj = some opF)
    (hh : 0 < time_step_h) (hsqrt : ∀ s : R, 0 ≤ sqrt s) (hw : obj.NonNegWeights sqrt)
    {x' x : List R} (hsol : opF.IsSolution x' x) {lo hi : R}
    (hx : ∀ i, i < obj.hevs.length - 1 → lo ≤ x.getD i 0 ∧ x.getD i 0 ≤ hi)
    {k : Nat} (hk : k < obj.hevs.length - 1) :
    lo ≤ x'.getD k 0 ∧ x'.getD k 0 ≤ hi := by
  have hne : (Finset.range (obj.hevs.length - 1)).Nonempty := ⟨k, Finset.mem_range.mpr hk⟩
  constructor
  · obtain ⟨m, hm, hmin⟩ := Finset.exists_min_image (Finset.range (obj.hevs.length - 1))
      (fun c => x'.getD c 0) hne
    have hm' := Finset.mem_range.mp hm
    obtain ⟨ks, hks, hrow⟩ := solution_row hF hsqrt hw hsol hm'
    have hS : 0 ≤ (ks.map fun p => p.1 * (x'.getD p.2 0 - x'.getD m 0)).sum := by
      apply list_sum_map_nonneg
      intro p hp
      obtain ⟨hp1, hp2⟩ := hks p hp
      exact mul_nonneg hp1 (sub_nonneg.mpr (hmin p.2 (Finset.mem_range.mpr hp2)))
    have h1 := (hx m hm').1
    have h2 := hmin k (Finset.mem_range.mpr hk)
    have h3 := mul_nonneg (le_of_lt hh) hS
    linarith
  · obtain ⟨m, hm, hmax⟩ := Finset.exists_max_image (Finset.range (obj.hevs.length - 1))
      (fun c => x'.getD c 0) hne
    have hm' := Finset.mem_range.mp hm
    obtain ⟨ks, hks, hrow⟩ := solution_row hF hsqrt hw hsol hm'
    have hS : (ks.map fun p => p.1 * (x'.getD p.2 0 - x'.getD m 0)).sum ≤ 0 := by
      apply list_sum_map_nonpos
      intro p hp
      obtain ⟨hp1, hp2⟩ := hks p hp
      exact mul_nonpos_of_nonneg_of_nonpos hp1
        (sub_nonpos.mpr (hmax p.2 (Finset.mem_range.mpr hp2)))
    have h1 := (hx m hm').2
    have h2 := hmax k (Finset.mem_range.mpr hk)
    have h3 := mul_nonpos_of_nonneg_of_nonpos (le_of_lt hh) hS
    linarith

theorem ratSqrt_nonneg (q : ℚ) : 0 ≤ ratSqrt q := by
  unfold ratSqrt
  exact div_nonneg (Nat.cast_nonneg _) (Nat.cast_nonneg _)

theorem coords_length (obj : Object R) (c : HEV R → R) :
    (obj.coords c).length = obj.hevs.length - 1 := by
  simp [Object.coords, vertexRange]

theorem coords_getD (obj : Object R) (c : HEV R → R) {j : Nat} {v : HEV R}
    (hj : j < obj.hevs.length - 1) (hv : obj.hev (j + 1) = some v) :
    (obj.coords c).getD j 0 = c v := by
  unfold Object.coords vertexRange
  rw [List.getD_eq_getElem?_getD, List.getElem?_map, List.getElem?_range' _ _ hj]
  simp [Nat.add_comm 1 j, hv]

/-- With a positive time step, a square root that is never negative, weights
that are non-negative numbers and an exact solver, one smoothing generation
returns and leaves every vertex in every box that held the vertices before. -/
theorem smoothing_in_box {sqrt : R → R} {solver : SparseLU R} {obj : Object R}
    {opF : SparseMatrix R} {time_step_h : R}
    (hF : build_F_operator sqrt time_step_h obj = some opF)
    (hh : 0 < time_step_h) (hsqrt : ∀ s : R, 0 ≤ sqrt s) (hw : obj.NonNegWeights sqrt)
    (hexact : ∀ b : List R, b.length = opF.rows →
      ∃ x', solver.solve opF b = some x' ∧ opF.IsSolution x' b) :
    ∃ obj', computeSmoothing sqrt solver time_step_h obj = some obj' ∧
      ∀ lo hi, obj.InBox lo hi → obj'.InBox lo hi := by
  obtain ⟨op, hop, hrows, hcols, -⟩ := opF_entries sqrt time_step_h obj opF hF
  have hans : solver.Answers opF := by
    intro b hb
    obtain ⟨x', hx', hsol⟩ := hexact b hb
    exact ⟨x', hx', hsol.1⟩
  obtain ⟨obj', x', y', z', hrun, hx', hy', hz', -, -, -, -, -, hlen, hhev⟩ :=
    smoothing_run sqrt solver time_step_h obj opF hF hans
  have hsol : ∀ (c : HEV R → R) (w : List R), solver.solve opF (obj.coords c) = some w →
      opF.IsSolution w (obj.coords c) := by
    intro c w hw'
    obtain ⟨w', hw'', hs⟩ := hexact (obj.coords c) (by rw [coords_length, hrows])
    rw [hw', Option.some.injEq] at hw''
    rw [hw'']
    exact hs
  have hvs : ∀ j, j < obj.hevs.length - 1 → ∃ v, obj.hev (j + 1) = some v := by
    intro j hj
    obtain ⟨-, -, es, hes, -⟩ := op_matrix_row hop (i := j + 1) (by omega) (by omega)
    obtain ⟨v, hv, -⟩ := oneRing_mem hes
    exact ⟨v, hv⟩
  refine ⟨obj', hrun, ?_⟩
  intro lo hi hbox i hi' h1 v' hv'
  rw [hlen] at hi'
  rw [Option.mem_def, hhev i, if_pos ⟨h1, hi'⟩] at hv'
  obtain ⟨v, hv⟩ := hvs (i - 1) (by omega)
  rw [Nat.sub_add_cancel h1] at hv
  rw [hv, Option.map_some', Option.some.injEq] at hv'
  subst hv'
  have hb : ∀ (c : HEV R → R) (l u : R) (w : List R),
      solver.solve opF (obj.coords c) = some w →
      (∀ j v, j < obj.hevs.length - 1 → obj.hev (j + 1) = some v → l ≤ c v ∧ c v ≤ u) →
      l ≤ w.getD (i - 1) 0 ∧ w.getD (i - 1) 0 ≤ u := by
    intro c l u w hw' hc
    apply solution_bounds hF hh hsqrt hw (hsol c w hw') _ (by omega : i - 1 < obj.hevs.length - 1)
    intro j hj
    obtain ⟨vj, hvj⟩ := hvs j hj
    rw [coords_getD obj c hj hvj]
    exact hc j vj hj hvj
  have hin : ∀ j v, j < obj.hevs.length - 1 → obj.hev (j + 1) = some v →
      (lo.x ≤ v.x ∧ v.x ≤ hi.x) ∧ (lo.y ≤ v.y ∧ v.y ≤ hi.y) ∧ (lo.z ≤ v.z ∧ v.z ≤ hi.z) :=
    fun j v hj hvj => hbox (j + 1) (by omega) (by omega) v (Option.mem_def.mpr hvj)
  exact ⟨hb (fun v => v.x) lo.x hi.x x' hx' (fun j v hj hvj => (hin j v hj hvj).1),
    hb (fun v => v.y) lo.y hi.y y' hy' (fun j v hj hvj => (hin j v hj hvj).2.1),
    hb (fun v => v.z) lo.z hi.z z' hz' (fun j v hj hvj => (hin j v hj hvj).2.2)⟩

/-! ## Lemmas: scenario S3 -/

theorem cubeF_built : build_F_operator ratSqrt (1 / 2) cube = some cubeF := by decide!

theorem cubeF_coeff : ∀ i, i < 8 → ∀ j, j < 8 →
    cubeF.coeff i j = some ((cubeFTable.getD i []).getD j 0) := by decide!

theorem cubeF_row (i : Nat) (hi : i < 8) (y : Nat → ℚ) :
    fsum ((List.range cubeF.cols).map fun j => fmul (cubeF.coeff i j) (some (y j))) =
      some ((cubeFTable.getD i []).getD 0 0 * y 0 + (cubeFTable.getD i []).getD 1 0 * y 1 +
        (cubeFTable.getD i []).getD 2 0 * y 2 + (cubeFTable.getD i []).getD 3 0 * y 3 +
        (cubeFTable.getD i []).getD 4 0 * y 4 + (cubeFTable.getD i []).getD 5 0 * y 5 +
        (cubeFTable.getD i []).getD 6 0 * y 6 + (cubeFTable.getD i []).getD 7 0 * y 7) := by
  have hc := cubeF_coeff i hi
  rw [fsum_coeff_mul cubeF i y (fun c hc' => by rw [hc c hc']; simp)]
  have hcols : cubeF.cols = 8 := rfl
  rw [hcols]
  simp only [Finset.sum_range_succ, Finset.sum_range_zero, zero_add, SparseMatrix.num,
    hc 0 (by decide), hc 1 (by decide), hc 2 (by decide), hc 3 (by decide), hc 4 (by decide),
    hc 5 (by decide), hc 6 (by decide), hc 7 (by decide), Option.getD_some]

theorem cubeSolver_exact (b : List ℚ) (hb : b.length = cubeF.rows) :
    ∃ x', cubeSolver.solve cubeF b = some x' ∧ cubeF.IsSolution x' b := by
  match b, hb with
  | [b0, b1, b2, b3, b4, b5, b6, b7], _ =>
    refine ⟨_, rfl, rfl, rfl, ?_⟩
    intro i hi
    have hi' : i < 8 := hi
    unfold SparseMatrix.mulVecAt
    rw [cubeF_row i hi']
    interval_cases i
    · simp only [cubeFTable, denseMulVec, cubeInverse, List.getD_cons_zero,
        List.getD_cons_succ, List.map_cons, List.map_nil, List.zipWith_cons_cons,
        List.zipWith_nil_left, List.sum_cons, List.sum_nil, List.getElem?_cons_zero,
        List.getElem?_cons_succ, Option.some.injEq]
      ring
    · simp only [cubeFTable, denseMulVec, cubeInverse, List.getD_cons_zero,
        List.getD_cons_succ, List.map_cons, List.map_nil, List.zipWith_cons_cons,
        List.zipWith_nil_left, List.sum_cons, List.sum_nil, List.getElem?_cons_zero,
        List.getElem?_cons_succ, Option.some.injEq]
      ring
    · simp only [cubeFTable, denseMulVec, cubeInverse, List.getD_cons_zero,
        List.getD_cons_succ, List.map_cons, List.map_nil, List.zipWith_cons_cons,
        List.zipWith_nil_left, List.sum_cons, List.sum_nil, List.getElem?_cons_zero,
        List.getElem?_cons_succ, Option.some.injEq]
      ring
    · simp only [cubeFTable, denseMulVec, cubeInverse, List.getD_cons_zero,
        List.getD_cons_succ, List.map_cons, List.map_nil, List.zipWith_cons_cons,
        List.zipWith_nil_left, List.sum_cons, List.sum_nil, List.getElem?_cons_zero,
        List.getElem?_cons_succ, Option.some.injEq]
      ring
    · simp only [cubeFTable, denseMulVec, cubeInverse, List.getD_cons_zero,
        List.getD_cons_succ, List.map_cons, List.map_nil, List.zipWith_cons_cons,
        List.zipWith_nil_left, List.sum_cons, List.sum_nil, List.getElem?_cons_zero,
        List.getElem?_cons_succ, Option.some.injEq]
      ring
    · simp only [cubeFTable, denseMulVec, cubeInverse, List.getD_cons_zero,
        List.getD_cons_succ, List.map_cons, List.map_nil, List.zipWith_cons_cons,
        List.zipWith_nil_left, List.sum_cons, List.sum_nil, List.getElem?_cons_zero,
        List.getElem?_cons_succ, Option.some.injEq]
      ring
    · simp only [cubeFTable, denseMulVec, cubeInverse, List.getD_cons_zero,
        List.getD_cons_succ, List.map_cons, List.map_nil, List.zipWith_cons_cons,
        List.zipWith_nil_left, List.sum_cons, List.sum_nil, List.getElem?_cons_zero,
        List.getElem?_cons_succ, Option.some.injEq]
      ring
    · simp only [cubeFTable, denseMulVec, cubeInverse, List.getD_cons_zero,
        List.getD_cons_succ, List.map_cons, List.map_nil, List.zipWith_cons_cons,
        List.zipWith_nil_left, List.sum_cons, List.sum_nil, List.getElem?_cons_zero,
        List.getElem?_cons_succ, Option.some.injEq]
      ring

/-- The system `cubeF x' = b` has one solution only. -/
theorem cubeF_solution_unique {x' b : List ℚ} (hsol : cubeF.IsSolution x' b) :
    x' = denseMulVec cubeInverse b := by
  obtain ⟨hx', hb, hrow⟩ := hsol
  match x', hx', b, hb with
  | [a0, a1, a2, a3, a4, a5, a6, a7], _, [b0, b1, b2, b3, b4, b5, b6, b7], _ =>
    have h0 := hrow 0 (by decide)
    unfold SparseMatrix.mulVecAt at h0
    rw [cubeF_row 0 (by decide)] at h0
    simp only [cubeFTable, List.getD_cons_zero, List.getD_cons_succ, List.getElem?_cons_zero,
      List.getElem?_cons_succ, Option.some.injEq] at h0
    have h1 := hrow 1 (by decide)
    unfold SparseMatrix.mulVecAt at h1
    rw [cubeF_row 1 (by decide)] at h1
    simp only [cubeFTable, List.getD_cons_zero, List.getD_cons_succ, List.getElem?_cons_zero,
      List.getElem?_cons_succ, Option.some.injEq] at h1
    have h2 := hrow 2 (by decide)
    unfold SparseMatrix.mulVecAt at h2
    rw [cubeF_row 2 (by decide)] at h2
    simp only [cubeFTable, List.getD_cons_zero, List.getD_cons_succ, List.getElem?_cons_zero,
      List.getElem?_cons_succ, Option.some.injEq] at h2
    have h3 := hrow 3 (by decide)
    unfold SparseMatrix.mulVecAt at h3
    rw [cubeF_row 3 (by decide)] at h3
    simp only [cubeFTable, List.getD_cons_zero, List.getD_cons_succ, List.getElem?_cons_zero,
      List.getElem?_cons_succ, Option.some.injEq] at h3
    have h4 := hrow 4 (by decide)
    unfold SparseMatrix.mulVecAt at h4
    rw [cubeF_row 4 (by decide)] at h4
    simp only [cubeFTable, List.getD_cons_zero, List.getD_cons_succ, List.getElem?_cons_zero,
      List.getElem?_cons_succ, Option.some.injEq] at h4
    have h5 := hrow 5 (by decide)
    unfold SparseMatrix.mulVecAt at h5
    rw [cubeF_row 5 (by decide)] at h5
    simp only [cubeFTable, List.getD_cons_zero, List.getD_cons_succ, List.getElem?_cons_zero,
      List.getElem?_cons_succ, Option.some.injEq] at h5
    have h6 := hrow 6 (by decide)
    unfold SparseMatrix.mulVecAt at h6
    rw [cubeF_row 6 (by decide)] at h6
    simp only [cubeFTable, List.getD_cons_zero, List.getD_cons_succ, List.getElem?_cons_zero,
      List.getElem?_cons_succ, Option.some.injEq] at h6
    have h7 := hrow 7 (by decide)
    unfold SparseMatrix.mulVecAt at h7
    rw [cubeF_row 7 (by decide)] at h7
    simp only [cubeFTable, List.getD_cons_zero, List.getD_cons_succ, List.getElem?_cons_zero,
      List.getElem?_cons_succ, Option.some.injEq] at h7
    simp only [denseMulVec, cubeInverse, List.map_cons, List.map_nil, List.zipWith_cons_cons,
      List.zipWith_nil_left, List.sum_cons, List.sum_nil, List.cons.injEq, and_true]
    refine ⟨?_, ?_, ?_, ?_, ?_, ?_, ?_, ?_⟩
    · linear_combination (9890 / 11663) * h0 + (1085 / 23326) * h1 + (1085 / 23326) * h2 + (46 / 11663) * h3 +
        (46 / 11663) * h4 + (15 / 23326) * h5 + (1085 / 23326) * h6 + (46 / 11663) * h7
    · linear_combination (434 / 11663) * h0 + (20425 / 23326) * h1 + (95 / 23326) * h2 + (434 / 11663) * h3 +
        (6 / 11663) * h4 + (95 / 23326) * h5 + (95 / 23326) * h6 + (434 / 11663) * h7
    · linear_combination (434 / 11663) * h0 + (95 / 23326) * h1 + (20425 / 23326) * h2 + (434 / 11663) * h3 +
        (434 / 11663) * h4 + (95 / 23326) * h5 + (95 / 23326) * h6 + (6 / 11663) * h7
    · linear_combination (46 / 11663) * h0 + (1085 / 23326) * h1 + (1085 / 23326) * h2 + (9890 / 11663) * h3 +
        (46 / 11663) * h4 + (1085 / 23326) * h5 + (15 / 23326) * h6 + (46 / 11663) * h7
    · linear_combination (46 / 11663) * h0 + (15 / 23326) * h1 + (1085 / 23326) * h2 + (46 / 11663) * h3 +
        (9890 / 11663) * h4 + (1085 / 23326) * h5 + (1085 / 23326) * h6 + (46 / 11663) * h7
    · linear_combination (6 / 11663) * h0 + (95 / 23326) * h1 + (95 / 23326) * h2 + (434 / 11663) * h3 +
        (434 / 11663) * h4 + (20425 / 23326) * h5 + (95 / 23326) * h6 + (434 / 11663) * h7
    · linear_combination (434 / 11663) * h0 + (95 / 23326) * h1 + (95 / 23326) * h2 + (6 / 11663) * h3 +
        (434 / 11663) * h4 + (95 / 23326) * h5 + (20425 / 23326) * h6 + (434 / 11663) * h7
    · linear_combination (46 / 11663) * h0 + (1085 / 23326) * h1 + (15 / 23326) * h2 + (46 / 11663) * h3 +
        (46 / 11663) * h4 + (1085 / 23326) * h5 + (1085 / 23326) * h6 + (9890 / 11663) * h7

/-! ## Lemmas: the rings of a cube -/

theorem cubeObject_ring1 (sqrt : R → R) (p1 p2 p3 p4 p5 p6 p7 p8 : Vertex R) :
    oneRing sqrt (cubeObject p1 p2 p3 p4 p5 p6 p7 p8) 1 = some
      [⟨0, 2, cotan sqrt p4.pos p1.pos p2.pos, cotan sqrt p7.pos p1.pos p2.pos,
          (1 / 2) * ((p2.pos.sub p1.pos).cross (p4.pos.sub p1.pos)).norm sqrt, 23⟩,
        ⟨23, 7, cotan sqrt p2.pos p1.pos p7.pos, cotan sqrt p3.pos p1.pos p7.pos,
          (1 / 2) * ((p7.pos.sub p1.pos).cross (p2.pos.sub p1.pos)).norm sqrt, 31⟩,
        ⟨31, 3, cotan sqrt p7.pos p1.pos p3.pos, cotan sqrt p4.pos p1.pos p3.pos,
          (1 / 2) * ((p3.pos.sub p1.pos).cross (p7.pos.sub p1.pos)).norm sqrt, 3⟩,
        ⟨3, 4, cotan sqrt p3.pos p1.pos p4.pos, cotan sqrt p2.pos p1.pos p4.pos,
          (1 / 2) * ((p4.pos.sub p1.pos).cross (p3.pos.sub p1.pos)).norm sqrt, 0⟩] := rfl

theorem cubeObject_ring2 (sqrt : R → R) (p1 p2 p3 p4 p5 p6 p7 p8 : Vertex R) :
    oneRing sqrt (cubeObject p1 p2 p3 p4 p5 p6 p7 p8) 2 = some
      [⟨1, 4, cotan sqrt p1.pos p2.pos p4.pos, cotan sqrt p6.pos p2.pos p4.pos,
          (1 / 2) * ((p4.pos.sub p2.pos).cross (p1.pos.sub p2.pos)).norm sqrt, 27⟩,
        ⟨27, 6, cotan sqrt p4.pos p2.pos p6.pos, cotan sqrt p8.pos p2.pos p6.pos,
          (1 / 2) * ((p6.pos.sub p2.pos).cross (p4.pos.sub p2.pos)).norm sqrt, 24⟩,
        ⟨24, 8, cotan sqrt p6.pos p2.pos p8.pos, cotan sqrt p7.pos p2.pos p8.pos,
          (1 / 2) * ((p8.pos.sub p2.pos).cross (p6.pos.sub p2.pos)).norm sqrt, 20⟩,
        ⟨20, 7, cotan sqrt p8.pos p2.pos p7.pos, cotan sqrt p1.pos p2.pos p7.pos,
          (1 / 2) * ((p7.pos.sub p2.pos).cross (p8.pos.sub p2.pos)).norm sqrt, 22⟩,
        ⟨22, 1, cotan sqrt p7.pos p2.pos p1.pos, cotan sqrt p4.pos p2.pos p1.pos,
          (1 / 2) * ((p1.pos.sub p2.pos).cross (p7.pos.sub p2.pos)).norm sqrt, 1⟩] := rfl

theorem cubeObject_ring3 (sqrt : R → R) (p1 p2 p3 p4 p5 p6 p7 p8 : Vertex R) :
    oneRing sqrt (cubeObject p1 p2 p3 p4 p5 p6 p7 p8) 3 = some
      [⟨5, 1, cotan sqrt p4.pos p3.pos p1.pos, cotan sqrt p7.pos p3.pos p1.pos,
          (1 / 2) * ((p1.pos.sub p3.pos).cross (p4.pos.sub p3.pos)).norm sqrt, 32⟩,
        ⟨32, 7, cotan sqrt p1.pos p3.pos p7.pos, cotan sqrt p5.pos p3.pos p7.pos,
          (1 / 2) * ((p7.pos.sub p3.pos).cross (p1.pos.sub p3.pos)).norm sqrt, 34⟩,
        ⟨34, 5, cotan sqrt p7.pos p3.pos p5.pos, cotan sqrt p6.pos p3.pos p5.pos,
          (1 / 2) * ((p5.pos.sub p3.pos).cross (p7.pos.sub p3.pos)).norm sqrt, 9⟩,
        ⟨9, 6, cotan sqrt p5.pos p3.pos p6.pos, cotan sqrt p4.pos p3.pos p6.pos,
          (1 / 2) * ((p6.pos.sub p3.pos).cross (p5.pos.sub p3.pos)).norm sqrt, 6⟩,
        ⟨6, 4, cotan sqrt p6.pos p3.pos p4.pos, cotan sqrt p1.pos p3.pos p4.pos,
          (1 / 2) * ((p4.pos.sub p3.pos).cross (p6.pos.sub p3.pos)).norm sqrt, 5⟩] := rfl

theorem cubeObject_ring4 (sqrt : R → R) (p1 p2 p3 p4 p5 p6 p7 p8 : Vertex R) :
    oneRing sqrt (cubeObject p1 p2 p3 p4 p5 p6 p7 p8) 4 = some
      [⟨2, 1, cotan sqrt p2.pos p4.pos p1.pos, cotan sqrt p3.pos p4.pos p1.pos,
          (1 / 2) * ((p1.pos.sub p4.pos).cross (p2.pos.sub p4.pos)).norm sqrt, 4⟩,
        ⟨4, 3, cotan sqrt p1.pos p4.pos p3.pos, cotan sqrt p6.pos p4.pos p3.pos,
          (1 / 2) * ((p3.pos.sub p4.pos).cross (p1.pos.sub p4.pos)).norm sqrt, 7⟩,
        ⟨7, 6, cotan sqrt p3.pos p4.pos p6.pos, cotan sqrt p2.pos p4.pos p6.pos,
          (1 / 2) * ((p6.pos.sub p4.pos).cross (p3.pos.sub p4.pos)).norm sqrt, 29⟩,
        ⟨29, 2, cotan sqrt p6.pos p4.pos p2.pos, cotan sqrt p1.pos p4.pos p2.pos,
          (1 / 2) * ((p2.pos.sub p4.pos).cross (p6.pos.sub p4.pos)).norm sqrt, 2⟩] := rfl

theorem cubeObject_ring5 (sqrt : R → R) (p1 p2 p3 p4 p5 p6 p7 p8 : Vertex R) :
    oneRing sqrt (cubeObject p1 p2 p3 p4 p5 p6 p7 p8) 5 = some
      [⟨11, 3, cotan sqrt p6.pos p5.pos p3.pos, cotan sqrt p7.pos p5.pos p3.pos,
          (1 / 2) * ((p3.pos.sub p5.pos).cross (p6.pos.sub p5.pos)).norm sqrt, 35⟩,
        ⟨35, 7, cotan sqrt p3.pos p5.pos p7.pos, cotan sqrt p8.pos p5.pos p7.pos,
          (1 / 2) * ((p7.pos.sub p5.pos).cross (p3.pos.sub p5.pos)).norm sqrt, 15⟩,
        ⟨15, 8, cotan sqrt p7.pos p5.pos p8.pos, cotan sqrt p6.pos p5.pos p8.pos,
          (1 / 2) * ((p8.pos.sub p5.pos).cross (p7.pos.sub p5.pos)).norm sqrt, 12⟩,
        ⟨12, 6, cotan sqrt p8.pos p5.pos p6.pos, cotan sqrt p3.pos p5.pos p6.pos,
          (1 / 2) * ((p6.pos.sub p5.pos).cross (p8.pos.sub p5.pos)).norm sqrt, 11⟩] := rfl

theorem cubeObject_ring6 (sqrt : R → R) (p1 p2 p3 p4 p5 p6 p7 p8 : Vertex R) :
    oneRing sqrt (cubeObject p1 p2 p3 p4 p5 p6 p7 p8) 6 = some
      [⟨8, 3, cotan sqrt p4.pos p6.pos p3.pos, cotan sqrt p5.pos p6.pos p3.pos,
          (1 / 2) * ((p3.pos.sub p6.pos).cross (p4.pos.sub p6.pos)).norm sqrt, 10⟩,
        ⟨10, 5, cotan sqrt p3.pos p6.pos p5.pos, cotan sqrt p8.pos p6.pos p5.pos,
          (1 / 2) * ((p5.pos.sub p6.pos).cross (p3.pos.sub p6.pos)).norm sqrt, 13⟩,
        ⟨13, 8, cotan sqrt p5.pos p6.pos p8.pos, cotan sqrt p2.pos p6.pos p8.pos,
          (1 / 2) * ((p8.pos.sub p6.pos).cross (p5.pos.sub p6.pos)).norm sqrt, 26⟩,
        ⟨26, 2, cotan sqrt p8.pos p6.pos p2.pos, cotan sqrt p4.pos p6.pos p2.pos,
          (1 / 2) * ((p2.pos.sub p6.pos).cross (p8.pos.sub p6.pos)).norm sqrt, 28⟩,
        ⟨28, 4, cotan sqrt p2.pos p6.pos p4.pos, cotan sqrt p3.pos p6.pos p4.pos,
          (1 / 2) * ((p4.pos.sub p6.pos).cross (p2.pos.sub p6.pos)).norm sqrt, 8⟩] := rfl

theorem cubeObject_ring7 (sqrt : R → R) (p1 p2 p3 p4 p5 p6 p7 p8 : Vertex R) :
    oneRing sqrt (cubeObject p1 p2 p3 p4 p5 p6 p7 p8) 7 = some
      [⟨17, 5, cotan sqrt p8.pos p7.pos p5.pos, cotan sqrt p3.pos p7.pos p5.pos,
          (1 / 2) * ((p5.pos.sub p7.pos).cross (p8.pos.sub p7.pos)).norm sqrt, 33⟩,
        ⟨33, 3, cotan sqrt p5.pos p7.pos p3.pos, cotan sqrt p1.pos p7.pos p3.pos,
          (1 / 2) * ((p3.pos.sub p7.pos).cross (p5.pos.sub p7.pos)).norm sqrt, 30⟩,
        ⟨30, 1, cotan sqrt p3.pos p7.pos p1.pos, cotan sqrt p2.pos p7.pos p1.pos,
          (1 / 2) * ((p1.pos.sub p7.pos).cross (p3.pos.sub p7.pos)).norm sqrt, 21⟩,
        ⟨21, 2, cotan sqrt p1.pos p7.pos p2.pos, cotan sqrt p8.pos p7.pos p2.pos,
          (1 / 2) * ((p2.pos.sub p7.pos).cross (p1.pos.sub p7.pos)).norm sqrt, 18⟩,
        ⟨18, 8, cotan sqrt p2.pos p7.pos p8.pos, cotan sqrt p5.pos p7.pos p8.pos,
          (1 / 2) * ((p8.pos.sub p7.pos).cross (p2.pos.sub p7.pos)).norm sqrt, 17⟩] := rfl

theorem cubeObject_ring8 (sqrt : R → R) (p1 p2 p3 p4 p5 p6 p7 p8 : Vertex R) :
    oneRing sqrt (cubeObject p1 p2 p3 p4 p5 p6 p7 p8) 8 = some
      [⟨14, 5, cotan sqrt p6.pos p8.pos p5.pos, cotan sqrt p7.pos p8.pos p5.pos,
          (1 / 2) * ((p5.pos.sub p8.pos).cross (p6.pos.sub p8.pos)).norm sqrt, 16⟩,
        ⟨16, 7, cotan sqrt p5.pos p8.pos p7.pos, cotan sqrt p2.pos p8.pos p7.pos,
          (1 / 2) * ((p7.pos.sub p8.pos).cross (p5.pos.sub p8.pos)).norm sqrt, 19⟩,
        ⟨19, 2, cotan sqrt p7.pos p8.pos p2.pos, cotan sqrt p6.pos p8.pos p2.pos,
          (1 / 2) * ((p2.pos.sub p8.pos).cross (p7.pos.sub p8.pos)).norm sqrt, 25⟩,
        ⟨25, 6, cotan sqrt p2.pos p8.pos p6.pos, cotan sqrt p5.pos p8.pos p6.pos,
          (1 / 2) * ((p6.pos.sub p8.pos).cross (p2.pos.sub p8.pos)).norm sqrt, 14⟩] := rfl

/-- The assembly runs to the end on every cube of `cubeObject`, wherever its
corners are: the walks come back and the neighbours are distinct. -/
theorem cubeObject_ringsOk (sqrt : R → R) (p1 p2 p3 p4 p5 p6 p7 p8 : Vertex R) :
    (cubeObject p1 p2 p3 p4 p5 p6 p7 p8).RingsOk sqrt := by
  refine ⟨Nat.succ_ne_zero 8, ?_⟩
  intro i h2 h1
  have h2' : i < 9 := h2
  interval_cases i
  · refine ⟨_, cubeObject_ring1 sqrt p1 p2 p3 p4 p5 p6 p7 p8, by simp [RingEntry.col], ?_, ?_⟩
    · intro e he
      simp only [List.mem_cons, List.mem_nil_iff, or_false] at he
      rcases he with rfl | rfl | rfl | rfl <;> simp [cubeObject]
    · intro _ e he
      simp only [List.mem_cons, List.mem_nil_iff, or_false] at he
      rcases he with rfl | rfl | rfl | rfl <;> simp [RingEntry.col]
  · refine ⟨_, cubeObject_ring2 sqrt p1 p2 p3 p4 p5 p6 p7 p8, by simp [RingEntry.col], ?_, ?_⟩
    · intro e he
      simp only [List.mem_cons, List.mem_nil_iff, or_false] at he
      rcases he with rfl | rfl | rfl | rfl | rfl <;> simp [cubeObject]
    · intro _ e he
      simp only [List.mem_cons, List.mem_nil_iff, or_false] at he
      rcases he with rfl | rfl | rfl | rfl | rfl <;> simp [RingEntry.col]
  · refine ⟨_, cubeObject_ring3 sqrt p1 p2 p3 p4 p5 p6 p7 p8, by simp [RingEntry.col], ?_, ?_⟩
    · intro e he
      simp only [List.mem_cons, List.mem_nil_iff, or_false] at he
      rcases he with rfl | rfl | rfl | rfl | rfl <;> simp [cubeObject]
    · intro _ e he
      simp only [List.mem_cons, List.mem_nil_iff, or_false] at he
      rcases he with rfl | rfl | rfl | rfl | rfl <;> simp [RingEntry.col]
  · refine ⟨_, cubeObject_ring4 sqrt p1 p2 p3 p4 p5 p6 p7 p8, by simp [RingEntry.col], ?_, ?_⟩
    · intro e he
      simp only [List.mem_cons, List.mem_nil_iff, or_false] at he
      rcases he with rfl | rfl | rfl | rfl <;> simp [cubeObject]
    · intro _ e he
      simp only [List.mem_cons, List.mem_nil_iff, or_false] at he
      rcases he with rfl | rfl | rfl | rfl <;> simp [RingEntry.col]
  · refine ⟨_, cubeObject_ring5 sqrt p1 p2 p3 p4 p5 p6 p7 p8, by simp [RingEntry.col], ?_, ?_⟩
    · intro e he
      simp only [List.mem_cons, List.mem_nil_iff, or_false] at he
      rcases he with rfl | rfl | rfl | rfl <;> simp [cubeObject]
    · intro _ e he
      simp only [List.mem_cons, List.mem_nil_iff, or_false] at he
      rcases he with rfl | rfl | rfl | rfl <;> simp [RingEntry.col]
  · refine ⟨_, cubeObject_ring6 sqrt p1 p2 p3 p4 p5 p6 p7 p8, by simp [RingEntry.col], ?_, ?_⟩
    · intro e he
      simp only [List.mem_cons, List.mem_nil_iff, or_false] at he
      rcases he with rfl | rfl | rfl | rfl | rfl <;> simp [cubeObject]
    · intro _ e he
      simp only [List.mem_cons, List.mem_nil_iff, or_false] at he
      rcases he with rfl | rfl | rfl | rfl | rfl <;> simp [RingEntry.col]
  · refine ⟨_, cubeObject_ring7 sqrt p1 p2 p3 p4 p5 p6 p7 p8, by simp [RingEntry.col], ?_, ?_⟩
    · intro e he
      simp only [List.mem_cons, List.mem_nil_iff, or_false] at he
      rcases he with rfl | rfl | rfl | rfl | rfl <;> simp [cubeObject]
    · intro _ e he
      simp only [List.mem_cons, List.mem_nil_iff, or_false] at he
      rcases he with rfl | rfl | rfl | rfl | rfl <;> simp [RingEntry.col]
  · refine ⟨_, cubeObject_ring8 sqrt p1 p2 p3 p4 p5 p6 p7 p8, by simp [RingEntry.col], ?_, ?_⟩
    · intro e he
      simp only [List.mem_cons, List.mem_nil_iff, or_false] at he
      rcases he with rfl | rfl | rfl | rfl <;> simp [cubeObject]
    · intro _ e he
      simp only [List.mem_cons, List.mem_nil_iff, or_false] at he
      rcases he with rfl | rfl | rfl | rfl <;> simp [RingEntry.col]

/-- Every cube of `cubeObject` has the half-edge invariants, wherever its corners
are. -/
theorem cubeObject_invariants (p1 p2 p3 p4 p5 p6 p7 p8 : Vertex R) :
    (cubeObject p1 p2 p3 p4 p5 p6 p7 p8).HalfEdgeInvariants ∧
    (cubeObject p1 p2 p3 p4 p5 p6 p7 p8).Indexed ∧
    (cubeObject p1 p2 p3 p4 p5 p6 p7 p8).OutOriginates := by
  refine ⟨?_, ?_, ?_⟩
  · intro he hhe
    have hhe' : he < 36 := hhe
    interval_cases he <;> exact ⟨rfl, rfl, rfl⟩
  · intro k hk v hv
    have hk' : k < 9 := hk
    interval_cases k
    · cases hv
    all_goals
      obtain rfl := Option.some.inj (show (some _ : Option (HEV R)) = some v from hv)
      rfl
  · intro k hk v hv
    have hk' : k < 9 := hk
    interval_cases k
    · cases hv
    all_goals
      obtain rfl := Option.some.inj (show (some _ : Option (HEV R)) = some v from hv)
      rfl

/-! ## Lemmas: scenario S5 -/

theorem pinchedCube_area1 {sqrt : R → R} (hs0 : sqrt 0 = 0) (hs16 : sqrt 16 = 4) :
    vertexArea sqrt (pinchedCube : Object R) 1 = 4 := by
  unfold vertexArea ringOf pinchedCube
  rw [cubeObject_ring1]
  simp only [Option.getD_some, incidentArea, List.map_cons, List.map_nil, List.sum_cons,
    List.sum_nil]
  norm_num [Vector3f.norm, Vector3f.squaredNorm, Vector3f.cross, Vector3f.sub, Vertex.pos,
    hs0, hs16]

theorem pinchedCube_area4 {sqrt : R → R} (hs0 : sqrt 0 = 0) :
    vertexArea sqrt (pinchedCube : Object R) 4 = sqrt 32 := by
  unfold vertexArea ringOf pinchedCube
  rw [cubeObject_ring4]
  simp only [Option.getD_some, incidentArea, List.map_cons, List.map_nil, List.sum_cons,
    List.sum_nil]
  norm_num [Vector3f.norm, Vector3f.squaredNorm, Vector3f.cross, Vector3f.sub, Vertex.pos,
    hs0]
  ring

theorem not_close_four : close_to_zero (4 : R) = false := by
  unfold close_to_zero CLOSE_ENOUGH_BOUND
  rw [decide_eq_false_iff_not, not_lt, abs_of_nonneg (by norm_num)]
  norm_num

theorem not_close_sqrt32 {sqrt : R → R} (hs32 : sqrt 32 * sqrt 32 = 32) (hnn : 0 ≤ sqrt 32) :
    close_to_zero (sqrt 32) = false := by
  unfold close_to_zero CLOSE_ENOUGH_BOUND
  rw [decide_eq_false_iff_not, not_lt, abs_of_nonneg hnn]
  by_contra hlt
  rw [not_le] at hlt
  have h1 : sqrt 32 < 1 := lt_of_lt_of_le hlt (by norm_num)
  have h2 : sqrt 32 * sqrt 32 < 1 := by nlinarith
  rw [hs32] at h2
  norm_num at h2

/-- The rows of `Δ` and of `F` of the two coincident vertices of `pinchedCube`:
neither vertex has an incident area below epsilon, so neither row is zeroed;
both are divided by `2 A_i`, and `Δ[1,7] = 1/4`, `F[1,7] = -h/4`. -/
theorem pinchedCube_rows {sqrt : R → R} (time_step_h : R) (hs0 : sqrt 0 = 0)
    (hs16 : sqrt 16 = 4) (hs32 : sqrt 32 * sqrt 32 = 32) (hnn : 0 ≤ sqrt 32) :
    ∃ op opF, build_op_matrix sqrt (pinchedCube : Object R) = some op ∧
      build_F_operator sqrt time_step_h (pinchedCube : Object R) = some opF ∧
      close_to_zero (vertexArea sqrt (pinchedCube : Object R) 1) = false ∧
      close_to_zero (vertexArea sqrt (pinchedCube : Object R) 4) = false ∧
      (∀ e ∈ ringOf sqrt (pinchedCube : Object R) 1,
        op.coeff 0 e.col = fdivBy e.total_cot (2 * 4)) ∧
      (∀ e ∈ ringOf sqrt (pinchedCube : Object R) 4,
        op.coeff 3 e.col = fdivBy e.total_cot (2 * sqrt 32)) ∧
      op.coeff 0 6 = some (1 / 4) ∧ opF.coeff 0 6 = some (-time_step_h / 4) := by
  obtain ⟨op, hop⟩ := ringsOk_build (cubeObject_ringsOk sqrt (⟨-1, -1, 1⟩ : Vertex R)
    ⟨1, -1, 1⟩ ⟨-1, 1, 1⟩ ⟨-1, -1, 1⟩ ⟨-1, 1, -1⟩ ⟨1, 1, -1⟩ ⟨-1, -1, -1⟩ ⟨1, -1, -1⟩)
  have hop' : build_op_matrix sqrt (pinchedCube : Object R) = some op := hop
  have hF : build_F_operator sqrt time_step_h (pinchedCube : Object R) = some
      ((SparseMatrix.identity ((pinchedCube : Object R).hevs.length - 1)).sub
        (SparseMatrix.scale time_step_h op)) := by
    rw [build_F_operator, hop', Option.map_some']
  obtain ⟨op1, hop1, -, -, hentry⟩ := opF_entries sqrt time_step_h _ _ hF
  rw [hop', Option.some.injEq] at hop1
  subst hop1
  have hA1 : close_to_zero (vertexArea sqrt (pinchedCube : Object R) 1) = false := by
    rw [pinchedCube_area1 hs0 hs16]
    exact not_close_four
  have hA4 : close_to_zero (vertexArea sqrt (pinchedCube : Object R) 4) = false := by
    rw [pinchedCube_area4 hs0]
    exact not_close_sqrt32 hs32 hnn
  have hrow : ∀ i, 1 ≤ i → i < 9 →
      close_to_zero (vertexArea sqrt (pinchedCube : Object R) i) = false →
      ∀ e ∈ ringOf sqrt (pinchedCube : Object R) i,
        op.coeff (i - 1) e.col =
          fdivBy e.total_cot (2 * vertexArea sqrt (pinchedCube : Object R) i) := by
    intro i h1 h2 hA e he
    obtain ⟨-, -, es, hes, -, -, -, hnon⟩ := op_matrix_row hop' h1 h2
    have hr : ringOf sqrt (pinchedCube : Object R) i = es := ringOf_eq hes
    rw [vertexArea, hr] at hA ⊢
    rw [hr] at he
    exact coeff_of_stored ((hnon hA).2.1 e he)
  have h1 := hrow 1 (by norm_num) (by norm_num) hA1
  have h4 := hrow 4 (by norm_num) (by norm_num) hA4
  rw [pinchedCube_area1 hs0 hs16] at h1
  rw [pinchedCube_area4 hs0] at h4
  have hc : op.coeff 0 6 = some (1 / 4) := by
    have hmem : (⟨23, 7, cotan sqrt (⟨1, -1, 1⟩ : Vertex R).pos (⟨-1, -1, 1⟩ : Vertex R).pos
        (⟨-1, -1, -1⟩ : Vertex R).pos,
        cotan sqrt (⟨-1, 1, 1⟩ : Vertex R).pos (⟨-1, -1, 1⟩ : Vertex R).pos
          (⟨-1, -1, -1⟩ : Vertex R).pos,
        (1 / 2) * (((⟨-1, -1, -1⟩ : Vertex R).pos.sub (⟨-1, -1, 1⟩ : Vertex R).pos).cross
          ((⟨1, -1, 1⟩ : Vertex R).pos.sub (⟨-1, -1, 1⟩ : Vertex R).pos)).norm sqrt, 31⟩ :
        RingEntry R) ∈ ringOf sqrt (pinchedCube : Object R) 1 := by
      unfold ringOf pinchedCube
      rw [cubeObject_ring1]
      simp
    have := h1 _ hmem
    have hcol : RingEntry.col (⟨23, 7, cotan sqrt (⟨1, -1, 1⟩ : Vertex R).pos
        (⟨-1, -1, 1⟩ : Vertex R).pos (⟨-1, -1, -1⟩ : Vertex R).pos,
        cotan sqrt (⟨-1, 1, 1⟩ : Vertex R).pos (⟨-1, -1, 1⟩ : Vertex R).pos
          (⟨-1, -1, -1⟩ : Vertex R).pos,
        (1 / 2) * (((⟨-1, -1, -1⟩ : Vertex R).pos.sub (⟨-1, -1, 1⟩ : Vertex R).pos).cross
          ((⟨1, -1, 1⟩ : Vertex R).pos.sub (⟨-1, -1, 1⟩ : Vertex R).pos)).norm sqrt, 31⟩ :
        RingEntry R) = 6 := rfl
    rw [hcol] at this
    rw [this]
    simp only [RingEntry.total_cot, cotan, fdiv]
    norm_num [Vector3f.norm, Vector3f.squaredNorm, Vector3f.cross, Vector3f.sub, Vector3f.dot,
      Vertex.pos, hs16, fadd, fdivBy, fdiv]
  refine ⟨op, _, hop', hF, hA1, hA4, h1, h4, hc, ?_⟩
  rw [hentry 0 6 (show 0 < 8 by omega) (show 6 < 8 by omega), hc]
  simp only [fsub, fmul, Option.some_bind, Option.some.injEq]
  norm_num
  ring

theorem real_sqrt_sixteen : Real.sqrt 16 = 4 := by
  rw [show (16 : ℝ) = 4 ^ 2 by norm_num]
  exact Real.sqrt_sq (by norm_num)

/-! ## Lemmas: the lines of a mesh file -/

theorem splitAux_begins (d : Char) (hd : d ≠ ' ') (cs : List Char) :
    splitAux (d :: ' ' :: cs) [] = String.mk [d] :: splitAux cs [] := by
  simp [splitAux, hd]

theorem isVertexLine_of_begins (buffer : String) (h : beginsWith 'v' buffer = true) :
    isVertexLine buffer = true := by
  unfold beginsWith at h
  unfold isVertexLine splitBySpace
  rcases hb : buffer.data with _ | ⟨a, _ | ⟨b, cs⟩⟩
  · simp [hb] at h
  · simp [hb] at h
  · rw [hb] at h
    simp only [List.take_succ_cons, List.take_zero, beq_iff_eq, List.cons.injEq, and_true] at h
    obtain ⟨rfl, rfl⟩ := h
    rw [splitAux_begins 'v' (by decide)]
    rfl

theorem not_isVertexLine_of_begins (d : Char) (hd : d ≠ ' ') (hv : d ≠ 'v') (buffer : String)
    (h : beginsWith d buffer = true) : isVertexLine buffer = false := by
  unfold beginsWith at h
  unfold isVertexLine splitBySpace
  rcases hb : buffer.data with _ | ⟨a, _ | ⟨b, cs⟩⟩
  · simp [hb] at h
  · simp [hb] at h
  · rw [hb] at h
    simp only [List.take_succ_cons, List.take_zero, beq_iff_eq, List.cons.injEq, and_true] at h
    obtain ⟨rfl, rfl⟩ := h
    rw [splitAux_begins a hd]
    simp only [List.head?_cons, beq_eq_false_iff_ne, ne_eq, Option.some.injEq]
    intro hc
    have := congrArg String.data hc
    simp at this
    exact hv this

/-- The storage as the line finds it when nothing lies behind its tokens. -/
theorem refill_of_le (element : List String) (buffer : String)
    (h : element.length ≤ (splitBySpace buffer).length) :
    refill element buffer = splitBySpace buffer := by
  unfold refill
  rw [List.drop_eq_nil_of_le h, List.append_nil]

/-- What `parseLine` does with a line, by what the storage holds once the tokens
of the line are in it. -/
theorem parseLine_tokens (stof : String → Option R) (stoi : String → Option Int)
    (buffer : String) (element : List String) (mesh : Mesh_Data R) :
    parseLine stof stoi buffer element mesh =
      match refill element buffer with
      | [] => .error .undefined
      | directive :: fields =>
        if directive = "v" then
          match fields with
          | [] => .error .undefined
          | a :: fields1 =>
            match stof a with
            | none => .error .thrown
            | some x =>
              match fields1 with
              | [] => .error .undefined
              | b :: fields2 =>
                match stof b with
                | none => .error .thrown
                | some y =>
                  match fields2 with
                  | [] => .error .undefined
                  | c :: _ =>
                    match stof c with
                    | none => .error .thrown
                    | some z =>
                      .ok (refill element buffer,
                        { mesh with vertices := mesh.vertices ++ [some ⟨x, y, z⟩] })
        else
          match fields with
          | [] => .error .undefined
          | a :: fields1 =>
            match stoi a with
            | none => .error .thrown
            | some idx1 =>
              match fields1 with
              | [] => .error .undefined
              | b :: fields2 =>
                match stoi b with
                | none => .error .thrown
                | some idx2 =>
                  match fields2 with
                  | [] => .error .undefined
                  | c :: _ =>
                    match stoi c with
                    | none => .error .thrown
                    | some idx3 =>
                      .ok (refill element buffer,
                        { mesh with faces := mesh.faces ++ [⟨idx1, idx2, idx3⟩] }) := by
  unfold parseLine
  generalize refill element buffer = storage
  rcases storage with _ | ⟨d, _ | ⟨a, _ | ⟨b, _ | ⟨c, rest⟩⟩⟩⟩
  · rfl
  · by_cases hd : d = "v" <;> simp [elementAt, bind, Except.bind, hd]
  · by_cases hd : d = "v"
    · cases ha : stof a <;> simp [elementAt, convert, bind, Except.bind, hd, ha]
    · cases ha : stoi a <;> simp [elementAt, convert, bind, Except.bind, hd, ha]
  · by_cases hd : d = "v"
    · cases ha : stof a <;> cases hb : stof b <;>
        simp [elementAt, convert, bind, Except.bind, hd, ha, hb]
    · cases ha : stoi a <;> cases hb : stoi b <;>
        simp [elementAt, convert, bind, Except.bind, hd, ha, hb]
  · by_cases hd : d = "v"
    · cases ha : stof a <;> cases hb : stof b <;> cases hc : stof c <;>
        simp [elementAt, convert, bind, Except.bind, hd, ha, hb, hc]
    · cases ha : stoi a <;> cases hb : stoi b <;> cases hc : stoi c <;>
        simp [elementAt, convert, bind, Except.bind, hd, ha, hb, hc]

/-- A well-formed line adds the vertex of its fields when its directive is `v`
and the face of its fields otherwise, whatever the storage held before. -/
theorem parseLine_wellFormed (stof : String → Option R) (stoi : String → Option Int)
    (buffer : String) (element : List String) (mesh : Mesh_Data R)
    (h : WellFormedLine stof stoi buffer) :
    (isVertexLine buffer = true → ∃ v, lineVertex stof buffer = some v ∧
      parseLine stof stoi buffer element mesh =
        .ok (refill element buffer, { mesh with vertices := mesh.vertices ++ [some v] })) ∧
    (isVertexLine buffer = false → ∃ f, lineFace stoi buffer = some f ∧
      parseLine stof stoi buffer element mesh =
        .ok (refill element buffer, { mesh with faces := mesh.faces ++ [f] })) := by
  rw [parseLine_tokens]
  generalize hst : refill element buffer = storage
  unfold refill at hst
  unfold WellFormedLine lineFields fieldOk at h
  unfold lineVertex lineFace lineFields isVertexLine at *
  generalize splitBySpace buffer = tokens at *
  obtain ⟨hne, hlen, hok⟩ := h
  rcases tokens with _ | ⟨d, _ | ⟨a, _ | ⟨b, _ | ⟨c, rest⟩⟩⟩⟩
  · exact absurd rfl hne
  · simp at hlen
  · simp at hlen
  · simp at hlen
  · simp only [List.drop_succ_cons, List.drop_zero, List.take_succ_cons, List.take_zero,
      List.mem_cons, List.mem_singleton, List.not_mem_nil, or_false, forall_eq_or_imp,
      forall_eq, List.head?_cons] at hok
    obtain ⟨ha, hb, hc⟩ := hok
    rw [List.cons_append, List.cons_append, List.cons_append, List.cons_append] at hst
    subst hst
    by_cases hd : d = "v"
    · subst hd
      simp only [beq_self_eq_true, if_true, Option.isSome_iff_exists] at ha hb hc
      obtain ⟨x, hx⟩ := ha
      obtain ⟨y, hy⟩ := hb
      obtain ⟨z, hz⟩ := hc
      refine ⟨fun _ => ⟨⟨x, y, z⟩, ?_, ?_⟩, fun hf => ?_⟩
      · simp [hx, hy, hz]
      · simp [hx, hy, hz]
      · simp at hf
    · have hdv : (some d == some "v") = false := by simp [hd]
      simp only [hdv, Bool.false_eq_true, if_false, Option.isSome_iff_exists] at ha hb hc
      obtain ⟨x, hx⟩ := ha
      obtain ⟨y, hy⟩ := hb
      obtain ⟨z, hz⟩ := hc
      refine ⟨fun hf => ?_, fun _ => ⟨⟨x, y, z⟩, ?_, ?_⟩⟩
      · simp [hd] at hf
      · simp [hx, hy, hz]
      · simp [hd, hx, hy, hz]

/-- On a line with a field that is not a number of the kind the line asks for,
`stof` or `stoi` throws at the first such field, whatever the storage held; on a
line with too few tokens whose fields are numbers, with nothing in the storage
behind its tokens, the parser reads a place of `element` where nothing was ever
stored. -/
theorem parseLine_malformed (stof : String → Option R) (stoi : String → Option Int)
    (buffer : String) (element : List String) (mesh : Mesh_Data R) :
    ((∃ s ∈ lineFields buffer, fieldOk stof stoi buffer s = false) →
      parseLine stof stoi buffer element mesh = .error .thrown) ∧
    ((splitBySpace buffer = [] ∨ (lineFields buffer).length < 3) →
      (∀ s ∈ lineFields buffer, fieldOk stof stoi buffer s = true) →
      element.length ≤ (splitBySpace buffer).length →
      parseLine stof stoi buffer element mesh = .error .undefined) := by
  constructor
  · rw [parseLine_tokens]
    unfold refill lineFields fieldOk isVertexLine
    generalize splitBySpace buffer = tokens
    rcases tokens with _ | ⟨d, _ | ⟨a, _ | ⟨b, _ | ⟨c, rest⟩⟩⟩⟩
    · simp
    · simp
    · by_cases hd : d = "v"
      · subst hd
        cases ha : stof a <;> simp [ha]
      · cases ha : stoi a <;> simp [hd, ha]
    · by_cases hd : d = "v"
      · subst hd
        cases ha : stof a <;> cases hb : stof b <;> simp [ha, hb]
      · cases ha : stoi a <;> cases hb : stoi b <;> simp [hd, ha, hb]
    · by_cases hd : d = "v"
      · subst hd
        cases ha : stof a <;> cases hb : stof b <;> cases hc : stof c <;> simp [ha, hb, hc]
      · cases ha : stoi a <;> cases hb : stoi b <;> cases hc : stoi c <;> simp [hd, ha, hb, hc]
  · intro hshape hall hlen
    rw [parseLine_tokens, refill_of_le element buffer hlen]
    revert hshape hall
    unfold lineFields fieldOk isVertexLine
    generalize splitBySpace buffer = tokens
    rcases tokens with _ | ⟨d, _ | ⟨a, _ | ⟨b, _ | ⟨c, rest⟩⟩⟩⟩
    · simp
    · by_cases hd : d = "v" <;> simp [hd]
    · by_cases hd : d = "v"
      · subst hd
        cases ha : stof a <;> simp [ha]
      · cases ha : stoi a <;> simp [hd, ha]
    · by_cases hd : d = "v"
      · subst hd
        cases ha : stof a <;> cases hb : stof b <;> simp [ha, hb]
      · cases ha : stoi a <;> cases hb : stoi b <;> simp [hd, ha, hb]
    · simp

/-- The loop over well-formed lines, from any storage, adds the vertices of the
lines with the directive `v` and the faces of all other lines, each in the order
of the file. -/
theorem parseLinesFrom_wellFormed (stof : String → Option R) (stoi : String → Option Int)
    (lines : List String) : ∀ (element : List String) (mesh : Mesh_Data R),
    (∀ l ∈ lines, WellFormedLine stof stoi l) →
    ∃ element' mesh', parseLinesFrom stof stoi lines element mesh = .ok (element', mesh') ∧
      mesh'.vertices = mesh.vertices ++ (lines.filter isVertexLine).map (lineVertex stof) ∧
      mesh'.faces.map some = mesh.faces.map some ++
        (lines.filter fun l => !isVertexLine l).map (lineFace stoi) := by
  induction lines with
  | nil =>
    intro element mesh _
    exact ⟨element, mesh, rfl, by simp, by simp⟩
  | cons l lines ih =>
    intro element mesh hwf
    have hl := parseLine_wellFormed stof stoi l element mesh (hwf l (List.mem_cons_self _ _))
    have hrest : ∀ l' ∈ lines, WellFormedLine stof stoi l' :=
      fun l' hl' => hwf l' (List.mem_cons_of_mem _ hl')
    cases hv : isVertexLine l with
    | true =>
      obtain ⟨v, hlv, hp⟩ := hl.1 hv
      obtain ⟨element', mesh', hrun, hvs, hfs⟩ :=
        ih (refill element l) { mesh with vertices := mesh.vertices ++ [some v] } hrest
      refine ⟨element', mesh', ?_, ?_, ?_⟩
      · simp only [parseLinesFrom, hp]
        exact hrun
      · rw [hvs, List.filter_cons_of_pos hv, List.map_cons, hlv]
        simp
      · rw [hfs, List.filter_cons_of_neg (by simp [hv])]
    | false =>
      obtain ⟨f, hlf, hp⟩ := hl.2 hv
      obtain ⟨element', mesh', hrun, hvs, hfs⟩ :=
        ih (refill element l) { mesh with faces := mesh.faces ++ [f] } hrest
      refine ⟨element', mesh', ?_, ?_, ?_⟩
      · simp only [parseLinesFrom, hp]
        exact hrun
      · rw [hvs, List.filter_cons_of_neg (by simp [hv])]
      · rw [hfs, List.filter_cons_of_pos (by simp [hv]), List.map_cons, hlf]
        simp

/-- The loop of `parseObjFile` over well-formed lines adds the vertices of the
lines with the directive `v` and the faces of all other lines, each in the order
of the file. -/
theorem parseLines_wellFormed (stof : String → Option R) (stoi : String → Option Int)
    (lines : List String) (mesh : Mesh_Data R)
    (hwf : ∀ l ∈ lines, WellFormedLine stof stoi l) :
    ∃ mesh', parseLines stof stoi lines mesh = .ok mesh' ∧
      mesh'.vertices = mesh.vertices ++ (lines.filter isVertexLine).map (lineVertex stof) ∧
      mesh'.faces.map some = mesh.faces.map some ++
        (lines.filter fun l => !isVertexLine l).map (lineFace stoi) := by
  obtain ⟨element', mesh', hrun, hvs, hfs⟩ :=
    parseLinesFrom_wellFormed stof stoi lines [] mesh hwf
  refine ⟨mesh', ?_, hvs, hfs⟩
  unfold parseLines
  rw [hrun]
  rfl

/-- A line that `parseLine` has read leaves at least four tokens in the storage
of `element`: the storage as the line has filled it. -/
theorem parseLine_storage (stof : String → Option R) (stoi : String → Option Int)
    (buffer : String) (element : List String) (mesh : Mesh_Data R)
    {storage : List String} {mesh' : Mesh_Data R}
    (h : parseLine stof stoi buffer element mesh = .ok (storage, mesh')) :
    storage = refill element buffer ∧ 4 ≤ storage.length := by
  rw [parseLine_tokens] at h
  generalize refill element buffer = st at h
  rcases st with _ | ⟨d, _ | ⟨a, _ | ⟨b, _ | ⟨c, rest⟩⟩⟩⟩
  · cases h
  · by_cases hd : d = "v" <;> simp [hd] at h
  · by_cases hd : d = "v"
    · cases ha : stof a <;> simp [hd, ha] at h
    · cases ha : stoi a <;> simp [hd, ha] at h
  · by_cases hd : d = "v"
    · cases ha : stof a <;> cases hb : stof b <;> simp [hd, ha, hb] at h
    · cases ha : stoi a <;> cases hb : stoi b <;> simp [hd, ha, hb] at h
  · by_cases hd : d = "v"
    · cases ha : stof a <;> cases hb : stof b <;> cases hc : stof c <;>
        simp [hd, ha, hb, hc] at h
      rw [← h.1, hd]
      exact ⟨rfl, by simp⟩
    · cases ha : stoi a <;> cases hb : stoi b <;> cases hc : stoi c <;>
        simp [hd, ha, hb, hc] at h
      rw [← h.1]
      exact ⟨rfl, by simp⟩

/-- With four tokens in the storage the line is read from them: it adds the
vertex or the face they give, or `stof` or `stoi` throws on one of them. -/
theorem parseLine_stale (stof : String → Option R) (stoi : String → Option Int)
    (buffer : String) (element : List String) (mesh : Mesh_Data R) (d a b c : String)
    (h : (refill element buffer).take 4 = [d, a, b, c]) :
    parseLine stof stoi buffer element mesh =
      if d = "v" then
        match stof a, stof b, stof c with
        | some x, some y, some z =>
          .ok (refill element buffer,
            { mesh with vertices := mesh.vertices ++ [some ⟨x, y, z⟩] })
        | _, _, _ => .error .thrown
      else
        match stoi a, stoi b, stoi c with
        | some idx1, some idx2, some idx3 =>
          .ok (refill element buffer,
            { mesh with faces := mesh.faces ++ [⟨idx1, idx2, idx3⟩] })
        | _, _, _ => .error .thrown := by
  rw [parseLine_tokens]
  generalize refill element buffer = st at h
  rcases st with _ | ⟨d', _ | ⟨a', _ | ⟨b', _ | ⟨c', rest⟩⟩⟩⟩
  · simp at h
  · simp at h
  · simp at h
  · simp at h
  · simp only [List.take_succ_cons, List.take_zero, List.cons.injEq, and_true] at h
    obtain ⟨rfl, rfl, rfl, rfl⟩ := h
    by_cases hd : d' = "v"
    · cases ha : stof a' <;> cases hb : stof b' <;> cases hc : stof c' <;>
        simp [hd, ha, hb, hc]
    · cases ha : stoi a' <;> cases hb : stoi b' <;> cases hc : stoi c' <;>
        simp [hd, ha, hb, hc]

theorem computeNormalsUpdateBuffers_mesh {sqrt : R → R} {obj obj' : Object R}
    (h : computeNormalsUpdateBuffers sqrt obj = some obj') : obj'.mesh = obj.mesh := by
  unfold computeNormalsUpdateBuffers at h
  simp only [Option.bind_eq_bind, Option.bind_eq_some] at h
  obtain ⟨obj1, h1, h2⟩ := h
  obtain ⟨hm1, -, -, -⟩ := forLoop_storeNormal_frame sqrt _ _ _ h1
  obtain ⟨hm, -⟩ := forLoop_pushFace _ _ _ h2
  rw [hm]
  exact hm1

/-- The mesh of the object `parseObjFile` returns is the mesh the loop over the
lines has read. -/
theorem parseObjFile_mesh {sqrt : R → R} {stof : String → Option R}
    {stoi : String → Option Int}
    {build_HE : Mesh_Data R → Option (List (Option (HEV R)) × List (Option HEF) × List HE)}
    {lines : List String} {obj obj' : Object R}
    (h : parseObjFile sqrt stof stoi build_HE lines obj = .ok obj') :
    parseLines stof stoi lines ⟨[none], []⟩ = .ok obj'.mesh := by
  unfold parseObjFile at h
  cases hmesh : parseLines stof stoi lines ⟨[none], []⟩ with
  | error e =>
    rw [hmesh] at h
    cases h
  | ok mesh =>
    rw [hmesh] at h
    simp only [bind, Except.bind] at h
    cases hb : build_HE mesh with
    | none =>
      rw [hb] at h
      cases h
    | some t =>
      obtain ⟨hevs, hefs, hes⟩ := t
      rw [hb] at h
      simp only at h
      generalize hobj1 : ({ obj with mesh := mesh, hevs := hevs, hefs := hefs, hes := hes } :
        Object R) = obj1 at h
      cases h1 : forLoop assignIndex (vertexRange obj1) obj1 with
      | none =>
        rw [h1] at h
        cases h
      | some obj2 =>
        rw [h1] at h
        simp only at h
        cases h2 : computeNormalsUpdateBuffers sqrt obj2 with
        | none =>
          rw [h2] at h
          cases h
        | some obj3 =>
          rw [h2] at h
          simp only [Except.ok.injEq] at h
          subst h
          obtain ⟨-, hm2, -⟩ := forLoop_assignIndex _ _ _ (nodup_vertexRange _) h1
          rw [computeNormalsUpdateBuffers_mesh h2, hm2, ← hobj1]

theorem splitAux_cur (cs : List Char) : ∀ cur : List Char, cur ≠ [] →
    splitAux cs cur = String.mk (cur ++ cs.takeWhile fun c => c != ' ') ::
      (match cs.dropWhile fun c => c != ' ' with
        | [] => []
        | _ :: rest => splitAux rest []) := by
  induction cs with
  | nil =>
    intro cur hcur
    simp [splitAux, hcur]
  | cons c cs ih =>
    intro cur hcur
    by_cases hc : c = ' '
    · subst hc
      simp [splitAux]
    · rw [splitAux, if_neg hc, ih (cur ++ [c]) (by simp)]
      simp [hc, List.takeWhile_cons, List.dropWhile_cons]

/-- A line whose first token is `v` and that has a second token begins with
`v` and a space. -/
theorem begins_of_isVertexLine (buffer : String) (h : isVertexLine buffer = true)
    (hlen : 2 ≤ (splitBySpace buffer).length) : beginsWith 'v' buffer = true := by
  unfold isVertexLine splitBySpace at h
  unfold splitBySpace at hlen
  unfold beginsWith
  rcases hb : buffer.data with _ | ⟨c, cs⟩
  · rw [hb] at hlen
    simp [splitAux] at hlen
  · rw [hb] at h hlen
    by_cases hc : c = ' '
    · subst hc
      simp [splitAux] at h
    · rw [splitAux, if_neg hc, List.nil_append, splitAux_cur cs [c] (by simp)] at h hlen
      simp only [List.head?_cons, beq_iff_eq, Option.some.injEq] at h
      have hd := congrArg String.data h
      simp only [List.singleton_append] at hd
      have hd' : c :: (cs.takeWhile fun c => c != ' ') = ['v'] := hd
      simp only [List.cons.injEq] at hd'
      obtain ⟨rfl, htk⟩ := hd'
      rcases cs with _ | ⟨b, cs'⟩
      · simp at hlen
      · by_cases hb' : b = ' '
        · subst hb'
          rfl
        · simp [List.takeWhile_cons, hb'] at htk

/-- On a well-formed line the first token is `v` exactly when the line begins
with `v` and a space. -/
theorem isVertexLine_eq_begins (stof : String → Option R) (stoi : String → Option Int)
    (buffer : String) (h : WellFormedLine stof stoi buffer) :
    isVertexLine buffer = beginsWith 'v' buffer := by
  cases hv : isVertexLine buffer with
  | true =>
    symm
    apply begins_of_isVertexLine buffer hv
    obtain ⟨-, hlen, -⟩ := h
    unfold lineFields at hlen
    have := List.length_take_le 3 ((splitBySpace buffer).drop 1)
    have h3 : 3 ≤ ((splitBySpace buffer).drop 1).length := by
      rw [List.length_take] at hlen
      omega
    rw [List.length_drop] at h3
    omega
  | false =>
    cases hb : beginsWith 'v' buffer with
    | false => rfl
    | true =>
      rw [isVertexLine_of_begins buffer hb] at hv
      cases hv

/-! ## Lemmas: the keyboard and the timer -/

theorem smoothNextFrame_globals {sqrt : R → R} {solver : SparseLU R} {time_step_h : R}
    {g g' : Globals R} (h : g.smoothNextFrame sqrt solver time_step_h = some g') :
    g'.started_smoothing = g.started_smoothing ∧ g'.timers = g.timers + 1 := by
  unfold Globals.smoothNextFrame at h
  cases ho : Smooth.smoothNextFrame sqrt solver time_step_h g.objects with
  | none => simp [ho] at h
  | some objects =>
    rw [ho, Option.map_some', Option.some.injEq] at h
    subst h
    exact ⟨rfl, rfl⟩

/-- What one key press does to the flag, the objects and the timers: the press of
the smoothing key while `started_smoothing` is false calls `smoothNextFrame`,
which registers a timer, and sets the flag; every other press leaves the flag,
the objects and the timers as they are. -/
theorem key_pressed_calls {sqrt : R → R} {solver : SparseLU R} {time_step_h : R}
    {sin cos : R → R} {pi : R} {key : Char} {g g' : Globals R}
    (h : key_pressed sqrt solver time_step_h sin cos pi key g = .ok g') :
    if key = start_smoothing_key ∧ g.started_smoothing = false then
      g'.started_smoothing = true ∧ g'.timers = g.timers + 1 ∧
        g.smoothNextFrame sqrt solver time_step_h = some { g' with started_smoothing := false }
    else
      g'.started_smoothing = g.started_smoothing ∧ g'.timers = g.timers ∧
        g'.objects = g.objects := by
  unfold key_pressed at h
  by_cases hq : key = 'q'
  · rw [if_pos hq] at h
    cases h
  rw [if_neg hq] at h
  by_cases ht : key = 't'
  · rw [if_pos ht, Except.ok.injEq] at h
    subst h
    have hk : key ≠ start_smoothing_key := by
      rw [ht]
      decide
    rw [if_neg (fun hc => hk hc.1)]
    exact ⟨rfl, rfl, rfl⟩
  rw [if_neg ht] at h
  simp only at h
  by_cases hk : key = start_smoothing_key
  · rw [if_pos hk] at h
    by_cases hs : g.started_smoothing = true
    · rw [hs] at h
      simp only [Bool.not_true, Bool.false_eq_true, if_false, Except.ok.injEq] at h
      subst h
      rw [if_neg (fun hc => by rw [hs] at hc; exact Bool.noConfusion hc.2)]
      exact ⟨rfl, rfl, rfl⟩
    · have hs' : g.started_smoothing = false := by simpa using hs
      rw [hs'] at h
      simp only [Bool.not_false, if_true] at h
      cases hn : g.smoothNextFrame sqrt solver time_step_h with
      | none =>
        rw [hn] at h
        cases h
      | some g1 =>
        rw [hn] at h
        simp only [Except.ok.injEq] at h
        subst h
        obtain ⟨hst, htm⟩ := smoothNextFrame_globals hn
        rw [if_pos ⟨hk, hs'⟩]
        refine ⟨rfl, htm, ?_⟩
        congr 1
        cases g1
        simp only [Globals.mk.injEq, true_and, and_true]
        exact hst.trans hs'
  · rw [if_neg hk] at h
    have hcam : ∃ c, g' = { g with cam_position := c } := by
      by_cases hw : key = 'w'
      · rw [if_pos hw, Except.ok.injEq] at h
        exact ⟨_, h.symm⟩
      rw [if_neg hw] at h
      by_cases ha : key = 'a'
      · rw [if_pos ha, Except.ok.injEq] at h
        exact ⟨_, h.symm⟩
      rw [if_neg ha] at h
      by_cases hs : key = 's'
      · rw [if_pos hs, Except.ok.injEq] at h
        exact ⟨_, h.symm⟩
      rw [if_neg hs] at h
      by_cases hd : key = 'd'
      · rw [if_pos hd, Except.ok.injEq] at h
        exact ⟨_, h.symm⟩
      rw [if_neg hd, Except.ok.injEq] at h
      exact ⟨g.cam_position, h.symm⟩
    obtain ⟨c, rfl⟩ := hcam
    rw [if_neg (fun hc => hk hc.1)]
    exact ⟨rfl, rfl, rfl⟩

theorem key_pressed_step {sqrt : R → R} {solver : SparseLU R} {time_step_h : R}
    {sin cos : R → R} {pi : R} {key : Char} {g g' : Globals R}
    (h : key_pressed sqrt solver time_step_h sin cos pi key g = .ok g') :
    (g.started_smoothing = true →
      g'.started_smoothing = true ∧ g'.timers = g.timers ∧ g'.objects = g.objects) ∧
    (g.started_smoothing = false →
      (key = start_smoothing_key ∧ g'.started_smoothing = true ∧ g'.timers = g.timers + 1) ∨
      (key ≠ start_smoothing_key ∧ g'.started_smoothing = false ∧ g'.timers = g.timers)) := by
  have hc := key_pressed_calls h
  refine ⟨fun hs => ?_, fun hs => ?_⟩
  · rw [if_neg (fun hcond => by rw [hs] at hcond; exact Bool.noConfusion hcond.2)] at hc
    exact ⟨hc.1.trans hs, hc.2.1, hc.2.2⟩
  · by_cases hk : key = start_smoothing_key
    · rw [if_pos ⟨hk, hs⟩] at hc
      exact Or.inl ⟨hk, hc.1, hc.2.1⟩
    · rw [if_neg (fun hcond => hk hcond.1)] at hc
      exact Or.inr ⟨hk, hc.1.trans hs, hc.2.1⟩

/-- What one event of the loop does to the flag and the timers. -/
theorem handle_step {sqrt : R → R} {solver : SparseLU R} {time_step_h : R}
    {sin cos : R → R} {pi : R} {e : Event} {g g' : Globals R}
    (h : handle sqrt solver time_step_h sin cos pi e g = .ok g') :
    (g.started_smoothing = true → g'.started_smoothing = true ∧ g'.timers = g.timers) ∧
    (g.started_smoothing = false →
      (e = .key start_smoothing_key ∧ g'.started_smoothing = true ∧
        g'.timers = g.timers + 1) ∨
      (e ≠ .key start_smoothing_key ∧ g'.started_smoothing = false ∧
        g'.timers = g.timers)) := by
  cases e with
  | key c =>
    obtain ⟨h1, h2⟩ := key_pressed_step h
    refine ⟨fun hs => ⟨(h1 hs).1, (h1 hs).2.1⟩, fun hs => ?_⟩
    rcases h2 hs with ⟨hk, ha, hb⟩ | ⟨hk, ha, hb⟩
    · exact Or.inl ⟨by rw [hk], ha, hb⟩
    · exact Or.inr ⟨fun he => hk (Event.key.inj he), ha, hb⟩
  | timer =>
    unfold handle at h
    simp only at h
    by_cases h0 : g.timers = 0
    · rw [if_pos h0, Except.ok.injEq] at h
      subst h
      exact ⟨fun hs => ⟨hs, rfl⟩, fun hs => Or.inr ⟨by simp, hs, rfl⟩⟩
    · rw [if_neg h0] at h
      cases hn : ({ g with timers := g.timers - 1 } : Globals R).smoothNextFrame sqrt solver
          time_step_h with
      | none =>
        rw [hn] at h
        cases h
      | some g1 =>
        rw [hn] at h
        simp only [Except.ok.injEq] at h
        subst h
        obtain ⟨hst, htm⟩ := smoothNextFrame_globals hn
        have htm' : g1.timers = g.timers := by
          rw [htm]
          show g.timers - 1 + 1 = g.timers
          omega
        exact ⟨fun hs => ⟨hst.trans hs, htm'⟩,
          fun hs => Or.inr ⟨by simp, hst.trans hs, htm'⟩⟩

/-- Over any events, `key_pressed` reaches its call of `smoothNextFrame` at most
once, and never when `started_smoothing` is already true. -/
theorem initiations_le (sqrt : R → R) (solver : SparseLU R) (time_step_h : R)
    (sin cos : R → R) (pi : R) (events : List Event) : ∀ g : Globals R,
    initiations sqrt solver time_step_h sin cos pi events g ≤
      (if g.started_smoothing = true then 0 else 1) := by
  induction events with
  | nil =>
    intro g
    simp [initiations]
  | cons e es ih =>
    intro g
    simp only [initiations]
    cases he : handle sqrt solver time_step_h sin cos pi e g with
    | error s =>
      simp only
      cases hst : g.started_smoothing with
      | true => simp
      | false =>
        simp only [Bool.false_eq_true, if_false, and_true]
        split <;> omega
    | ok g1 =>
      simp only
      have ih2 := ih g1
      obtain ⟨hs1, hs2⟩ := handle_step he
      cases hst : g.started_smoothing with
      | true =>
        obtain ⟨hg1, -⟩ := hs1 hst
        rw [if_pos hg1] at ih2
        simp only [Bool.true_eq_false, and_false, if_false, if_true]
        omega
      | false =>
        rcases hs2 hst with ⟨hk, ha, -⟩ | ⟨hk, ha, -⟩
        · rw [if_pos ha] at ih2
          simp only [hk, and_self, if_true, Bool.false_eq_true, if_false]
          omega
        · rw [ha] at ih2
          simp only [Bool.false_eq_true, if_false] at ih2
          simp only [hk, false_and, if_false, Bool.false_eq_true]
          omega

/-- Over a run of events that returns, the flag stays true once it is true, and
no second timer is ever registered. -/
theorem run_invariant (sqrt : R → R) (solver : SparseLU R) (time_step_h : R)
    (sin cos : R → R) (pi : R) (events : List Event) : ∀ g g' : Globals R,
    run sqrt solver time_step_h sin cos pi events g = .ok g' →
    (g.started_smoothing = true → g'.started_smoothing = true) ∧
    (g.timers ≤ 1 → (g.started_smoothing = false → g.timers = 0) →
      g'.timers ≤ 1 ∧ (g'.started_smoothing = false → g'.timers = 0)) := by
  induction events with
  | nil =>
    intro g g' h
    simp only [run, Except.ok.injEq] at h
    subst h
    exact ⟨id, fun h1 h2 => ⟨h1, h2⟩⟩
  | cons e es ih =>
    intro g g' h
    simp only [run] at h
    cases he : handle sqrt solver time_step_h sin cos pi e g with
    | error s =>
      rw [he] at h
      cases h
    | ok g1 =>
      rw [he] at h
      simp only at h
      obtain ⟨ih1, ih3⟩ := ih g1 g' h
      obtain ⟨hs1, hs2⟩ := handle_step he
      cases hst : g.started_smoothing with
      | true =>
        obtain ⟨hg1, htm⟩ := hs1 hst
        refine ⟨fun _ => ih1 hg1, fun ht hz => ih3 (htm ▸ ht) (fun hf => ?_)⟩
        rw [hg1] at hf
        cases hf
      | false =>
        refine ⟨(fun hf => by cases hf), fun ht hz => ?_⟩
        have hz0 := hz rfl
        rcases hs2 hst with ⟨-, ha, hb⟩ | ⟨-, ha, hb⟩
        · exact ih3 (by omega) (fun hf => by rw [ha] at hf; cases hf)
        · exact ih3 (by omega) (fun _ => by omega)

/-! ## Lemmas: the row of `Δ` in the words of the specification -/

/-- What a pass of the loop of `build_F_operator` reads for the half-edge `he`,
vertex by vertex: the neighbour `he.next.vertex`, the apex `he.next.next.vertex`
of `cot α` and the apex `he.flip.next.next.vertex` of `cot β`, each cotangent
the quotient of a dot product by the norm of a cross product, and the area of
the triangle of `he`. -/
theorem ringEntry_spoke {sqrt : R → R} {obj : Object R} {p : Vector3f R} {he : Nat}
    {e : RingEntry R} (h : ringEntry sqrt obj p he = some e) :
    ∃ s : Spoke R, s.he = he ∧ obj.IsSpoke s ∧ e.he = he ∧ e.j = s.v_j.index ∧
      obj.step he = some e.next ∧
      e.cot_alpha = fdiv ((p.sub s.v_alpha.pos).dot (s.v_j.pos.sub s.v_alpha.pos))
        (((p.sub s.v_alpha.pos).cross (s.v_j.pos.sub s.v_alpha.pos)).norm sqrt) ∧
      e.cot_beta = fdiv ((p.sub s.v_beta.pos).dot (s.v_j.pos.sub s.v_beta.pos))
        (((p.sub s.v_beta.pos).cross (s.v_j.pos.sub s.v_beta.pos)).norm sqrt) ∧
      e.face_area = (1 / 2) * ((s.v_j.pos.sub p).cross (s.v_alpha.pos.sub p)).norm sqrt := by
  unfold ringEntry at h
  simp only [Option.bind_eq_bind, Option.bind_eq_some, Option.some.injEq] at h
  obtain ⟨h', hh', hn, hhn, vj, hvj, hnn, hhnn, va, hva, hf, hhf, hfn, hhfn, hfnn, hhfnn,
    vb, hvb, rfl⟩ := h
  refine ⟨⟨he, vj, va, vb⟩, rfl, ⟨?_, ?_, ?_⟩, rfl, rfl, ?_, rfl, rfl, rfl⟩
  · simp only [Object.nextVertex, Object.next, Object.tail, hh', hhn, Option.map_some',
      Option.some_bind, hvj]
  · simp only [Object.nextNextVertex, Object.next, Object.tail, hh', hhn, hhnn,
      Option.map_some', Option.some_bind, hva]
  · simp only [Object.flipNextNextVertex, Object.flip, Object.next, Object.tail, hh', hhf,
      hhfn, hhfnn, Option.map_some', Option.some_bind, hvb]
  · simp only [Object.step, Object.flip, Object.next, hh', hhf, Option.map_some',
      Option.some_bind]

/-- Row `i` of `Δ` by the entries of the ring of a vertex that is not
degenerate. -/
theorem delta_row_entries {sqrt : R → R} {obj : Object R} {i : Nat}
    (hok : obj.RingsOk sqrt) (h1 : 1 ≤ i) (h2 : i < obj.hevs.length)
    (hA : close_to_zero (vertexArea sqrt obj i) = false) :
    ∃ op, build_op_matrix sqrt obj = some op ∧
      oneRing sqrt obj i = some (ringOf sqrt obj i) ∧
      ((ringOf sqrt obj i).map fun e => e.j).Nodup ∧
      (∀ e ∈ ringOf sqrt obj i, op.coeff (i - 1) (e.j - 1).toNat =
        fdivBy (fadd e.cot_alpha e.cot_beta) (2 * vertexArea sqrt obj i)) ∧
      op.coeff (i - 1) (i - 1) =
        fneg (fsum ((ringOf sqrt obj i).map fun e => op.coeff (i - 1) (e.j - 1).toNat)) ∧
      (∀ c, c ≠ i - 1 → (∀ e ∈ ringOf sqrt obj i, (e.j - 1).toNat ≠ c) →
        op.coeff (i - 1) c = some 0) := by
  obtain ⟨op, hop⟩ := ringsOk_build hok
  have hring := ringsOk_ring hok h1 h2
  obtain ⟨-, -, es', hes', hnd, hrange, -, hnon⟩ := op_matrix_row hop h1 h2
  rw [hring, Option.some.injEq] at hes'
  rw [← hes'] at hnd hrange hnon
  obtain ⟨hd, hoff, hdiag, hzero⟩ := hnon hA
  have h2A : 2 * incidentArea (ringOf sqrt obj i) ≠ 0 := ne_zero_of_not_close hA
  refine ⟨op, hop, hring, ?_, fun e he => coeff_of_stored (hoff e he), ?_,
    fun c hc hne => coeff_of_not_stored (hzero c hc hne)⟩
  · have : ((ringOf sqrt obj i).map fun e => e.col) =
        ((ringOf sqrt obj i).map fun e => e.j).map fun j => (j - 1).toNat := by
      rw [List.map_map]
      rfl
    rw [this] at hnd
    exact hnd.of_map _
  · rw [coeff_of_stored hdiag, fdivBy_neg _ h2A, totalCot, fdivBy_fsum _ h2A, List.map_map]
    congr 2
    apply List.map_congr_left
    intro e he
    exact (coeff_of_stored (hoff e he)).symm

/-! ## The claims -/

theorem tetraF_coeff : ∀ i, i < 4 → ∀ j, j < 4 →
    tetraF.coeff i j = some ((tetraFTable.getD i []).getD j 0) := by decide!

theorem tetraF_row (i : Nat) (hi : i < 4) (y : Nat → ℚ) :
    fsum ((List.range tetraF.cols).map fun j => fmul (tetraF.coeff i j) (some (y j))) =
      some ((tetraFTable.getD i []).getD 0 0 * y 0 + (tetraFTable.getD i []).getD 1 0 * y 1 +
        (tetraFTable.getD i []).getD 2 0 * y 2 + (tetraFTable.getD i []).getD 3 0 * y 3) := by
  have hc := tetraF_coeff i hi
  rw [fsum_coeff_mul tetraF i y (fun c hc' => by rw [hc c hc']; simp)]
  have hcols : tetraF.cols = 4 := rfl
  rw [hcols]
  simp only [Finset.sum_range_succ, Finset.sum_range_zero, zero_add, SparseMatrix.num,
    hc 0 (by decide), hc 1 (by decide), hc 2 (by decide), hc 3 (by decide), Option.getD_some]

theorem tetraSolver_exact (b : List ℚ) (hb : b.length = tetraF.rows) :
    ∃ x', tetraSolver.solve tetraF b = some x' ∧ tetraF.IsSolution x' b := by
  match b, hb with
  | [b0, b1, b2, b3], _ =>
    refine ⟨_, rfl, rfl, rfl, ?_⟩
    intro i hi
    have hi' : i < 4 := hi
    unfold SparseMatrix.mulVecAt
    rw [tetraF_row i hi']
    interval_cases i
    · simp only [tetraFTable, denseMulVec, tetraInverse, List.getD_cons_zero, List.getD_cons_succ,
        List.map_cons, List.map_nil, List.zipWith_cons_cons, List.zipWith_nil_left, List.sum_cons,
        List.sum_nil, List.getElem?_cons_zero, List.getElem?_cons_succ, Option.some.injEq]
      ring
    · simp only [tetraFTable, denseMulVec, tetraInverse, List.getD_cons_zero, List.getD_cons_succ,
        List.map_cons, List.map_nil, List.zipWith_cons_cons, List.zipWith_nil_left, List.sum_cons,
        List.sum_nil, List.getElem?_cons_zero, List.getElem?_cons_succ, Option.some.injEq]
      ring
    · simp only [tetraFTable, denseMulVec, tetraInverse, List.getD_cons_zero, List.getD_cons_succ,
        List.map_cons, List.map_nil, List.zipWith_cons_cons, List.zipWith_nil_left, List.sum_cons,
        List.sum_nil, List.getElem?_cons_zero, List.getElem?_cons_succ, Option.some.injEq]
      ring
    · simp only [tetraFTable, denseMulVec, tetraInverse, List.getD_cons_zero, List.getD_cons_succ,
        List.map_cons, List.map_nil, List.zipWith_cons_cons, List.zipWith_nil_left, List.sum_cons,
        List.sum_nil, List.getElem?_cons_zero, List.getElem?_cons_succ, Option.some.injEq]
      ring

theorem tetraDelta_built : build_op_matrix ratSqrt tetra = some tetraDelta := by decide!

theorem tetraF_built : build_F_operator ratSqrt 1 tetra = some tetraF := by decide!

theorem disphenoidF_built : build_F_operator ratSqrt 1 disphenoid = some disphenoidF := by decide!

theorem tetraDelta_finite : ∀ r, r < tetra.hevs.length - 1 → ∀ c, c < tetra.hevs.length - 1 →
    tetraDelta.coeff r c ≠ none := by decide!

theorem tetra_zero_step_built : build_F_operator ratSqrt 0 tetra =
    some ((SparseMatrix.identity 4).sub (SparseMatrix.scale 0 tetraDelta)) := by decide!

theorem identitySolver_exact (b : List ℚ)
    (hb : b.length = ((SparseMatrix.identity 4).sub (SparseMatrix.scale 0 tetraDelta)).rows) :
    ∃ x', identitySolver.solve ((SparseMatrix.identity 4).sub (SparseMatrix.scale 0 tetraDelta))
        b = some x' ∧
      ((SparseMatrix.identity 4).sub (SparseMatrix.scale 0 tetraDelta)).IsSolution x' b :=
  ⟨b, rfl, isSolution_identity _ b hb rfl
    (opF_zero_step tetraDelta_built tetraDelta_finite tetra_zero_step_built)⟩

/-- C1: on a mesh on which the assembly runs to the end (the rings can be
walked, with pairwise distinct neighbours in range), `build_F_operator` assembles
a matrix `Δ`, and for a vertex `v_i` whose incident area `A_i` is not below
epsilon there is the list of the half-edges of its ring, each with its three
vertices: the walk starts at `v_i.out`, goes from `he` to `he.flip.next` and
comes back to `v_i.out`; for each half-edge `he`, `v_j = he.next.vertex`,
`v_α = he.next.next.vertex` and `v_β = he.flip.next.next.vertex`; the neighbours
have pairwise distinct indices; `A_i` is the sum of
`0.5 |(v_j - v_i) × (v_α - v_i)|` over the ring; the coefficient in column
`j - 1` is `(cot α + cot β) / (2 A_i)`, with
`cot α = (v_i - v_α) · (v_j - v_α) / |(v_i - v_α) × (v_j - v_α)|` and
`cot β = (v_i - v_β) · (v_j - v_β) / |(v_i - v_β) × (v_j - v_β)|`; the diagonal
coefficient is minus the sum of those off-diagonal coefficients; every other
coefficient of row `i` is zero. -/
theorem build_F_operator_delta_row (sqrt : R → R) (obj : Object R) (i : Nat)
    (hok : obj.RingsOk sqrt) (h1 : 1 ≤ i) (h2 : i < obj.hevs.length)
    (hA : close_to_zero (vertexArea sqrt obj i) = false) :
    ∃ (op : SparseMatrix R) (v_i : HEV R) (spokes : List (Spoke R)),
      build_op_matrix sqrt obj = some op ∧ obj.hev i = some v_i ∧
      (spokes.map fun s => s.he).head? = some v_i.out ∧
      List.Chain' (fun a b : Spoke R => obj.step a.he = some b.he) spokes ∧
      (spokes.getLast?.bind fun s => obj.step s.he) = some v_i.out ∧
      (∀ s ∈ spokes, obj.IsSpoke s) ∧
      (spokes.map fun s => s.v_j.index).Nodup ∧
      vertexArea sqrt obj i = (spokes.map fun s =>
        (1 / 2) * ((s.v_j.pos.sub v_i.pos).cross (s.v_alpha.pos.sub v_i.pos)).norm sqrt).sum ∧
      (∀ s ∈ spokes, op.coeff (i - 1) (s.v_j.index - 1).toNat =
        fdivBy
          (fadd
            (fdiv ((v_i.pos.sub s.v_alpha.pos).dot (s.v_j.pos.sub s.v_alpha.pos))
              (((v_i.pos.sub s.v_alpha.pos).cross (s.v_j.pos.sub s.v_alpha.pos)).norm sqrt))
            (fdiv ((v_i.pos.sub s.v_beta.pos).dot (s.v_j.pos.sub s.v_beta.pos))
              (((v_i.pos.sub s.v_beta.pos).cross (s.v_j.pos.sub s.v_beta.pos)).norm sqrt)))
          (2 * vertexArea sqrt obj i)) ∧
      op.coeff (i - 1) (i - 1) =
        fneg (fsum (spokes.map fun s => op.coeff (i - 1) (s.v_j.index - 1).toNat)) ∧
      (∀ c, c ≠ i - 1 → (∀ s ∈ spokes, (s.v_j.index - 1).toNat ≠ c) →
        op.coeff (i - 1) c = some 0) := by
  obtain ⟨op, hop, hring, hnd, hoff, hdiag, hzero⟩ := delta_row_entries hok h1 h2 hA
  obtain ⟨v_i, hv, hmem⟩ := oneRing_mem hring
  have hwalk : ringEntries sqrt obj v_i.pos v_i.out obj.hes.length v_i.out =
      some (ringOf sqrt obj i) := by
    have := hring
    rw [oneRing, hv, Option.some_bind] at this
    exact this
  obtain ⟨hhead, hlast, hchain⟩ := ringEntries_chain sqrt obj _ _ _ _ _ hwalk
  have key : ∀ e : RingEntry R, ∃ s : Spoke R, e ∈ ringOf sqrt obj i →
      s.he = e.he ∧ obj.IsSpoke s ∧ e.j = s.v_j.index ∧ obj.step e.he = some e.next ∧
      e.cot_alpha = fdiv ((v_i.pos.sub s.v_alpha.pos).dot (s.v_j.pos.sub s.v_alpha.pos))
        (((v_i.pos.sub s.v_alpha.pos).cross (s.v_j.pos.sub s.v_alpha.pos)).norm sqrt) ∧
      e.cot_beta = fdiv ((v_i.pos.sub s.v_beta.pos).dot (s.v_j.pos.sub s.v_beta.pos))
        (((v_i.pos.sub s.v_beta.pos).cross (s.v_j.pos.sub s.v_beta.pos)).norm sqrt) ∧
      e.face_area =
        (1 / 2) * ((s.v_j.pos.sub v_i.pos).cross (s.v_alpha.pos.sub v_i.pos)).norm sqrt := by
    intro e
    by_cases he : e ∈ ringOf sqrt obj i
    · obtain ⟨s, hs, hsp, -, hj, hstep, ha, hb, hf⟩ := ringEntry_spoke (hmem e he)
      exact ⟨s, fun _ => ⟨hs, hsp, hj, hstep, ha, hb, hf⟩⟩
    · exact ⟨⟨0, v_i, v_i, v_i⟩, fun h => absurd h he⟩
  choose g hg using key
  have hj : ((ringOf sqrt obj i).map fun e => (g e).v_j.index) =
      (ringOf sqrt obj i).map fun e => e.j :=
    List.map_congr_left fun e he => ((hg e he).2.2.1).symm
  refine ⟨op, v_i, (ringOf sqrt obj i).map g, hop, hv, ?_, ?_, ?_, ?_, ?_, ?_, ?_, ?_, ?_⟩
  · rw [List.map_map]
    have : ((ringOf sqrt obj i).map ((fun s : Spoke R => s.he) ∘ g)) =
        (ringOf sqrt obj i).map fun e => e.he :=
      List.map_congr_left fun e he => (hg e he).1
    rw [this, List.head?_map]
    exact hhead
  · rw [List.chain'_map]
    refine (List.Chain'.iff_mem.mp hchain).imp ?_
    rintro a b ⟨ha, hb, hab⟩
    rw [(hg a ha).1, (hg b hb).1, hab]
    exact (hg a ha).2.2.2.1
  · rw [List.getLast?_map]
    cases hl : (ringOf sqrt obj i).getLast? with
    | none => simp [hl] at hlast
    | some e =>
      rw [hl, Option.map_some', Option.some.injEq] at hlast
      have he : e ∈ ringOf sqrt obj i := List.mem_of_getLast?_eq_some hl
      rw [Option.map_some', Option.some_bind, (hg e he).1, (hg e he).2.2.2.1, hlast]
  · intro s hs
    obtain ⟨e, he, rfl⟩ := List.mem_map.mp hs
    exact (hg e he).2.1
  · rw [List.map_map]
    exact hj ▸ hnd
  · rw [List.map_map, vertexArea, incidentArea]
    congr 1
    exact List.map_congr_left fun e he => (hg e he).2.2.2.2.2.2
  · intro s hs
    obtain ⟨e, he, rfl⟩ := List.mem_map.mp hs
    obtain ⟨-, -, hj', -, ha, hb, -⟩ := hg e he
    rw [← hj', ← ha, ← hb]
    exact hoff e he
  · rw [hdiag, List.map_map]
    congr 2
    exact List.map_congr_left fun e he => by
      show op.coeff (i - 1) (e.j - 1).toNat = op.coeff (i - 1) ((g e).v_j.index - 1).toNat
      rw [(hg e he).2.2.1]
  · intro c hc hne
    apply hzero c hc
    intro e he
    rw [(hg e he).2.2.1]
    exact hne (g e) (List.mem_map.mpr ⟨e, he, rfl⟩)

theorem build_F_operator_delta_row_witness :
    ∃ (op : SparseMatrix ℚ) (v_i : HEV ℚ) (spokes : List (Spoke ℚ)),
      (op.coeff 0 1 = some (3 / 5) ∧ op.coeff 0 2 = some (3 / 5) ∧
        op.coeff 0 3 = some (1 / 5) ∧ op.coeff 0 0 = some (-7 / 5) ∧
        spokes.map (fun s => (s.he, s.v_j.index, s.v_alpha.index, s.v_beta.index)) =
          [(0, 3, 2, 4), (6, 4, 3, 2), (3, 2, 4, 3)]) ∧
      build_op_matrix ratSqrt tetra = some op ∧ tetra.hev 1 = some v_i ∧
      (spokes.map fun s => s.he).head? = some v_i.out ∧
      List.Chain' (fun a b : Spoke ℚ => tetra.step a.he = some b.he) spokes ∧
      (spokes.getLast?.bind fun s => tetra.step s.he) = some v_i.out ∧
      (∀ s ∈ spokes, tetra.IsSpoke s) ∧
      (spokes.map fun s => s.v_j.index).Nodup ∧
      vertexArea ratSqrt tetra 1 = (spokes.map fun s =>
        (1 / 2) * ((s.v_j.pos.sub v_i.pos).cross (s.v_alpha.pos.sub v_i.pos)).norm ratSqrt).sum ∧
      (∀ s ∈ spokes, op.coeff (1 - 1) (s.v_j.index - 1).toNat =
        fdivBy
          (fadd
            (fdiv ((v_i.pos.sub s.v_alpha.pos).dot (s.v_j.pos.sub s.v_alpha.pos))
              (((v_i.pos.sub s.v_alpha.pos).cross (s.v_j.pos.sub s.v_alpha.pos)).norm ratSqrt))
            (fdiv ((v_i.pos.sub s.v_beta.pos).dot (s.v_j.pos.sub s.v_beta.pos))
              (((v_i.pos.sub s.v_beta.pos).cross (s.v_j.pos.sub s.v_beta.pos)).norm ratSqrt)))
          (2 * vertexArea ratSqrt tetra 1)) ∧
      op.coeff (1 - 1) (1 - 1) =
        fneg (fsum (spokes.map fun s => op.coeff (1 - 1) (s.v_j.index - 1).toNat)) ∧
      (∀ c, c ≠ 1 - 1 → (∀ s ∈ spokes, (s.v_j.index - 1).toNat ≠ c) →
        op.coeff (1 - 1) c = some 0) := by
  obtain ⟨op, v_i, spokes, hop, hv, hhead, hchain, hlast, hsp, hnd, hrest⟩ :=
    build_F_operator_delta_row ratSqrt tetra 1 (by decide!) (by decide) (by decide!)
      (by decide!)
  have hopE : op = tetraDelta := Option.some.inj (hop.symm.trans tetraDelta_built)
  refine ⟨op, v_i, spokes, ⟨?_, ?_, ?_, ?_, ?_⟩, hop, hv, hhead, hchain, hlast, hsp, hnd, hrest⟩
  · rw [hopE]
    decide!
  · rw [hopE]
    decide!
  · rw [hopE]
    decide!
  · rw [hopE]
    decide!
  · have hvi : v_i.out = 0 := by
      have : tetra.hev 1 = some ⟨0, 0, 0, 0, 1, ⟨0, 0, 0⟩⟩ := by decide!
      rw [hv, Option.some.injEq] at this
      rw [this]
    rw [hvi] at hhead hlast
    have hstep0 : tetra.step 0 = some 6 := by decide!
    have hstep6 : tetra.step 6 = some 3 := by decide!
    have hstep3 : tetra.step 3 = some 0 := by decide!
    have hread : ∀ s : Spoke ℚ, tetra.IsSpoke s → ∀ j a b : Int, ∀ he : Nat, s.he = he →
        (tetra.nextVertex he).map (fun v => v.index) = some j →
        (tetra.nextNextVertex he).map (fun v => v.index) = some a →
        (tetra.flipNextNextVertex he).map (fun v => v.index) = some b →
        (s.he, s.v_j.index, s.v_alpha.index, s.v_beta.index) = (he, j, a, b) := by
      intro s hs j a b he hhe hj ha hb
      obtain ⟨h1, h2, h3⟩ := hs
      rw [hhe] at h1 h2 h3
      rw [h1, Option.map_some', Option.some.injEq] at hj
      rw [h2, Option.map_some', Option.some.injEq] at ha
      rw [h3, Option.map_some', Option.some.injEq] at hb
      rw [hhe, hj, ha, hb]
    rcases spokes with _ | ⟨s0, _ | ⟨s1, _ | ⟨s2, _ | ⟨s3, t⟩⟩⟩⟩
    · simp at hhead
    · simp only [List.map_cons, List.map_nil, List.head?_cons, Option.some.injEq] at hhead
      simp [hhead, hstep0] at hlast
    · simp only [List.map_cons, List.map_nil, List.head?_cons, Option.some.injEq] at hhead
      simp only [List.chain'_cons, hhead, hstep0, Option.some.injEq] at hchain
      simp [← hchain.1, hstep6] at hlast
    · simp only [List.map_cons, List.map_nil, List.head?_cons, Option.some.injEq] at hhead
      simp only [List.chain'_cons, hhead, hstep0, Option.some.injEq] at hchain
      obtain ⟨h01, h12, -⟩ := hchain
      rw [← h01, hstep6, Option.some.injEq] at h12
      simp only [List.map_cons, List.map_nil]
      rw [hread s0 (hsp s0 (by simp)) 3 2 4 0 hhead (by decide!) (by decide!) (by decide!),
        hread s1 (hsp s1 (by simp)) 4 3 2 6 h01.symm (by decide!) (by decide!) (by decide!),
        hread s2 (hsp s2 (by simp)) 2 4 3 3 h12.symm (by decide!) (by decide!) (by decide!)]
    · simp only [List.map_cons, List.map_nil, List.head?_cons, Option.some.injEq] at hhead
      simp only [List.chain'_cons, hhead, hstep0, Option.some.injEq] at hchain
      obtain ⟨h01, h12, h23, -⟩ := hchain
      rw [← h01, hstep6, Option.some.injEq] at h12
      rw [← h12, hstep3, Option.some.injEq] at h23
      have e0 := hread s0 (hsp s0 (by simp)) 3 2 4 0 hhead (by decide!) (by decide!)
        (by decide!)
      have e3 := hread s3 (hsp s3 (by simp)) 3 2 4 0 h23.symm (by decide!) (by decide!)
        (by decide!)
      have i0 : s0.v_j.index = 3 := (Prod.mk.inj (Prod.mk.inj e0).2).1
      have i3 : s3.v_j.index = 3 := (Prod.mk.inj (Prod.mk.inj e3).2).1
      simp [i0, i3] at hnd

/-- C2, as amended: on a mesh on which the assembly runs to the end,
`build_F_operator` assembles a matrix `Δ`, and for a vertex `i` whose incident
area is not below epsilon and whose ring weights `cot α + cot β` are all numbers
(no cotangent has a zero denominator), the coefficients of row `i` of `Δ` sum to
zero. -/
theorem build_F_operator_row_sum_zero (sqrt : R → R) (obj : Object R) (i : Nat)
    (hok : obj.RingsOk sqrt) (h1 : 1 ≤ i) (h2 : i < obj.hevs.length)
    (hA : close_to_zero (vertexArea sqrt obj i) = false)
    (hfin : ∀ e ∈ ringOf sqrt obj i, e.total_cot ≠ none) :
    ∃ op, build_op_matrix sqrt obj = some op ∧ op.rowSum (i - 1) = some 0 := by
  obtain ⟨op, hop⟩ := ringsOk_build hok
  refine ⟨op, hop, ?_⟩
  obtain ⟨hall, hsum⟩ := row_apply hop h1 h2 (ringsOk_ring hok h1 h2) hA hfin
  have h := fsum_coeff_mul op (i - 1) (fun _ => 1) (fun c _ => hall c)
  have hrow : op.rowSum (i - 1) =
      fsum ((List.range op.cols).map fun j => fmul (op.coeff (i - 1) j) (some 1)) := by
    unfold SparseMatrix.rowSum
    congr 1
    apply List.map_congr_left
    intro c _
    cases op.coeff (i - 1) c <;> simp [fmul]
  rw [hrow, h, hsum]
  simp

theorem build_F_operator_row_sum_zero_witness :
    ∃ op, build_op_matrix ratSqrt tetra = some op ∧ op.rowSum (1 - 1) = some 0 :=
  build_F_operator_row_sum_zero ratSqrt tetra 1 (by decide!) (by decide) (by decide!)
    (by decide!) (by decide!)

/-- C2, the claim as stated fails: on the flattened tetrahedron `planarTetra` the
matrix `Δ` is assembled, vertex `1` has incident area `3/2`, not below epsilon,
and the sum of row `1` is not zero: it is not a number, because the cotangent at
the apex of the zero-area face divides by zero. -/
theorem row_sum_counterexample :
    vertexArea ratSqrt planarTetra 1 = 3 / 2 ∧
    close_to_zero (vertexArea ratSqrt planarTetra 1) = false ∧
    (build_op_matrix ratSqrt planarTetra).map (fun op => op.rowSum 0) = some none := by
  decide!

/-- C3: on a mesh with the half-edge invariants on which the assembly runs to
the end, the weight `cot α + cot β` read for the half-edge from `i` to `j` in
the walk around `i` equals the weight read for its flip, from `j` to `i`, in the
walk around `j`; and in the assembled `Δ`, when neither vertex is degenerate,
`Δ[i,j] * A_i = Δ[j,i] * A_j`. -/
theorem total_cot_symmetric (sqrt : R → R) (obj : Object R) (i j : Nat) (e e' : RingEntry R)
    (hinv : obj.HalfEdgeInvariants) (hidx : obj.Indexed) (hok : obj.RingsOk sqrt)
    (hi : 1 ≤ i ∧ i < obj.hevs.length) (hj : 1 ≤ j ∧ j < obj.hevs.length)
    (he : e ∈ ringOf sqrt obj i) (he' : e' ∈ ringOf sqrt obj j)
    (hfrom : obj.tail e.he = some i) (hflip : obj.flip e.he = some e'.he)
    (hto : obj.tail e'.he = some j) :
    e.total_cot = e'.total_cot ∧
    ∃ op, build_op_matrix sqrt obj = some op ∧
      (close_to_zero (vertexArea sqrt obj i) = false →
        close_to_zero (vertexArea sqrt obj j) = false →
        fmul (op.coeff (i - 1) (j - 1)) (some (vertexArea sqrt obj i)) =
          fmul (op.coeff (j - 1) (i - 1)) (some (vertexArea sqrt obj j))) := by
  obtain ⟨op, hop⟩ := ringsOk_build hok
  have hri := ringsOk_ring hok hi.1 hi.2
  have hrj := ringsOk_ring hok hj.1 hj.2
  obtain ⟨v_i, hvi, hmem_i⟩ := oneRing_mem hri
  obtain ⟨v_j, hvj, hmem_j⟩ := oneRing_mem hrj
  have hent := hmem_i e he
  have hent' := hmem_j e' he'
  cases hh : obj.he e.he with
  | none => simp [Object.tail, hh] at hfrom
  | some h =>
    simp only [Object.tail, Object.flip, hh, Option.map_some', Option.some.injEq] at hfrom hflip
    rw [← hfrom] at hvi
    obtain ⟨hf, v_j', e'', hhf, -, hvj', hent'', htot, hj1, hj2⟩ :=
      ringEntry_flip hinv hh hvi hent
    rw [hflip] at hhf hent''
    simp only [Object.tail, hhf, Option.map_some', Option.some.injEq] at hto
    rw [hto, hvj, Option.some.injEq] at hvj'
    subst hvj'
    rw [hent', Option.some.injEq] at hent''
    subst hent''
    rw [hfrom] at hvi
    refine ⟨htot.symm, op, hop, ?_⟩
    intro hAi hAj
    unfold vertexArea at hAi hAj ⊢
    have hej : e.j = (j : Int) := hj2.trans (hidx j hj.2 v_j (Option.mem_def.mpr hvj))
    have hej' : e'.j = (i : Int) := hj1.trans (hidx i hi.2 v_i (Option.mem_def.mpr hvi))
    have hrow : ∀ k (es : List (RingEntry R)), 1 ≤ k → k < obj.hevs.length →
        oneRing sqrt obj k = some es → close_to_zero (incidentArea es) = false →
        ∀ a ∈ es, op.coeff (k - 1) (a.j - 1).toNat =
          fdivBy (fadd a.cot_alpha a.cot_beta) (2 * incidentArea es) := by
      intro k es hk1 hk2 hrk hAk a ha
      obtain ⟨-, -, es', hes', -, -, -, hnon⟩ := op_matrix_row hop hk1 hk2
      rw [hrk, Option.some.injEq] at hes'
      subst hes'
      exact coeff_of_stored ((hnon hAk).2.1 a ha)
    have hci := hrow i _ hi.1 hi.2 hri hAi e he
    have hcj := hrow j _ hj.1 hj.2 hrj hAj e' he'
    rw [hej, toNat_pred] at hci
    rw [hej', toNat_pred] at hcj
    rw [hci, hcj]
    have hi0 := ne_zero_of_not_close hAi
    have hj0 := ne_zero_of_not_close hAj
    have hi0' : incidentArea (ringOf sqrt obj i) ≠ 0 := fun h0 => hi0 (by rw [h0, mul_zero])
    have hj0' : incidentArea (ringOf sqrt obj j) ≠ 0 := fun h0 => hj0 (by rw [h0, mul_zero])
    have : fadd e'.cot_alpha e'.cot_beta = fadd e.cot_alpha e.cot_beta := htot
    rw [this]
    cases fadd e.cot_alpha e.cot_beta with
    | none => rfl
    | some x =>
      simp only [fdivBy, fdiv, hi0, hj0, if_false, Option.some_bind, fmul, Option.some.injEq]
      field_simp
      ring

theorem total_cot_symmetric_witness :
    tetraEntry13.total_cot = tetraEntry31.total_cot ∧
    ∃ op, build_op_matrix ratSqrt tetra = some op ∧
      fmul (op.coeff (1 - 1) (3 - 1)) (some (vertexArea ratSqrt tetra 1)) =
        fmul (op.coeff (3 - 1) (1 - 1)) (some (vertexArea ratSqrt tetra 3)) := by
  obtain ⟨h, op, hop, hsym⟩ := total_cot_symmetric ratSqrt tetra 1 3 tetraEntry13 tetraEntry31
    (by decide!) (by decide!) (by decide!) (by decide!) (by decide!) (by decide!) (by decide!)
    (by decide!) (by decide!) (by decide!)
  exact ⟨h, op, hop, hsym (by decide!) (by decide!)⟩

/-- C4, the code at the failing input: on `lineTetra`, a tetrahedron collapsed
onto a line, `Δ` is assembled and vertex `1` has incident area `0`, below
epsilon, yet the coefficient `Δ[1,2]` is not zero after `row *= 0`: it is the
non-finite float of a cotangent with a zero denominator. -/
theorem degenerate_row_not_zeroed :
    vertexArea ratSqrt lineTetra 1 = 0 ∧
    close_to_zero (vertexArea ratSqrt lineTetra 1) = true ∧
    (build_op_matrix ratSqrt lineTetra).map (fun op => op.coeff 0 1) = some none ∧
    (build_op_matrix ratSqrt lineTetra).map (fun op => op.coeff 0 1) ≠ some (some 0) := by
  decide!

/-- C5: on a mesh on which the assembly runs to the end, `build_F_operator`
returns a matrix, and that matrix is `F = I - h Δ`, coefficient by coefficient,
of size `|V| × |V|` with `|V| = hevs.size() - 1`. -/
theorem build_F_operator_entries (sqrt : R → R) (time_step_h : R) (obj : Object R)
    (hok : obj.RingsOk sqrt) :
    ∃ op opF, build_op_matrix sqrt obj = some op ∧
      build_F_operator sqrt time_step_h obj = some opF ∧
      opF.rows = obj.hevs.length - 1 ∧ opF.cols = obj.hevs.length - 1 ∧
      ∀ i j, i < obj.hevs.length - 1 → j < obj.hevs.length - 1 →
        opF.coeff i j =
          fsub (some (if i = j then 1 else 0)) (fmul (some time_step_h) (op.coeff i j)) := by
  obtain ⟨op, hop⟩ := ringsOk_build hok
  refine ⟨op, _, hop, by rw [build_F_operator, hop, Option.map_some'], rfl, rfl, ?_⟩
  intro i j hi _
  rw [SparseMatrix.coeff_sub, SparseMatrix.coeff_scale, SparseMatrix.coeff_identity]
  by_cases hij : i = j
  · subst hij
    simp [hi]
  · simp [hij]

theorem build_F_operator_entries_witness :
    ∃ op opF, build_op_matrix ratSqrt tetra = some op ∧
      build_F_operator ratSqrt 1 tetra = some opF ∧
      opF.rows = tetra.hevs.length - 1 ∧ opF.cols = tetra.hevs.length - 1 ∧
      ∀ i j, i < tetra.hevs.length - 1 → j < tetra.hevs.length - 1 →
        opF.coeff i j = fsub (some (if i = j then 1 else 0)) (fmul (some 1) (op.coeff i j)) :=
  build_F_operator_entries ratSqrt 1 tetra (by decide!)

/-- C6: on a mesh on which the assembly runs to the end, when the solver
returns exact solutions for the operator `F` built from the old positions,
`computeSmoothing` returns, the vectors `x`, `y`, `z` of the old coordinates
(vertex `i` at component `i - 1`) and the solver's answers `x'`, `y'`, `z'`
satisfy `F x' = x`, `F y' = y`, `F z' = z`, and every vertex `i` in `1..|V|`
ends at `(x'[i-1], y'[i-1], z'[i-1])`. -/
theorem computeSmoothing_solves (sqrt : R → R) (solver : SparseLU R) (time_step_h : R)
    (obj : Object R) (hok : obj.RingsOk sqrt)
    (hexact : ∀ opF, build_F_operator sqrt time_step_h obj = some opF →
      ∀ b : List R, b.length = opF.rows →
        ∃ x', solver.solve opF b = some x' ∧ opF.IsSolution x' b) :
    ∃ opF obj' x y z x' y' z', build_F_operator sqrt time_step_h obj = some opF ∧
      computeSmoothing sqrt solver time_step_h obj = some obj' ∧
      (∀ i, 1 ≤ i → i < obj.hevs.length → ∃ v, obj.hev i = some v ∧
        x[i - 1]? = some v.x ∧ y[i - 1]? = some v.y ∧ z[i - 1]? = some v.z ∧
        obj'.hev i = some (v.moved x' y' z' i)) ∧
      opF.IsSolution x' x ∧ opF.IsSolution y' y ∧ opF.IsSolution z' z := by
  obtain ⟨op, hop⟩ := ringsOk_build hok
  have hF : build_F_operator sqrt time_step_h obj = some
      ((SparseMatrix.identity (obj.hevs.length - 1)).sub (SparseMatrix.scale time_step_h op)) := by
    rw [build_F_operator, hop, Option.map_some']
  obtain ⟨obj', x, y, z, x', y', z', h⟩ :=
    smoothing_spec sqrt solver time_step_h obj _ hF (hexact _ hF)
  exact ⟨_, obj', x, y, z, x', y', z', hF, h⟩

theorem computeSmoothing_solves_witness :
    ∃ opF obj' x y z x' y' z', build_F_operator ratSqrt 1 tetra = some opF ∧
      computeSmoothing ratSqrt tetraSolver 1 tetra = some obj' ∧
      (∀ i, 1 ≤ i → i < tetra.hevs.length → ∃ v, tetra.hev i = some v ∧
        x[i - 1]? = some v.x ∧ y[i - 1]? = some v.y ∧ z[i - 1]? = some v.z ∧
        obj'.hev i = some (v.moved x' y' z' i)) ∧
      opF.IsSolution x' x ∧ opF.IsSolution y' y ∧ opF.IsSolution z' z :=
  computeSmoothing_solves ratSqrt tetraSolver 1 tetra (by decide!) (fun opF hF b hb => by
    obtain rfl := Option.some.inj (tetraF_built.symm.trans hF)
    exact tetraSolver_exact b hb)

/-- C7, the code at the failing input: on `lineTetra` with time step `1/10`,
vertex `1` has incident area `0`, below epsilon, and row `1` of the returned `F`
is not the identity row: `F[1,2]` is a non-finite float instead of `0`, so
`F x' = x` has no solution in numbers and nothing pins the vertex. -/
theorem degenerate_row_of_F_not_identity :
    close_to_zero (vertexArea ratSqrt lineTetra 1) = true ∧
    (build_F_operator ratSqrt (1 / 10) lineTetra).map (fun opF => opF.coeff 0 1) = some none ∧
    (build_F_operator ratSqrt (1 / 10) lineTetra).map
      (fun opF => opF.mulVecAt (lineTetra.coords fun v => v.x) 0) = some none := by
  decide!

/-- C8, as amended: with time step `0`, on every mesh on which the assembly runs
to the end and every weight read in a ring is a number (no cotangent has a zero
denominator), `build_F_operator` returns the identity matrix, and with an exact
solver one smoothing generation returns and leaves every half-edge vertex
`1..|V|` as it was. -/
theorem zero_step_identity (sqrt : R → R) (solver : SparseLU R) (obj : Object R)
    (hok : obj.RingsOk sqrt) (hfin : obj.FiniteWeights sqrt)
    (hexact : ∀ opF, build_F_operator sqrt 0 obj = some opF →
      ∀ b : List R, b.length = opF.rows →
        ∃ x', solver.solve opF b = some x' ∧ opF.IsSolution x' b) :
    ∃ opF, build_F_operator sqrt 0 obj = some opF ∧
      opF.rows = obj.hevs.length - 1 ∧ opF.cols = obj.hevs.length - 1 ∧
      (∀ r c, r < obj.hevs.length - 1 → c < obj.hevs.length - 1 →
        opF.coeff r c = some (if r = c then 1 else 0)) ∧
      ∃ obj', computeSmoothing sqrt solver 0 obj = some obj' ∧
        ∀ i, 1 ≤ i → i < obj.hevs.length → obj'.hev i = obj.hev i := by
  obtain ⟨op, hop⟩ := ringsOk_build hok
  have hF : build_F_operator sqrt 0 obj = some
      ((SparseMatrix.identity (obj.hevs.length - 1)).sub (SparseMatrix.scale 0 op)) := by
    rw [build_F_operator, hop, Option.map_some']
  have hfinite := coeff_finite hop hfin
  exact ⟨_, hF, rfl, rfl, opF_zero_step hop hfinite hF,
    smoothing_zero_step hop hfinite hF (hexact _ hF)⟩

theorem zero_step_identity_witness :
    ∃ opF, build_F_operator ratSqrt 0 tetra = some opF ∧
      opF.rows = tetra.hevs.length - 1 ∧ opF.cols = tetra.hevs.length - 1 ∧
      (∀ r c, r < tetra.hevs.length - 1 → c < tetra.hevs.length - 1 →
        opF.coeff r c = some (if r = c then 1 else 0)) ∧
      ∃ obj', computeSmoothing ratSqrt identitySolver 0 tetra = some obj' ∧
        ∀ i, 1 ≤ i → i < tetra.hevs.length → obj'.hev i = tetra.hev i :=
  zero_step_identity ratSqrt identitySolver tetra (by decide!) (by decide!)
    (fun opF hF b hb => by
      obtain rfl := Option.some.inj (tetra_zero_step_built.symm.trans hF)
      exact identitySolver_exact b hb)

/-- C8, the claim as stated fails: with time step `0` on the flattened
tetrahedron `planarTetra`, which has the half-edge invariants, the returned `F`
is not the identity matrix: `F[1,2]` is not `0`, it is the product of `0` and a
non-finite float. -/
theorem zero_step_counterexample :
    planarTetra.HalfEdgeInvariants ∧
    (build_F_operator ratSqrt 0 planarTetra).map (fun opF => opF.coeff 0 1) = some none ∧
    (build_F_operator ratSqrt 0 planarTetra).map (fun opF => opF.coeff 0 1) ≠
      some (some 0) := by
  decide!

/-- C9, as amended: on a closed manifold mesh (half-edge invariants, indices
equal to positions, one-ring closure) on which the assembly runs to the end,
without degenerate vertex and with numbers as weights, if every vertex has the
same incident area, then for every time step `build_F_operator` returns an `F`
such that for all `x`, `x'` with `F x' = x` the sum, hence the mean, of `x'`
equals that of `x`: the centroid is preserved. -/
theorem centroid_preserved_of_equal_areas (sqrt : R → R) (time_step_h : R) (obj : Object R)
    (hok : obj.RingsOk sqrt)
    (hinv : obj.HalfEdgeInvariants) (hidx : obj.Indexed) (hclosed : obj.RingsClosed sqrt)
    (hnd : obj.NonDegenerate sqrt) (hfin : obj.FiniteWeights sqrt)
    (hequal : obj.EqualAreas sqrt) :
    ∃ opF, build_F_operator sqrt time_step_h obj = some opF ∧
      ∀ x x' : List R, opF.IsSolution x' x →
        x'.sum = x.sum ∧
        x'.sum / ((obj.hevs.length - 1 : Nat) : R) =
          x.sum / ((obj.hevs.length - 1 : Nat) : R) := by
  obtain ⟨op, hop⟩ := ringsOk_build hok
  have hF : build_F_operator sqrt time_step_h obj = some
      ((SparseMatrix.identity (obj.hevs.length - 1)).sub (SparseMatrix.scale time_step_h op)) := by
    rw [build_F_operator, hop, Option.map_some']
  refine ⟨_, hF, fun x x' hsol => ?_⟩
  have h := sum_preserved_of_equal_areas hF hinv hidx hclosed hnd hfin hequal hsol
  exact ⟨h, by rw [h]⟩

theorem centroid_preserved_of_equal_areas_witness :
    build_F_operator ratSqrt 1 disphenoid = some disphenoidF ∧
    disphenoidF.IsSolution [59 / 32, 5 / 32, 59 / 32, 5 / 32] [2, 0, 2, 0] ∧
    [(59 : ℚ) / 32, 5 / 32, 59 / 32, 5 / 32].sum = [(2 : ℚ), 0, 2, 0].sum ∧
    [(59 : ℚ) / 32, 5 / 32, 59 / 32, 5 / 32].sum / ((disphenoid.hevs.length - 1 : Nat) : ℚ) =
      [(2 : ℚ), 0, 2, 0].sum / ((disphenoid.hevs.length - 1 : Nat) : ℚ) := by
  obtain ⟨opF, hF, h⟩ := centroid_preserved_of_equal_areas ratSqrt 1 disphenoid (by decide!)
    (by decide!) (by decide!) (by decide!) (by decide!) (by decide!) (by decide!)
  obtain rfl := Option.some.inj (disphenoidF_built.symm.trans hF)
  have hsol : disphenoidF.IsSolution [59 / 32, 5 / 32, 59 / 32, 5 / 32] [2, 0, 2, 0] := by
    decide!
  exact ⟨hF, hsol, h _ _ hsol⟩

/-- C9, the claim as stated fails: `tetra` is a closed manifold mesh with the
half-edge invariants and no degenerate vertex, its `x` coordinates are
`(0, 1, 0, 0)`, and with time step `1` the vector
`x' = (237/1198, 763/1198, 82/599, 63/1198)` solves `F x' = x`, but the mean of
`x'` is `1227/4792`, not the mean `1/4` of `x`. -/
theorem centroid_counterexample :
    tetra.HalfEdgeInvariants ∧ tetra.Indexed ∧ tetra.RingsClosed ratSqrt ∧
    tetra.NonDegenerate ratSqrt ∧ tetra.FiniteWeights ratSqrt ∧
    build_F_operator ratSqrt 1 tetra = some tetraF ∧
    (tetra.coords fun v => v.x) = [0, 1, 0, 0] ∧
    tetraF.IsSolution [237 / 1198, 763 / 1198, 82 / 599, 63 / 1198] [0, 1, 0, 0] ∧
    [(237 : ℚ) / 1198, 763 / 1198, 82 / 599, 63 / 1198].sum / 4 = 1227 / 4792 ∧
    [(0 : ℚ), 1, 0, 0].sum / 4 = 1 / 4 ∧
    [(237 : ℚ) / 1198, 763 / 1198, 82 / 599, 63 / 1198].sum / 4 ≠ [(0 : ℚ), 1, 0, 0].sum / 4 := by
  decide!

/-- C10: on a mesh whose normals can be computed and whose faces name vertices
that are there, `computeNormalsUpdateBuffers` returns, and after it, whatever
the buffers held before, `vertex_buffer` and `normal_buffer` have length
`3 |F|`, and for the face number `fIdx` (0-based, input order) with indices
`(idx1, idx2, idx3)` the entries `3 fIdx`, `3 fIdx + 1`, `3 fIdx + 2` of
`vertex_buffer` are the mesh vertices at `idx1`, `idx2`, `idx3` and those of
`normal_buffer` the normals cached on the half-edge vertices at `idx1`, `idx2`,
`idx3`. -/
theorem computeNormalsUpdateBuffers_buffers (sqrt : R → R) (obj : Object R)
    (hn : obj.NormalsOk sqrt) (hf : obj.FacesOk) :
    ∃ obj', computeNormalsUpdateBuffers sqrt obj = some obj' ∧
      obj'.mesh = obj.mesh ∧
      obj'.vertex_buffer.length = 3 * obj.mesh.faces.length ∧
      obj'.normal_buffer.length = 3 * obj.mesh.faces.length ∧
      ∀ fIdx f, obj.mesh.faces[fIdx]? = some f → ∃ v1 v2 v3 n1 n2 n3,
        (atInt obj.mesh.vertices f.idx1).join = some v1 ∧
        (atInt obj.mesh.vertices f.idx2).join = some v2 ∧
        (atInt obj.mesh.vertices f.idx3).join = some v3 ∧
        (atInt obj'.hevs f.idx1).join = some n1 ∧
        (atInt obj'.hevs f.idx2).join = some n2 ∧
        (atInt obj'.hevs f.idx3).join = some n3 ∧
        obj'.vertex_buffer[3 * fIdx]? = some v1 ∧
        obj'.vertex_buffer[3 * fIdx + 1]? = some v2 ∧
        obj'.vertex_buffer[3 * fIdx + 2]? = some v3 ∧
        obj'.normal_buffer[3 * fIdx]? = some n1.normal ∧
        obj'.normal_buffer[3 * fIdx + 1]? = some n2.normal ∧
        obj'.normal_buffer[3 * fIdx + 2]? = some n3.normal := by
  obtain ⟨obj', h⟩ := normalsOk_returns sqrt obj hn hf
  refine ⟨obj', h, ?_⟩
  unfold computeNormalsUpdateBuffers at h
  simp only [Option.bind_eq_bind, Option.bind_eq_some] at h
  obtain ⟨obj1, h1, h2⟩ := h
  obtain ⟨hm1, -, -, -⟩ := forLoop_storeNormal_frame sqrt _ _ _ h1
  obtain ⟨hm, hv, -, -, hlv, hln, -, -, hk⟩ := forLoop_pushFace _ _ _ h2
  simp only [List.length_nil, Nat.zero_add, List.length_range] at hlv hln hk
  rw [hm1] at hlv hln hm hk
  refine ⟨hm, hlv, hln, ?_⟩
  intro fIdx f hf
  have hlt : fIdx < obj.mesh.faces.length := (List.getElem?_eq_some.mp hf).1
  obtain ⟨f', v1, v2, v3, n1, n2, n3, hf', a1, a2, a3, b1, b2, b3, c⟩ :=
    hk fIdx fIdx (by simp [hlt])
  rw [hf, Option.some.injEq] at hf'
  subst hf'
  rw [hv]
  exact ⟨v1, v2, v3, n1, n2, n3, a1, a2, a3, b1, b2, b3, c⟩

theorem computeNormalsUpdateBuffers_buffers_witness :
    ∃ obj', computeNormalsUpdateBuffers ratSqrt tetra = some obj' ∧
      obj'.mesh = tetra.mesh ∧
      obj'.vertex_buffer.length = 3 * tetra.mesh.faces.length ∧
      obj'.normal_buffer.length = 3 * tetra.mesh.faces.length ∧
      ∀ fIdx f, tetra.mesh.faces[fIdx]? = some f → ∃ v1 v2 v3 n1 n2 n3,
        (atInt tetra.mesh.vertices f.idx1).join = some v1 ∧
        (atInt tetra.mesh.vertices f.idx2).join = some v2 ∧
        (atInt tetra.mesh.vertices f.idx3).join = some v3 ∧
        (atInt obj'.hevs f.idx1).join = some n1 ∧
        (atInt obj'.hevs f.idx2).join = some n2 ∧
        (atInt obj'.hevs f.idx3).join = some n3 ∧
        obj'.vertex_buffer[3 * fIdx]? = some v1 ∧
        obj'.vertex_buffer[3 * fIdx + 1]? = some v2 ∧
        obj'.vertex_buffer[3 * fIdx + 2]? = some v3 ∧
        obj'.normal_buffer[3 * fIdx]? = some n1.normal ∧
        obj'.normal_buffer[3 * fIdx + 1]? = some n2.normal ∧
        obj'.normal_buffer[3 * fIdx + 2]? = some n3.normal :=
  computeNormalsUpdateBuffers_buffers ratSqrt tetra (by decide!) (by decide!)

/-- C11, the code at the failing input: after one generation on `tetra` with time
step `1` (`computeSmoothing`, then `computeNormalsUpdateBuffers`), the half-edge
vertex `1` has moved to `(237/1198, 237/1198, 119/599)`, but entry `0` of
`vertex_buffer`, the first corner of face `(1,3,2)`, is still `(0,0,0)`: the
buffer is filled from `mesh->vertices`, which the generation never updates. -/
theorem vertex_buffer_not_rewritten :
    (smoothObject ratSqrt tetraSolver 1 tetra).map
        (fun o => (o.mesh.faces[0]?, o.vertex_buffer[0]?, (o.hev 1).map HEV.pos,
          (atInt o.mesh.vertices 1).join)) =
      some (some ⟨1, 3, 2⟩, some ⟨0, 0, 0⟩, some ⟨237 / 1198, 237 / 1198, 119 / 599⟩,
        some ⟨0, 0, 0⟩) := by
  decide!

/-- C12: on a mesh on which the assembly runs to the end, with a solver that
answers, `computeSmoothing` returns and changes only the positions of the
half-edge vertices: the numbers of half-edge vertices and faces, every
half-edge (`vertex`, `next`, `flip`, `face`), the mesh with its face list, the
buffers, and the `index`, `out` and `normal` of every half-edge vertex are as
before, so each half-edge invariant that held before the call holds after it. -/
theorem computeSmoothing_frame (sqrt : R → R) (solver : SparseLU R) (time_step_h : R)
    (obj : Object R) (hok : obj.RingsOk sqrt)
    (hans : ∀ opF, build_F_operator sqrt time_step_h obj = some opF → solver.Answers opF) :
    ∃ obj', computeSmoothing sqrt solver time_step_h obj = some obj' ∧
      obj'.hevs.length = obj.hevs.length ∧ obj'.hefs = obj.hefs ∧ obj'.hes = obj.hes ∧
      obj'.mesh = obj.mesh ∧
      obj'.vertex_buffer = obj.vertex_buffer ∧ obj'.normal_buffer = obj.normal_buffer ∧
      (∀ k, (obj'.hev k).map (fun v => (v.index, v.out, v.normal)) =
        (obj.hev k).map fun v => (v.index, v.out, v.normal)) ∧
      (obj.HalfEdgeInvariants → obj'.HalfEdgeInvariants) ∧
      (obj.OutOriginates → obj'.OutOriginates) ∧
      (obj.Indexed → obj'.Indexed) ∧
      (obj.RingsClosed sqrt → obj'.RingsClosed sqrt) := by
  obtain ⟨op, hop⟩ := ringsOk_build hok
  have hF : build_F_operator sqrt time_step_h obj = some
      ((SparseMatrix.identity (obj.hevs.length - 1)).sub (SparseMatrix.scale time_step_h op)) := by
    rw [build_F_operator, hop, Option.map_some']
  obtain ⟨obj', x', y', z', hrun, -, -, -, hm, hhes, hhefs, hvb, hnb, hl, hk⟩ :=
    smoothing_run sqrt solver time_step_h obj _ hF (hans _ hF)
  have hfields : ∀ k, (obj'.hev k).map (fun v => (v.index, v.out, v.normal)) =
      (obj.hev k).map fun v => (v.index, v.out, v.normal) := by
    intro k
    rw [hk k]
    split
    · cases obj.hev k with
      | none => rfl
      | some v => rfl
    · rfl
  have hsome : ∀ k v', obj'.hev k = some v' →
      ∃ v, obj.hev k = some v ∧ v'.index = v.index ∧ v'.out = v.out := by
    intro k v' hv'
    have := hfields k
    rw [hv'] at this
    cases hv : obj.hev k with
    | none => simp [hv] at this
    | some v =>
      simp only [hv, Option.map_some', Option.some.injEq, Prod.mk.injEq] at this
      exact ⟨v, rfl, this.1, this.2.1⟩
  have hhe : ∀ he, obj'.he he = obj.he he := by
    intro he
    unfold Object.he
    rw [hhes]
  have hflip : obj'.flip = obj.flip := by
    funext he
    simp only [Object.flip, hhe]
  have hnext : obj'.next = obj.next := by
    funext he
    simp only [Object.next, hhe]
  have htail : obj'.tail = obj.tail := by
    funext he
    simp only [Object.tail, hhe]
  refine ⟨obj', hrun, hl, hhefs, hhes, hm, hvb, hnb, hfields, ?_, ?_, ?_, ?_⟩
  · intro hinv
    unfold Object.HalfEdgeInvariants at hinv ⊢
    rw [hflip, hnext, htail, hhes]
    exact hinv
  · intro hout k hlt v' hv'
    obtain ⟨v, hv, -, ho⟩ := hsome k v' (Option.mem_def.mp hv')
    rw [htail, ho]
    exact hout k (hl ▸ hlt) v (Option.mem_def.mpr hv)
  · intro hidx k hlt v' hv'
    obtain ⟨v, hv, hi, -⟩ := hsome k v' (Option.mem_def.mp hv')
    rw [hi]
    exact hidx k (hl ▸ hlt) v (Option.mem_def.mpr hv)
  · intro hclosed he hhe' i hi h1
    rw [htail, ringOf_topology sqrt obj obj' hhes (fun k => by
      have := congrArg (Option.map fun t : Int × Nat × Vec3f R => (t.1, t.2.1)) (hfields k)
      simpa [Option.map_map, Function.comp] using this) i]
    exact hclosed he (hhes ▸ hhe') i (hl ▸ hi) h1

theorem computeSmoothing_frame_witness :
    ∃ obj', computeSmoothing ratSqrt tetraSolver 1 tetra = some obj' ∧
      obj'.hevs.length = tetra.hevs.length ∧ obj'.hefs = tetra.hefs ∧ obj'.hes = tetra.hes ∧
      obj'.mesh = tetra.mesh ∧
      obj'.vertex_buffer = tetra.vertex_buffer ∧ obj'.normal_buffer = tetra.normal_buffer ∧
      (∀ k, (obj'.hev k).map (fun v => (v.index, v.out, v.normal)) =
        (tetra.hev k).map fun v => (v.index, v.out, v.normal)) ∧
      (tetra.HalfEdgeInvariants → obj'.HalfEdgeInvariants) ∧
      (tetra.OutOriginates → obj'.OutOriginates) ∧
      (tetra.Indexed → obj'.Indexed) ∧
      (tetra.RingsClosed ratSqrt → obj'.RingsClosed ratSqrt) :=
  computeSmoothing_frame ratSqrt tetraSolver 1 tetra (by decide!) (fun opF hF b _ => by
    obtain rfl := Option.some.inj (tetraF_built.symm.trans hF)
    exact ⟨_, rfl, by simp [denseMulVec, tetraInverse, tetraF]⟩)

/-- C13: when the walk of `calculateVertexNormal` around the vertex comes back
(the triangles it visits are the entries `es`), the function returns the
normalization of the sum of the vectors `0.5 * |n_tri| * n_tri` of the entries,
where for the entry of half-edge `he` the vector `n_tri` is
`(v_j - v) × (v_α - v)` with `v_j = he.next.vertex` and
`v_α = he.next.next.vertex`. -/
theorem calculateVertexNormal_weighted_sum (sqrt : R → R) (obj : Object R) (vertex : HEV R)
    (fuel : Nat) (es : List (NormalEntry R))
    (hwalk : normalEntries sqrt obj vertex.pos vertex.out fuel vertex.out = some es) :
    calculateVertexNormal sqrt obj vertex =
      some ⟨((sumWeighted es).normalize sqrt).x, ((sumWeighted es).normalize sqrt).y,
        ((sumWeighted es).normalize sqrt).z⟩ ∧
    ∀ e ∈ es, ∃ h h_next h_next_next v_j v_alpha,
      obj.he e.he = some h ∧ obj.he h.next = some h_next ∧
      obj.he h_next.next = some h_next_next ∧
      obj.hev h_next.vertex = some v_j ∧ obj.hev h_next_next.vertex = some v_alpha ∧
      e.weighted = Vector3f.smul
        ((1 / 2) * ((v_j.pos.sub vertex.pos).cross (v_alpha.pos.sub vertex.pos)).norm sqrt)
        ((v_j.pos.sub vertex.pos).cross (v_alpha.pos.sub vertex.pos)) := by
  refine ⟨calculateVertexNormal_eq hwalk, ?_⟩
  intro e he
  have hent := normalEntries_mem sqrt obj vertex.pos vertex.out fuel vertex.out es hwalk e he
  obtain ⟨h, hn, hnn, vj, va, a, b, c, d, f, hnorm, harea, hw⟩ := normalEntry_spec hent
  refine ⟨h, hn, hnn, vj, va, a, b, c, d, f, ?_⟩
  rw [hw, harea, hnorm]

theorem calculateVertexNormal_weighted_sum_witness :
    calculateVertexNormal ratSqrt disphenoid ⟨2, 1, 2, 0, 1, ⟨0, 0, 0⟩⟩ = some ⟨2 / 3, 2 / 3, 1 / 3⟩ ∧
    ∀ e ∈ (normalEntries ratSqrt disphenoid ⟨2, 1, 2⟩ 0 12 0).getD [],
      ∃ h h_next h_next_next v_j v_alpha,
        disphenoid.he e.he = some h ∧ disphenoid.he h.next = some h_next ∧
        disphenoid.he h_next.next = some h_next_next ∧
        disphenoid.hev h_next.vertex = some v_j ∧
        disphenoid.hev h_next_next.vertex = some v_alpha ∧
        e.weighted = Vector3f.smul
          ((1 / 2) * ((v_j.pos.sub ⟨2, 1, 2⟩).cross (v_alpha.pos.sub ⟨2, 1, 2⟩)).norm ratSqrt)
          ((v_j.pos.sub ⟨2, 1, 2⟩).cross (v_alpha.pos.sub ⟨2, 1, 2⟩)) := by
  have h := calculateVertexNormal_weighted_sum ratSqrt disphenoid ⟨2, 1, 2, 0, 1, ⟨0, 0, 0⟩⟩ 12
    ((normalEntries ratSqrt disphenoid ⟨2, 1, 2⟩ 0 12 0).getD []) (by decide!)
  exact ⟨h.1.trans (by decide!), h.2⟩

/-- C14, as amended: on a mesh whose normals can be computed and whose faces
name vertices that are there, `computeNormalsUpdateBuffers` returns, and the
normal it caches on a vertex whose sum of weighted face normals is not zero has
Euclidean length `1` (the square root being exact at the squared length of that
sum, and at `1`). -/
theorem cached_normal_unit (sqrt : R → R) (obj : Object R) (hn : obj.NormalsOk sqrt)
    (hf : obj.FacesOk) (i : Nat) (h1 : 1 ≤ i) (h2 : i < obj.hevs.length)
    (hne : ∀ v ∈ obj.hev i, (normalSum sqrt obj v).squaredNorm ≠ 0)
    (hsq : ∀ v ∈ obj.hev i, sqrt (normalSum sqrt obj v).squaredNorm *
      sqrt (normalSum sqrt obj v).squaredNorm = (normalSum sqrt obj v).squaredNorm)
    (hone : sqrt 1 = 1) :
    ∃ obj' v', computeNormalsUpdateBuffers sqrt obj = some obj' ∧ obj'.hev i = some v' ∧
      v'.normal.squaredNorm = 1 ∧
      Vector3f.norm sqrt ⟨v'.normal.x, v'.normal.y, v'.normal.z⟩ = 1 := by
  obtain ⟨obj', hrun, hc⟩ := computeNormals_cached sqrt obj hn hf
  obtain ⟨v, v', hv, hv', hcalc, -⟩ := hc i h1 h2
  obtain ⟨es, hes⟩ := calculateVertexNormal_walk hcalc
  have hs := normalSum_eq hes
  have hnorm := calculateVertexNormal_eq hes
  rw [hcalc, Option.some.injEq] at hnorm
  have hunit := squaredNorm_normalize sqrt (normalSum sqrt obj v)
    (hne v (Option.mem_def.mpr hv)) (hsq v (Option.mem_def.mpr hv))
  rw [hs] at hunit
  have hsn : v'.normal.squaredNorm = 1 := by
    rw [hnorm]
    exact hunit
  refine ⟨obj', v', hrun, hv', hsn, ?_⟩
  show sqrt (v'.normal.x * v'.normal.x + v'.normal.y * v'.normal.y +
    v'.normal.z * v'.normal.z) = 1
  have : v'.normal.x * v'.normal.x + v'.normal.y * v'.normal.y +
      v'.normal.z * v'.normal.z = 1 := hsn
  rw [this, hone]

theorem cached_normal_unit_witness :
    ∃ obj' v', computeNormalsUpdateBuffers ratSqrt disphenoid = some obj' ∧
      obj'.hev 1 = some v' ∧ v'.normal.squaredNorm = 1 ∧
      Vector3f.norm ratSqrt ⟨v'.normal.x, v'.normal.y, v'.normal.z⟩ = 1 :=
  cached_normal_unit ratSqrt disphenoid (by decide!) (by decide!) 1 (by decide) (by decide!)
    (by decide!) (by decide!) (by decide!)

/-- C14, the claim as stated fails: every triangle at vertex `1` of `flatTetra`
has an area that is not zero (`5/2`, `2`, `3/2`), yet the normal that
`computeNormalsUpdateBuffers` caches on vertex `1` is the zero vector, of length
`0`: the weighted face normals cancel. -/
theorem cached_normal_counterexample :
    flatTetra.hev 1 = some originVertex ∧
    (normalEntries ratSqrt flatTetra originVertex.pos originVertex.out 12 originVertex.out).map
        (List.map fun e => (e.face_area, e.face_normal.squaredNorm)) =
      some [(5 / 2, 25), (2, 16), (3 / 2, 9)] ∧
    (computeNormalsUpdateBuffers ratSqrt flatTetra).map
        (fun o => (o.hev 1).map fun v => v.normal) = some (some ⟨0, 0, 0⟩) ∧
    (computeNormalsUpdateBuffers ratSqrt flatTetra).map
        (fun o => (o.hev 1).map fun v => v.normal.squaredNorm) = some (some 0) ∧
    (computeNormalsUpdateBuffers ratSqrt flatTetra).map
        (fun o => (o.hev 1).map fun v => v.normal.squaredNorm) ≠ some (some 1) := by
  decide!

/-- C15, as amended: when the walk comes back, the normal computed by
`calculateVertexNormal` is the normalization of the sum, over the triangles of
the walk, of the area of the triangle times its face normal `n_tri`, which is
not a unit vector: its length is twice the area.  In terms of the unit normal,
each triangle comes in with the weight `2 * area²` (the square root being exact
at the squared length of every `n_tri`). -/
theorem calculateVertexNormal_weights (sqrt : R → R) (obj : Object R) (vertex : HEV R)
    (fuel : Nat) (es : List (NormalEntry R))
    (hwalk : normalEntries sqrt obj vertex.pos vertex.out fuel vertex.out = some es)
    (hsq : ∀ e ∈ es, sqrt e.face_normal.squaredNorm * sqrt e.face_normal.squaredNorm =
      e.face_normal.squaredNorm) :
    calculateVertexNormal sqrt obj vertex =
      some ⟨((sumWeighted es).normalize sqrt).x, ((sumWeighted es).normalize sqrt).y,
        ((sumWeighted es).normalize sqrt).z⟩ ∧
    ∀ e ∈ es, 4 * (e.face_area * e.face_area) = e.face_normal.squaredNorm ∧
      e.weighted = Vector3f.smul e.face_area e.face_normal ∧
      e.weighted = Vector3f.smul (2 * (e.face_area * e.face_area))
        (e.face_normal.normalize sqrt) := by
  refine ⟨calculateVertexNormal_eq hwalk, ?_⟩
  intro e he
  have hent := normalEntries_mem sqrt obj vertex.pos vertex.out fuel vertex.out es hwalk e he
  obtain ⟨-, -, -, -, -, -, -, -, -, -, -, harea, hw⟩ := normalEntry_spec hent
  have hs := hsq e he
  unfold Vector3f.norm at harea
  have h4 : 4 * (e.face_area * e.face_area) = e.face_normal.squaredNorm := by
    rw [harea]
    linear_combination hs
  refine ⟨h4, hw, ?_⟩
  rw [hw]
  unfold Vector3f.normalize
  by_cases hpos : 0 < e.face_normal.squaredNorm
  · rw [if_pos hpos]
    have hne : sqrt e.face_normal.squaredNorm ≠ 0 := by
      intro h0
      rw [h0, mul_zero] at hs
      exact absurd hs.symm (ne_of_gt hpos)
    rw [harea]
    generalize sqrt e.face_normal.squaredNorm = s at hs hne
    simp only [Vector3f.smul, Vector3f.mk.injEq]
    refine ⟨?_, ?_, ?_⟩ <;> field_simp <;> ring
  · rw [if_neg hpos]
    have hz : e.face_normal.squaredNorm = 0 := by
      have : 0 ≤ e.face_normal.squaredNorm := by
        unfold Vector3f.squaredNorm
        nlinarith [mul_self_nonneg e.face_normal.x, mul_self_nonneg e.face_normal.y,
          mul_self_nonneg e.face_normal.z]
      exact le_antisymm (not_lt.mp hpos) this
    obtain ⟨hx, hy, hzz⟩ := sum_squares_eq_zero hz
    show Vector3f.smul _ e.face_normal = Vector3f.smul _ e.face_normal
    unfold Vector3f.smul
    rw [hx, hy, hzz, mul_zero, mul_zero]

theorem calculateVertexNormal_weights_witness :
    calculateVertexNormal ratSqrt skewTetra originVertex = some ⟨15 / 17, 8 / 17, 0⟩ ∧
    ∀ e ∈ (normalEntries ratSqrt skewTetra ⟨0, 0, 0⟩ 0 12 0).getD [],
      4 * (e.face_area * e.face_area) = e.face_normal.squaredNorm ∧
      e.weighted = Vector3f.smul e.face_area e.face_normal ∧
      e.weighted = Vector3f.smul (2 * (e.face_area * e.face_area))
        (e.face_normal.normalize ratSqrt) := by
  have h := calculateVertexNormal_weights ratSqrt skewTetra originVertex 12
    ((normalEntries ratSqrt skewTetra ⟨0, 0, 0⟩ 0 12 0).getD []) (by decide!) (by decide!)
  exact ⟨h.1.trans (by decide!), h.2⟩

/-- C15, the claim as stated fails: at vertex `1` of `skewTetra` the three
triangles have the areas `5`, `7`, `7` (the square root is exact at each squared
length met), the normal `calculateVertexNormal` returns is `(15/17, 8/17, 0)`,
and the normalization of the sum of area times unit normal is `(1, 0, 0)`. -/
theorem area_weighted_counterexample :
    skewTetra.hev 1 = some originVertex ∧
    (normalEntries ratSqrt skewTetra originVertex.pos originVertex.out 12 originVertex.out).map
        (List.map fun e => (e.face_area, e.face_normal.squaredNorm)) =
      some [(5, 100), (7, 196), (7, 196)] ∧
    ((normalSum ratSqrt skewTetra originVertex).squaredNorm = 1156 ∧ ratSqrt 1156 = 34) ∧
    calculateVertexNormal ratSqrt skewTetra originVertex = some ⟨15 / 17, 8 / 17, 0⟩ ∧
    areaWeightedNormal ratSqrt skewTetra originVertex = some ⟨1, 0, 0⟩ ∧
    calculateVertexNormal ratSqrt skewTetra originVertex ≠
      areaWeightedNormal ratSqrt skewTetra originVertex := by
  decide!

/-- C16, as amended: `computeSmoothing` never reads the outcome of the
factorization.  On a mesh on which the assembly runs to the end, with a solver
whose factorization reports a failure and whose `solve` still answers, the
function returns as after a success: the three answers of `solve` for the old
coordinates are written into the positions of the vertices `1..|V|`. -/
theorem computeSmoothing_ignores_failure (sqrt : R → R) (solver : SparseLU R)
    (time_step_h : R) (obj : Object R) (hok : obj.RingsOk sqrt)
    (hfail : ∀ opF, build_F_operator sqrt time_step_h obj = some opF →
      solver.info_ok opF = false)
    (hans : ∀ opF, build_F_operator sqrt time_step_h obj = some opF → solver.Answers opF) :
    ∃ opF obj' x' y' z', build_F_operator sqrt time_step_h obj = some opF ∧
      solver.info_ok opF = false ∧
      computeSmoothing sqrt solver time_step_h obj = some obj' ∧
      solver.solve opF (obj.coords fun v => v.x) = some x' ∧
      solver.solve opF (obj.coords fun v => v.y) = some y' ∧
      solver.solve opF (obj.coords fun v => v.z) = some z' ∧
      ∀ i, 1 ≤ i → i < obj.hevs.length →
        obj'.hev i = (obj.hev i).map (HEV.moved x' y' z' i) := by
  obtain ⟨op, hop⟩ := ringsOk_build hok
  have hF : build_F_operator sqrt time_step_h obj = some
      ((SparseMatrix.identity (obj.hevs.length - 1)).sub (SparseMatrix.scale time_step_h op)) := by
    rw [build_F_operator, hop, Option.map_some']
  obtain ⟨obj', x', y', z', hrun, hx, hy, hz, -, -, -, -, -, -, hk⟩ :=
    smoothing_run sqrt solver time_step_h obj _ hF (hans _ hF)
  refine ⟨_, obj', x', y', z', hF, hfail _ hF, hrun, hx, hy, hz, ?_⟩
  intro i h1 h2
  rw [hk i, if_pos ⟨h1, h2⟩]

theorem computeSmoothing_ignores_failure_witness :
    ∃ opF obj' x' y' z', build_F_operator ratSqrt 1 tetra = some opF ∧
      failedSolver.info_ok opF = false ∧
      computeSmoothing ratSqrt failedSolver 1 tetra = some obj' ∧
      failedSolver.solve opF (tetra.coords fun v => v.x) = some x' ∧
      failedSolver.solve opF (tetra.coords fun v => v.y) = some y' ∧
      failedSolver.solve opF (tetra.coords fun v => v.z) = some z' ∧
      ∀ i, 1 ≤ i → i < tetra.hevs.length →
        obj'.hev i = (tetra.hev i).map (HEV.moved x' y' z' i) :=
  computeSmoothing_ignores_failure ratSqrt failedSolver 1 tetra (by decide!)
    (fun _ _ => rfl) (fun opF _ _ _ => ⟨_, rfl, List.length_replicate _ _⟩)

/-- C16, the claim as stated fails: on `lineTetra` with time step `1/10` the
operator `F` holds non-finite floats, no factorization of it can succeed, and
with a solver that reports the failure `computeSmoothing` still returns and has
overwritten the position `(1, 0, 0)` of vertex `2` with the solver's answer. -/
theorem solver_failure_counterexample :
    (build_F_operator ratSqrt (1 / 10) lineTetra).map (fun opF => opF.coeff 0 1) = some none ∧
    (build_F_operator ratSqrt (1 / 10) lineTetra).map failedSolver.info_ok = some false ∧
    (lineTetra.hev 2).map HEV.pos = some ⟨1, 0, 0⟩ ∧
    (computeSmoothing ratSqrt failedSolver (1 / 10) lineTetra).map
        (fun o => (o.hev 2).map HEV.pos) = some (some ⟨0, 0, 0⟩) ∧
    (computeSmoothing ratSqrt failedSolver (1 / 10) lineTetra).map
        (fun o => (o.hev 2).map HEV.pos) ≠ some ((lineTetra.hev 2).map HEV.pos) := by
  decide!

/-- C17, the code at the failing input: `planarTetra` has the half-edge
invariants and one triangle of zero area, the face `(1,3,2)`.  In the walk around
vertex `1`, for the half-edge `0` of that face, `cotan` divides by the norm of a
cross product that is `0`: `cot_alpha` is not a number.  The assembly goes on to
the end all the same. -/
theorem cotan_divides_by_zero :
    planarTetra.HalfEdgeInvariants ∧
    (oneRing ratSqrt planarTetra 1).map (List.map fun e => (e.he, e.cot_alpha)) =
      some [(0, none), (6, some 2), (3, some 1)] ∧
    (((⟨0, 0, 0⟩ : Vector3f ℚ).sub ⟨1, 0, 0⟩).cross
      ((⟨2, 0, 0⟩ : Vector3f ℚ).sub ⟨1, 0, 0⟩)).norm ratSqrt = 0 ∧
    cotan ratSqrt ⟨1, 0, 0⟩ ⟨0, 0, 0⟩ ⟨2, 0, 0⟩ = none ∧
    (build_op_matrix ratSqrt planarTetra).isSome = true := by
  decide!

/-- C19: when `parseObjFile` has built an object (whatever the file, the
conversions and the half-edge builder), the half-edge vertex stored at position
`k` of `hevs` has `index == k` for every `k` in `1..|V|`, with
`|V| = hevs.size() - 1`: read in order, the indices are `1, …, |V|`. -/
theorem parseObjFile_indexed (sqrt : R → R) (stof : String → Option R)
    (stoi : String → Option Int)
    (build_HE : Mesh_Data R → Option (List (Option (HEV R)) × List (Option HEF) × List HE))
    (lines : List String) (obj obj' : Object R)
    (h : parseObjFile sqrt stof stoi build_HE lines obj = .ok obj') :
    (∀ k, 1 ≤ k → k < obj'.hevs.length → ∃ v, obj'.hev k = some v ∧ v.index = (k : Int)) ∧
    (vertexRange obj').map (fun k => (obj'.hev k).map fun v => v.index) =
      (vertexRange obj').map (fun k : Nat => some (k : Int)) ∧
    (obj'.hev 0 = none → obj'.Indexed) := by
  unfold parseObjFile at h
  cases hmesh : parseLines stof stoi lines ⟨[none], []⟩ with
  | error e =>
    rw [hmesh] at h
    cases h
  | ok mesh =>
    rw [hmesh] at h
    simp only [bind, Except.bind] at h
    cases hb : build_HE mesh with
    | none =>
      rw [hb] at h
      cases h
    | some t =>
      obtain ⟨hevs, hefs, hes⟩ := t
      rw [hb] at h
      simp only at h
      generalize hobj1 : ({ obj with mesh := mesh, hevs := hevs, hefs := hefs, hes := hes } :
        Object R) = obj1 at h
      cases h1 : forLoop assignIndex (vertexRange obj1) obj1 with
      | none =>
        rw [h1] at h
        cases h
      | some obj2 =>
        rw [h1] at h
        simp only at h
        cases h2 : computeNormalsUpdateBuffers sqrt obj2 with
        | none =>
          rw [h2] at h
          cases h
        | some obj3 =>
          rw [h2] at h
          simp only [Except.ok.injEq] at h
          subst h
          obtain ⟨hl2, -, -, hin, hk2⟩ := forLoop_assignIndex _ _ _ (nodup_vertexRange _) h1
          obtain ⟨hl3, hk3⟩ := computeNormalsUpdateBuffers_index h2
          have hlen : obj3.hevs.length = obj1.hevs.length := hl3.trans hl2
          have key : ∀ k, 1 ≤ k → k < obj3.hevs.length →
              ∃ v, obj3.hev k = some v ∧ v.index = (k : Int) := by
            intro k hk1 hk2'
            have hmem : k ∈ vertexRange obj1 := (mem_vertexRange _ k).mpr ⟨hk1, hlen ▸ hk2'⟩
            obtain ⟨v0, hv0⟩ := hin k hmem
            have h3 := hk3 k
            rw [hk2 k, if_pos hmem, hv0] at h3
            cases hv : obj3.hev k with
            | none => simp [hv] at h3
            | some v =>
              rw [hv] at h3
              simp only [Option.map_some', Option.some.injEq] at h3
              exact ⟨v, rfl, h3⟩
          refine ⟨key, ?_, ?_⟩
          · apply List.map_congr_left
            intro k hk
            obtain ⟨hk1, hk2'⟩ := (mem_vertexRange _ k).mp hk
            obtain ⟨v, hv, hi⟩ := key k hk1 hk2'
            rw [hv, Option.map_some', hi]
          · intro h0 k hk v hv
            by_cases hk0 : k = 0
            · subst hk0
              rw [h0] at hv
              cases hv
            · obtain ⟨v', hv', hi⟩ := key k (by omega) hk
              rw [Option.mem_def] at hv
              rw [hv, Option.some.injEq] at hv'
              rw [hv']
              exact hi

theorem parseObjFile_indexed_witness :
    ∃ obj', parseObjFile ratSqrt stofDigit stoiDigit tetraBuild tetraLines emptyObject = .ok obj' ∧
      obj'.hevs.length = 5 ∧
      (∀ k, 1 ≤ k → k < obj'.hevs.length → ∃ v, obj'.hev k = some v ∧ v.index = (k : Int)) ∧
      (vertexRange obj').map (fun k => (obj'.hev k).map fun v => v.index) =
        (vertexRange obj').map (fun k : Nat => some (k : Int)) ∧
      (obj'.hev 0 = none → obj'.Indexed) := by
  have hok : (match parseObjFile ratSqrt stofDigit stoiDigit tetraBuild tetraLines
      emptyObject with
    | .ok _ => true
    | .error _ => false) = true := by decide!
  cases h : parseObjFile ratSqrt stofDigit stoiDigit tetraBuild tetraLines emptyObject with
  | error e =>
    rw [h] at hok
    cases hok
  | ok obj' =>
    have hlen : (match parseObjFile ratSqrt stofDigit stoiDigit tetraBuild tetraLines
        emptyObject with
      | .ok o => o.hevs.length
      | .error _ => 0) = 5 := by decide!
    rw [h] at hlen
    exact ⟨obj', rfl, hlen,
      parseObjFile_indexed ratSqrt stofDigit stoiDigit tetraBuild tetraLines emptyObject obj' h⟩

/-- C20: scenario S2.  For the tetrahedron `(1,1,1)`, `(-1,-1,1)`, `(-1,1,-1)`,
`(1,-1,-1)` with time step `1/10`, a square root that is exact at `48` (the
squared doubled area of every face) and an exact solver, one smoothing
generation returns and moves every vertex `v` to `c * v` with the same
`c = 45/46` for all four, `0 < c < 1`; the centroid of the new positions is
`(0,0,0)`. -/
theorem tetrahedron_scenario (sqrt : R → R) (solver : SparseLU R)
    (hs : sqrt 48 * sqrt 48 = 48)
    (hexact : ∀ opF, build_F_operator sqrt (1 / 10) (s2Tetra : Object R) = some opF →
      ∀ b : List R, b.length = opF.rows →
        ∃ x', solver.solve opF b = some x' ∧ opF.IsSolution x' b) :
    ∃ obj', computeSmoothing sqrt solver (1 / 10) (s2Tetra : Object R) = some obj' ∧
      (∀ i, 1 ≤ i → i < 5 → ∃ v v', (s2Tetra : Object R).hev i = some v ∧
        obj'.hev i = some v' ∧ v'.pos = Vector3f.smul (45 / 46) v.pos) ∧
      ((0 : R) < 45 / 46 ∧ (45 / 46 : R) < 1) ∧
      (obj'.coords fun v => v.x).sum / 4 = 0 ∧ (obj'.coords fun v => v.y).sum / 4 = 0 ∧
      (obj'.coords fun v => v.z).sum / 4 = 0 := by
  obtain ⟨opF, hF, hrows, hcols, htab⟩ := s2_F hs
  obtain ⟨obj', x', y', z', hrun, hx, hy, hz, -, -, -, -, -, hl, hk⟩ :=
    smoothing_run sqrt solver (1 / 10) _ opF hF (fun b hb => by
      obtain ⟨w, hw, hsol⟩ := hexact opF hF b hb
      exact ⟨w, hw, hsol.1⟩)
  have hcx : ((s2Tetra : Object R).coords fun v => v.x) = [1, -1, -1, 1] := rfl
  have hcy : ((s2Tetra : Object R).coords fun v => v.y) = [1, -1, 1, -1] := rfl
  have hcz : ((s2Tetra : Object R).coords fun v => v.z) = [1, 1, -1, -1] := rfl
  rw [hcx] at hx
  rw [hcy] at hy
  rw [hcz] at hz
  obtain ⟨wx, hwx, hsx⟩ := hexact opF hF [1, -1, -1, 1] (by rw [hrows]; rfl)
  obtain ⟨wy, hwy, hsy⟩ := hexact opF hF [1, -1, 1, -1] (by rw [hrows]; rfl)
  obtain ⟨wz, hwz, hsz⟩ := hexact opF hF [1, 1, -1, -1] (by rw [hrows]; rfl)
  rw [hx, Option.some.injEq] at hwx
  rw [hy, Option.some.injEq] at hwy
  rw [hz, Option.some.injEq] at hwz
  subst hwx hwy hwz
  have ex := s2_solution hrows hcols htab 1 (-1) (-1) 1 x' (by norm_num) hsx
  have ey := s2_solution hrows hcols htab 1 (-1) 1 (-1) y' (by norm_num) hsy
  have ez := s2_solution hrows hcols htab 1 1 (-1) (-1) z' (by norm_num) hsz
  subst ex ey ez
  have hl5 : obj'.hevs.length = 5 := hl
  have hafter : ∀ i, 1 ≤ i → i < 5 → ∃ v v', (s2Tetra : Object R).hev i = some v ∧
      obj'.hev i = some v' ∧ v'.pos = Vector3f.smul (45 / 46) v.pos ∧
      v'.x = 45 / 46 * v.x ∧ v'.y = 45 / 46 * v.y ∧ v'.z = 45 / 46 * v.z := by
    intro i h1 h2
    have hki := hk i
    rw [if_pos ⟨h1, h2⟩] at hki
    interval_cases i
    · exact ⟨⟨1, 1, 1, 0, 1, ⟨0, 0, 0⟩⟩, _, rfl, hki, rfl, rfl, rfl, rfl⟩
    · exact ⟨⟨-1, -1, 1, 2, 2, ⟨0, 0, 0⟩⟩, _, rfl, hki, rfl, rfl, rfl, rfl⟩
    · exact ⟨⟨-1, 1, -1, 1, 3, ⟨0, 0, 0⟩⟩, _, rfl, hki, rfl, rfl, rfl, rfl⟩
    · exact ⟨⟨1, -1, -1, 5, 4, ⟨0, 0, 0⟩⟩, _, rfl, hki, rfl, rfl, rfl, rfl⟩
  have hcoords : ∀ c : HEV R → R, obj'.coords c =
      [((obj'.hev 1).map c).getD 0, ((obj'.hev 2).map c).getD 0, ((obj'.hev 3).map c).getD 0,
        ((obj'.hev 4).map c).getD 0] := by
    intro c
    unfold Object.coords vertexRange
    rw [hl5]
    rfl
  obtain ⟨v1, w1, a1, b1, -, c1⟩ := hafter 1 (by omega) (by omega)
  obtain ⟨v2, w2, a2, b2, -, c2⟩ := hafter 2 (by omega) (by omega)
  obtain ⟨v3, w3, a3, b3, -, c3⟩ := hafter 3 (by omega) (by omega)
  obtain ⟨v4, w4, a4, b4, -, c4⟩ := hafter 4 (by omega) (by omega)
  have d1 : v1 = ⟨1, 1, 1, 0, 1, ⟨0, 0, 0⟩⟩ := (Option.some.inj a1).symm
  have d2 : v2 = ⟨-1, -1, 1, 2, 2, ⟨0, 0, 0⟩⟩ := (Option.some.inj a2).symm
  have d3 : v3 = ⟨-1, 1, -1, 1, 3, ⟨0, 0, 0⟩⟩ := (Option.some.inj a3).symm
  have d4 : v4 = ⟨1, -1, -1, 5, 4, ⟨0, 0, 0⟩⟩ := (Option.some.inj a4).symm
  subst d1 d2 d3 d4
  refine ⟨obj', hrun, fun i h1 h2 => ?_, ⟨by norm_num, by norm_num⟩, ?_, ?_, ?_⟩
  · obtain ⟨v, v', a, b, c, -⟩ := hafter i h1 h2
    exact ⟨v, v', a, b, c⟩
  · rw [hcoords, b1, b2, b3, b4]
    simp only [Option.map_some', Option.getD_some, List.sum_cons, List.sum_nil, c1.1, c2.1, c3.1,
      c4.1]
    norm_num
  · rw [hcoords, b1, b2, b3, b4]
    simp only [Option.map_some', Option.getD_some, List.sum_cons, List.sum_nil, c1.2.1, c2.2.1,
      c3.2.1, c4.2.1]
    norm_num
  · rw [hcoords, b1, b2, b3, b4]
    simp only [Option.map_some', Option.getD_some, List.sum_cons, List.sum_nil, c1.2.2, c2.2.2,
      c3.2.2, c4.2.2]
    norm_num

theorem tetrahedron_scenario_witness :
    ∃ obj', computeSmoothing Real.sqrt s2Solver (1 / 10) (s2Tetra : Object ℝ) = some obj' ∧
      (∀ i, 1 ≤ i → i < 5 → ∃ v v', (s2Tetra : Object ℝ).hev i = some v ∧
        obj'.hev i = some v' ∧ v'.pos = Vector3f.smul (45 / 46) v.pos) ∧
      ((0 : ℝ) < 45 / 46 ∧ (45 / 46 : ℝ) < 1) ∧
      (obj'.coords fun v => v.x).sum / 4 = 0 ∧ (obj'.coords fun v => v.y).sum / 4 = 0 ∧
      (obj'.coords fun v => v.z).sum / 4 = 0 :=
  tetrahedron_scenario Real.sqrt s2Solver (Real.mul_self_sqrt (by norm_num))
    (fun opF hF b hb => by
      obtain ⟨opF', hF', hrows, hcols, htab⟩ :=
        s2_F (Real.mul_self_sqrt (by norm_num : (0 : ℝ) ≤ 48))
      obtain rfl := Option.some.inj (hF'.symm.trans hF)
      exact s2Solver_exact hrows hcols htab b hb)

/-- C21, as amended: scenario S3.  For the cube with corners `(±1, ±1, ±1)` cut
into the twelve triangles of `cubeObject`, with time step `1/2` and an exact
solver, one smoothing generation returns and moves every vertex `v` to `c v`,
with `c = 97/109` for the four vertices `1`, `4`, `5`, `8` that four triangles
touch and `c = 99/109` for the four vertices `2`, `3`, `6`, `7` that five
triangles touch: the squared distances from the origin are `3 (97/109)²` and
`3 (99/109)²`, all below `3` but not one common value, and the sum of the eight
new positions, hence their centroid, is the origin. -/
theorem cube_scenario (solver : SparseLU ℚ)
    (hexact : ∀ opF, build_F_operator ratSqrt (1 / 2) cube = some opF →
      ∀ b : List ℚ, b.length = opF.rows →
        ∃ x', solver.solve opF b = some x' ∧ opF.IsSolution x' b) :
    ∃ obj', computeSmoothing ratSqrt solver (1 / 2) cube = some obj' ∧
      [1, 2, 3, 4, 5, 6, 7, 8].map (fun i => (obj'.hev i).map HEV.pos) =
        [some ⟨-97 / 109, -97 / 109, 97 / 109⟩, some ⟨99 / 109, -99 / 109, 99 / 109⟩,
          some ⟨-99 / 109, 99 / 109, 99 / 109⟩, some ⟨97 / 109, 97 / 109, 97 / 109⟩,
          some ⟨-97 / 109, 97 / 109, -97 / 109⟩, some ⟨99 / 109, 99 / 109, -99 / 109⟩,
          some ⟨-99 / 109, -99 / 109, -99 / 109⟩, some ⟨97 / 109, -97 / 109, -97 / 109⟩] ∧
      [1, 2, 3, 4, 5, 6, 7, 8].map (fun i => (obj'.hev i).map fun v => v.pos.squaredNorm) =
        [some (3 * (97 / 109) ^ 2), some (3 * (99 / 109) ^ 2), some (3 * (99 / 109) ^ 2),
          some (3 * (97 / 109) ^ 2), some (3 * (97 / 109) ^ 2), some (3 * (99 / 109) ^ 2),
          some (3 * (99 / 109) ^ 2), some (3 * (97 / 109) ^ 2)] ∧
      (∀ i, 1 ≤ i → i < 9 → ∃ v', obj'.hev i = some v' ∧ v'.pos.squaredNorm < 3) ∧
      (obj'.coords fun v => v.x).sum = 0 ∧ (obj'.coords fun v => v.y).sum = 0 ∧
      (obj'.coords fun v => v.z).sum = 0 := by
  have hans : solver.Answers cubeF := by
    intro b hb
    obtain ⟨x', hx', hsol⟩ := hexact cubeF cubeF_built b hb
    exact ⟨x', hx', hsol.1⟩
  obtain ⟨obj', x', y', z', hrun, hx', hy', hz', -, -, -, -, -, hlen, hhev⟩ :=
    smoothing_run ratSqrt solver (1 / 2) cube cubeF cubeF_built hans
  have huniq : ∀ (c : HEV ℚ → ℚ) (w : List ℚ), solver.solve cubeF (cube.coords c) = some w →
      w = denseMulVec cubeInverse (cube.coords c) := by
    intro c w hw
    obtain ⟨w', hw', hs⟩ := hexact cubeF cubeF_built (cube.coords c) (coords_length cube c)
    rw [hw, Option.some.injEq] at hw'
    rw [hw']
    exact cubeF_solution_unique hs
  rw [huniq _ x' hx', huniq _ y' hy', huniq _ z' hz'] at hhev
  have hl : obj'.hevs.length = 9 := hlen
  refine ⟨obj', hrun, ?_, ?_, ?_, ?_, ?_, ?_⟩
  · simp only [List.map_cons, List.map_nil, hhev]
    decide!
  · simp only [List.map_cons, List.map_nil, hhev]
    decide!
  · intro i h1 h2
    rw [hhev]
    interval_cases i <;> exact ⟨_, rfl, by decide!⟩
  · unfold Object.coords vertexRange
    rw [hl]
    simp only [hhev]
    decide!
  · unfold Object.coords vertexRange
    rw [hl]
    simp only [hhev]
    decide!
  · unfold Object.coords vertexRange
    rw [hl]
    simp only [hhev]
    decide!

theorem cube_scenario_witness :
    ∃ obj', computeSmoothing ratSqrt cubeSolver (1 / 2) cube = some obj' ∧
      (obj'.hev 1).map HEV.pos = some ⟨-97 / 109, -97 / 109, 97 / 109⟩ ∧
      (obj'.hev 2).map HEV.pos = some ⟨99 / 109, -99 / 109, 99 / 109⟩ ∧
      (∀ i, 1 ≤ i → i < 9 → ∃ v', obj'.hev i = some v' ∧ v'.pos.squaredNorm < 3) ∧
      (obj'.coords fun v => v.x).sum = 0 ∧ (obj'.coords fun v => v.y).sum = 0 ∧
      (obj'.coords fun v => v.z).sum = 0 := by
  obtain ⟨obj', hrun, hpos, -, hlt, hx, hy, hz⟩ := cube_scenario cubeSolver (fun opF hF b hb => by
    obtain rfl := Option.some.inj (cubeF_built.symm.trans hF)
    exact cubeSolver_exact b hb)
  simp only [List.map_cons, List.map_nil, List.cons.injEq, and_true] at hpos
  exact ⟨obj', hrun, hpos.1, hpos.2.1, hlt, hx, hy, hz⟩

/-- C21, the claim as stated fails: `cube` is a closed mesh with the half-edge
invariants; with time step `1/2` the solver `cubeSolver` returns the solutions
of `F x' = x`, `F y' = y`, `F z' = z`, and after one smoothing generation vertex
`1` lies at squared distance `28227/11881` from the origin and vertex `2` at
`29403/11881`: the eight vertices are not at one common distance. -/
theorem cube_distance_counterexample :
    cube.HalfEdgeInvariants ∧ cube.Indexed ∧ cube.RingsClosed ratSqrt ∧
    build_F_operator ratSqrt (1 / 2) cube = some cubeF ∧
    cubeF.IsSolution (denseMulVec cubeInverse (cube.coords fun v => v.x))
      (cube.coords fun v => v.x) ∧
    cubeF.IsSolution (denseMulVec cubeInverse (cube.coords fun v => v.y))
      (cube.coords fun v => v.y) ∧
    cubeF.IsSolution (denseMulVec cubeInverse (cube.coords fun v => v.z))
      (cube.coords fun v => v.z) ∧
    (computeSmoothing ratSqrt cubeSolver (1 / 2) cube).map
        (fun o => ((o.hev 1).map fun v => v.pos.squaredNorm,
          (o.hev 2).map fun v => v.pos.squaredNorm)) =
      some (some (28227 / 11881), some (29403 / 11881)) ∧
    (28227 / 11881 : ℚ) ≠ 29403 / 11881 := by
  decide!

/-- C22, as amended: scenario S5.  On `pinchedCube`, the triangulated cube in
which vertex `4` coincides with vertex `1` (the square `1, 2, 4, 3` degenerate to
a line), with a square root that is exact at `0`, `16` and `32`:
`build_F_operator` assembles `Δ` and `F`; the incident areas of the two
coincident vertices are `4` and `sqrt 32`, not below epsilon, so their rows of
`Δ` are not zeroed: like the row of any other vertex they hold the weights
divided by `2 A_i`, with `Δ[1,7] = 1/4`; and `F[1,7] = -h/4`, so for `h ≠ 0` the
row of `F` of vertex `1` is not the identity row.  One smoothing generation,
with any solver that answers, returns and overwrites the positions of the
vertices `1` and `4`, like those of every other vertex, with the components `1`
and `4` of the three answers of the solver for `F` and the old coordinates. -/
theorem coincident_vertices_not_degenerate (sqrt : R → R) (time_step_h : R)
    (hs0 : sqrt 0 = 0) (hs16 : sqrt 16 = 4) (hs32 : sqrt 32 * sqrt 32 = 32)
    (hnn : 0 ≤ sqrt 32) (hh : time_step_h ≠ 0) :
    ((pinchedCube : Object R).hev 1).map HEV.pos = ((pinchedCube : Object R).hev 4).map HEV.pos ∧
    vertexArea sqrt (pinchedCube : Object R) 1 = 4 ∧
    vertexArea sqrt (pinchedCube : Object R) 4 = sqrt 32 ∧
    ∃ op opF, build_op_matrix sqrt (pinchedCube : Object R) = some op ∧
      build_F_operator sqrt time_step_h (pinchedCube : Object R) = some opF ∧
      close_to_zero (vertexArea sqrt (pinchedCube : Object R) 1) = false ∧
      close_to_zero (vertexArea sqrt (pinchedCube : Object R) 4) = false ∧
      (∀ e ∈ ringOf sqrt (pinchedCube : Object R) 1,
        op.coeff 0 e.col = fdivBy e.total_cot (2 * 4)) ∧
      (∀ e ∈ ringOf sqrt (pinchedCube : Object R) 4,
        op.coeff 3 e.col = fdivBy e.total_cot (2 * sqrt 32)) ∧
      op.coeff 0 6 = some (1 / 4) ∧ opF.coeff 0 6 = some (-time_step_h / 4) ∧
      opF.coeff 0 6 ≠ some 0 ∧
      ∀ solver : SparseLU R, solver.Answers opF →
        ∃ obj' x' y' z',
          computeSmoothing sqrt solver time_step_h (pinchedCube : Object R) = some obj' ∧
          solver.solve opF ((pinchedCube : Object R).coords fun v => v.x) = some x' ∧
          solver.solve opF ((pinchedCube : Object R).coords fun v => v.y) = some y' ∧
          solver.solve opF ((pinchedCube : Object R).coords fun v => v.z) = some z' ∧
          (obj'.hev 1).map HEV.pos = some ⟨x'.getD 0 0, y'.getD 0 0, z'.getD 0 0⟩ ∧
          (obj'.hev 4).map HEV.pos = some ⟨x'.getD 3 0, y'.getD 3 0, z'.getD 3 0⟩ := by
  obtain ⟨op, opF, hop, hF, hA1, hA4, h1, h4, hc, hcF⟩ :=
    pinchedCube_rows time_step_h hs0 hs16 hs32 hnn
  refine ⟨rfl, pinchedCube_area1 hs0 hs16, pinchedCube_area4 hs0, op, opF, hop, hF, hA1, hA4,
    h1, h4, hc, hcF, ?_, ?_⟩
  · rw [hcF]
    intro h0
    rw [Option.some.injEq] at h0
    apply hh
    have : -time_step_h = 0 := by
      have h4ne : (4 : R) ≠ 0 := by norm_num
      exact (div_eq_zero_iff.mp h0).resolve_right h4ne
    exact neg_eq_zero.mp this
  · intro solver hans
    obtain ⟨obj', x', y', z', hrun, hx, hy, hz, -, -, -, -, -, -, hk⟩ :=
      smoothing_run sqrt solver time_step_h _ opF hF hans
    refine ⟨obj', x', y', z', hrun, hx, hy, hz, ?_, ?_⟩
    · rw [hk 1, if_pos ⟨le_refl 1, show 1 < 9 by omega⟩]
      rfl
    · rw [hk 4, if_pos ⟨show 1 ≤ 4 by omega, show 4 < 9 by omega⟩]
      rfl

theorem coincident_vertices_not_degenerate_witness :
    vertexArea Real.sqrt (pinchedCube : Object ℝ) 1 = 4 ∧
    vertexArea Real.sqrt (pinchedCube : Object ℝ) 4 = Real.sqrt 32 ∧
    ∃ op opF, build_op_matrix Real.sqrt (pinchedCube : Object ℝ) = some op ∧
      build_F_operator Real.sqrt (1 / 2) (pinchedCube : Object ℝ) = some opF ∧
      close_to_zero (vertexArea Real.sqrt (pinchedCube : Object ℝ) 1) = false ∧
      close_to_zero (vertexArea Real.sqrt (pinchedCube : Object ℝ) 4) = false ∧
      op.coeff 0 6 = some (1 / 4) ∧ opF.coeff 0 6 ≠ some 0 ∧
      (∃ solver : SparseLU ℝ, solver.Answers opF) ∧
      ∀ solver : SparseLU ℝ, solver.Answers opF →
        ∃ obj' x' y' z',
          computeSmoothing Real.sqrt solver (1 / 2) (pinchedCube : Object ℝ) = some obj' ∧
          solver.solve opF ((pinchedCube : Object ℝ).coords fun v => v.x) = some x' ∧
          solver.solve opF ((pinchedCube : Object ℝ).coords fun v => v.y) = some y' ∧
          solver.solve opF ((pinchedCube : Object ℝ).coords fun v => v.z) = some z' ∧
          (obj'.hev 1).map HEV.pos = some ⟨x'.getD 0 0, y'.getD 0 0, z'.getD 0 0⟩ ∧
          (obj'.hev 4).map HEV.pos = some ⟨x'.getD 3 0, y'.getD 3 0, z'.getD 3 0⟩ := by
  obtain ⟨-, ha1, ha4, op, opF, hop, hF, hA1, hA4, -, -, hc, -, hne, hrun⟩ :=
    coincident_vertices_not_degenerate Real.sqrt (1 / 2) Real.sqrt_zero real_sqrt_sixteen
      (Real.mul_self_sqrt (by norm_num)) (Real.sqrt_nonneg 32) (by norm_num)
  exact ⟨ha1, ha4, op, opF, hop, hF, hA1, hA4, hc, hne,
    ⟨⟨fun _ => false, fun m _ => some (List.replicate m.cols 0)⟩,
      fun _ _ => ⟨_, rfl, List.length_replicate _ _⟩⟩, hrun⟩

/-- C22, the claim as stated fails: on `pinchedCube` over the reals, which has
the half-edge invariants, vertices `1` and `4` are at the same place, and the
row of `Δ` of vertex `1` is not zeroed, `Δ[1,7] = 1/4`; with time step `1/2` the
row of `F` of vertex `1` is not the identity row, `F[1,7] = -1/8`: nothing holds
vertex `1` where it was. -/
theorem coincident_rows_counterexample :
    (pinchedCube : Object ℝ).HalfEdgeInvariants ∧ (pinchedCube : Object ℝ).Indexed ∧
    ((pinchedCube : Object ℝ).hev 1).map HEV.pos = ((pinchedCube : Object ℝ).hev 4).map HEV.pos ∧
    (build_op_matrix Real.sqrt (pinchedCube : Object ℝ)).map (fun op => op.coeff 0 6) =
      some (some (1 / 4)) ∧
    (build_F_operator Real.sqrt (1 / 2) (pinchedCube : Object ℝ)).map
      (fun opF => opF.coeff 0 6) = some (some (-1 / 8)) := by
  obtain ⟨op, opF, hop, hF, -, -, -, -, hc, hcF⟩ :=
    pinchedCube_rows (1 / 2 : ℝ) Real.sqrt_zero real_sqrt_sixteen
      (Real.mul_self_sqrt (by norm_num)) (Real.sqrt_nonneg 32)
  obtain ⟨hinv, hidx, -⟩ := cubeObject_invariants (⟨-1, -1, 1⟩ : Vertex ℝ) ⟨1, -1, 1⟩ ⟨-1, 1, 1⟩
    ⟨-1, -1, 1⟩ ⟨-1, 1, -1⟩ ⟨1, 1, -1⟩ ⟨-1, -1, -1⟩ ⟨1, -1, -1⟩
  refine ⟨hinv, hidx, rfl, ?_, ?_⟩
  · rw [hop, Option.map_some', hc]
  · rw [hF, Option.map_some', hcF]
    norm_num

/-- C23, as amended: when every line of the file matches the grammar as the
parser applies it (a directive and three fields, floats after `v`, integers
after anything else), the loop of `parseObjFile` over the lines returns a mesh
whose vertices are the `NULL` of slot `0` followed by the vertices of the lines
that begin with `v` and a space, in file order (the `k`-th such line is vertex
`k`), and whose faces are the faces of all the other lines, in file order, each
with its three integers in the order of the line; that is the mesh of the object
`parseObjFile` returns.  A line with another directive than `v` is read as a
face, like a line that begins with `f`. -/
theorem parseObjFile_reads_lines (sqrt : R → R) (stof : String → Option R)
    (stoi : String → Option Int)
    (build_HE : Mesh_Data R → Option (List (Option (HEV R)) × List (Option HEF) × List HE))
    (lines : List String) (obj : Object R)
    (hwf : ∀ l ∈ lines, WellFormedLine stof stoi l) :
    ∃ mesh, parseLines stof stoi lines ⟨[none], []⟩ = .ok mesh ∧
      mesh.vertices = none :: (lines.filter (beginsWith 'v')).map (lineVertex stof) ∧
      (∀ l ∈ lines.filter (beginsWith 'v'), (lineVertex stof l).isSome = true) ∧
      mesh.faces.map some = (lines.filter fun l => !beginsWith 'v' l).map (lineFace stoi) ∧
      (∀ l ∈ lines, beginsWith 'f' l = true → l ∈ lines.filter fun l => !beginsWith 'v' l) ∧
      ∀ obj', parseObjFile sqrt stof stoi build_HE lines obj = .ok obj' → obj'.mesh = mesh := by
  obtain ⟨mesh, hrun, hvs, hfs⟩ := parseLines_wellFormed stof stoi lines ⟨[none], []⟩ hwf
  have hfilter : lines.filter isVertexLine = lines.filter (beginsWith 'v') :=
    List.filter_congr (fun l hl => isVertexLine_eq_begins stof stoi l (hwf l hl))
  have hfilter' : (lines.filter fun l => !isVertexLine l) =
      lines.filter fun l => !beginsWith 'v' l :=
    List.filter_congr (fun l hl => by rw [isVertexLine_eq_begins stof stoi l (hwf l hl)])
  rw [hfilter] at hvs
  rw [hfilter'] at hfs
  refine ⟨mesh, hrun, by simpa using hvs, ?_, by simpa using hfs, ?_, ?_⟩
  · intro l hl
    obtain ⟨hmem, hb⟩ := List.mem_filter.mp hl
    have hv : isVertexLine l = true := by rw [isVertexLine_eq_begins stof stoi l (hwf l hmem), hb]
    obtain ⟨v, hlv, -⟩ := (parseLine_wellFormed stof stoi l [] ⟨[none], []⟩ (hwf l hmem)).1 hv
    rw [hlv]
    rfl
  · intro l hl hf
    apply List.mem_filter.mpr ⟨hl, ?_⟩
    have := not_isVertexLine_of_begins 'f' (by decide) (by decide) l hf
    rw [isVertexLine_eq_begins stof stoi l (hwf l hl)] at this
    simp [this]
  · intro obj' h
    have := parseObjFile_mesh h
    rw [hrun, Except.ok.injEq] at this
    exact this.symm

theorem parseObjFile_reads_lines_witness :
    ∃ mesh, parseLines stofDigit stoiDigit tetraLines ⟨[none], []⟩ = .ok mesh ∧
      mesh.vertices = [none, some ⟨0, 0, 0⟩, some ⟨1, 0, 0⟩, some ⟨0, 1, 0⟩, some ⟨0, 0, 2⟩] ∧
      mesh.faces = [⟨1, 3, 2⟩, ⟨1, 2, 4⟩, ⟨1, 4, 3⟩, ⟨2, 3, 4⟩] ∧
      ∀ obj', parseObjFile ratSqrt stofDigit stoiDigit tetraBuild tetraLines emptyObject =
        .ok obj' → obj'.mesh = mesh := by
  obtain ⟨mesh, hrun, hvs, -, hfs, -, hobj⟩ := parseObjFile_reads_lines ratSqrt stofDigit
    stoiDigit tetraBuild tetraLines emptyObject (by decide!)
  have hv : none :: (tetraLines.filter (beginsWith 'v')).map (lineVertex stofDigit) =
      [none, some ⟨0, 0, 0⟩, some ⟨1, 0, 0⟩, some ⟨0, 1, 0⟩, some ⟨0, 0, 2⟩] := by decide!
  have hf : (tetraLines.filter fun l => !beginsWith 'v' l).map (lineFace stoiDigit) =
      ([⟨1, 3, 2⟩, ⟨1, 2, 4⟩, ⟨1, 4, 3⟩, ⟨2, 3, 4⟩] : List Face).map some := by decide!
  rw [hv] at hvs
  rw [hf] at hfs
  exact ⟨mesh, hrun, hvs, List.map_injective_iff.mpr (Option.some_injective _) hfs, hobj⟩

/-- C23, the claim as stated fails: the line `vn 0 0 1` carries another directive
than `v` and `f`, and the loop of `parseObjFile` reads it as a face: after it the
mesh has the face `(0, 0, 1)`. -/
theorem other_directive_counterexample :
    beginsWith 'v' "vn 0 0 1" = false ∧ beginsWith 'f' "vn 0 0 1" = false ∧
    parseLines stofDigit stoiDigit ["vn 0 0 1"] ⟨[none], []⟩ = .ok ⟨[none], [⟨0, 0, 1⟩]⟩ := by
  decide!

/-- C25, as amended: for every command line, `main` ends with the usage error and
exit code `1` when the number of arguments after the program name is not four,
and, with four arguments whose three numbers `stoi`/`stof` convert, when
`xres <= 0`, `yres <= 0` or `h <= 0` (`h` a number that is not positive, or
`-inf`); when one of the three does not convert, the exception of `stoi`/`stof`
leaves `main` instead; and `main` goes past its argument checks exactly when
there are four arguments, the three numbers convert, `xres` and `yres` are
positive and the comparison `h <= 0` is false: `h` is a positive number, `inf`,
or `nan`. -/
theorem main_argument_checks (stoi : String → Option Int)
    (stof : String → Option (FloatValue R)) (argv : List String) :
    (argv.length ≠ 5 → main stoi stof argv = .exited 1) ∧
    (argv.length = 5 →
      ((argv[2]?).bind stoi = none ∨ (argv[3]?).bind stoi = none ∨
        (argv[4]?).bind stof = none) →
      main stoi stof argv = .thrown) ∧
    (∀ xres yres time_step_h, argv.length = 5 → (argv[2]?).bind stoi = some xres →
      (argv[3]?).bind stoi = some yres → (argv[4]?).bind stof = some time_step_h →
      (xres ≤ 0 ∨ yres ≤ 0 ∨ (∃ x, time_step_h = .finite x ∧ x ≤ 0) ∨
        time_step_h = .negInf) →
      main stoi stof argv = .exited 1) ∧
    (∀ xres yres time_step_h, main stoi stof argv = .proceeds xres yres time_step_h ↔
      argv.length = 5 ∧ (argv[2]?).bind stoi = some xres ∧
        (argv[3]?).bind stoi = some yres ∧ (argv[4]?).bind stof = some time_step_h ∧
        0 < xres ∧ 0 < yres ∧
        ((∃ x, time_step_h = .finite x ∧ 0 < x) ∨ time_step_h = .inf ∨
          time_step_h = .nan)) := by
  have hle : ∀ f : FloatValue R, f.leZero = true ↔
      ((∃ x, f = .finite x ∧ x ≤ 0) ∨ f = .negInf) := by
    intro f
    cases f <;> simp [FloatValue.leZero]
  have hgt : ∀ f : FloatValue R, ¬ f.leZero = true ↔
      ((∃ x, f = .finite x ∧ 0 < x) ∨ f = .inf ∨ f = .nan) := by
    intro f
    cases f <;> simp [FloatValue.leZero]
  unfold main usage
  by_cases hlen : argv.length = 5
  · cases hx : (argv[2]?).bind stoi with
    | none => simp [hlen]
    | some xres =>
      cases hy : (argv[3]?).bind stoi with
      | none => simp [hlen]
      | some yres =>
        cases hh : (argv[4]?).bind stof with
        | none => simp [hlen]
        | some time_step_h =>
          by_cases hpos : xres ≤ 0 ∨ yres ≤ 0 ∨ time_step_h.leZero = true
          · simp only [hlen, ne_eq, not_true_eq_false, if_false, if_pos hpos, forall_const,
              Option.some.injEq, reduceCtorEq, false_or, or_self, false_imp_iff, true_and,
              IsEmpty.forall_iff, implies_true, false_iff, not_and]
            intro a b c ha hb hc h1 h2 h3
            subst ha hb hc
            rcases hpos with h | h | h
            · exact absurd h1 (not_lt.mpr h)
            · exact absurd h2 (not_lt.mpr h)
            · exact (hgt _).mpr h3 h
          · have hpos' := hpos
            rw [not_or, not_or, not_le, not_le] at hpos'
            simp only [hlen, ne_eq, not_true_eq_false, if_false, if_neg hpos, forall_const,
              Option.some.injEq, reduceCtorEq, false_or, or_self, false_imp_iff, true_and,
              Startup.proceeds.injEq]
            refine ⟨fun a b c ha hb hc h => ?_, fun a b c => ?_⟩
            · subst ha hb hc
              apply hpos
              rcases h with h | h | h
              · exact Or.inl h
              · exact Or.inr (Or.inl h)
              · exact Or.inr (Or.inr ((hle _).mpr h))
            · constructor
              · rintro ⟨rfl, rfl, rfl⟩
                exact ⟨rfl, rfl, rfl, hpos'.1, hpos'.2.1, (hgt _).mp hpos'.2.2⟩
              · rintro ⟨rfl, rfl, rfl, -⟩
                exact ⟨rfl, rfl, rfl⟩
  · simp [hlen]

theorem main_argument_checks_witness :
    main stoiDigit stofArg ["smooth", "scene.txt", "8", "6", "1"] =
      .proceeds 8 6 (.finite 1) ∧
    main stoiDigit stofArg ["smooth", "scene.txt", "8", "6"] = .exited 1 ∧
    main stoiDigit stofArg ["smooth", "scene.txt", "8", "0", "1"] = .exited 1 ∧
    main stoiDigit stofArg ["smooth", "scene.txt", "8", "6", "0"] = .exited 1 := by
  have h5 := main_argument_checks stoiDigit stofArg ["smooth", "scene.txt", "8", "6", "1"]
  have h4 := main_argument_checks stoiDigit stofArg ["smooth", "scene.txt", "8", "6"]
  have h0 := main_argument_checks stoiDigit stofArg ["smooth", "scene.txt", "8", "0", "1"]
  have hz := main_argument_checks stoiDigit stofArg ["smooth", "scene.txt", "8", "6", "0"]
  exact ⟨(h5.2.2.2 8 6 (.finite 1)).mpr
      ⟨by decide, by decide!, by decide!, by decide!, by decide, by decide,
        Or.inl ⟨1, rfl, by norm_num⟩⟩,
    h4.1 (by decide),
    h0.2.2.1 8 0 (.finite 1) (by decide) (by decide!) (by decide!) (by decide!)
      (Or.inr (Or.inl (by decide))),
    hz.2.2.1 8 6 (.finite 0) (by decide) (by decide!) (by decide!) (by decide!)
      (Or.inr (Or.inr (Or.inl ⟨0, rfl, le_refl _⟩)))⟩

/-- C25, the claim as stated fails: on the command line
`smooth scene.txt x 6 1` the argument `xres` is not a positive integer, and
`main` does not end with the usage error and exit code `1`: `stoi` throws and
the exception leaves `main`; on the command line `smooth scene.txt 8 6 nan` the
argument `h` converts to `nan`, which is not a positive float, and `main` goes
past its argument checks, since `nan <= 0` is false. -/
theorem not_a_number_counterexample :
    stoiDigit "x" = none ∧
    main stoiDigit stofArg ["smooth", "scene.txt", "x", "6", "1"] = .thrown ∧
    main stoiDigit stofArg ["smooth", "scene.txt", "x", "6", "1"] ≠ .exited 1 ∧
    stofArg "nan" = some .nan ∧
    main stoiDigit stofArg ["smooth", "scene.txt", "8", "6", "nan"] = .proceeds 8 6 .nan := by
  decide!

/-- C26: over every sequence of key presses and timer expiries that the event
loop hands to `key_pressed` and `smoothNextFrame`, from any globals:
`key_pressed` calls `smoothNextFrame(FRAME_RATE)` at most once, and never when
`started_smoothing` is already true; when the sequence returns, a flag
`started_smoothing` that was true is still true, and when at most one timer
callback was registered at the start, none while the flag was false, the same
holds at the end: there is never a second chain of timers.  A single key press
calls `smoothNextFrame` (one more timer, flag set) exactly when it is the
smoothing key and the flag is false; any other press leaves the flag, the
objects and the timers as they are. -/
theorem smoothing_only_switched_on (sqrt : R → R) (solver : SparseLU R) (time_step_h : R)
    (sin cos : R → R) (pi : R) (events : List Event) (g : Globals R) :
    initiations sqrt solver time_step_h sin cos pi events g ≤
      (if g.started_smoothing = true then 0 else 1) ∧
    (∀ g', run sqrt solver time_step_h sin cos pi events g = .ok g' →
      (g.started_smoothing = true → g'.started_smoothing = true) ∧
      (g.timers ≤ 1 → (g.started_smoothing = false → g.timers = 0) →
        g'.timers ≤ 1 ∧ (g'.started_smoothing = false → g'.timers = 0))) ∧
    (∀ key g', key_pressed sqrt solver time_step_h sin cos pi key g = .ok g' →
      if key = start_smoothing_key ∧ g.started_smoothing = false then
        g'.started_smoothing = true ∧ g'.timers = g.timers + 1 ∧
          g.smoothNextFrame sqrt solver time_step_h = some { g' with started_smoothing := false }
      else
        g'.started_smoothing = g.started_smoothing ∧ g'.timers = g.timers ∧
          g'.objects = g.objects) :=
  ⟨initiations_le sqrt solver time_step_h sin cos pi events g,
    fun g' h => run_invariant sqrt solver time_step_h sin cos pi events g g' h,
    fun _ _ h => key_pressed_calls h⟩

theorem smoothing_only_switched_on_witness :
    ∃ g', run ratSqrt tetraSolver 1 (fun _ => 0) (fun _ => 1) 3
        [.timer, .key ' ', .key 'w', .key ' ', .key 't'] (initialGlobals [tetra] ⟨0, 0, 5⟩) =
          .ok g' ∧
      g'.started_smoothing = true ∧ g'.timers = 1 ∧
      initiations ratSqrt tetraSolver 1 (fun _ => 0) (fun _ => 1) 3
        [.timer, .key ' ', .key 'w', .key ' ', .key 't'] (initialGlobals [tetra] ⟨0, 0, 5⟩) ≤ 1 := by
  have hrun : (match run ratSqrt tetraSolver 1 (fun _ => 0) (fun _ => 1) 3
      [.timer, .key ' ', .key 'w', .key ' ', .key 't'] (initialGlobals [tetra] ⟨0, 0, 5⟩) with
    | .ok g' => g'.started_smoothing && g'.timers == 1
    | .error _ => false) = true := by decide!
  cases h : run ratSqrt tetraSolver 1 (fun _ => 0) (fun _ => 1) 3
      [.timer, .key ' ', .key 'w', .key ' ', .key 't'] (initialGlobals [tetra] ⟨0, 0, 5⟩) with
  | error s =>
    rw [h] at hrun
    cases hrun
  | ok g' =>
    rw [h] at hrun
    simp only [Bool.and_eq_true, beq_iff_eq] at hrun
    exact ⟨g', rfl, hrun.1, hrun.2,
      (smoothing_only_switched_on ratSqrt tetraSolver 1 (fun _ => 0) (fun _ => 1) 3 _ _).1⟩

/-- C27: with a square root that is positive on positive numbers, for all points
`P` (`vAngle`), `Q` (`vB`), `S` (`vC`): `cotan` is the quotient of the dot
product `(Q - P) · (S - P)` by the norm of the cross product `(Q - P) × (S - P)`;
that denominator is twice the area of the triangle (and its square is
`|Q - P|² |S - P|² - ((Q - P) · (S - P))²`); when the points are not collinear
the denominator is strictly positive and the quotient is a number; and the value
is the same when `Q` and `S` are swapped. -/
theorem cotan_formula (sqrt : R → R) (vAngle vB vC : Vector3f R)
    (hsqrt : ∀ s : R, 0 < s → 0 < sqrt s) :
    cotan sqrt vAngle vB vC =
      fdiv ((vB.sub vAngle).dot (vC.sub vAngle))
        (((vB.sub vAngle).cross (vC.sub vAngle)).norm sqrt) ∧
    ((vB.sub vAngle).cross (vC.sub vAngle)).norm sqrt = 2 * triangleArea sqrt vAngle vB vC ∧
    ((vB.sub vAngle).cross (vC.sub vAngle)).squaredNorm =
      (vB.sub vAngle).squaredNorm * (vC.sub vAngle).squaredNorm -
        ((vB.sub vAngle).dot (vC.sub vAngle)) ^ 2 ∧
    (¬ Collinear vAngle vB vC →
      0 < ((vB.sub vAngle).cross (vC.sub vAngle)).norm sqrt ∧
      cotan sqrt vAngle vB vC =
        some (((vB.sub vAngle).dot (vC.sub vAngle)) /
          ((vB.sub vAngle).cross (vC.sub vAngle)).norm sqrt)) ∧
    cotan sqrt vAngle vB vC = cotan sqrt vAngle vC vB := by
  refine ⟨rfl, ?_, ?_, ?_, cotan_comm sqrt vAngle vB vC⟩
  · unfold triangleArea
    ring
  · simp only [Vector3f.cross, Vector3f.squaredNorm, Vector3f.dot]
    ring
  · intro hcol
    have hne : (vB.sub vAngle).cross (vC.sub vAngle) ≠ ⟨0, 0, 0⟩ := fun h0 =>
      hcol ((cross_eq_zero_iff_parallel _ _).mp h0)
    have hpos : 0 < ((vB.sub vAngle).cross (vC.sub vAngle)).norm sqrt :=
      hsqrt _ (squaredNorm_pos_of_ne_zero _ hne)
    refine ⟨hpos, ?_⟩
    unfold cotan fdiv
    exact if_neg (ne_of_gt hpos)

theorem cotan_formula_witness :
    (∀ s : ℝ, 0 < s → 0 < Real.sqrt s) ∧
    ¬ Collinear (⟨0, 0, 0⟩ : Vector3f ℝ) ⟨1, 0, 0⟩ ⟨1, 1, 0⟩ ∧
    0 < (((⟨1, 0, 0⟩ : Vector3f ℝ).sub ⟨0, 0, 0⟩).cross
      ((⟨1, 1, 0⟩ : Vector3f ℝ).sub ⟨0, 0, 0⟩)).norm Real.sqrt ∧
    cotan Real.sqrt (⟨0, 0, 0⟩ : Vector3f ℝ) ⟨1, 0, 0⟩ ⟨1, 1, 0⟩ =
      cotan Real.sqrt (⟨0, 0, 0⟩ : Vector3f ℝ) ⟨1, 1, 0⟩ ⟨1, 0, 0⟩ := by
  have hs : ∀ s : ℝ, 0 < s → 0 < Real.sqrt s := fun s hs => Real.sqrt_pos.mpr hs
  have hcol : ¬ Collinear (⟨0, 0, 0⟩ : Vector3f ℝ) ⟨1, 0, 0⟩ ⟨1, 1, 0⟩ := by
    rintro ⟨a, b, hab, h⟩
    simp only [Vector3f.smul, Vector3f.sub, Vector3f.mk.injEq, sub_zero, mul_one, mul_zero] at h
    obtain ⟨h1, h2, -⟩ := h
    rcases hab with ha | hb
    · exact ha (by rw [h1, ← h2])
    · exact hb h2.symm
  have h := cotan_formula Real.sqrt (⟨0, 0, 0⟩ : Vector3f ℝ) ⟨1, 0, 0⟩ ⟨1, 1, 0⟩ hs
  exact ⟨hs, hcol, (h.2.2.2.1 hcol).1, h.2.2.2.2⟩

/-- C28: on a mesh on which the assembly runs to the end, with a time step
`h > 0`, a square root that is never negative and every weight `cot α + cot β`
read in a ring a non-negative number, `build_F_operator` returns an `F` such
that: every solution `x'` of `F x' = x` lies, component by component, between
any lower and upper bound of the components of `x` (so between their minimum
and maximum); `F x' = 0` forces `x' = 0`; and with an exact solver one
smoothing generation returns and keeps every vertex in every box that held the
vertices before. -/
theorem maximum_principle (sqrt : R → R) (solver : SparseLU R) (time_step_h : R)
    (obj : Object R) (hok : obj.RingsOk sqrt) (hh : 0 < time_step_h)
    (hsqrt : ∀ s : R, 0 ≤ sqrt s) (hw : obj.NonNegWeights sqrt) :
    ∃ opF, build_F_operator sqrt time_step_h obj = some opF ∧
      (∀ (x x' : List R) (lo hi : R), opF.IsSolution x' x →
        (∀ i, i < x.length → lo ≤ x.getD i 0 ∧ x.getD i 0 ≤ hi) →
        ∀ k, k < x'.length → lo ≤ x'.getD k 0 ∧ x'.getD k 0 ≤ hi) ∧
      (∀ x' : List R, opF.IsSolution x' (List.replicate (obj.hevs.length - 1) 0) →
        x' = List.replicate (obj.hevs.length - 1) 0) ∧
      ((∀ b : List R, b.length = opF.rows →
          ∃ x', solver.solve opF b = some x' ∧ opF.IsSolution x' b) →
        ∃ obj', computeSmoothing sqrt solver time_step_h obj = some obj' ∧
          ∀ lo hi, obj.InBox lo hi → obj'.InBox lo hi) := by
  obtain ⟨op, hop⟩ := ringsOk_build hok
  have hF : build_F_operator sqrt time_step_h obj = some
      ((SparseMatrix.identity (obj.hevs.length - 1)).sub (SparseMatrix.scale time_step_h op)) := by
    rw [build_F_operator, hop, Option.map_some']
  obtain ⟨-, -, hrows, hcols, -⟩ := opF_entries sqrt time_step_h obj _ hF
  have hmax : ∀ (x x' : List R) (lo hi : R),
      ((SparseMatrix.identity (obj.hevs.length - 1)).sub
        (SparseMatrix.scale time_step_h op)).IsSolution x' x →
      (∀ i, i < x.length → lo ≤ x.getD i 0 ∧ x.getD i 0 ≤ hi) →
      ∀ k, k < x'.length → lo ≤ x'.getD k 0 ∧ x'.getD k 0 ≤ hi := by
    intro x x' lo hi hsol hx k hk
    have hx'l := hsol.1
    have hxl := hsol.2.1
    exact solution_bounds hF hh hsqrt hw hsol
      (fun i hi' => hx i (by rw [hxl, hrows]; exact hi')) (by rw [← hcols, ← hx'l]; exact hk)
  refine ⟨_, hF, hmax, ?_, smoothing_in_box hF hh hsqrt hw⟩
  intro x' hsol
  have hx'l : x'.length = obj.hevs.length - 1 := hsol.1.trans hcols
  apply List.ext_getElem (by rw [hx'l, List.length_replicate])
  intro k hk _
  have := hmax _ x' 0 0 hsol (fun i hi' => by
    rw [List.getD_eq_getElem _ _ hi', List.getElem_replicate]
    exact ⟨le_refl 0, le_refl 0⟩) k hk
  rw [List.getD_eq_getElem _ _ hk] at this
  rw [List.getElem_replicate]
  exact le_antisymm this.2 this.1

theorem maximum_principle_witness :
    tetraF.IsSolution [237 / 1198, 763 / 1198, 82 / 599, 63 / 1198] [0, 1, 0, 0] ∧
    (∀ k, k < 4 → (0 : ℚ) ≤ [(237 : ℚ) / 1198, 763 / 1198, 82 / 599, 63 / 1198].getD k 0 ∧
      [(237 : ℚ) / 1198, 763 / 1198, 82 / 599, 63 / 1198].getD k 0 ≤ 1) ∧
    ∃ obj', computeSmoothing ratSqrt tetraSolver 1 tetra = some obj' ∧
      obj'.InBox ⟨0, 0, 0⟩ ⟨1, 1, 2⟩ := by
  obtain ⟨opF, hF, hmax, -, hbox⟩ := maximum_principle ratSqrt tetraSolver 1 tetra (by decide!)
    (by norm_num) ratSqrt_nonneg (by decide!)
  obtain rfl := Option.some.inj (tetraF_built.symm.trans hF)
  have hsol : tetraF.IsSolution [237 / 1198, 763 / 1198, 82 / 599, 63 / 1198] [0, 1, 0, 0] := by
    decide!
  obtain ⟨obj', hrun, hin⟩ := hbox (fun b hb => tetraSolver_exact b hb)
  exact ⟨hsol, hmax _ _ 0 1 hsol (by decide!), obj', hrun, hin _ _ (by decide!)⟩

/-- C29: on a closed mesh with the half-edge invariants (indices equal to
positions, one-ring closure) on which the assembly runs to the end and no vertex
is degenerate, for every time step `build_F_operator` returns an `F` such that
for all `x`, `x'` with `F x' = x` the area-weighted sums agree:
`Σ_i A_i x'_i = Σ_i A_i x_i`, with `A_i` the incident area accumulated for
vertex `i` from the positions before the step. -/
theorem area_weighted_centroid_preserved (sqrt : R → R) (time_step_h : R) (obj : Object R)
    (hok : obj.RingsOk sqrt) (hinv : obj.HalfEdgeInvariants) (hidx : obj.Indexed)
    (hclosed : obj.RingsClosed sqrt) (hnd : obj.NonDegenerate sqrt) :
    ∃ opF, build_F_operator sqrt time_step_h obj = some opF ∧
      ∀ x x' : List R, opF.IsSolution x' x →
        ∑ r in Finset.range (obj.hevs.length - 1), vertexArea sqrt obj (r + 1) * x'.getD r 0 =
          ∑ r in Finset.range (obj.hevs.length - 1), vertexArea sqrt obj (r + 1) * x.getD r 0 := by
  obtain ⟨op, hop⟩ := ringsOk_build hok
  have hF : build_F_operator sqrt time_step_h obj = some
      ((SparseMatrix.identity (obj.hevs.length - 1)).sub (SparseMatrix.scale time_step_h op)) := by
    rw [build_F_operator, hop, Option.map_some']
  refine ⟨_, hF, fun x x' hsol => ?_⟩
  have hfin : obj.FiniteWeights sqrt := fun i h2 h1 =>
    ring_finite_of_solution hF hsol h1 h2 (hnd i h2 h1)
  exact weighted_sum_preserved hF hinv hidx hclosed hnd hfin hsol

theorem area_weighted_centroid_preserved_witness :
    tetraF.IsSolution [237 / 1198, 763 / 1198, 82 / 599, 63 / 1198] [0, 1, 0, 0] ∧
    ∑ r in Finset.range (tetra.hevs.length - 1), vertexArea ratSqrt tetra (r + 1) *
        [(237 : ℚ) / 1198, 763 / 1198, 82 / 599, 63 / 1198].getD r 0 =
      ∑ r in Finset.range (tetra.hevs.length - 1), vertexArea ratSqrt tetra (r + 1) *
        [(0 : ℚ), 1, 0, 0].getD r 0 := by
  obtain ⟨opF, hF, h⟩ := area_weighted_centroid_preserved ratSqrt 1 tetra (by decide!)
    (by decide!) (by decide!) (by decide!) (by decide!)
  obtain rfl := Option.some.inj (tetraF_built.symm.trans hF)
  have hsol : tetraF.IsSolution [237 / 1198, 763 / 1198, 82 / 599, 63 / 1198] [0, 1, 0, 0] := by
    decide!
  exact ⟨hsol, h _ _ hsol⟩

end Development

end Smooth
